import Mathlib

/-!
# PDF assembler: a shallow embedding of `src/src/pdfassembler.ts`

JavaScript strings are modelled as lists of UTF-16 code units (`List Nat`), byte arrays
(`Uint8Array`) as lists of naturals below 256, objects as ordered property lists, and
object identity as a position in a heap. A definition whose doc comment cites lines is a
transcription of those lines of `src/src/pdfassembler.ts`; the sections named after the
specification hold its reading of a rule and the invariants the proofs use.
-/

namespace PdfAssembler

/-! ## JavaScript strings -/

/-- The code units of a string literal whose characters all lie in the basic plane. -/
def jsStr (s : String) : List Nat := s.toList.map Char.toNat

/-- JavaScript `n.toString(16)`: the lowercase hexadecimal digits of `n`. -/
def toString16 (n : Nat) : List Nat := (Nat.toDigits 16 n).map Char.toNat

/-- JavaScript `s.slice(-k)`: the last `k` code units of `s` (all of `s` when it is shorter). -/
def sliceLast (k : Nat) (s : List Nat) : List Nat := s.drop (s.length - k)

/-- What the regular expression `/./` matches: any code unit except the line terminators
LF, CR, U+2028 and U+2029 (the expression carries no `s` flag). -/
def dotMatches (c : Nat) : Bool := !(c == 10 || c == 13 || c == 0x2028 || c == 0x2029)

/-- JavaScript `s.replace(/./g, f)`: every code unit matched by `.` is replaced by `f` of it,
every other code unit is kept. -/
def replaceDotAll (f : Nat → List Nat) (s : List Nat) : List Nat :=
  s.flatMap (fun c => if dotMatches c then f c else [c])

/-! ## Names (lines 441-445) -/

/-- The code units of the string literal `'\0\t\n\f\r #%()/<>[]{}'` of line 443:
NUL, TAB, LF, FF, CR, space, `#`, `%`, `(`, `)`, `/`, `<`, `>`, `[`, `]`, and the two braces. -/
def nameSpecials : List Nat :=
  [0, 9, 10, 12, 13, 32, 35, 37, 40, 41, 47, 60, 62, 91, 93, 123, 125]

/-- Line 443-444, `encodeChar`: a code unit outside `nameSpecials` is kept, one inside becomes
`#` followed by the last two characters of `'0' + code.toString(16)`. -/
def encodeChar (char : Nat) : List Nat :=
  if nameSpecials.indexOf char = nameSpecials.length then [char]
  else 35 :: sliceLast 2 (48 :: toString16 char)

/-- Line 445, the name branch of `newPdfObject`: `'/' + jsObject.slice(1).replace(/./g, encodeChar)`. -/
def encodeName (jsObject : List Nat) : List Nat :=
  47 :: replaceDotAll encodeChar (jsObject.drop 1)

/-! ## Strings (lines 398-419 and 446-454) -/

/-- Lines 398-419, `stringByteMap`: the escape of each byte, in the row layout of the source. -/
def stringByteMap : List (List Nat) := [
  [92, 48, 48, 48], [92, 48, 48, 49], [92, 48, 48, 50], [92, 48, 48, 51], [92, 48, 48, 52], [92, 48, 48, 53], [92, 48, 48, 54], [92, 48, 48, 55],
  [92, 98], [92, 116], [92, 110], [92, 48, 49, 51], [92, 102], [92, 114], [92, 48, 49, 54], [92, 48, 49, 55],
  [92, 48, 50, 48], [92, 48, 50, 49], [92, 48, 50, 50], [92, 48, 50, 51], [92, 48, 50, 52], [92, 48, 50, 53], [92, 48, 50, 54], [92, 48, 50, 55],
  [92, 48, 51, 48], [92, 48, 51, 49], [92, 48, 51, 50], [92, 48, 51, 51], [92, 48, 51, 52], [92, 48, 51, 53], [92, 48, 51, 54], [92, 48, 51, 55],
  [32], [33], [34], [35], [36], [37], [38], [39], [92, 40], [92, 41], [42], [43], [44], [45], [46], [47],
  [48], [49], [50], [51], [52], [53], [54], [55], [56], [57], [58], [59], [60], [61], [62], [63],
  [64], [65], [66], [67], [68], [69], [70], [71], [72], [73], [74], [75], [76], [77], [78], [79],
  [80], [81], [82], [83], [84], [85], [86], [87], [88], [89], [90], [91], [92, 92], [93], [94], [95],
  [96], [97], [98], [99], [100], [101], [102], [103], [104], [105], [106], [107], [108], [109], [110], [111],
  [112], [113], [114], [115], [116], [117], [118], [119], [120], [121], [122], [123], [124], [125], [126], [92, 49, 55, 55],
  [92, 50, 48, 48], [92, 50, 48, 49], [92, 50, 48, 50], [92, 50, 48, 51], [92, 50, 48, 52], [92, 50, 48, 53], [92, 50, 48, 54], [92, 50, 48, 55],
  [92, 50, 49, 48], [92, 50, 49, 49], [92, 50, 49, 50], [92, 50, 49, 51], [92, 50, 49, 52], [92, 50, 49, 53], [92, 50, 49, 54], [92, 50, 49, 55],
  [92, 50, 50, 48], [92, 50, 50, 49], [92, 50, 50, 50], [92, 50, 50, 51], [92, 50, 50, 52], [92, 50, 50, 53], [92, 50, 50, 54], [92, 50, 50, 55],
  [92, 50, 51, 48], [92, 50, 51, 49], [92, 50, 51, 50], [92, 50, 51, 51], [92, 50, 51, 52], [92, 50, 51, 53], [92, 50, 51, 54], [92, 50, 51, 55],
  [92, 50, 52, 48], [161], [162], [163], [164], [165], [166], [167], [168], [169], [170], [171], [172], [173], [174], [175],
  [176], [177], [178], [179], [180], [181], [182], [183], [184], [185], [186], [187], [188], [189], [190], [191],
  [192], [193], [194], [195], [196], [197], [198], [199], [200], [201], [202], [203], [204], [205], [206], [207],
  [208], [209], [210], [211], [212], [213], [214], [215], [216], [217], [218], [219], [220], [221], [222], [223],
  [224], [225], [226], [227], [228], [229], [230], [231], [232], [233], [234], [235], [236], [237], [238], [239],
  [240], [241], [242], [243], [244], [245], [246], [247], [248], [249], [250], [251], [252], [253], [254], [255]
]

/-- Line 448, `byteArray.map(byte => stringByteMap[byte]).join('')`; `join` renders an
`undefined` element (an index outside the table) as the empty string. -/
def stringEncode (byteArray : List Nat) : List Nat :=
  byteArray.flatMap (fun byte => stringByteMap.getD byte [])

/-- Line 452, `byteArray.map(byte => ('0' + byte.toString(16)).slice(-2)).join('')`. -/
def hexEncode (byteArray : List Nat) : List Nat :=
  byteArray.flatMap (fun byte => sliceLast 2 (48 :: toString16 byte))

/-- Lines 448-454, the string branch of `newPdfObject` on the bytes of the string:
the literal form `(...)` when it is shorter than two characters per byte, else the hex
form `<...>`. -/
def encodeString (byteArray : List Nat) : List Nat :=
  if (stringEncode byteArray).length < byteArray.length * 2 then
    40 :: stringEncode byteArray ++ [41]
  else
    60 :: hexEncode byteArray ++ [62]

/-- The `stringToBytes` conversion that `arraysToBytes` of pdf.js applies to a string:
`charCodeAt(i) & 0xFF` for each code unit. -/
def stringToBytes (s : List Nat) : List Nat := s.map (fun c => c % 256)

/-- Lines 439-457, `newPdfObject` on a value with `typeof jsObject === 'string'`, before the
separator of lines 537-543 is put in front: a name, a string, or the text unchanged. -/
def renderStringValue (jsObject : List Nat) : List Nat :=
  if jsObject.head? = some 47 then encodeName jsObject
  else if jsObject.head? = some 40 ∧ jsObject.getLast? = some 41 then
    encodeString (stringToBytes ((jsObject.drop 1).dropLast))
  else jsObject

/-! ## JavaScript values and objects -/

/-- A JavaScript value as the assembler reads it: the primitives, and a handle `ref id` for
an object or array, which is compared by identity. Numbers are the integers. -/
inductive Val where
  | undefined
  | null
  | bool (b : Bool)
  | num (n : Int)
  | str (s : List Nat)
  | ref (id : Nat)
  deriving DecidableEq, Repr

/-- JavaScript truthiness: `undefined`, `null`, `false`, `0` and `''` are falsy. -/
def truthy : Val → Bool
  | .undefined => false
  | .null => false
  | .bool b => b
  | .num n => n != 0
  | .str s => !s.isEmpty
  | .ref _ => true

/-- The own properties of an object, in insertion order; keys are unique. -/
abbrev Props := List (String × Val)

/-- Property read `o[key]`: `undefined` when there is no such entry. -/
def Props.get (o : Props) (key : String) : Val := (o.lookup key).getD Val.undefined

/-- Property write `o[key] = v`: an existing entry keeps its place, a new one goes last. -/
def Props.set : Props → String → Val → Props
  | [], key, v => [(key, v)]
  | (k, w) :: rest, key, v =>
    if k = key then (k, v) :: rest else (k, w) :: Props.set rest key v

/-- Property removal `delete o[key]`. -/
def Props.delete (o : Props) (key : String) : Props := o.filter (fun kv => kv.1 != key)

/-! ## Stream compression (lines 486-503) -/

/-- An object with a `stream` property: the other own properties, and the payload (a string
or a `Uint8Array`, either way one element per byte written). -/
structure StreamObject where
  props : Props
  stream : List Nat
  deriving DecidableEq, Repr

/-- Lines 487-503 for an object whose `stream` is defined: `compress` is `this.compress`,
`deflate` is the compressor of pako. -/
def compressStream (compress : Bool) (deflate : List Nat → List Nat)
    (jsObject : StreamObject) : StreamObject :=
  let jsObject :=
    if jsObject.stream.length ≠ 0 then
      if compress && !truthy (jsObject.props.get "/Filter") then
        let compressedStream := deflate (stringToBytes jsObject.stream)
        if compressedStream.length + 19 < jsObject.stream.length then
          { stream := compressedStream
            props := jsObject.props.set "/Filter" (Val.str (jsStr "/FlateDecode")) }
        else jsObject
      else jsObject
    else jsObject
  { jsObject with props := jsObject.props.set "/Length" (Val.num jsObject.stream.length) }

/-! ## The specification's reading of the name and string rules -/

/-- One lowercase hexadecimal digit, as a code unit. -/
def hexDigit (d : Nat) : Nat := if d < 10 then 48 + d else 87 + d

/-- The two lowercase hexadecimal digits of a byte. -/
def hexPair (b : Nat) : List Nat := [hexDigit (b / 16), hexDigit (b % 16)]

/-- The name rule in the specification's words: a character of the listed set becomes `#xx`,
every other character is emitted unchanged. -/
def escapeNameSpec (name : List Nat) : List Nat :=
  47 :: (name.drop 1).flatMap (fun c => if c ∈ nameSpecials then 35 :: hexPair c else [c])

/-- The string rule in the specification's words: the literal form unless the literal text is
at least twice as long as the hex text. -/
def encodeStringSpec (byteArray : List Nat) : List Nat :=
  if 2 * (hexEncode byteArray).length ≤ (stringEncode byteArray).length then
    60 :: hexEncode byteArray ++ [62]
  else
    40 :: stringEncode byteArray ++ [41]

/-- A printable ASCII byte other than `(`, `)` and the backslash. -/
def plainByte (b : Nat) : Prop := 32 ≤ b ∧ b ≤ 126 ∧ b ≠ 40 ∧ b ≠ 41 ∧ b ≠ 92

instance : DecidablePred plainByte := fun b => by unfold plainByte; exact inferInstance

/-- The compression rule as stated: the compressed form is adopted exactly when compression
is on, there is no `/Filter` entry, the payload is non-empty and the compressed length plus 19
is below the original length; `/Length` is the length of the payload written. -/
def compressClaim (compress : Bool) (deflate : List Nat → List Nat) (o : StreamObject) : Prop :=
  let adopt := compress = true ∧ o.props.lookup "/Filter" = none ∧ o.stream ≠ [] ∧
    (deflate (stringToBytes o.stream)).length + 19 < o.stream.length
  let written := compressStream compress deflate o
  (adopt → written.stream = deflate (stringToBytes o.stream) ∧
      written.props.lookup "/Filter" = some (Val.str (jsStr "/FlateDecode"))) ∧
  (¬ adopt → written.stream = o.stream ∧
      written.props.lookup "/Filter" = o.props.lookup "/Filter") ∧
  written.props.lookup "/Length" = some (Val.num (stringToBytes written.stream).length)

/-! ## Page trees (lines 301-369) -/

/-- A node of the page tree: `leaf` is an object whose `/Kids` is absent or falsy, `pages` an
object whose `/Kids` is an array. `props` are the other own properties; the `/Parent`
back-reference of a node is the node that holds it, so it is not stored. -/
inductive PageNode where
  | leaf (props : Props)
  | pages (props : Props) (kids : List PageNode)

/-- The own properties of a page-tree node. -/
def PageNode.props : PageNode → Props
  | .leaf props => props
  | .pages props _ => props

/-- Property write `page[key] = v` on a page-tree node. -/
def PageNode.setProp (page : PageNode) (key : String) (v : Val) : PageNode :=
  match page with
  | .leaf props => .leaf (props.set key v)
  | .pages props kids => .pages (props.set key v) kids

/-- Line 310: the attributes a page inherits from its ancestors. -/
def inheritable : List String := ["/Resources", "/MediaBox", "/CropBox", "/Rotate"]

/-- Lines 313-316 for one attribute: every page of `flatPageTree` whose own value is falsy
receives the value of `parent`, then the attribute is deleted from `parent`. -/
def inheritStep (st : List PageNode × Props) (attr : String) : List PageNode × Props :=
  (st.1.map (fun page =>
      if truthy (page.props.get attr) then page
      else page.setProp attr (st.2.get attr)),
   st.2.delete attr)

/-- Lines 310-317: the attributes that are truthy on `parent` are pushed down in turn. -/
def pushDown (flatPageTree : List PageNode) (parent : Props) : List PageNode × Props :=
  (inheritable.filter (fun attr => truthy (parent.get attr))).foldl inheritStep
    (flatPageTree, parent)

mutual
/-- Lines 306-309 for one element of `pageTree`: a page with `/Kids` contributes the result
of the recursive call on its kids (lines 305-322 with `parent = page`), any other page
contributes itself. -/
def flattenNode : PageNode → List PageNode
  | .leaf props => [.leaf props]
  | .pages props kids => (pushDown (flattenKids kids) props).1
/-- Lines 305-309: the concatenation over `pageTree`. -/
def flattenKids : List PageNode → List PageNode
  | [] => []
  | page :: rest => flattenNode page ++ flattenKids rest
end

/-- Lines 301-324 called with the defaults on the page-tree root `pdfTree['/Root']['/Pages']`:
the root receives `/Count` and the flat `/Kids`. A root without a `/Kids` array makes
`forEach` throw (`none`). -/
def flattenPageTree : PageNode → Option PageNode
  | .leaf _ => none
  | .pages props kids =>
    let r := pushDown (flattenKids kids) props
    some (.pages (r.2.set "/Count" (Val.num r.1.length)) r.1)

/-- Lines 333 and 340, `Object.assign(page, { 'num': 0, '/Parent': parent })`. -/
def assignPage (page : PageNode) : PageNode := page.setProp "num" (Val.num 0)

/-- Line 338, `pageTree.slice(branchSize * i, branchSize * (i + 1))`. -/
def branchSlice (pageTree : List PageNode) (branchSize i : Nat) : List PageNode :=
  (pageTree.drop (branchSize * i)).take (branchSize * (i + 1) - branchSize * i)

/-- Lines 342-346: the properties of a new `pagesObject`, in the order of the literal. -/
def pagesObjectProps (count : Nat) : Props :=
  [("num", Val.num 0), ("/Type", Val.str (jsStr "/Pages")), ("/Count", Val.num count)]

/-- Lines 337-348: the loop over the branch indices; `recurse` is the recursive call of
line 345. -/
def groupLoop (recurse : List PageNode → Option (List PageNode)) (pageTree : List PageNode)
    (branchSize : Nat) : List Nat → Option (List PageNode)
  | [] => some []
  | i :: rest =>
    match branchSlice pageTree branchSize i with
    | [] => groupLoop recurse pageTree branchSize rest
    | [page] => (groupLoop recurse pageTree branchSize rest).map (fun g => assignPage page :: g)
    | branchPages =>
      match recurse branchPages with
      | none => none
      | some kids =>
        (groupLoop recurse pageTree branchSize rest).map
          (fun g => PageNode.pages (pagesObjectProps branchPages.length) kids :: g)

/-- Lines 331-349 and 367: the grouped kids of `pageTree`. `fuel` bounds the depth of the
recursion (`none`: the recursion did not end within it). `Math.ceil(n / groupSize)` is the
rounded-up quotient; for `groupSize = 0` it is `Infinity`, the swap of line 336 makes
`branches = 0`, and the loop pushes nothing. -/
def groupKids : Nat → List PageNode → Nat → Option (List PageNode)
  | 0, _, _ => none
  | fuel + 1, pageTree, groupSize =>
    if pageTree.length ≤ groupSize then some (pageTree.map assignPage)
    else if groupSize = 0 then some []
    else
      let branchSize := groupSize
      let branches := (pageTree.length + branchSize - 1) / branchSize
      if pageTree.length > groupSize * groupSize then
        groupLoop (fun branchPages => groupKids fuel branchPages groupSize) pageTree branches
          (List.range branchSize)
      else
        groupLoop (fun branchPages => groupKids fuel branchPages groupSize) pageTree branchSize
          (List.range branches)

/-- Lines 326-369 called with the defaults on the page-tree root: the root receives `/Count`,
the length of its former `/Kids`, and the grouped `/Kids`. -/
def groupPageTree (fuel groupSize : Nat) : PageNode → Option PageNode
  | .leaf _ => none
  | .pages props kids =>
    (groupKids fuel kids groupSize).map
      (fun g => PageNode.pages (props.set "/Count" (Val.num kids.length)) g)

/-- Lines 427-428: `flattenPageTree()` then `groupPageTree()`. -/
def normalizePages (fuel groupSize : Nat) (root : PageNode) : Option PageNode :=
  (flattenPageTree root).bind (groupPageTree fuel groupSize)

/-! ## The specification's reading of the page-tree rules -/

/-- Whether a node is a leaf page (a node without `/Kids`). -/
def PageNode.isLeaf : PageNode → Bool
  | .leaf _ => true
  | .pages _ _ => false

mutual
/-- The leaf pages below a node in pre-order, left to right (a leaf is its own only leaf). -/
def leavesOf : PageNode → List PageNode
  | .leaf props => [.leaf props]
  | .pages _ kids => leavesOfKids kids
/-- The leaf pages below a sequence of kids, in pre-order, left to right. -/
def leavesOfKids : List PageNode → List PageNode
  | [] => []
  | page :: rest => leavesOf page ++ leavesOfKids rest
end

/-- A node without its inheritable attributes: what is left identifies the page. -/
def stripInherited : PageNode → PageNode
  | .leaf props => .leaf (props.filter (fun kv => !inheritable.contains kv.1))
  | .pages props kids => .pages (props.filter (fun kv => !inheritable.contains kv.1)) kids

/-- The `/Kids` of a node (none for a leaf). -/
def PageNode.kids : PageNode → List PageNode
  | .leaf _ => []
  | .pages _ kids => kids

/-- The value the claim expects for an inheritable attribute on a leaf: the leaf's own entry
when it has one, else the entry of the nearest ancestor that has one (`ancestors` lists the
ancestors from the nearest to the root), else none. -/
def inheritedSpec (ancestors : List Props) (leaf : Props) (attr : String) : Option Val :=
  match leaf.lookup attr with
  | some v => some v
  | none => ancestors.findSome? (fun parent => parent.lookup attr)

mutual
/-- Whether every node with `/Kids` at or below a node carries as `/Count` the number of leaf
pages among its descendants. -/
def countsOk : PageNode → Bool
  | .leaf _ => true
  | .pages props kids =>
    (props.get "/Count" == Val.num (leavesOfKids kids).length) && countsOkKids kids
/-- The same for every node of a sequence of kids. -/
def countsOkKids : List PageNode → Bool
  | [] => true
  | page :: rest => countsOk page && countsOkKids rest
end

mutual
/-- The greatest depth of a leaf page below a node (0 for a leaf itself). -/
def leafDepth : PageNode → Nat
  | .leaf _ => 0
  | .pages _ kids => depthOfKids kids
/-- The greatest depth of a leaf page below the holder of a sequence of kids. -/
def depthOfKids : List PageNode → Nat
  | [] => 0
  | page :: rest => max (leafDepth page + 1) (depthOfKids rest)
end

mutual
/-- Whether every node with `/Kids` at or below a node has at most `B` kids. -/
def fanOk (B : Nat) : PageNode → Bool
  | .leaf _ => true
  | .pages _ kids => decide (kids.length ≤ B) && fanOkKids B kids
/-- The same for every node of a sequence of kids. -/
def fanOkKids (B : Nat) : List PageNode → Bool
  | [] => true
  | page :: rest => fanOk B page && fanOkKids B rest
end

/-- What one branch index contributes to `groupedPageTree` (lines 339-347) when the recursive
call on `branchPages` returns `kidsOf branchPages`. -/
def branchItem (kidsOf : List PageNode → List PageNode) : List PageNode → List PageNode
  | [] => []
  | [page] => [assignPage page]
  | branchPages => [PageNode.pages (pagesObjectProps branchPages.length) (kidsOf branchPages)]

/-- What the grouping of a flat sequence of leaf pages `pageTree` into `g` with branch size
`B` achieves: the leaves of `g` are the pages of `pageTree` in order, flattening `g` returns
them, every `/Count` is the number of leaf descendants, no node has more than `B` kids, and
the depth is bounded by every positive `k` with `n ≤ B ^ k` and exceeds 1 when `B < n`. -/
def GroupedOk (B : Nat) (pageTree g : List PageNode) : Prop :=
  leavesOfKids g = pageTree.map assignPage ∧
  flattenKids g = pageTree.map assignPage ∧
  countsOkKids g = true ∧
  g.length ≤ B ∧
  fanOkKids B g = true ∧
  (∀ k, 1 ≤ k → pageTree.length ≤ B ^ k → depthOfKids g ≤ k) ∧
  (B < pageTree.length → 2 ≤ depthOfKids g)

/-! ## Object numbering (lines 371-394) -/

/-- An object of the tree, addressed by its identity: an array or a plain object (a
`Uint8Array` payload is a plain object whose properties are its indices). -/
inductive Obj where
  | arr (items : List Val)
  | dict (props : Props)
  deriving DecidableEq, Repr

/-- The values an object holds: the elements of an array, the property values of an object. -/
def Obj.vals : Obj → List Val
  | .arr items => items
  | .dict props => props.map (fun kv => kv.2)

/-- The objects of the tree: `Val.ref id` is the object at position `id`. -/
abbrev Heap := List Obj

/-- The state `resetObjectIds` works on: the objects, `this.objCache` and
`this.nextNodeNum`. -/
structure ResetState where
  heap : Heap
  objCache : List Nat
  nextNodeNum : Nat
  deriving DecidableEq, Repr

/-- Line 378, `toReset`: the identity of `item` when it is an object that is not in
`objCache`. -/
def toReset (objCache : List Nat) : Val → Option Nat
  | .ref id => if objCache.contains id then none else some id
  | _ => none

/-- Lines 382-385, `makeIndirect`. -/
def makeIndirect : List (List Nat) :=
  [jsStr "/AcroForm", jsStr "/MarkInfo", jsStr "/Metadata", jsStr "/Names", jsStr "/Outlines",
   jsStr "/StructTreeRoot", jsStr "/ViewerPreferences", jsStr "/Catalog", jsStr "/Pages",
   jsStr "/OCG"]

/-- Line 386: `typeof node.num === 'number' || node.stream ||
makeIndirect.includes(node['/Type'])`. -/
def needsNumber (node : Props) : Bool :=
  (match node.get "num" with
    | .num _ => true
    | _ => false) ||
  truthy (node.get "stream") ||
  (match node.get "/Type" with
    | .str s => makeIndirect.contains s
    | _ => false)

/-- Line 387, `Object.assign(node, { num: n, gen: 0 })`. -/
def assignNumber (node : Props) (n : Nat) : Props :=
  (node.set "num" (Val.num n)).set "gen" (Val.num 0)

/-- The `forEach` of lines 380 and 391 over the identities that passed the filter; `recurse`
is the recursive call. -/
def resetEach (recurse : Nat → ResetState → Option ResetState) :
    List Nat → ResetState → Option ResetState
  | [], st => some st
  | item :: rest, st =>
    match recurse item st with
    | none => none
    | some st' => resetEach recurse rest st'

/-- Lines 377-392: `node` is pushed on `objCache`; an array has its unvisited object elements
reset; any other object first receives a number when line 386 asks for one, then has its
unvisited object values reset, in key order. -/
def visit (recurse : Nat → ResetState → Option ResetState) (node : Nat) (st : ResetState) :
    Option ResetState :=
  let st := { st with objCache := st.objCache ++ [node] }
  match st.heap[node]? with
  | none => some st
  | some (Obj.arr items) => resetEach recurse (items.filterMap (toReset st.objCache)) st
  | some (Obj.dict props) =>
    if needsNumber props then
      let numbered := assignNumber props st.nextNodeNum
      let st := { st with heap := st.heap.set node (.dict numbered)
                          nextNodeNum := st.nextNodeNum + 1 }
      resetEach recurse ((numbered.map (fun kv => kv.2)).filterMap (toReset st.objCache)) st
    else
      resetEach recurse ((props.map (fun kv => kv.2)).filterMap (toReset st.objCache)) st

/-- Lines 371-394, `resetObjectIds(node)` with `root` the identity of `pdfTree['/Root']`.
`fuel` bounds the depth of the recursion (`none`: it did not end within it). -/
def resetObjectIds (root : Nat) : Nat → Nat → ResetState → Option ResetState
  | 0, _, _ => none
  | fuel + 1, node, st =>
    let st := if node = root then { st with nextNodeNum := 1, objCache := [] } else st
    if st.objCache.contains node then some st
    else visit (fun item s => resetObjectIds root fuel item s) node st

/-! ## The specification's reading of the numbering -/

/-- The object number a node carries: the value of `num` when it is a number. -/
def numOf (heap : Heap) (id : Nat) : Option Int :=
  match heap[id]? with
  | some (Obj.dict props) =>
    (match props.get "num" with
      | .num n => some n
      | _ => none)
  | _ => none

/-- The generation a node carries: the value of `gen` when it is a number. -/
def genOf (heap : Heap) (id : Nat) : Option Int :=
  match heap[id]? with
  | some (Obj.dict props) =>
    (match props.get "gen" with
      | .num n => some n
      | _ => none)
  | _ => none

/-- The object numbers carried by the nodes of `ids`, in the order of `ids`, one entry for
each node that carries a number. -/
def numsOf (heap : Heap) (ids : List Nat) : List Int := ids.filterMap (numOf heap)

/-- The objects a value list refers to. -/
def refsOf (vs : List Val) : List Nat :=
  vs.filterMap (fun v => match v with
    | .ref id => some id
    | _ => none)

/-- The objects a node refers to: its object elements or object property values. -/
def children (heap : Heap) (id : Nat) : List Nat :=
  match heap[id]? with
  | some obj => refsOf obj.vals
  | none => []

/-- Reachability from `root` along element and property references. -/
inductive Reach (heap : Heap) (root : Nat) : Nat → Prop where
  | root : Reach heap root root
  | step (parent child : Nat) : Reach heap root parent → child ∈ children heap parent →
      Reach heap root child

/-- Reachability from `root` along references that start in a node of `seen`. -/
inductive ReachIn (heap : Heap) (seen : List Nat) (root : Nat) : Nat → Prop where
  | root : ReachIn heap seen root root
  | step (parent child : Nat) : ReachIn heap seen root parent → parent ∈ seen →
      child ∈ children heap parent → ReachIn heap seen root child

/-- Every reference of the heap points to an object of the heap. -/
def closedHeap (heap : Heap) : Bool :=
  heap.all (fun obj => (refsOf obj.vals).all (fun id => decide (id < heap.length)))

/-- Whether line 386 asks for a number on the object `id` of `heap`. -/
def asksNumber (heap : Heap) (id : Nat) : Bool :=
  match heap[id]? with
  | some (Obj.dict props) => needsNumber props
  | _ => false

/-- The invariant of the walk, for the heap `heap0` it started from: the heap keeps its size
and stays closed, the visited nodes are distinct nodes of the heap, the numbers they carry
are `1, 2, ...` in visiting order up to `nextNodeNum - 1` with generation 0, each visited
node is linked to `root` through visited nodes, a visited node carries a number exactly when
line 386 asked for one, and an unvisited node is as it was. -/
structure Good (root : Nat) (heap0 : Heap) (st : ResetState) : Prop where
  len : st.heap.length = heap0.length
  closed : ∀ (id : Nat) (obj : Obj), st.heap[id]? = some obj →
    ∀ c ∈ refsOf obj.vals, c < heap0.length
  bound : ∀ id ∈ st.objCache, id < heap0.length
  nodup : st.objCache.Nodup
  nums : numsOf st.heap st.objCache
    = (List.range (st.nextNodeNum - 1)).map (fun (i : Nat) => (i : Int) + 1)
  next : 1 ≤ st.nextNodeNum
  gen : ∀ id ∈ st.objCache, (numOf st.heap id).isSome = true → genOf st.heap id = some 0
  reach : ∀ id ∈ st.objCache, ReachIn st.heap st.objCache root id
  asked : ∀ id ∈ st.objCache, (numOf st.heap id).isSome = asksNumber heap0 id
  fresh : ∀ id, id ∉ st.objCache → st.heap[id]? = heap0[id]?

/-- What a completed call changes: `objCache` is extended, the nodes visited before are
untouched, and every node visited by the call has all its references visited. -/
structure Step (st st' : ResetState) : Prop where
  grows : ∃ new, st'.objCache = st.objCache ++ new
  frozen : ∀ id ∈ st.objCache, st'.heap[id]? = st.heap[id]?
  closure : ∀ id ∈ st'.objCache, id ∉ st.objCache →
    ∀ c ∈ children st'.heap id, c ∈ st'.objCache

/-- A small tree with an alias and cycles: a catalog, a page-tree root, its `/Kids` array
holding the same page twice, the page (with a `num` placeholder, a `/Parent` back-reference
and a reference to itself), a content stream, and a dictionary pointing back to the
catalog. -/
def sampleHeap : Heap := [
  .dict [("/Type", .str (jsStr "/Catalog")), ("/Pages", .ref 1)],
  .dict [("/Type", .str (jsStr "/Pages")), ("/Kids", .ref 2)],
  .arr [.ref 3, .ref 3],
  .dict [("/Parent", .ref 1), ("num", .num 0), ("/Contents", .ref 4), ("/Self", .ref 3),
    ("/Font", .ref 5)],
  .dict [("stream", .str [65])],
  .dict [("/A", .ref 0)]]

mutual
/-- Each leaf page below a node, in pre-order, with the properties of its ancestors from the
nearest up to and including the node itself (none for a leaf taken alone). -/
def leafPaths : PageNode → List (Props × List Props)
  | .leaf props => [(props, [])]
  | .pages props kids => (leafPathsKids kids).map (fun la => (la.1, la.2 ++ [props]))
/-- The same for a sequence of kids. -/
def leafPathsKids : List PageNode → List (Props × List Props)
  | [] => []
  | page :: rest => leafPaths page ++ leafPathsKids rest
end

/-- Whether every inheritable attribute an object has carries a truthy value. -/
def truthyAttrs (props : Props) : Bool :=
  inheritable.all (fun attr =>
    match props.lookup attr with
    | some v => truthy v
    | none => true)

mutual
/-- Whether `truthyAttrs` holds of a node and of every node below it. -/
def allTruthy : PageNode → Bool
  | .leaf props => truthyAttrs props
  | .pages props kids => truthyAttrs props && allTruthyKids kids
/-- The same for a sequence of kids. -/
def allTruthyKids : List PageNode → Bool
  | [] => true
  | page :: rest => allTruthy page && allTruthyKids rest
end

/-- What one page holds under `a` once the attribute `a` of `parent` has been offered. -/
def offered (parent : Props) (a : String) (page : PageNode) : Option Val :=
  if truthy (page.props.get a) then page.props.lookup a else some (parent.get a)

/-! ## Options and root entries (lines 33-38 and 287-299) -/

/-- The options of lines 33-38 that `assemblePdf` can read. `indent` is `false`, `true`, a
number or a string. -/
structure Options where
  indent : Val
  compress : Bool
  groupPages : Bool
  pageGroupSize : Nat
  pdfVersion : List Nat

/-- Lines 33-38: the default options. -/
def defaultOptions : Options :=
  { indent := Val.bool false, compress := true, groupPages := true, pageGroupSize := 16,
    pdfVersion := jsStr "1.7" }

/-- Lines 427-428 inside `assemblePdf`: `this.flattenPageTree(); this.groupPageTree();`, the
second with the default `groupSize = this.pageGroupSize`. No option is consulted before
either call. -/
def assembleNormalize (opts : Options) (fuel : Nat) (root : PageNode) : Option PageNode :=
  (flattenPageTree root).bind (groupPageTree fuel opts.pageGroupSize)

/-- Line 294: the keys `removeRootEntries` keeps when no entries are named. -/
def requiredRootKeys : List String := ["/Type", "/Pages", "num", "gen"]

/-- Lines 290-295, the filter on the keys of the catalog: with a non-empty `entries` the keys
it includes, otherwise the keys that are not required. `none` is a call without `entries`. -/
def rootKeyToRemove (entries : Option (List String)) (key : String) : Bool :=
  match entries with
  | some es => if es.length ≠ 0 then es.contains key else !requiredRootKeys.contains key
  | none => !requiredRootKeys.contains key

/-- Lines 289-296 on the catalog `tree['/Root']`: every key selected by the filter is
deleted. -/
def removeRootEntries (entries : Option (List String)) (root : Props) : Props :=
  ((root.map (fun kv => kv.1)).filter (rootKeyToRemove entries)).foldl Props.delete root

/-! ## The specification's reading of the options -/

/-- The numbering rule as stated: a number is asked for a node that carries a stream payload
or whose `/Type` is listed in `makeIndirect`. -/
def statedNeedsNumber (node : Props) : Bool :=
  (node.lookup "stream").isSome ||
  (match node.get "/Type" with
    | .str s => makeIndirect.contains s
    | _ => false)

/-- Whether the value of `num` is a number (`typeof node.num === 'number'`). -/
def isNumber : Val → Bool
  | .num _ => true
  | _ => false

/-- A catalog holding a page that carries the `num` placeholder of `groupPageTree` and no
stream, and an object whose stream payload is the empty string. -/
def placeholderHeap : Heap := [
  .dict [("/Type", .str (jsStr "/Catalog")), ("/A", .ref 1), ("/B", .ref 2)],
  .dict [("num", .num 0), ("/Type", .str (jsStr "/Page"))],
  .dict [("stream", .str [])]]

/-! ## Rendering (lines 420-544) -/

/-- Lines 420-423, `space`: empty when `indent` is falsy, else that many blanks for a number,
the string itself for a string, a tab otherwise. -/
def space (opts : Options) : List Nat :=
  if !truthy opts.indent then []
  else match opts.indent with
    | .num n => List.replicate n.toNat 32
    | .str s => s
    | _ => [9]

/-- Line 424, `newline`: empty when `indent` is falsy, else a line feed. -/
def newline (opts : Options) : List Nat := if !truthy opts.indent then [] else [10]

/-- JavaScript `s.repeat(n)`. -/
def repeatStr (s : List Nat) (n : Nat) : List Nat := (List.replicate n s).flatten

/-- The decimal digits of a natural number. -/
def decimal (n : Nat) : List Nat := (Nat.toDigits 10 n).map Char.toNat

/-- JavaScript conversion of an integer number to a string. -/
def numberToString (n : Int) : List Nat :=
  if n < 0 then 45 :: decimal n.natAbs else decimal n.toNat

/-- JavaScript conversion of a value to a string inside a template literal or by `+ ''`
(an object is written `[object Object]`). -/
def jsToString : Val → List Nat
  | .undefined => jsStr "undefined"
  | .null => jsStr "null"
  | .bool true => jsStr "true"
  | .bool false => jsStr "false"
  | .num n => numberToString n
  | .str s => s
  | .ref _ => jsStr "[object Object]"

/-- The third argument of `newPdfObject`: `true`, `false` or a string. -/
inductive NextIndent where
  | yes
  | no
  | text (s : List Nat)
  deriving DecidableEq, Repr

/-- Lines 435 and 537-543: what is put in front of `pdfObject`. `true` becomes
`newline + space.repeat(depth)`; a non-empty string is used as it is; `false` gives nothing;
an empty string gives nothing before one of `/ [ ( <` and a blank before anything else. -/
def lead (opts : Options) (depth : Nat) (nextIndent : NextIndent) (pdfObject : List Nat) :
    List Nat :=
  match nextIndent with
  | .no => []
  | .yes =>
    if newline opts ++ repeatStr (space opts) depth ≠ [] then
      newline opts ++ repeatStr (space opts) depth
    else if pdfObject.head? ∈ [some 47, some 91, some 40, some 60] then [] else [32]
  | .text s =>
    if s ≠ [] then s
    else if pdfObject.head? ∈ [some 47, some 91, some 40, some 60] then [] else [32]

/-- A slot of `indirectObjects`: `null` while the object is being rendered, else the
finished block. An index without a slot is `undefined`. -/
inductive Slot where
  | pending
  | done (block : List Nat)
  deriving DecidableEq, Repr

/-- The sparse array `indirectObjects`: the slots that have been assigned, by index. -/
abbrev SlotTable := List (Int × Slot)

/-- Read `indirectObjects[n]`: `none` is `undefined`. -/
def SlotTable.get (t : SlotTable) (n : Int) : Option Slot := t.lookup n

/-- Write `indirectObjects[n] = slot`. -/
def SlotTable.set (t : SlotTable) (n : Int) (slot : Slot) : SlotTable :=
  (n, slot) :: t.filter (fun kv => kv.1 != n)

/-- The array length `indirectObjects.length`: one more than the greatest index assigned (a
negative `num` is a plain property and does not count). -/
def SlotTable.length (t : SlotTable) : Nat :=
  t.foldl (fun m kv => if 0 ≤ kv.1 then max m (kv.1.toNat + 1) else m) 0

/-- The elements `[...indirectObjects]`, holes included. -/
def SlotTable.spread (t : SlotTable) : List (Option Slot) :=
  (List.range t.length).map (fun (i : Nat) => t.get (i : Int))

/-- The state of a rendering: the objects of the tree and `indirectObjects`. -/
structure RenderState where
  heap : Heap
  indirectObjects : SlotTable
  deriving DecidableEq, Repr

/-- A `Uint8Array` as an object of the heap: one property per index. -/
def bytesObject (data : List Nat) : Obj :=
  Obj.dict (data.enum.map (fun ib => (toString ib.1, Val.num ib.2)))

/-- The payload a `stream` value stands for, one element per byte written: the code units of
a string taken modulo 256 (`stringToBytes`), or the elements of a `Uint8Array`. Any other
value has no payload (`null.length` throws). -/
def payloadOf (heap : Heap) : Val → Option (List Nat)
  | .str s => some (stringToBytes s)
  | .ref id =>
    match heap[id]? with
    | some (Obj.dict props) =>
      some (props.map (fun kv => match kv.2 with
        | .num n => n.toNat
        | _ => 0))
    | _ => none
  | _ => none

/-- Lines 487-503 on a node of the heap whose `stream` is defined, with `payload` its bytes:
the properties of the node afterwards and the compressed payload when it was adopted. -/
def compressNode (opts : Options) (deflate : List Nat → List Nat) (props : Props)
    (payload : List Nat) : Props × Option (List Nat) :=
  if payload.length ≠ 0 ∧ (opts.compress && !truthy (props.get "/Filter")) = true ∧
      (deflate payload).length + 19 < payload.length then
    (((props.set "/Filter" (Val.str (jsStr "/FlateDecode"))).set "/Length"
        (Val.num (deflate payload).length)), some (deflate payload))
  else (props.set "/Length" (Val.num payload.length), none)

/-- Lines 483 and 514 at depth 0: the text of an indirect object up to the end of its
dictionary. -/
def objectBody (opts : Options) (num gen : Val) (dictItems : List Nat) : List Nat :=
  jsToString num ++ [32] ++ jsToString gen ++ jsStr " obj" ++ newline opts ++
    (jsStr "<<" ++ dictItems ++ newline opts ++ repeatStr (space opts) 0 ++ jsStr ">>")

/-- Lines 517-528: the finished block of an indirect object from its text so far;
`stream` is the payload when `jsObject.stream` is defined. A non-empty payload is joined to
the text by `arraysToBytes`. -/
def finishObject (opts : Options) (pdfObject : List Nat) (stream : Option (List Nat)) :
    List Nat :=
  match stream with
  | some payload =>
    if payload.length ≠ 0 then
      stringToBytes (pdfObject ++ newline opts ++ jsStr "stream\n") ++ payload ++
        stringToBytes (newline opts ++ jsStr "endstream\nendobj\n")
    else pdfObject ++ newline opts ++ jsStr "stream\nendstream\nendobj\n"
  | none => pdfObject ++ newline opts ++ jsStr "endobj\n"

/-- Lines 475 and 532: the reference token `num gen R`. -/
def refToken (num gen : Val) : List Nat :=
  jsToString num ++ [32] ++ jsToString gen ++ jsStr " R"

/-- Lines 468-470: the items of an array in turn, the first without a separator when
`space` is empty; `recurse` is `newPdfObject` at `depth + 1`. -/
def renderItems (recurse : Val → NextIndent → RenderState → Option (List Nat × RenderState))
    (spaced : Bool) : List Val → Nat → RenderState → Option (List Nat × RenderState)
  | [], _, st => some ([], st)
  | item :: rest, index, st =>
    match recurse item (if spaced || index != 0 then NextIndent.yes else NextIndent.no) st with
    | none => none
    | some (text, st1) =>
      match renderItems recurse spaced rest (index + 1) st1 with
      | none => none
      | some (texts, st2) => some (text ++ texts, st2)

/-- Lines 507-513: the entries whose key begins with `/` in turn, each key as a name at
`depth + 1` and each value after a blank when `space` is not empty; `recurse` is
`newPdfObject` at `depth + 1`. -/
def renderEntries (opts : Options) (depth : Nat)
    (recurse : Val → NextIndent → RenderState → Option (List Nat × RenderState)) :
    List (String × Val) → RenderState → Option (List Nat × RenderState)
  | [], st => some ([], st)
  | (key, value) :: rest, st =>
    match recurse value
        (NextIndent.text (if space opts ≠ [] then [32] else [])) st with
    | none => none
    | some (text, st1) =>
      match renderEntries opts depth recurse rest st1 with
      | none => none
      | some (texts, st2) =>
        some (lead opts (depth + 1) NextIndent.yes (renderStringValue (jsStr key)) ++
          renderStringValue (jsStr key) ++ text ++ texts, st2)

/-- Line 508: the entries of an object that are written, those whose key begins with `/`. -/
def nameEntries (props : Props) : List (String × Val) :=
  props.filter (fun kv => (jsStr kv.1).head? == some 47)

/-- Lines 482-503 on the node `id`, whose properties are `props` and whose number is `n`:
the placeholder goes into the slot `n`; when `stream` is defined (`stream` holds its bytes)
the node receives `/Length` and, when the compressed form is adopted, `/Filter` and the new
`Uint8Array` as its `stream`. The result is the properties of the node, the payload to write
and the state afterwards. -/
def openObject (opts : Options) (deflate : List Nat → List Nat) (st : RenderState) (id : Nat)
    (props : Props) (n : Int) (stream : Option (List Nat)) :
    Props × Option (List Nat) × RenderState :=
  match stream with
  | none => (props, none, { st with indirectObjects := st.indirectObjects.set n Slot.pending })
  | some payload =>
    match (compressNode opts deflate props payload).2 with
    | some data =>
      ((compressNode opts deflate props payload).1.set "stream" (Val.ref st.heap.length),
        some data,
        { heap := (st.heap.set id (Obj.dict
            ((compressNode opts deflate props payload).1.set "stream"
              (Val.ref st.heap.length)))) ++ [bytesObject data],
          indirectObjects := st.indirectObjects.set n Slot.pending })
    | none =>
      ((compressNode opts deflate props payload).1, some payload,
        { heap := st.heap.set id (Obj.dict (compressNode opts deflate props payload).1),
          indirectObjects := st.indirectObjects.set n Slot.pending })

/-- Lines 434-544, `newPdfObject(jsObject, depth, nextIndent)`: the text returned and the
state afterwards. `fuel` bounds the depth of the recursion; `none` stands for a call that
throws or does not return within it. -/
def newPdfObject (opts : Options) (deflate : List Nat → List Nat) :
    Nat → Val → Nat → NextIndent → RenderState → Option (List Nat × RenderState)
  | 0, _, _, _, _ => none
  | fuel + 1, jsObject, depth, nextIndent, st =>
    match jsObject with
    | .str s =>
      some (lead opts depth nextIndent (renderStringValue s) ++ renderStringValue s, st)
    | .undefined => some (lead opts depth nextIndent (jsStr "null") ++ jsStr "null", st)
    | .null => some (lead opts depth nextIndent (jsStr "null") ++ jsStr "null", st)
    | .bool b =>
      some (lead opts depth nextIndent (jsToString (.bool b)) ++ jsToString (.bool b), st)
    | .num n =>
      some (lead opts depth nextIndent (numberToString n) ++ numberToString n, st)
    | .ref id =>
      match st.heap[id]? with
      | none => none
      | some (Obj.arr items) =>
        match renderItems (fun item ni s => newPdfObject opts deflate fuel item (depth + 1) ni s)
            (space opts != []) items 0 st with
        | none => none
        | some (arrayItems, st1) =>
          let pdfObject := [91] ++ arrayItems ++ newline opts ++
            repeatStr (space opts) depth ++ [93]
          some (lead opts depth nextIndent pdfObject ++ pdfObject, st1)
      | some (Obj.dict props) =>
        match props.get "num" with
        | .num n =>
          match st.indirectObjects.get n with
          | some _ =>
            some (lead opts depth nextIndent (refToken (.num n) (props.get "gen")) ++
              refToken (.num n) (props.get "gen"), st)
          | none =>
            match (if props.get "stream" = Val.undefined then some none
                else (payloadOf st.heap (props.get "stream")).map some) with
            | none => none
            | some stream =>
              let opened := openObject opts deflate st id props n stream
              match renderEntries opts 0
                  (fun item ni s => newPdfObject opts deflate fuel item 1 ni s)
                  (nameEntries opened.1) opened.2.2 with
              | none => none
              | some (dictItems, st1) =>
                let block := finishObject opts
                  (objectBody opts (.num n) (props.get "gen") dictItems) opened.2.1
                some (lead opts depth nextIndent (refToken (.num n) (props.get "gen")) ++
                    refToken (.num n) (props.get "gen"),
                  { st1 with indirectObjects := st1.indirectObjects.set n (Slot.done block) })
        | _ =>
          match renderEntries opts depth
              (fun item ni s => newPdfObject opts deflate fuel item (depth + 1) ni s)
              (nameEntries props) st with
          | none => none
          | some (dictItems, st1) =>
            let pdfObject := jsStr "<<" ++ dictItems ++ newline opts ++
              repeatStr (space opts) depth ++ jsStr ">>"
            some (lead opts depth nextIndent pdfObject ++ pdfObject, st1)

/-! ## Assembling the file (lines 429-573) -/

/-- The document `pdfTree` after the page-tree normalisation: the objects, the identities of
`pdfTree['/Root']` and `pdfTree['/Info']`, and the allocator state. -/
structure Document where
  heap : Heap
  root : Nat
  info : Nat
  objCache : List Nat
  nextNodeNum : Nat
  deriving DecidableEq, Repr

/-- Lines 550-552, `header`: the version line and the binary marker comment. -/
def pdfHeader (opts : Options) : List Nat :=
  jsStr "%PDF-" ++ opts.pdfVersion ++ [10] ++ [37, 226, 227, 207, 211, 10]

/-- Lines 558-559 and 573, `indirectObjects.filter(o => o)`: the finished blocks by
increasing index; holes, `null` and empty blocks are dropped. -/
def filledBlocks (t : SlotTable) : List (List Nat) :=
  t.spread.filterMap (fun slot =>
    match slot with
    | some (Slot.done block) => if block ≠ [] then some block else none
    | _ => none)

/-- Line 560, `offset += o.length` over a list of blocks: the offset after each block. -/
def runningOffsets : Nat → List (List Nat) → List Nat
  | _, [] => []
  | offset, o :: rest => (offset + o.length) :: runningOffsets (offset + o.length) rest

/-- Line 560: one in-use entry, the last 20 characters of ten zeros, the offset and
`' 00000 n \n'`. -/
def xrefEntry (offset : Nat) : List Nat :=
  sliceLast 20 (jsStr "0000000000" ++ decimal offset ++ jsStr " 00000 n \n")

/-- Lines 553-562: the text `xref` and the final value of `offset`. -/
def xrefTable (header : List Nat) (t : SlotTable) : List Nat × Nat :=
  let offsets := runningOffsets 0 (header :: filledBlocks t)
  (jsStr "xref\n" ++ (jsStr "0 " ++ decimal t.length ++ [10]) ++
      jsStr "0000000000 65535 f \n" ++ offsets.dropLast.flatMap xrefEntry,
    offsets.getLastD 0)

/-- Lines 563-572, `trailer`. -/
def pdfTrailer (opts : Options) (rootRef : List Nat) (infoRef : Option (List Nat))
    (size offset : Nat) : List Nat :=
  jsStr "trailer\n" ++ (jsStr "<<" ++ newline opts) ++
    (space opts ++ jsStr "/Root " ++ rootRef ++ newline opts) ++
    (match infoRef with
      | some ref => if ref ≠ [] then space opts ++ jsStr "/Info " ++ ref ++ newline opts else []
      | none => []) ++
    (space opts ++ jsStr "/Size " ++ decimal size ++ newline opts) ++
    jsStr ">>\n" ++ jsStr "startxref\n" ++ (decimal offset ++ [10]) ++ jsStr "%%EOF\n"

/-- Line 573, `pdfData`: header, finished blocks, `xref` and `trailer` joined by
`arraysToBytes`. -/
def pdfData (header : List Nat) (t : SlotTable) (xref trailer : List Nat) : List Nat :=
  stringToBytes header ++ (filledBlocks t).flatMap stringToBytes ++ stringToBytes xref ++
    stringToBytes trailer

/-- What `assemblePdf` produces: the bytes, their parts, and the document afterwards. -/
structure Assembled where
  data : List Nat
  rootRef : List Nat
  infoRef : Option (List Nat)
  indirectObjects : SlotTable
  xref : List Nat
  trailer : List Nat
  doc : Document
  deriving DecidableEq, Repr

/-- Lines 429-573 of `assemblePdf`, after the page-tree normalisation of lines 427-428:
`resetObjectIds()`, the `/Version` stamp on the root, the rendering of the root, the number
and generation of `/Info`, its rendering when it has a key, and the file. A root or an info
that is not a plain object is not covered (`none`). -/
def assemblePdf (opts : Options) (deflate : List Nat → List Nat) (fuel : Nat)
    (doc : Document) : Option Assembled :=
  match resetObjectIds doc.root fuel doc.root
      { heap := doc.heap, objCache := doc.objCache, nextNodeNum := doc.nextNodeNum } with
  | none => none
  | some rs =>
    match rs.heap[doc.root]? with
    | some (Obj.dict rootProps) =>
      let heap1 := rs.heap.set doc.root
        (Obj.dict (rootProps.set "/Version" (Val.str (47 :: opts.pdfVersion))))
      match newPdfObject opts deflate fuel (Val.ref doc.root) 0 NextIndent.no
          { heap := heap1, indirectObjects := [] } with
      | none => none
      | some (rootRef, st1) =>
        match st1.heap[doc.info]? with
        | some (Obj.dict infoProps) =>
          let infoProps1 := (infoProps.set "gen" (Val.num 0)).set "num" (Val.num rs.nextNodeNum)
          let st2 : RenderState :=
            { st1 with heap := st1.heap.set doc.info (Obj.dict infoProps1) }
          match (if infoProps1.length ≠ 0 then
              (newPdfObject opts deflate fuel (Val.ref doc.info) 0 NextIndent.no st2).map
                (fun r => (some r.1, r.2))
            else some (none, st2)) with
          | none => none
          | some (infoRef, st3) =>
            let header := pdfHeader opts
            let xref := xrefTable header st3.indirectObjects
            let trailer := pdfTrailer opts rootRef infoRef st3.indirectObjects.length xref.2
            some
              { data := pdfData header st3.indirectObjects xref.1 trailer
                rootRef := rootRef
                infoRef := infoRef
                indirectObjects := st3.indirectObjects
                xref := xref.1
                trailer := trailer
                doc :=
                  { heap := st3.heap, root := doc.root, info := doc.info,
                    objCache := rs.objCache, nextNodeNum := rs.nextNodeNum + 1 } }
        | _ => none
    | _ => none

/-! ## The specification's reading of the output -/

/-- The block of a stream object as stated: the object header, the dictionary, a newline,
`stream`, a newline, the payload, a newline, `endstream`, a newline, `endobj`, a newline. -/
def statedStreamBlock (num gen : Val) (dict payload : List Nat) : List Nat :=
  stringToBytes (jsToString num ++ [32] ++ jsToString gen ++ jsStr " obj" ++ dict ++
      jsStr "\nstream\n") ++ payload ++ stringToBytes (jsStr "\nendstream\nendobj\n")

/-- A document whose catalog holds one stream object with the payload `Hello`, and whose info
dictionary is empty. -/
def helloDocument : Document :=
  { heap := [
      .dict [("/Type", .str (jsStr "/Catalog")), ("/Data", .ref 1)],
      .dict [("stream", .str (jsStr "Hello"))],
      .dict []],
    root := 0, info := 2, objCache := [], nextNodeNum := 1 }

/-- A document whose catalog holds one stream object with forty bytes `a`, and whose info
dictionary is empty. -/
def longStreamDocument : Document :=
  { heap := [
      .dict [("/Type", .str (jsStr "/Catalog")), ("/Data", .ref 1)],
      .dict [("stream", .str (List.replicate 40 97))],
      .dict []],
    root := 0, info := 2, objCache := [], nextNodeNum := 1 }

/-- What zlib returns for forty bytes `a` (twelve bytes), standing for the compressor. -/
def deflateSample (_ : List Nat) : List Nat := [120, 156, 75, 76, 36, 14, 0, 0, 54, 235, 15, 41]

/-- The keys `assemblePdf` writes on the node `id` of `doc`: `/Version` on the root; `num` and
`gen` on the info dictionary and on a node that line 386 asks a number for; on such a node
whose `stream` is defined, also `stream`, `/Filter` and `/Length`. -/
def mayWrite (doc : Document) (id : Nat) (key : String) : Bool :=
  (id == doc.root && key == "/Version") ||
  (match doc.heap[id]? with
    | some (Obj.dict props) =>
      (needsNumber props || id == doc.info) &&
        (key == "num" || key == "gen" ||
          (props.get "stream" != Val.undefined &&
            (key == "stream" || key == "/Filter" || key == "/Length")))
    | _ => false)

/-- The heap `heap` holds the objects of `doc` unchanged but for the keys of `mayWrite`: an
array has the same elements, and an object is an object with the same entry, or the same
absence of one, under every other key. -/
def Unchanged (doc : Document) (heap : Heap) : Prop :=
  ∀ (id : Nat) (obj : Obj), doc.heap[id]? = some obj →
    match obj with
    | .arr items => heap[id]? = some (Obj.arr items)
    | .dict props =>
      ∃ props', heap[id]? = some (Obj.dict props') ∧
        ∀ key, mayWrite doc id key = false → props'.lookup key = props.lookup key

/-- The entries of the node `id` that are written, those under a name. -/
def entriesAt (heap : Heap) (id : Nat) : Option (List (String × Val)) :=
  match heap[id]? with
  | some (Obj.dict props) => some (nameEntries props)
  | _ => none

/-- The stream payload of the node `id`. -/
def payloadAt (heap : Heap) (id : Nat) : Option (List Nat) :=
  match heap[id]? with
  | some (Obj.dict props) => payloadOf heap (props.get "stream")
  | _ => none

/-- The byte offset of block `k` (counted from 0) in a file that begins with `header`
followed by `blocks`: the bytes of the header and of the blocks before it. -/
def blockOffset (header : List Nat) (blocks : List (List Nat)) (k : Nat) : Nat :=
  header.length + ((blocks.take k).map List.length).sum

/-- A number as ten decimal digits, zeros first. -/
def zeroPad10 (n : Nat) : List Nat :=
  List.replicate (10 - (decimal n).length) 48 ++ decimal n

/-- A document whose info dictionary holds a node that carries the number 7 from elsewhere:
`resetObjectIds` starts from the root and does not visit it. -/
def staleNumberDocument : Document :=
  { heap := [
      .dict [("/Type", .str (jsStr "/Catalog"))],
      .dict [("/Extra", .ref 2)],
      .dict [("num", .num 7), ("gen", .num 0), ("/A", .num 1)]],
    root := 0, info := 1, objCache := [], nextNodeNum := 1 }

/-- Every finished slot `n` holds a block that lines 483-530 build for the object `n 0`. -/
def SlotsOk (opts : Options) (t : SlotTable) : Prop :=
  ∀ (n : Int) (block : List Nat), t.get n = some (Slot.done block) →
    ∃ dictItems written,
      block = finishObject opts (objectBody opts (Val.num n) (Val.num 0) dictItems) written

/-! ## Resolving the parser's graph (lines 139-255) -/

/-- The values of the graph pdf.js hands over. An array, a dictionary and a stream carry the
identity of their JavaScript object (`ident`); the keys of a dictionary are the names without
the slash, as in `Dict._map`. A stream carries the entries of its dictionary, whether it is
an instance of one of `streamsToDecode`, the bytes `getBytes()` returns, and the bytes of the
underlying `Stream` or `DecryptStream` when lines 210-218 find one. -/
inductive Raw where
  | ref (num gen : Nat)
  | name (s : List Nat)
  | str (s : List Nat)
  | num (n : Int)
  | bool (b : Bool)
  | null
  | arr (ident : Nat) (items : List Raw)
  | dict (ident : Nat) (entries : List (String × Raw))
  | stream (ident : Nat) (entries : List (String × Raw)) (decodes : Bool)
      (decoded : List Nat) (source : Option (List Nat))

/-- JavaScript truthiness of a value of the graph. -/
def Raw.truthy : Raw → Bool
  | .str s => !s.isEmpty
  | .num n => n != 0
  | .bool b => b
  | .null => false
  | _ => true

/-- The document pdf.js has parsed: `xref.fetch` as a table from `(num, gen)` to the object
(a missing or free entry fetches `null`), and the number of the catalog, whose dictionary
`catalog.catDict` is the object fetched for it. -/
structure RawGraph where
  objects : List ((Nat × Nat) × Raw)
  catNum : Nat

/-- The call `xref.fetch(ref)`. -/
def RawGraph.fetch (g : RawGraph) (num gen : Nat) : Raw :=
  (g.objects.lookup (num, gen)).getD Raw.null

/-- The object `catalog.catDict`. -/
def RawGraph.catDict (g : RawGraph) : Raw := g.fetch g.catNum 0

/-- Whether `node === this.pdfManager.pdfDocument.catalog.catDict` (line 247). -/
def RawGraph.isCatDict (g : RawGraph) (ident : Nat) : Bool :=
  match g.catDict with
  | .dict c _ => c == ident
  | .stream c _ _ _ _ => c == ident
  | _ => false

/-- The `name` a position is known by: a key of an object or an index of an array. -/
inductive FixName where
  | key (k : String)
  | index (i : Nat)
  deriving DecidableEq, Repr

/-- The state `resolveNodeRefs` works on: the objects built so far, `objCache` (no entry:
`undefined`), `objCacheQueue` (per reference, the positions pushed, in order), the two array
tables and `nextNodeNum`; `refs` lists the objects of the heap that are instances of `Ref`. -/
structure ResolveState where
  heap : Heap
  refs : List Nat
  objCache : List ((Nat × Nat) × Val)
  objCacheQueue : List ((Nat × Nat) × List (FixName × Nat))
  pdfManagerArrays : List Nat
  pdfAssemblerArrays : List Nat
  nextNodeNum : Nat
  deriving DecidableEq, Repr

/-- The write `this.objCache[refKey] = v`. -/
def cacheSet (cache : List ((Nat × Nat) × Val)) (refKey : Nat × Nat) (v : Val) :
    List ((Nat × Nat) × Val) :=
  (refKey, v) :: cache.filter (fun kv => kv.1 != refKey)

/-- The write `fixParent[fixName] = v` on the heap. -/
def patch (heap : Heap) (v : Val) (fix : FixName × Nat) : Heap :=
  match heap[fix.2]?, fix.1 with
  | some (Obj.dict props), .key k => heap.set fix.2 (Obj.dict (props.set k v))
  | some (Obj.arr items), .index i => heap.set fix.2 (Obj.arr (items.set i v))
  | _, _ => heap

/-- Lines 148-154: `Object.assign(this.objCache[refKey], { num: 0, gen: 0 })` when the value
is an object that is not an array. -/
def tagResolved (heap : Heap) : Val → Heap
  | .ref id =>
    match heap[id]? with
    | some (Obj.dict props) =>
      heap.set id (Obj.dict ((props.set "num" (Val.num 0)).set "gen" (Val.num 0)))
    | _ => heap
  | _ => heap

/-- Lines 155-162: every position queued for `refKey` receives `v`, and the queue of `refKey`
is deleted. Positions are distinct cells, so the order of the writes does not matter. -/
def flushQueue (st : ResolveState) (refKey : Nat × Nat) (v : Val) : ResolveState :=
  match st.objCacheQueue.lookup refKey with
  | none => st
  | some fixes =>
    { st with heap := fixes.foldl (fun heap fix => patch heap v fix) st.heap
              objCacheQueue := st.objCacheQueue.filter (fun kv => kv.1 != refKey) }

/-- Lines 164-166: the position `(name, parent)` is pushed on the queue of `refKey`. -/
def queuePush (queue : List ((Nat × Nat) × List (FixName × Nat))) (refKey : Nat × Nat)
    (fix : FixName × Nat) : List ((Nat × Nat) × List (FixName × Nat)) :=
  match queue.lookup refKey with
  | none => queue ++ [(refKey, [fix])]
  | some fixes => (queue.filter (fun kv => kv.1 != refKey)) ++ [(refKey, fixes ++ [fix])]

/-- Lines 182-184: the elements of `node` in turn, each resolved and pushed on
`newArrayNode`; `recurse` is the recursive call. -/
def resolveItems
    (recurse : Raw → Option FixName → Option Nat → Bool → ResolveState →
      Option (Val × ResolveState))
    (newArrayNode : Nat) (contents : Bool) : List Raw → Nat → ResolveState → Option ResolveState
  | [], _, st => some st
  | element :: rest, index, st =>
    match recurse element (some (FixName.index index)) (some newArrayNode) contents st with
    | none => none
    | some (v, st1) =>
      match st1.heap[newArrayNode]? with
      | some (Obj.arr items) =>
        resolveItems recurse newArrayNode contents rest (index + 1)
          { st1 with heap := st1.heap.set newArrayNode (Obj.arr (items ++ [v])) }
      | _ => none

/-- Lines 192-194: the entries of `nodeMap` in turn, each resolved and stored under its key
with a slash in front; `hasContents` is `!!nodeMap.Contents`. -/
def resolveEntries
    (recurse : Raw → Option FixName → Option Nat → Bool → ResolveState →
      Option (Val × ResolveState))
    (objectNode : Nat) (hasContents : Bool) :
    List (String × Raw) → ResolveState → Option ResolveState
  | [], st => some st
  | (key, value) :: rest, st =>
    match recurse value (some (FixName.key ("/" ++ key))) (some objectNode) hasContents st with
    | none => none
    | some (v, st1) =>
      match st1.heap[objectNode]? with
      | some (Obj.dict props) =>
        resolveEntries recurse objectNode hasContents rest
          { st1 with heap := st1.heap.set objectNode (Obj.dict (props.set ("/" ++ key) v)) }
      | _ => none

/-- Lines 196-246 on the properties of `objectNode` for a stream: the bytes taken (decoded
when the stream is not an image and is one of `streamsToDecode`, and then the first filter or
the whole `/Filter` entry is dropped; otherwise those of the source found), turned into a
string when `contents` holds, the subtype is `/XML` or every byte is below 128, and `/Length`
deleted when there is a stream. The `Uint8Array` that stays goes on the heap. -/
def resolveStream (heap : Heap) (props : Props) (contents decodes : Bool)
    (decoded : List Nat) (source : Option (List Nat)) : Heap × Props :=
  let takes := decide (props.get "/Subtype" ≠ Val.str (jsStr "/Image")) && decodes
  let filtered : Heap × Props :=
    if takes then
      match props.get "/Filter" with
      | .ref id =>
        match heap[id]? with
        | some (Obj.arr items) =>
          if items.length > 1 then (heap.set id (Obj.arr items.tail), props)
          else (heap, props.delete "/Filter")
        | _ => (heap, props.delete "/Filter")
      | _ => (heap, props.delete "/Filter")
    else (heap, props)
  let bytes : Option (List Nat) := if takes then some decoded else source
  match bytes with
  | none => filtered
  | some data =>
    if contents || decide (filtered.2.get "/Subtype" = Val.str (jsStr "/XML")) ||
        data.all (fun byte => byte < 128) then
      (filtered.1, ((filtered.2.set "stream" (Val.str data)).delete "/Length"))
    else
      (filtered.1 ++ [bytesObject data],
        ((filtered.2.set "stream" (Val.ref filtered.1.length)).delete "/Length"))

/-- Lines 247-250: the resolved catalog is stored in `objCache` under its own key and
receives `num: this.nextNodeNum++` and `gen: 0`. -/
def registerCatalog (g : RawGraph) (objectNode : Nat) (st : ResolveState) : ResolveState :=
  match st.heap[objectNode]? with
  | some (Obj.dict props) =>
    { st with
      heap := st.heap.set objectNode
        (Obj.dict ((props.set "num" (Val.num st.nextNodeNum)).set "gen" (Val.num 0)))
      objCache := cacheSet st.objCache (g.catNum, 0) (Val.ref objectNode)
      nextNodeNum := st.nextNodeNum + 1 }
  | _ => st

/-- Lines 187-251: a dictionary or a stream with the identity `ident` and the entries
`entries`; `stream` holds what lines 196-246 need when the node is a stream. -/
def resolveObject (g : RawGraph)
    (recurse : Raw → Option FixName → Option Nat → Bool → ResolveState →
      Option (Val × ResolveState))
    (ident : Nat) (entries : List (String × Raw))
    (stream : Option (Bool × List Nat × Option (List Nat))) (contents : Bool)
    (st : ResolveState) : Option (Val × ResolveState) :=
  let objectNode := st.heap.length
  let hasContents :=
    match entries.lookup "Contents" with
    | some v => v.truthy
    | none => false
  match resolveEntries recurse objectNode hasContents entries
      { st with heap := st.heap ++ [Obj.dict []] } with
  | none => none
  | some st1 =>
    match st1.heap[objectNode]? with
    | some (Obj.dict props) =>
      let st2 : ResolveState :=
        match stream with
        | some (decodes, decoded, source) =>
          let r := resolveStream st1.heap props contents decodes decoded source
          { st1 with heap := r.1.set objectNode (Obj.dict r.2) }
        | none => st1
      some (Val.ref objectNode,
        if g.isCatDict ident then registerCatalog g objectNode st2 else st2)
    | _ => none

/-- Lines 139-255, `resolveNodeRefs(node, name, parent, contents)`: the value returned and
the state afterwards. A `Ref` that is returned unresolved (line 167) is an object with the
properties `num` and `gen`, put on the heap and listed in `refs`. `fuel` bounds the depth of the recursion
(`none`: it did not end within it). -/
def resolveNodeRefs (g : RawGraph) :
    Nat → Raw → Option FixName → Option Nat → Bool → ResolveState →
      Option (Val × ResolveState)
  | 0, _, _, _, _, _ => none
  | fuel + 1, node, name, parent, contents, st =>
    match node with
    | .ref num gen =>
      match st.objCache.lookup (num, gen) with
      | none =>
        match resolveNodeRefs g fuel (g.fetch num gen) name parent contents
            { st with objCache := cacheSet st.objCache (num, gen) Val.null } with
        | none => none
        | some (v, st1) =>
          let st2 : ResolveState :=
            { st1 with objCache := cacheSet st1.objCache (num, gen) v
                       heap := tagResolved st1.heap v }
          some (v, flushQueue st2 (num, gen) v)
      | some Val.null =>
        match name, parent with
        | some fixName, some fixParent =>
          some (Val.ref st.heap.length,
            { st with
              heap := st.heap ++ [Obj.dict [("num", Val.num num), ("gen", Val.num gen)]]
              refs := st.refs ++ [st.heap.length]
              objCacheQueue := queuePush st.objCacheQueue (num, gen) (fixName, fixParent) })
        | _, _ => none
      | some v => some (v, st)
    | .name s => some (Val.str (47 :: s), st)
    | .str s => some (Val.str ([40] ++ s ++ [41]), st)
    | .arr ident items =>
      match st.pdfManagerArrays.indexOf? ident with
      | some existingArrayIndex =>
        (st.pdfAssemblerArrays[existingArrayIndex]?).map (fun id => (Val.ref id, st))
      | none =>
        let newArrayNode := st.heap.length
        match resolveItems
            (fun element nm p c s => resolveNodeRefs g fuel element nm p c s)
            newArrayNode contents items 0
            { st with heap := st.heap ++ [Obj.arr []]
                      pdfManagerArrays := st.pdfManagerArrays ++ [ident]
                      pdfAssemblerArrays := st.pdfAssemblerArrays ++ [newArrayNode] } with
        | none => none
        | some st1 => some (Val.ref newArrayNode, st1)
    | .dict ident entries =>
      resolveObject g (fun element nm p c s => resolveNodeRefs g fuel element nm p c s)
        ident entries none contents st
    | .stream ident entries decodes decoded source =>
      resolveObject g (fun element nm p c s => resolveNodeRefs g fuel element nm p c s)
        ident entries (some (decodes, decoded, source)) contents st
    | .num n => some (Val.num n, st)
    | .bool b => some (Val.bool b, st)
    | .null => some (Val.null, st)

/-- The state of a fresh `PDFAssembler` (lines 25-31). -/
def ResolveState.fresh : ResolveState :=
  { heap := [], refs := [], objCache := [], objCacheQueue := [], pdfManagerArrays := [],
    pdfAssemblerArrays := [], nextNodeNum := 1 }

/-- Line 52, `this.pdfTree['/Root'] = this.resolveNodeRefs()`: the catalog resolved from a
fresh state. -/
def resolveRoot (g : RawGraph) (fuel : Nat) : Option (Val × ResolveState) :=
  resolveNodeRefs g fuel g.catDict none none false ResolveState.fresh

/-- A graph whose catalog `1 0` has the entry `/Self 1 0 R`, a reference to the catalog
itself. -/
def selfCatalogGraph : RawGraph :=
  { objects := [((1, 0), .dict 100 [("Type", .name (jsStr "Catalog")), ("Self", .ref 1 0)])],
    catNum := 1 }

/-- A graph whose catalog refers to the object `5 0`, a dictionary with the entry
`/Self 5 0 R`. -/
def selfDictGraph : RawGraph :=
  { objects := [
      ((1, 0), .dict 100 [("Type", .name (jsStr "Catalog")), ("A", .ref 5 0)]),
      ((5, 0), .dict 101 [("Self", .ref 5 0)])],
    catNum := 1 }

/-- A graph whose catalog refers twice to the object `5 0`, which is `null`. -/
def nullTwiceGraph : RawGraph :=
  { objects := [
      ((1, 0), .dict 100 [("Type", .name (jsStr "Catalog")), ("A", .ref 5 0),
        ("B", .ref 5 0)]),
      ((5, 0), .null)],
    catNum := 1 }

/-- The value a resolved object holds under `key`. -/
def entryOf (heap : Heap) (node : Val) (key : String) : Option Val :=
  match node with
  | .ref id =>
    match heap[id]? with
    | some (Obj.dict props) => props.lookup key
    | _ => none
  | _ => none

/-- Whether a value of the resolved tree is an unresolved reference, an instance of `Ref`. -/
def isUnresolved (st : ResolveState) : Val → Bool
  | .ref id => st.refs.contains id
  | _ => false

/-! ## The specification's reading of the escape table -/

/-- An octal digit, as a code unit. -/
def isOctalDigit (c : Nat) : Bool := decide (48 ≤ c ∧ c ≤ 55)

/-- The escapes the claim allows for the byte `b`: the character `b` itself when it is not a
parenthesis or the backslash; a backslash and `b` when it is one of them; the named escape of
8, 9, 10, 12 or 13; or a backslash and exactly three octal digits worth `b`. -/
def validEscape (b : Nat) (entry : List Nat) : Bool :=
  (entry == [b] && b != 40 && b != 41 && b != 92) ||
  (entry == [92, b] && (b == 40 || b == 41 || b == 92)) ||
  (b == 8 && entry == [92, 98]) || (b == 9 && entry == [92, 116]) ||
  (b == 10 && entry == [92, 110]) || (b == 12 && entry == [92, 102]) ||
  (b == 13 && entry == [92, 114]) ||
  (match entry with
    | [92, d1, d2, d3] =>
      isOctalDigit d1 && isOctalDigit d2 && isOctalDigit d3 &&
        ((d1 - 48) * 64 + (d2 - 48) * 8 + (d3 - 48) == b)
    | _ => false)

/-- Where a reader of a literal string stands (ISO 32000-1, 7.3.4.2): between escapes, after
a raw carriage return (a line feed that follows belongs to the same end of line), after a
backslash, or after a backslash and `count` octal digits worth `value`. -/
inductive ReadMode where
  | plain
  | afterCr
  | escape
  | octal (count value : Nat)
  deriving DecidableEq, Repr

/-- A byte read outside an escape at parenthesis depth `depth`: the bytes decoded and, unless
the byte is the parenthesis that closes the string, the mode and the depth afterwards. A
backslash opens an escape, balanced parentheses stand for themselves, and an end of line is
read as one line feed. -/
def plainStep (depth c : Nat) : List Nat × Option (ReadMode × Nat) :=
  if c = 92 then ([], some (ReadMode.escape, depth))
  else if c = 40 then ([40], some (ReadMode.plain, depth + 1))
  else if c = 41 then
    (if depth = 0 then ([], none) else ([41], some (ReadMode.plain, depth - 1)))
  else if c = 13 then ([10], some (ReadMode.afterCr, depth))
  else ([c], some (ReadMode.plain, depth))

/-- One byte of a literal string read in `mode`: after a backslash, `n`, `r`, `t`, `b`, `f`,
a parenthesis or a backslash give the byte they name, an octal digit opens a code of up to
three digits (taken modulo 256), an end of line is dropped, and before any other byte the
backslash is ignored. -/
def readStep (mode : ReadMode) (depth c : Nat) : List Nat × Option (ReadMode × Nat) :=
  match mode with
  | .plain => plainStep depth c
  | .afterCr => if c = 10 then ([], some (ReadMode.plain, depth)) else plainStep depth c
  | .escape =>
    if c = 110 then ([10], some (ReadMode.plain, depth))
    else if c = 114 then ([13], some (ReadMode.plain, depth))
    else if c = 116 then ([9], some (ReadMode.plain, depth))
    else if c = 98 then ([8], some (ReadMode.plain, depth))
    else if c = 102 then ([12], some (ReadMode.plain, depth))
    else if isOctalDigit c then ([], some (ReadMode.octal 1 (c - 48), depth))
    else if c = 13 then ([], some (ReadMode.afterCr, depth))
    else if c = 10 then ([], some (ReadMode.plain, depth))
    else ([c], some (ReadMode.plain, depth))
  | .octal count value =>
    if isOctalDigit c then
      (if count < 2 then ([], some (ReadMode.octal (count + 1) (value * 8 + (c - 48)), depth))
        else ([(value * 8 + (c - 48)) % 256], some (ReadMode.plain, depth)))
    else ((value % 256) :: (plainStep depth c).1, (plainStep depth c).2)

/-- The bytes a literal string stands for and the text after its closing parenthesis, read
from inside the string in `mode` at `depth`; `none` when the text ends before the string. -/
def readLiteralFrom : ReadMode → Nat → List Nat → Option (List Nat × List Nat)
  | _, _, [] => none
  | mode, depth, c :: rest =>
    match readStep mode depth c with
    | (out, none) => some (out, rest)
    | (out, some (mode', depth')) =>
      (readLiteralFrom mode' depth' rest).map (fun r => (out ++ r.1, r.2))

/-- The bytes of the literal string that begins `text`, and the text after it. -/
def readLiteral : List Nat → Option (List Nat × List Nat)
  | 40 :: rest => readLiteralFrom ReadMode.plain 0 rest
  | _ => none

/-- The bytes decoded over the whole of `s`, and the mode and depth afterwards; `none` when
the string closes inside `s`. -/
def readSteps : ReadMode → Nat → List Nat → Option (List Nat × ReadMode × Nat)
  | mode, depth, [] => some ([], mode, depth)
  | mode, depth, c :: rest =>
    match readStep mode depth c with
    | (_, none) => none
    | (out, some (mode', depth')) =>
      (readSteps mode' depth' rest).map (fun r => (out ++ r.1, r.2))

/-! ## The specification's reading of the order of the blocks -/

/-- The finished block in the slot `n`, as lines 558-559 and 573 keep it: none for a hole, a
placeholder or an empty block. -/
def blockAt (t : SlotTable) (n : Nat) : Option (List Nat) :=
  match t.get (n : Int) with
  | some (Slot.done block) => if block ≠ [] then some block else none
  | _ => none

/-- The finished blocks in the order in which their rendering completed. A write to a slot
puts its entry at the head of the table, and the last write to a slot is the one that stores
its finished block, so the table lists the finished blocks from the latest to the earliest. -/
def completedBlocks (t : SlotTable) : List (List Nat) :=
  t.reverse.filterMap (fun kv =>
    match kv.2 with
    | Slot.done block => some block
    | Slot.pending => none)

/-- A tree in which the object 2 is held twice by the catalog and holds the catalog and
itself. -/
def sharedHeap : Heap :=
  [.dict [("num", .num 1), ("gen", .num 0), ("/Type", .str (jsStr "/Catalog")),
      ("/A", .ref 1), ("/B", .ref 1)],
   .dict [("num", .num 2), ("gen", .num 0), ("/Up", .ref 0), ("/Me", .ref 1)]]

/-- A graph whose catalog refers to an empty page tree and, under `/A`, to the object `5 0`,
an array whose only element is a reference to the array itself. -/
def selfArrayGraph : RawGraph :=
  { objects := [
      ((1, 0), .dict 100 [("Type", .name (jsStr "Catalog")), ("Pages", .ref 2 0),
        ("A", .ref 5 0)]),
      ((2, 0), .dict 101 [("Type", .name (jsStr "Pages")), ("Count", .num 0),
        ("Kids", .arr 102 [])]),
      ((5, 0), .arr 103 [.ref 5 0])],
    catNum := 1 }

/-- What `assemblePdf` needs of the tree to run into an array that holds itself: the array,
and a root without a stream that holds it under the name `key`. -/
def HoldsCycle (root a : Nat) (items : List Val) (key : String) (heap : Heap) : Prop :=
  heap[a]? = some (Obj.arr items) ∧
  ∃ props, heap[root]? = some (Obj.dict props) ∧ props.get "stream" = Val.undefined ∧
    (key, Val.ref a) ∈ nameEntries props

/-- A tree in which the object 2 is held twice by the catalog and holds, under `/Loop`, an
array whose only element is the array itself. -/
def sharedCycleHeap : Heap :=
  [.dict [("num", .num 1), ("gen", .num 0), ("/Type", .str (jsStr "/Catalog")),
      ("/A", .ref 1), ("/B", .ref 1)],
   .dict [("num", .num 2), ("gen", .num 0), ("/Loop", .ref 2)],
   .arr [.ref 2]]

/-! ## The specification's reading of the cross-reference section -/

/-- The values `newPdfObject` goes on to from the object `id`: the elements of an array
(line 469), the values under the names of an object (lines 508-512). -/
def renderKids (heap : Heap) (id : Nat) : List Val :=
  match heap[id]? with
  | some (Obj.arr items) => items
  | some (Obj.dict props) => (nameEntries props).map (fun kv => kv.2)
  | none => []

/-- What `newPdfObject`, called on the values of a list in turn, does to the state, whatever
the texts: a value that is not an object changes nothing; an array has its elements rendered;
an object whose `num` is a number changes nothing when its slot holds something, and else is
opened, has the values under its names rendered and its block stored in its slot; any other
object has the values under its names rendered. -/
inductive Renders (opts : Options) (deflate : List Nat → List Nat) :
    List Val → RenderState → RenderState → Prop where
  | nil (st : RenderState) : Renders opts deflate [] st st
  | prim (v : Val) (vs : List Val) (st st' : RenderState) : (∀ id, v ≠ Val.ref id) →
      Renders opts deflate vs st st' → Renders opts deflate (v :: vs) st st'
  | arr (id : Nat) (items vs : List Val) (st s1 st' : RenderState) :
      st.heap[id]? = some (Obj.arr items) → Renders opts deflate items st s1 →
      Renders opts deflate vs s1 st' → Renders opts deflate (Val.ref id :: vs) st st'
  | token (id : Nat) (props : Props) (n : Int) (slot : Slot) (vs : List Val)
      (st st' : RenderState) :
      st.heap[id]? = some (Obj.dict props) → props.get "num" = Val.num n →
      st.indirectObjects.get n = some slot → Renders opts deflate vs st st' →
      Renders opts deflate (Val.ref id :: vs) st st'
  | indirect (id : Nat) (props : Props) (n : Int) (stream : Option (List Nat))
      (dictItems : List Nat) (vs : List Val) (st s1 st' : RenderState) :
      st.heap[id]? = some (Obj.dict props) → props.get "num" = Val.num n →
      st.indirectObjects.get n = none →
      (stream ≠ none → props.get "stream" ≠ Val.undefined) →
      Renders opts deflate
        ((nameEntries (openObject opts deflate st id props n stream).1).map (fun kv => kv.2))
        (openObject opts deflate st id props n stream).2.2 s1 →
      Renders opts deflate vs
        { s1 with indirectObjects := s1.indirectObjects.set n (Slot.done (finishObject opts
            (objectBody opts (Val.num n) (props.get "gen") dictItems)
            (openObject opts deflate st id props n stream).2.1)) } st' →
      Renders opts deflate (Val.ref id :: vs) st st'
  | inline (id : Nat) (props : Props) (vs : List Val) (st s1 st' : RenderState) :
      st.heap[id]? = some (Obj.dict props) → (∀ n, props.get "num" ≠ Val.num n) →
      Renders opts deflate ((nameEntries props).map (fun kv => kv.2)) st s1 →
      Renders opts deflate vs s1 st' → Renders opts deflate (Val.ref id :: vs) st st'

/-- The heap `heap` carries, node by node, the numbers and generations of `base`. -/
def SameNums (base heap : Heap) : Prop :=
  ∀ id, numOf heap id = numOf base id ∧ genOf heap id = genOf base id

/-- The objects `newPdfObject` goes on to from a node of `heap` are among the objects the
same node of `base` refers to. -/
def KidsIn (base heap : Heap) : Prop :=
  ∀ id c, Val.ref c ∈ renderKids heap id → c ∈ children base id

/-- Every slot of `t` that holds something has an index from 1 to `m`. -/
def SlotsIn (m : Nat) (t : SlotTable) : Prop :=
  ∀ (n : Int) (slot : Slot), t.get n = some slot → 1 ≤ n ∧ n ≤ (m : Int)

/-- The values the rendering of the node `id` of `doc` goes on to whatever `assemblePdf`
writes on the way: the elements of an array, and the values of an object under the names
that `assemblePdf` does not write (`mayWrite`). -/
def renderedFrom (doc : Document) (id : Nat) : List Val :=
  match doc.heap[id]? with
  | some (Obj.arr items) => items
  | some (Obj.dict props) =>
    ((nameEntries props).filter (fun kv => !mayWrite doc id kv.1)).map (fun kv => kv.2)
  | none => []

/-- The nodes of `doc` the rendering of the root descends into: the root, and every object
among `renderedFrom` of such a node. -/
inductive Rendered (doc : Document) : Nat → Prop where
  | root : Rendered doc doc.root
  | step (parent child : Nat) : Rendered doc parent →
      Val.ref child ∈ renderedFrom doc parent → Rendered doc child

/-- The objects `resetObjectIds` goes on to from the node `id` (lines 380 and 389-391): the
object elements of an array, and the object values of any other object, taken after line 387
has written `num` and `gen` when line 386 asks for a number. -/
def walkedFrom (heap : Heap) (id : Nat) : List Nat :=
  match heap[id]? with
  | some (Obj.arr items) => refsOf items
  | some (Obj.dict props) =>
    if needsNumber props then refsOf ((assignNumber props 0).map (fun kv => kv.2))
    else refsOf (props.map (fun kv => kv.2))
  | none => []

/-- The nodes of `doc` that `resetObjectIds` visits: the root, and every object among
`walkedFrom` of such a node. -/
inductive Walked (doc : Document) : Nat → Prop where
  | root : Walked doc doc.root
  | step (parent child : Nat) : Walked doc parent → child ∈ walkedFrom doc.heap parent →
      Walked doc child

/-- The heap `heap` still holds, at each object of `doc`, every entry under a name that
`assemblePdf` does not write. -/
def EntriesKept (doc : Document) (heap : Heap) : Prop :=
  ∀ (id : Nat) (props0 : Props) (key : String) (v : Val),
    doc.heap[id]? = some (Obj.dict props0) → (key, v) ∈ nameEntries props0 →
    mayWrite doc id key = false →
    ∃ props, heap[id]? = some (Obj.dict props) ∧ (key, v) ∈ nameEntries props

/-- From the value `v` the rendering meets the node `y`, which carries a number in `nums`,
without passing through another node that carries one. -/
inductive Front (doc : Document) (nums : Heap) : Val → Nat → Prop where
  | here (y : Nat) : (numOf nums y).isSome = true → Front doc nums (Val.ref y) y
  | through (u : Nat) (c : Val) (y : Nat) : numOf nums u = none → c ∈ renderedFrom doc u →
      Front doc nums c y → Front doc nums (Val.ref u) y

/-- The slot of the number of the node `y` holds something. -/
def Held (nums : Heap) (t : SlotTable) (y : Nat) : Prop :=
  ∃ n, numOf nums y = some n ∧ (t.get n).isSome = true

/-- Every node of `R` whose block is stored has the slots of the numbered nodes it leads to
filled or under way. -/
def Closed (doc : Document) (nums : Heap) (R : Nat → Prop) (t : SlotTable) : Prop :=
  ∀ (x : Nat) (n : Int) (block : List Nat), R x → numOf nums x = some n →
    t.get n = some (Slot.done block) →
    ∀ c ∈ renderedFrom doc x, ∀ y, Front doc nums c y → Held nums t y

/-- What the heap keeps through a rendering of `doc` that started from the heap `nums`: the
arrays and the entries `assemblePdf` does not write, the numbers and generations, and no
object to go on to that the node did not refer to. -/
def RenderInv (doc : Document) (nums heap : Heap) : Prop :=
  Unchanged doc heap ∧ EntriesKept doc heap ∧ SameNums nums heap ∧ KidsIn nums heap

/-- What `resetObjectIds` leaves of each object of `doc`: the object as it was, or, for an
object line 386 asks a number for, an object that refers to what the object refers to once
line 387 has written `num` and `gen`, and that holds numbers under `num` and `gen`. -/
def ResetShape (doc : Document) (heap : Heap) : Prop :=
  ∀ id : Nat, heap[id]? = doc.heap[id]? ∨
    ∃ (props0 props : Props), doc.heap[id]? = some (Obj.dict props0) ∧ needsNumber props0 = true ∧
      heap[id]? = some (Obj.dict props) ∧
      refsOf (props.map (fun kv => kv.2))
        = refsOf ((assignNumber props0 0).map (fun kv => kv.2)) ∧
      (∃ a, props.lookup "num" = some (Val.num a)) ∧
      (∃ b, props.lookup "gen" = some (Val.num b))

/-- The blocks written to the file, in the order of lines 558-559 and 573. -/
def Assembled.blocks (a : Assembled) : List (List Nat) := filledBlocks a.indirectObjects

/-- A document as the page-tree normalisation leaves it: a catalog, a page-tree root and a
page that carry `num` 0 and no `gen`, the page as line 333 leaves it, with its `/Parent`
back-reference after its own entries, and a content stream; the info dictionary carries the
number 9 of an earlier call. -/
def pagesDocument : Document :=
  { heap := [
      .dict [("/Type", .str (jsStr "/Catalog")), ("/Pages", .ref 1)],
      .dict [("num", .num 0), ("/Type", .str (jsStr "/Pages")), ("/Kids", .ref 2),
        ("/Count", .num 1)],
      .arr [.ref 3],
      .dict [("/Type", .str (jsStr "/Page")), ("/Contents", .ref 4), ("num", .num 0),
        ("/Parent", .ref 1)],
      .dict [("stream", .str (jsStr "Hello"))],
      .dict [("/Title", .str (jsStr "(T)")), ("gen", .num 0), ("num", .num 9)]],
    root := 0, info := 5, objCache := [], nextNodeNum := 1 }

/-- A document whose catalog holds a `/Metadata` object under the key `extra`, which is not a
name: `resetObjectIds` follows every key and numbers the object, `newPdfObject` renders the
entries under names only. -/
def plainKeyDocument : Document :=
  { heap := [
      .dict [("/Type", .str (jsStr "/Catalog")), ("extra", .ref 1), ("/Data", .ref 2)],
      .dict [("/Type", .str (jsStr "/Metadata"))],
      .dict [("stream", .str (jsStr "Hello"))],
      .dict []],
    root := 0, info := 3, objCache := [], nextNodeNum := 1 }

/-! # Theorems -/

/-! ## Lemmas on the string helpers -/

theorem toDigitsCore_length_ge (b : Nat) :
    ∀ (fuel n : Nat) (ds : List Char), ds.length ≤ (Nat.toDigitsCore b fuel n ds).length := by
  intro fuel
  induction fuel with
  | zero => intro n ds; simp [Nat.toDigitsCore]
  | succ f ih =>
    intro n ds
    simp only [Nat.toDigitsCore]
    split
    · simp
    · exact Nat.le_trans (by simp) (ih _ _)

theorem toString16_length_pos (n : Nat) : 1 ≤ (toString16 n).length := by
  unfold toString16 Nat.toDigits
  simp only [List.length_map, Nat.toDigitsCore]
  split
  · simp
  · exact Nat.le_trans (by simp) (toDigitsCore_length_ge 16 _ _ _)

theorem sliceLast_two_length (n : Nat) : (sliceLast 2 (48 :: toString16 n)).length = 2 := by
  have h := toString16_length_pos n
  simp only [sliceLast, List.length_drop, List.length_cons]
  omega

theorem hexEncode_length (byteArray : List Nat) :
    (hexEncode byteArray).length = 2 * byteArray.length := by
  induction byteArray with
  | nil => rfl
  | cons b bs ih =>
    have h : hexEncode (b :: bs) = sliceLast 2 (48 :: toString16 b) ++ hexEncode bs := by
      simp [hexEncode]
    rw [h, List.length_append, sliceLast_two_length, ih, List.length_cons]
    omega

set_option maxRecDepth 100000 in
theorem stringByteMap_length : stringByteMap.length = 256 := by
  decide

set_option maxRecDepth 100000 in
theorem stringByteMap_plain : ∀ b < 127, plainByte b → stringByteMap.getD b [] = [b] := by
  decide

set_option maxRecDepth 100000 in
theorem hexForm_of_octal : ∀ b < 256, (stringByteMap.getD b []).length = 4 →
    encodeString [b] = 60 :: hexPair b ++ [62] := by
  decide

theorem stringEncode_plain (bs : List Nat) (h : ∀ b ∈ bs, plainByte b) :
    stringEncode bs = bs := by
  induction bs with
  | nil => rfl
  | cons b bs ih =>
    have hb := h b (List.mem_cons_self _ _)
    have hrest : stringEncode bs = bs := ih (fun x hx => h x (List.mem_cons_of_mem _ hx))
    have hstep : stringEncode (b :: bs) = stringByteMap.getD b [] ++ stringEncode bs := by
      simp [stringEncode]
    rw [hstep, hrest, stringByteMap_plain b (by unfold plainByte at hb; omega) hb]
    rfl

theorem encodeChar_special : ∀ c ∈ nameSpecials, encodeChar c = 35 :: hexPair c := by
  decide

theorem encodeChar_other (c : Nat) (h : c ∉ nameSpecials) : encodeChar c = [c] := by
  unfold encodeChar
  rw [if_pos (List.indexOf_eq_length.mpr h)]

/-- Away from line feed and carriage return the name branch is the rule of the
specification: every listed character becomes `#xx`, every other one is kept. -/
theorem encodeName_eq_spec (name : List Nat) (h : ∀ c ∈ name.drop 1, c ≠ 10 ∧ c ≠ 13) :
    encodeName name = escapeNameSpec name := by
  unfold encodeName escapeNameSpec replaceDotAll
  congr 1
  apply List.flatMap_congr
  intro c hc
  obtain ⟨h10, h13⟩ := h c hc
  by_cases hs : c ∈ nameSpecials
  · have hdot : dotMatches c = true := by
      have : ∀ x ∈ nameSpecials, x ≠ 10 → x ≠ 13 → dotMatches x = true := by decide
      exact this c hs h10 h13
    rw [if_pos hdot, if_pos hs, encodeChar_special c hs]
  · rw [if_neg hs, encodeChar_other c hs]
    split <;> rfl

/-! ## Claims on names and strings -/

/-- C1: on the name `/A`, line feed, `B` the name branch emits the line feed unchanged, where
the claim asks for `#0a`, because `.` in `replace(/./g, encodeChar)` never matches a line
terminator; the name `/A#B` does become `/A#23B`. -/
theorem encodeName_line_feed_unescaped :
    encodeName [47, 65, 10, 66] = [47, 65, 10, 66] ∧
    escapeNameSpec [47, 65, 10, 66] = jsStr "/A#0aB" ∧
    encodeName [47, 65, 10, 66] ≠ escapeNameSpec [47, 65, 10, 66] ∧
    encodeName (jsStr "/A#B") = jsStr "/A#23B" := by
  decide

/-- C2 as stated fails: the one-byte string holding a line feed has the literal text `\n` of
length 2 and the hex text `0a` of length 2, so the stated rule (hex only from twice the hex
length on) gives the literal form while the code emits the hex form `<0a>`. -/
theorem encodeString_line_feed_not_spec :
    encodeString [10] = jsStr "<0a>" ∧ encodeStringSpec [10] = jsStr "(\\n)" ∧
    encodeString [10] ≠ encodeStringSpec [10] := by
  decide

/-- C2 amended: the string branch emits the literal form `(` escaped bytes `)` unless the
escaped literal text is at least as long as the hex text (two hex digits per byte), in which
case it emits the hex form `<` hex digits `>`. -/
theorem encodeString_literal_unless_not_shorter (byteArray : List Nat) :
    (hexEncode byteArray).length = 2 * byteArray.length ∧
    encodeString byteArray =
      if (hexEncode byteArray).length ≤ (stringEncode byteArray).length then
        60 :: hexEncode byteArray ++ [62]
      else
        40 :: stringEncode byteArray ++ [41] := by
  refine ⟨hexEncode_length byteArray, ?_⟩
  unfold encodeString
  rw [hexEncode_length]
  by_cases h : (stringEncode byteArray).length < byteArray.length * 2
  · rw [if_pos h, if_neg (by omega)]
  · rw [if_neg h, if_pos (by omega)]

/-- C3: a single byte whose table entry is a four-character octal escape serializes in hex
form `<xx>`, and a non-empty string of printable ASCII bytes other than `(`, `)` and the
backslash serializes in literal form, the same characters between parentheses. -/
theorem encodeString_octal_hex_plain_literal (b : Nat)
    (hoct : (stringByteMap.getD b []).length = 4)
    (bs : List Nat) (hne : bs ≠ []) (hplain : ∀ x ∈ bs, plainByte x) :
    encodeString [b] = 60 :: hexPair b ++ [62] ∧ encodeString bs = 40 :: bs ++ [41] := by
  have hb : b < 256 := by
    by_contra hge
    have hlen : stringByteMap.length ≤ b := by
      rw [stringByteMap_length]
      omega
    rw [List.getD_eq_default _ _ hlen] at hoct
    simp at hoct
  refine ⟨hexForm_of_octal b hb hoct, ?_⟩
  have hlen : 0 < bs.length := List.length_pos.mpr hne
  unfold encodeString
  rw [stringEncode_plain bs hplain, if_pos (by omega)]

/-- C3 at the byte 0 and the string `Hello`. -/
theorem encodeString_octal_hex_plain_literal_witness :
    encodeString [0] = jsStr "<00>" ∧ encodeString (jsStr "Hello") = jsStr "(Hello)" :=
  encodeString_octal_hex_plain_literal 0 (by decide) (jsStr "Hello") (by decide) (by decide)

/-! ## Lemmas on property lists -/

theorem Props.lookup_set_self (o : Props) (key : String) (v : Val) :
    (o.set key v).lookup key = some v := by
  induction o with
  | nil => simp [Props.set, List.lookup]
  | cons kv rest ih =>
    obtain ⟨k, w⟩ := kv
    by_cases h : k = key
    · simp [Props.set, h, List.lookup]
    · have h2 : (key == k) = false := by simpa using fun e => h e.symm
      simp [Props.set, h, List.lookup, h2, ih]

theorem Props.lookup_set_ne (o : Props) (key other : String) (v : Val) (h : other ≠ key) :
    (o.set key v).lookup other = o.lookup other := by
  induction o with
  | nil =>
    have h2 : (other == key) = false := by simpa using h
    simp [Props.set, List.lookup, h2]
  | cons kv rest ih =>
    obtain ⟨k, w⟩ := kv
    by_cases hk : k = key
    · subst hk
      have h2 : (other == k) = false := by simpa using h
      simp [Props.set, List.lookup, h2]
    · by_cases ho : other = k
      · subst ho
        simp [Props.set, hk, List.lookup]
      · have h2 : (other == k) = false := by simpa using ho
        simp [Props.set, hk, List.lookup, h2, ih]

theorem Props.get_set_self (o : Props) (key : String) (v : Val) : (o.set key v).get key = v := by
  simp [Props.get, Props.lookup_set_self]

theorem Props.get_set_ne (o : Props) (key other : String) (v : Val) (h : other ≠ key) :
    (o.set key v).get other = o.get other := by
  simp [Props.get, Props.lookup_set_ne o key other v h]

/-- C4 as stated fails: a stream of 40 bytes that has a `/Filter` entry with the value
`null` (or `false`), with compression on and a compressor that returns 3 bytes, is written
with the compressed payload and the entry overwritten by `/FlateDecode`, where the claim
keeps payload and entry because the node has a `/Filter` entry. -/
theorem compressStream_null_filter_not_claim :
    ¬ compressClaim true (fun _ => [120, 156, 3])
        { props := [("/Filter", Val.null)], stream := List.replicate 40 0 } ∧
    ¬ compressClaim true (fun _ => [120, 156, 3])
        { props := [("/Filter", Val.bool false)], stream := List.replicate 40 0 } := by
  unfold compressClaim
  decide

/-- C4 amended: the compressed form is adopted, with `/Filter` set to `/FlateDecode`, when
compression is on, the node's `/Filter` is absent or falsy (such as `null`), the payload is
non-empty and compressed length + 19 < original length; otherwise payload and `/Filter` are
left as they were. Either way `/Length` is the byte length of the payload written. -/
theorem compressStream_threshold (compress : Bool) (deflate : List Nat → List Nat)
    (o : StreamObject) :
    (compress = true ∧ truthy (o.props.get "/Filter") = false ∧ o.stream ≠ [] ∧
        (deflate (stringToBytes o.stream)).length + 19 < o.stream.length →
      (compressStream compress deflate o).stream = deflate (stringToBytes o.stream) ∧
      (compressStream compress deflate o).props.lookup "/Filter"
        = some (Val.str (jsStr "/FlateDecode"))) ∧
    (¬ (compress = true ∧ truthy (o.props.get "/Filter") = false ∧ o.stream ≠ [] ∧
        (deflate (stringToBytes o.stream)).length + 19 < o.stream.length) →
      (compressStream compress deflate o).stream = o.stream ∧
      (compressStream compress deflate o).props.lookup "/Filter" = o.props.lookup "/Filter") ∧
    (compressStream compress deflate o).props.lookup "/Length"
      = some (Val.num (stringToBytes (compressStream compress deflate o).stream).length) := by
  have hne : ("/Filter" : String) ≠ "/Length" := by decide
  refine ⟨?_, ?_, ?_⟩
  · rintro ⟨hc, hf, hs, hlt⟩
    have hlen : o.stream.length ≠ 0 := by simpa using hs
    simp [compressStream, hlen, hc, hf, hlt, Props.lookup_set_ne _ _ _ _ hne,
      Props.lookup_set_self]
  · intro hn
    unfold compressStream
    by_cases hlen : o.stream.length ≠ 0
    · by_cases hcf : (compress && !truthy (o.props.get "/Filter")) = true
      · by_cases hlt : (deflate (stringToBytes o.stream)).length + 19 < o.stream.length
        · exfalso
          apply hn
          simp only [Bool.and_eq_true, Bool.not_eq_true', ] at hcf
          exact ⟨hcf.1, hcf.2, by simpa using hlen, hlt⟩
        · simp [hlen, hcf, hlt, Props.lookup_set_ne _ _ _ _ hne]
      · simp [hlen, hcf, Props.lookup_set_ne _ _ _ _ hne]
    · simp [hlen, Props.lookup_set_ne _ _ _ _ hne]
  · simp [compressStream, Props.lookup_set_self, stringToBytes]
/-- C4 amended, at a stream of 40 bytes without `/Filter`: a 3-byte compressor result is
adopted (3 + 19 < 40), a 30-byte one is not (30 + 19 ≥ 40). -/
theorem compressStream_threshold_witness :
    ((compressStream true (fun _ => [120, 156, 3]) ⟨[], List.replicate 40 0⟩).stream
        = [120, 156, 3] ∧
      (compressStream true (fun _ => [120, 156, 3]) ⟨[], List.replicate 40 0⟩).props.lookup
        "/Filter" = some (Val.str (jsStr "/FlateDecode"))) ∧
    ((compressStream true (fun _ => List.replicate 30 1) ⟨[], List.replicate 40 0⟩).stream
        = List.replicate 40 0 ∧
      (compressStream true (fun _ => List.replicate 30 1) ⟨[], List.replicate 40 0⟩).props.lookup
        "/Filter" = none) :=
  ⟨(compressStream_threshold true (fun _ => [120, 156, 3]) ⟨[], List.replicate 40 0⟩).1
      (by decide),
   (compressStream_threshold true (fun _ => List.replicate 30 1) ⟨[], List.replicate 40 0⟩).2.1
      (by decide)⟩

/-! ## Flattening -/

theorem Props.filter_set_of_dropped (o : Props) (key : String) (v : Val)
    (keep : String → Bool) (h : keep key = false) :
    (o.set key v).filter (fun kv => keep kv.1) = o.filter (fun kv => keep kv.1) := by
  induction o with
  | nil => simp [Props.set, h]
  | cons kv rest ih =>
    obtain ⟨k, w⟩ := kv
    by_cases hk : k = key
    · subst hk; simp [Props.set, h]
    · simp [Props.set, hk, List.filter_cons, ih]

theorem stripInherited_setProp (page : PageNode) (attr : String) (v : Val)
    (h : attr ∈ inheritable) : stripInherited (page.setProp attr v) = stripInherited page := by
  have hk : (fun s => !inheritable.contains s) attr = false := by simpa using h
  cases page with
  | leaf props =>
    simp only [PageNode.setProp, stripInherited]
    rw [Props.filter_set_of_dropped props attr v (fun s => !inheritable.contains s) hk]
  | pages props kids =>
    simp only [PageNode.setProp, stripInherited]
    rw [Props.filter_set_of_dropped props attr v (fun s => !inheritable.contains s) hk]

theorem isLeaf_setProp (page : PageNode) (key : String) (v : Val) :
    (page.setProp key v).isLeaf = page.isLeaf := by
  cases page <;> rfl

theorem inheritStep_strip (st : List PageNode × Props) (attr : String) (h : attr ∈ inheritable) :
    (inheritStep st attr).1.map stripInherited = st.1.map stripInherited := by
  simp only [inheritStep, List.map_map]
  apply List.map_congr_left
  intro page _
  simp only [Function.comp]
  split
  · rfl
  · exact stripInherited_setProp page attr _ h

theorem inheritStep_isLeaf (st : List PageNode × Props) (attr : String)
    (h : ∀ p ∈ st.1, p.isLeaf = true) : ∀ p ∈ (inheritStep st attr).1, p.isLeaf = true := by
  intro p hp
  simp only [inheritStep, List.mem_map] at hp
  obtain ⟨q, hq, rfl⟩ := hp
  split
  · exact h q hq
  · rw [isLeaf_setProp]; exact h q hq

theorem foldl_inheritStep_strip (attrs : List String) (hattrs : ∀ a ∈ attrs, a ∈ inheritable)
    (st : List PageNode × Props) :
    (attrs.foldl inheritStep st).1.map stripInherited = st.1.map stripInherited := by
  induction attrs generalizing st with
  | nil => rfl
  | cons a rest ih =>
    rw [List.foldl_cons, ih (fun x hx => hattrs x (List.mem_cons_of_mem _ hx)),
      inheritStep_strip st a (hattrs a (List.mem_cons_self _ _))]

theorem foldl_inheritStep_isLeaf (attrs : List String) (st : List PageNode × Props)
    (h : ∀ p ∈ st.1, p.isLeaf = true) :
    ∀ p ∈ (attrs.foldl inheritStep st).1, p.isLeaf = true := by
  induction attrs generalizing st with
  | nil => exact h
  | cons a rest ih =>
    rw [List.foldl_cons]
    exact ih _ (inheritStep_isLeaf st a h)

theorem pushDown_strip (flat : List PageNode) (parent : Props) :
    (pushDown flat parent).1.map stripInherited = flat.map stripInherited :=
  foldl_inheritStep_strip _ (fun _ ha => (List.mem_filter.mp ha).1) (flat, parent)

theorem pushDown_isLeaf (flat : List PageNode) (parent : Props)
    (h : ∀ p ∈ flat, p.isLeaf = true) : ∀ p ∈ (pushDown flat parent).1, p.isLeaf = true :=
  foldl_inheritStep_isLeaf _ (flat, parent) h

mutual
theorem flattenNode_strip : ∀ page : PageNode,
    (flattenNode page).map stripInherited = (leavesOf page).map stripInherited
  | .leaf _ => by simp [flattenNode, leavesOf]
  | .pages props kids => by
    simp only [flattenNode, leavesOf]
    rw [pushDown_strip, flattenKids_strip kids]
theorem flattenKids_strip : ∀ kids : List PageNode,
    (flattenKids kids).map stripInherited = (leavesOfKids kids).map stripInherited
  | [] => by simp [flattenKids, leavesOfKids]
  | page :: rest => by
    simp only [flattenKids, leavesOfKids, List.map_append]
    rw [flattenNode_strip page, flattenKids_strip rest]
end

mutual
theorem flattenNode_isLeaf : ∀ page : PageNode, ∀ p ∈ flattenNode page, p.isLeaf = true
  | .leaf _ => by simp [flattenNode, PageNode.isLeaf]
  | .pages props kids => by
    simp only [flattenNode]
    exact pushDown_isLeaf _ _ (flattenKids_isLeaf kids)
theorem flattenKids_isLeaf : ∀ kids : List PageNode, ∀ p ∈ flattenKids kids, p.isLeaf = true
  | [] => by simp [flattenKids]
  | page :: rest => by
    intro p hp
    simp only [flattenKids, List.mem_append] at hp
    rcases hp with hp | hp
    · exact flattenNode_isLeaf page p hp
    · exact flattenKids_isLeaf rest p hp
end

/-- C6: after `flattenPageTree` the root's `/Kids` is the sequence of the leaf pages of the
original tree in pre-order, left to right (each the original page, up to the inherited
attributes it received), no node with `/Kids` remains in it, and the root's `/Count` is the
length of that sequence. -/
theorem flattenPageTree_leaves (props : Props) (kids : List PageNode) :
    ∃ props' kids', flattenPageTree (.pages props kids) = some (.pages props' kids') ∧
      kids'.map stripInherited = (leavesOfKids kids).map stripInherited ∧
      kids'.all PageNode.isLeaf = true ∧
      props'.get "/Count" = Val.num (leavesOfKids kids).length := by
  refine ⟨_, _, rfl, ?_, ?_, ?_⟩
  · rw [pushDown_strip, flattenKids_strip]
  · rw [List.all_eq_true]
    exact pushDown_isLeaf _ _ (flattenKids_isLeaf kids)
  · rw [Props.get_set_self]
    have h := congrArg List.length
      ((pushDown_strip (flattenKids kids) props).trans (flattenKids_strip kids))
    simp only [List.length_map] at h
    rw [h]

/-! ## Grouping: sequences of kids -/

theorem leavesOfKids_append (a b : List PageNode) :
    leavesOfKids (a ++ b) = leavesOfKids a ++ leavesOfKids b := by
  induction a with
  | nil => simp [leavesOfKids]
  | cons p rest ih => simp [leavesOfKids, ih]

theorem flattenKids_append (a b : List PageNode) :
    flattenKids (a ++ b) = flattenKids a ++ flattenKids b := by
  induction a with
  | nil => simp [flattenKids]
  | cons p rest ih => simp [flattenKids, ih]

theorem countsOkKids_append (a b : List PageNode) :
    countsOkKids (a ++ b) = (countsOkKids a && countsOkKids b) := by
  induction a with
  | nil => simp [countsOkKids]
  | cons p rest ih => simp [countsOkKids, ih, Bool.and_assoc]

theorem fanOkKids_append (B : Nat) (a b : List PageNode) :
    fanOkKids B (a ++ b) = (fanOkKids B a && fanOkKids B b) := by
  induction a with
  | nil => simp [fanOkKids]
  | cons p rest ih => simp [fanOkKids, ih, Bool.and_assoc]

theorem depthOfKids_append (a b : List PageNode) :
    depthOfKids (a ++ b) = max (depthOfKids a) (depthOfKids b) := by
  induction a with
  | nil => simp [depthOfKids]
  | cons p rest ih => simp [depthOfKids, ih, Nat.max_assoc]

theorem isLeaf_assignPage (page : PageNode) : (assignPage page).isLeaf = page.isLeaf :=
  isLeaf_setProp page _ _

theorem leavesOfKids_of_leaves (l : List PageNode) (h : ∀ p ∈ l, p.isLeaf = true) :
    leavesOfKids l = l := by
  induction l with
  | nil => rfl
  | cons p rest ih =>
    have hp := h p (List.mem_cons_self _ _)
    have hr := ih (fun x hx => h x (List.mem_cons_of_mem _ hx))
    cases p with
    | leaf props => simp [leavesOfKids, leavesOf, hr]
    | pages props kids => simp [PageNode.isLeaf] at hp

theorem flattenKids_of_leaves (l : List PageNode) (h : ∀ p ∈ l, p.isLeaf = true) :
    flattenKids l = l := by
  induction l with
  | nil => rfl
  | cons p rest ih =>
    have hp := h p (List.mem_cons_self _ _)
    have hr := ih (fun x hx => h x (List.mem_cons_of_mem _ hx))
    cases p with
    | leaf props => simp [flattenKids, flattenNode, hr]
    | pages props kids => simp [PageNode.isLeaf] at hp

theorem countsOkKids_of_leaves (l : List PageNode) (h : ∀ p ∈ l, p.isLeaf = true) :
    countsOkKids l = true := by
  induction l with
  | nil => rfl
  | cons p rest ih =>
    have hp := h p (List.mem_cons_self _ _)
    have hr := ih (fun x hx => h x (List.mem_cons_of_mem _ hx))
    cases p with
    | leaf props => simp [countsOkKids, countsOk, hr]
    | pages props kids => simp [PageNode.isLeaf] at hp

theorem fanOkKids_of_leaves (B : Nat) (l : List PageNode) (h : ∀ p ∈ l, p.isLeaf = true) :
    fanOkKids B l = true := by
  induction l with
  | nil => rfl
  | cons p rest ih =>
    have hp := h p (List.mem_cons_self _ _)
    have hr := ih (fun x hx => h x (List.mem_cons_of_mem _ hx))
    cases p with
    | leaf props => simp [fanOkKids, fanOk, hr]
    | pages props kids => simp [PageNode.isLeaf] at hp

theorem depthOfKids_of_leaves (l : List PageNode) (h : ∀ p ∈ l, p.isLeaf = true) :
    depthOfKids l ≤ 1 := by
  induction l with
  | nil => simp [depthOfKids]
  | cons p rest ih =>
    have hp := h p (List.mem_cons_self _ _)
    have hr := ih (fun x hx => h x (List.mem_cons_of_mem _ hx))
    cases p with
    | leaf props => simp [depthOfKids, leafDepth, hr]
    | pages props kids => simp [PageNode.isLeaf] at hp

theorem depthOfKids_pos (l : List PageNode) (h : l ≠ []) : 1 ≤ depthOfKids l := by
  cases l with
  | nil => exact absurd rfl h
  | cons p rest => simp [depthOfKids]

theorem assigned_isLeaf (l : List PageNode) (h : ∀ p ∈ l, p.isLeaf = true) :
    ∀ p ∈ l.map assignPage, p.isLeaf = true := by
  intro p hp
  obtain ⟨q, hq, rfl⟩ := List.mem_map.mp hp
  rw [isLeaf_assignPage]; exact h q hq

/-! ## Grouping: the branch slices -/

theorem branchSlice_eq (pageTree : List PageNode) (branchSize i : Nat) :
    branchSlice pageTree branchSize i = (pageTree.drop (branchSize * i)).take branchSize := by
  unfold branchSlice
  congr 1
  rw [Nat.mul_succ]; omega

theorem branchSlice_length_le (pageTree : List PageNode) (branchSize i : Nat) :
    (branchSlice pageTree branchSize i).length ≤ branchSize := by
  rw [branchSlice_eq, List.length_take]; omega

theorem branchSlice_mem (pageTree : List PageNode) (branchSize i : Nat) :
    ∀ p ∈ branchSlice pageTree branchSize i, p ∈ pageTree := by
  intro p hp
  rw [branchSlice_eq] at hp
  exact List.mem_of_mem_drop (List.mem_of_mem_take hp)

theorem branchSlice_zero_length (pageTree : List PageNode) (branchSize : Nat) :
    (branchSlice pageTree branchSize 0).length = min branchSize pageTree.length := by
  rw [branchSlice_eq]; simp

theorem flatMap_branchSlice (pageTree : List PageNode) (branchSize m : Nat) :
    (List.range m).flatMap (branchSlice pageTree branchSize) = pageTree.take (branchSize * m) := by
  induction m with
  | zero => simp
  | succ m ih =>
    have h1 : [m].flatMap (branchSlice pageTree branchSize)
        = (pageTree.drop (branchSize * m)).take branchSize := by
      simp [List.flatMap, branchSlice_eq]
    rw [List.range_succ, List.flatMap_append, ih, h1, Nat.mul_succ, List.take_add]

theorem flatMap_branchSlice_all (pageTree : List PageNode) (branchSize m : Nat)
    (h : pageTree.length ≤ branchSize * m) :
    (List.range m).flatMap (branchSlice pageTree branchSize) = pageTree := by
  rw [flatMap_branchSlice, List.take_of_length_le h]

/-! ## Grouping: the loop over the branches -/

theorem groupLoop_eq_some (recurse : List PageNode → Option (List PageNode))
    (pageTree : List PageNode) (branchSize : Nat) (indices : List Nat)
    (h : ∀ i ∈ indices, 2 ≤ (branchSlice pageTree branchSize i).length →
      (recurse (branchSlice pageTree branchSize i)).isSome = true) :
    groupLoop recurse pageTree branchSize indices = some (indices.flatMap (fun i =>
      branchItem (fun c => (recurse c).getD []) (branchSlice pageTree branchSize i))) := by
  induction indices with
  | nil => rfl
  | cons i rest ih =>
    have ihr := ih (fun j hj => h j (List.mem_cons_of_mem _ hj))
    have hi := h i (List.mem_cons_self _ _)
    rw [List.flatMap_cons]
    rcases hsl : branchSlice pageTree branchSize i with _ | ⟨p, _ | ⟨q, tl⟩⟩
    · simp [groupLoop, hsl, ihr, branchItem]
    · simp [groupLoop, hsl, ihr, branchItem]
    · rw [hsl] at hi
      obtain ⟨kids, hk⟩ := Option.isSome_iff_exists.mp (hi (by simp))
      simp [groupLoop, hsl, ihr, branchItem, hk]

theorem pushDown_pagesObjectProps (flat : List PageNode) (count : Nat) :
    (pushDown flat (pagesObjectProps count)).1 = flat := by
  have h : inheritable.filter (fun attr => truthy ((pagesObjectProps count).get attr)) = [] := by
    simp [inheritable, pagesObjectProps, Props.get, List.lookup, truthy]
  simp [pushDown, h]

theorem flatMap_length_le (indices : List Nat) (F : Nat → List PageNode)
    (h : ∀ i ∈ indices, (F i).length ≤ 1) : (indices.flatMap F).length ≤ indices.length := by
  induction indices with
  | nil => simp
  | cons i rest ih =>
    have h1 := h i (List.mem_cons_self _ _)
    have h2 := ih (fun j hj => h j (List.mem_cons_of_mem _ hj))
    simp only [List.flatMap_cons, List.length_append, List.length_cons]
    omega

theorem leavesOfKids_flatMap (indices : List Nat) (F G : Nat → List PageNode)
    (h : ∀ i ∈ indices, leavesOfKids (F i) = G i) :
    leavesOfKids (indices.flatMap F) = indices.flatMap G := by
  induction indices with
  | nil => simp [leavesOfKids]
  | cons i rest ih =>
    rw [List.flatMap_cons, List.flatMap_cons, leavesOfKids_append,
      h i (List.mem_cons_self _ _), ih (fun j hj => h j (List.mem_cons_of_mem _ hj))]

theorem flattenKids_flatMap (indices : List Nat) (F G : Nat → List PageNode)
    (h : ∀ i ∈ indices, flattenKids (F i) = G i) :
    flattenKids (indices.flatMap F) = indices.flatMap G := by
  induction indices with
  | nil => simp [flattenKids]
  | cons i rest ih =>
    rw [List.flatMap_cons, List.flatMap_cons, flattenKids_append,
      h i (List.mem_cons_self _ _), ih (fun j hj => h j (List.mem_cons_of_mem _ hj))]

theorem countsOkKids_flatMap (indices : List Nat) (F : Nat → List PageNode)
    (h : ∀ i ∈ indices, countsOkKids (F i) = true) :
    countsOkKids (indices.flatMap F) = true := by
  induction indices with
  | nil => simp [countsOkKids]
  | cons i rest ih =>
    rw [List.flatMap_cons, countsOkKids_append, h i (List.mem_cons_self _ _),
      ih (fun j hj => h j (List.mem_cons_of_mem _ hj))]
    rfl

theorem fanOkKids_flatMap (B : Nat) (indices : List Nat) (F : Nat → List PageNode)
    (h : ∀ i ∈ indices, fanOkKids B (F i) = true) :
    fanOkKids B (indices.flatMap F) = true := by
  induction indices with
  | nil => simp [fanOkKids]
  | cons i rest ih =>
    rw [List.flatMap_cons, fanOkKids_append, h i (List.mem_cons_self _ _),
      ih (fun j hj => h j (List.mem_cons_of_mem _ hj))]
    rfl

theorem depthOfKids_flatMap_le (d : Nat) (indices : List Nat) (F : Nat → List PageNode)
    (h : ∀ i ∈ indices, depthOfKids (F i) ≤ d) : depthOfKids (indices.flatMap F) ≤ d := by
  induction indices with
  | nil => simp [depthOfKids]
  | cons i rest ih =>
    rw [List.flatMap_cons, depthOfKids_append]
    exact Nat.max_le.mpr ⟨h i (List.mem_cons_self _ _),
      ih (fun j hj => h j (List.mem_cons_of_mem _ hj))⟩

theorem depthOfKids_flatMap_ge (indices : List Nat) (F : Nat → List PageNode) (i : Nat)
    (hi : i ∈ indices) : depthOfKids (F i) ≤ depthOfKids (indices.flatMap F) := by
  induction indices with
  | nil => simp at hi
  | cons j rest ih =>
    rw [List.flatMap_cons, depthOfKids_append]
    rcases List.mem_cons.mp hi with rfl | hr
    · exact Nat.le_max_left _ _
    · exact Nat.le_trans (ih hr) (Nat.le_max_right _ _)

theorem map_flatMap_assign (indices : List Nat) (F : Nat → List PageNode) :
    indices.flatMap (fun i => (F i).map assignPage) = (indices.flatMap F).map assignPage := by
  induction indices with
  | nil => rfl
  | cons i rest ih => simp [List.flatMap_cons, ih]

/-! ## Grouping: one branch -/

theorem branchItem_leaves (B : Nat) (kidsOf : List PageNode → List PageNode)
    (chunk : List PageNode) (hleaf : ∀ p ∈ chunk, p.isLeaf = true)
    (hrec : 2 ≤ chunk.length → GroupedOk B chunk (kidsOf chunk)) :
    leavesOfKids (branchItem kidsOf chunk) = chunk.map assignPage ∧
    flattenKids (branchItem kidsOf chunk) = chunk.map assignPage ∧
    countsOkKids (branchItem kidsOf chunk) = true ∧
    fanOkKids B (branchItem kidsOf chunk) = true ∧
    (branchItem kidsOf chunk).length ≤ 1 := by
  rcases chunk with _ | ⟨p, _ | ⟨q, tl⟩⟩
  · simp [branchItem, leavesOfKids, flattenKids, countsOkKids, fanOkKids]
  · have hl : ∀ x ∈ [assignPage p], x.isLeaf = true :=
      assigned_isLeaf [p] hleaf
    exact ⟨leavesOfKids_of_leaves _ hl, flattenKids_of_leaves _ hl,
      countsOkKids_of_leaves _ hl, fanOkKids_of_leaves B _ hl, by simp [branchItem]⟩
  · obtain ⟨h1, h2, h3, h4, h5, _, _⟩ := hrec (by simp)
    refine ⟨?_, ?_, ?_, ?_, by simp [branchItem]⟩
    · simp [branchItem, leavesOfKids, leavesOf, h1]
    · simp [branchItem, flattenKids, flattenNode, pushDown_pagesObjectProps, h2]
    · simp [branchItem, countsOkKids, countsOk, h1, h3, pagesObjectProps, Props.get,
        List.lookup]
    · simp [branchItem, fanOkKids, fanOk, h4, h5]

theorem branchItem_depth_le (B k : Nat) (kidsOf : List PageNode → List PageNode)
    (chunk : List PageNode) (hleaf : ∀ p ∈ chunk, p.isLeaf = true)
    (hrec : 2 ≤ chunk.length → GroupedOk B chunk (kidsOf chunk))
    (hk : 1 ≤ k) (hlen : chunk.length ≤ B ^ k) :
    depthOfKids (branchItem kidsOf chunk) ≤ k + 1 := by
  rcases chunk with _ | ⟨p, _ | ⟨q, tl⟩⟩
  · simp [branchItem, depthOfKids]
  · have hl : ∀ x ∈ [assignPage p], x.isLeaf = true := assigned_isLeaf [p] hleaf
    exact Nat.le_trans (depthOfKids_of_leaves _ hl) (by omega)
  · obtain ⟨_, _, _, _, _, h6, _⟩ := hrec (by simp)
    have := h6 k hk hlen
    simp only [branchItem, depthOfKids, leafDepth]
    omega

theorem branchItem_depth_ge (B : Nat) (kidsOf : List PageNode → List PageNode)
    (chunk : List PageNode)
    (hrec : 2 ≤ chunk.length → GroupedOk B chunk (kidsOf chunk)) (hlen : 2 ≤ chunk.length) :
    2 ≤ depthOfKids (branchItem kidsOf chunk) := by
  rcases chunk with _ | ⟨p, _ | ⟨q, tl⟩⟩
  · simp at hlen
  · simp at hlen
  · obtain ⟨h1, _⟩ := hrec hlen
    have hne : kidsOf (p :: q :: tl) ≠ [] := by
      intro he
      rw [he] at h1
      simp [leavesOfKids] at h1
    have := depthOfKids_pos _ hne
    simp only [branchItem, depthOfKids, leafDepth]
    omega

/-! ## Grouping: the whole recursion -/

theorem groupLoop_ok (B fuel : Nat) (pageTree : List PageNode) (bs m : Nat)
    (hleaf : ∀ p ∈ pageTree, p.isLeaf = true)
    (ih : ∀ c : List PageNode, (∀ p ∈ c, p.isLeaf = true) → c.length < fuel →
      ∃ g, groupKids fuel c B = some g ∧ GroupedOk B c g)
    (hfuel : pageTree.length ≤ fuel) (hcover : pageTree.length ≤ bs * m)
    (hlt : bs < pageTree.length) (h2 : 2 ≤ bs) (hm : m ≤ B) (hm1 : 1 ≤ m)
    (hpow : ∀ k, 1 ≤ k → pageTree.length ≤ B ^ k → 2 ≤ k ∧ bs ≤ B ^ (k - 1)) :
    ∃ g, groupLoop (fun c => groupKids fuel c B) pageTree bs (List.range m) = some g ∧
      GroupedOk B pageTree g := by
  have hchunkLeaf : ∀ i, ∀ p ∈ branchSlice pageTree bs i, p.isLeaf = true :=
    fun i p hp => hleaf p (branchSlice_mem pageTree bs i p hp)
  have hchunkLen : ∀ i, (branchSlice pageTree bs i).length < fuel :=
    fun i => Nat.lt_of_le_of_lt (branchSlice_length_le pageTree bs i) (by omega)
  have hrec : ∀ i, 2 ≤ (branchSlice pageTree bs i).length →
      GroupedOk B (branchSlice pageTree bs i)
        ((groupKids fuel (branchSlice pageTree bs i) B).getD []) := by
    intro i _
    obtain ⟨g, hg, hok⟩ := ih _ (hchunkLeaf i) (hchunkLen i)
    rw [hg]; exact hok
  have hsome : ∀ i ∈ List.range m, 2 ≤ (branchSlice pageTree bs i).length →
      (groupKids fuel (branchSlice pageTree bs i) B).isSome = true := by
    intro i _ _
    obtain ⟨g, hg, _⟩ := ih _ (hchunkLeaf i) (hchunkLen i)
    rw [hg]; rfl
  refine ⟨_, groupLoop_eq_some _ pageTree bs (List.range m) hsome, ?_⟩
  have hitem := fun i => branchItem_leaves B (fun c => (groupKids fuel c B).getD [])
    (branchSlice pageTree bs i) (hchunkLeaf i) (hrec i)
  refine ⟨?_, ?_, ?_, ?_, ?_, ?_, ?_⟩
  · rw [leavesOfKids_flatMap _ _ (fun i => (branchSlice pageTree bs i).map assignPage)
      (fun i _ => (hitem i).1), map_flatMap_assign, flatMap_branchSlice_all _ _ _ hcover]
  · rw [flattenKids_flatMap _ _ (fun i => (branchSlice pageTree bs i).map assignPage)
      (fun i _ => (hitem i).2.1), map_flatMap_assign, flatMap_branchSlice_all _ _ _ hcover]
  · exact countsOkKids_flatMap _ _ (fun i _ => (hitem i).2.2.1)
  · have := flatMap_length_le (List.range m) _ (fun i _ => (hitem i).2.2.2.2)
    rw [List.length_range] at this
    omega
  · exact fanOkKids_flatMap B _ _ (fun i _ => (hitem i).2.2.2.1)
  · intro k hk hn
    obtain ⟨hk2, hbs⟩ := hpow k hk hn
    have hstep : ∀ i ∈ List.range m, depthOfKids (branchItem
        (fun c => (groupKids fuel c B).getD []) (branchSlice pageTree bs i)) ≤ (k - 1) + 1 :=
      fun i _ => branchItem_depth_le B (k - 1) _ _ (hchunkLeaf i) (hrec i) (by omega)
        (Nat.le_trans (branchSlice_length_le pageTree bs i) hbs)
    have := depthOfKids_flatMap_le _ _ _ hstep
    omega
  · intro _
    have h0 : 2 ≤ (branchSlice pageTree bs 0).length := by
      rw [branchSlice_zero_length]; omega
    have hmem : 0 ∈ List.range m := List.mem_range.mpr (by omega)
    have hge := depthOfKids_flatMap_ge (List.range m) (fun i => branchItem
      (fun c => (groupKids fuel c B).getD []) (branchSlice pageTree bs i)) 0 hmem
    exact Nat.le_trans (branchItem_depth_ge B _ _ (hrec 0) h0) hge

theorem ceilDiv_cover (n B : Nat) (hB : 0 < B) : n ≤ B * ((n + B - 1) / B) := by
  have h1 := Nat.div_add_mod (n + B - 1) B
  have h2 := Nat.mod_lt (n + B - 1) hB
  omega

theorem ceilDiv_lt (n B : Nat) (hB : 2 ≤ B) (hn : B < n) : (n + B - 1) / B < n := by
  rw [Nat.div_lt_iff_lt_mul (by omega)]
  have := Nat.mul_le_mul_left n hB
  omega

theorem ceilDiv_le (n B c : Nat) (hB : 0 < B) (hn : n ≤ c * B) : (n + B - 1) / B ≤ c := by
  apply Nat.le_of_lt_succ
  rw [Nat.div_lt_iff_lt_mul hB, Nat.succ_mul]
  omega

theorem groupKids_ok (B : Nat) (hB : 2 ≤ B) : ∀ (fuel : Nat) (pageTree : List PageNode),
    (∀ p ∈ pageTree, p.isLeaf = true) → pageTree.length < fuel →
    ∃ g, groupKids fuel pageTree B = some g ∧ GroupedOk B pageTree g := by
  intro fuel
  induction fuel with
  | zero => intro pageTree _ h; omega
  | succ fuel ih =>
    intro pageTree hleaf hfuel
    unfold groupKids
    by_cases hflat : pageTree.length ≤ B
    · rw [if_pos hflat]
      have hl := assigned_isLeaf pageTree hleaf
      refine ⟨_, rfl, leavesOfKids_of_leaves _ hl, flattenKids_of_leaves _ hl,
        countsOkKids_of_leaves _ hl, by simpa using hflat, fanOkKids_of_leaves B _ hl,
        fun k hk _ => Nat.le_trans (depthOfKids_of_leaves _ hl) hk, fun h => by omega⟩
    · rw [if_neg hflat, if_neg (by omega)]
      have hn : B < pageTree.length := by omega
      have hk2 : ∀ k, 1 ≤ k → pageTree.length ≤ B ^ k → 2 ≤ k := by
        intro k hk hle
        by_contra hlt
        have : k = 1 := by omega
        subst this
        simp at hle
        omega
      by_cases hbig : pageTree.length > B * B
      · simp only [if_pos hbig]
        have hc2 : 2 ≤ (pageTree.length + B - 1) / B := by
          rw [Nat.le_div_iff_mul_le (by omega)]; omega
        apply groupLoop_ok B fuel pageTree _ B hleaf ih (by omega)
          (by rw [Nat.mul_comm]; exact ceilDiv_cover _ _ (by omega))
          (ceilDiv_lt _ _ hB hn) hc2 (Nat.le_refl _) (by omega)
        intro k hk hle
        have h2k := hk2 k hk hle
        refine ⟨h2k, ceilDiv_le _ _ _ (by omega) ?_⟩
        have : B ^ k = B ^ (k - 1) * B := by
          rw [← Nat.pow_succ]; congr 1; omega
        omega
      · simp only [if_neg hbig]
        have hcB : (pageTree.length + B - 1) / B ≤ B := ceilDiv_le _ _ _ (by omega) (by omega)
        have hc1 : 1 ≤ (pageTree.length + B - 1) / B := by
          rw [Nat.le_div_iff_mul_le (by omega)]; omega
        apply groupLoop_ok B fuel pageTree B _ hleaf ih (by omega)
          (ceilDiv_cover _ _ (by omega)) hn hB hcB hc1
        intro k hk hle
        have h2k := hk2 k hk hle
        refine ⟨h2k, ?_⟩
        calc B = B ^ 1 := (Nat.pow_one B).symm
          _ ≤ B ^ (k - 1) := Nat.pow_le_pow_right (by omega) (by omega)

/-! ## Claims on the page tree -/

/-- C7: on a page-tree root with `/Rotate 90` and one leaf page with `/Rotate 0`, flattening
leaves the page with `/Rotate 90`: the leaf's own entry is overwritten, because line 314 tests
the leaf's value for truthiness, where the claim keeps the leaf's own value 0. -/
theorem flattenPageTree_overwrites_rotate_zero :
    (flattenPageTree (.pages [("/Rotate", Val.num 90)] [.leaf [("/Rotate", Val.num 0)]])).map
        (fun root => root.kids.map (fun page => page.props.lookup "/Rotate"))
      = some [some (Val.num 90)] ∧
    inheritedSpec [[("/Rotate", Val.num 90)]] [("/Rotate", Val.num 0)] "/Rotate"
      = some (Val.num 0) := by
  decide

theorem groupKids_flat (fuel : Nat) (pageTree : List PageNode) (B : Nat)
    (h : pageTree.length ≤ B) :
    groupKids (fuel + 1) pageTree B = some (pageTree.map assignPage) := by
  unfold groupKids
  rw [if_pos h]

theorem groupKids_one_none (a b : PageNode) : ∀ fuel, groupKids fuel [a, b] 1 = none := by
  intro fuel
  induction fuel with
  | zero => rfl
  | succ fuel ih =>
    unfold groupKids
    simp [groupLoop, branchSlice, List.range, List.range.loop, ih]

/-- C8 as stated fails: with branch size 1 and two leaf pages `groupPageTree` never returns
(line 336 swaps to one branch holding both pages, and line 345 recurses on that same
sequence), so there is no tree and no `/Count` after it. -/
theorem groupPageTree_one_no_result :
    ¬ ∃ fuel root', groupPageTree fuel 1 (.pages [] [.leaf [], .leaf []]) = some root' := by
  rintro ⟨fuel, root', h⟩
  simp [groupPageTree, groupKids_one_none] at h

/-- C8 amended: for a flat sequence of `n` leaf pages and a branch size `B` with `2 ≤ B` or
`n ≤ B`, `groupPageTree` returns, the root's `/Count` is `n`, the leaves of the grouped
kids are the `n` pages in order, and every `Pages` node created by the grouping has as
`/Count` the number of leaf pages among its descendants. -/
theorem groupPageTree_counts (props : Props) (kids : List PageNode) (B fuel : Nat)
    (hleaf : ∀ p ∈ kids, p.isLeaf = true) (hB : 2 ≤ B ∨ kids.length ≤ B)
    (hfuel : kids.length < fuel) :
    ∃ props' g, groupPageTree fuel B (.pages props kids) = some (.pages props' g) ∧
      props'.get "/Count" = Val.num kids.length ∧
      leavesOfKids g = kids.map assignPage ∧
      countsOkKids g = true := by
  have hres : ∃ g, groupKids fuel kids B = some g ∧ leavesOfKids g = kids.map assignPage ∧
      countsOkKids g = true := by
    by_cases hflat : kids.length ≤ B
    · obtain ⟨f, rfl⟩ : ∃ f, fuel = f + 1 := ⟨fuel - 1, by omega⟩
      have hl := assigned_isLeaf kids hleaf
      exact ⟨_, groupKids_flat f kids B hflat, leavesOfKids_of_leaves _ hl,
        countsOkKids_of_leaves _ hl⟩
    · obtain ⟨g, hg, h1, _, h3, _⟩ := groupKids_ok B (by omega) fuel kids hleaf hfuel
      exact ⟨g, hg, h1, h3⟩
  obtain ⟨g, hg, h1, h3⟩ := hres
  exact ⟨props.set "/Count" (Val.num kids.length), g, by simp [groupPageTree, hg],
    Props.get_set_self _ _ _, h1, h3⟩

/-- C8 amended, at 50 leaf pages and branch size 16: the root's `/Count` is 50. -/
theorem groupPageTree_counts_witness :
    ∃ props' g, groupPageTree 51 16 (.pages [] (List.replicate 50 (.leaf [])))
        = some (.pages props' g) ∧
      props'.get "/Count" = Val.num (List.replicate 50 (PageNode.leaf [])).length ∧
      leavesOfKids g = (List.replicate 50 (PageNode.leaf [])).map assignPage ∧
      countsOkKids g = true :=
  groupPageTree_counts [] (List.replicate 50 (.leaf [])) 16 51
    (fun p hp => by rw [List.eq_of_mem_replicate hp]; rfl) (Or.inl (by decide)) (by decide)

/-- C9: for a branch size `B ≥ 2` and a flat sequence of `n` leaf pages, `groupPageTree`
returns a tree in which every leaf lies at depth at most `k` below the root for every positive
`k` with `n ≤ B ^ k` (so for the least such `k`), every node, the root included, has at most
`B` kids, and the depth exceeds 1 as soon as `B < n` (as for `n = 50`, `B = 16`). -/
theorem groupPageTree_depth (props : Props) (kids : List PageNode) (B fuel : Nat)
    (hB : 2 ≤ B) (hleaf : ∀ p ∈ kids, p.isLeaf = true) (hfuel : kids.length < fuel) :
    ∃ root', groupPageTree fuel B (.pages props kids) = some root' ∧
      (∀ k, 1 ≤ k → kids.length ≤ B ^ k → leafDepth root' ≤ k) ∧
      fanOk B root' = true ∧
      (B < kids.length → 1 < leafDepth root') := by
  obtain ⟨g, hg, _, _, _, h4, h5, h6, h7⟩ := groupKids_ok B hB fuel kids hleaf hfuel
  refine ⟨_, by simp only [groupPageTree, hg]; rfl, ?_, ?_, ?_⟩
  · simpa [leafDepth] using h6
  · simp [fanOk, h4, h5]
  · simpa [leafDepth] using h7

/-- C9 at 50 leaf pages and branch size 16: the depth is 2, and no node has more than 16
kids. -/
theorem groupPageTree_depth_witness :
    ∃ root', groupPageTree 51 16 (.pages [] (List.replicate 50 (.leaf []))) = some root' ∧
      leafDepth root' ≤ 2 ∧ fanOk 16 root' = true ∧ 1 < leafDepth root' := by
  obtain ⟨root', h, hk, hfan, hdeep⟩ :=
    groupPageTree_depth [] (List.replicate 50 (.leaf [])) 16 51 (by decide)
      (fun p hp => by rw [List.eq_of_mem_replicate hp]; rfl) (by decide)
  exact ⟨root', h, hk 2 (by decide) (by decide), hfan, hdeep (by decide)⟩

/-! ## Running the normalisation twice -/

theorem Props.set_set_self (o : Props) (key : String) (v w : Val) :
    (o.set key v).set key w = o.set key w := by
  induction o with
  | nil => simp [Props.set]
  | cons kv rest ih =>
    obtain ⟨k, u⟩ := kv
    by_cases h : k = key
    · simp [Props.set, h]
    · simp [Props.set, h, ih]

theorem Props.lookup_delete (o : Props) (key other : String) :
    (o.delete key).lookup other = if other = key then none else o.lookup other := by
  induction o with
  | nil => simp [Props.delete, List.lookup]
  | cons kv rest ih =>
    obtain ⟨k, u⟩ := kv
    unfold Props.delete at ih ⊢
    by_cases hk : k = key
    · rw [List.filter_cons_of_neg (by simp [hk]), ih]
      by_cases ho : other = key
      · simp [ho]
      · have h2 : (other == k) = false := by rw [hk]; simpa using ho
        simp [ho, List.lookup, h2]
    · rw [List.filter_cons_of_pos (by simpa using hk)]
      by_cases ho : other = k
      · subst ho
        simp [List.lookup, hk]
      · have h2 : (other == k) = false := by simpa using ho
        simp only [List.lookup, h2]
        exact ih

theorem Props.get_delete (o : Props) (key other : String) :
    (o.delete key).get other = if other = key then Val.undefined else o.get other := by
  unfold Props.get
  rw [Props.lookup_delete]
  split <;> rfl

theorem foldl_inheritStep_snd (attrs : List String) (st : List PageNode × Props) :
    (attrs.foldl inheritStep st).2 = attrs.foldl Props.delete st.2 := by
  induction attrs generalizing st with
  | nil => rfl
  | cons a rest ih => rw [List.foldl_cons, List.foldl_cons, ih]; rfl

theorem truthy_get_foldl_delete (attrs : List String) (o : Props) (a : String)
    (h : a ∈ attrs ∨ truthy (o.get a) = false) :
    truthy ((attrs.foldl Props.delete o).get a) = false := by
  induction attrs generalizing o with
  | nil =>
    rcases h with h | h
    · simp at h
    · exact h
  | cons b rest ih =>
    rw [List.foldl_cons]
    by_cases hab : a = b
    · exact ih _ (Or.inr (by rw [Props.get_delete, if_pos hab]; rfl))
    · rcases h with h | h
      · rcases List.mem_cons.mp h with h | h
        · exact absurd h hab
        · exact ih _ (Or.inl h)
      · exact ih _ (Or.inr (by rw [Props.get_delete, if_neg hab]; exact h))

theorem pushDown_snd_falsy (flat : List PageNode) (parent : Props) (a : String)
    (ha : a ∈ inheritable) : truthy ((pushDown flat parent).2.get a) = false := by
  unfold pushDown
  rw [foldl_inheritStep_snd]
  apply truthy_get_foldl_delete
  by_cases ht : truthy (parent.get a) = true
  · exact Or.inl (List.mem_filter.mpr ⟨ha, ht⟩)
  · exact Or.inr (by simpa using ht)

theorem pushDown_of_falsy (flat : List PageNode) (parent : Props)
    (h : ∀ a ∈ inheritable, truthy (parent.get a) = false) :
    pushDown flat parent = (flat, parent) := by
  have hnil : inheritable.filter (fun attr => truthy (parent.get attr)) = [] := by
    rw [List.filter_eq_nil_iff]
    intro a ha
    simp [h a ha]
  simp [pushDown, hnil]

theorem assignPage_idem (page : PageNode) : assignPage (assignPage page) = assignPage page := by
  cases page <;> simp [assignPage, PageNode.setProp, Props.set_set_self]

theorem map_assignPage_idem (l : List PageNode) :
    (l.map assignPage).map assignPage = l.map assignPage := by
  rw [List.map_map]
  apply List.map_congr_left
  intro p _
  exact assignPage_idem p

theorem branchSlice_map (pageTree : List PageNode) (branchSize i : Nat) :
    branchSlice (pageTree.map assignPage) branchSize i
      = (branchSlice pageTree branchSize i).map assignPage := by
  simp [branchSlice, List.map_take, List.map_drop]

theorem groupLoop_map (recurse : List PageNode → Option (List PageNode))
    (hrec : ∀ c, recurse (c.map assignPage) = recurse c) (pageTree : List PageNode)
    (branchSize : Nat) (indices : List Nat) :
    groupLoop recurse (pageTree.map assignPage) branchSize indices
      = groupLoop recurse pageTree branchSize indices := by
  induction indices with
  | nil => rfl
  | cons i rest ih =>
    have hm := branchSlice_map pageTree branchSize i
    rcases hsl : branchSlice pageTree branchSize i with _ | ⟨p, _ | ⟨q, tl⟩⟩
    · rw [hsl] at hm
      simp only [List.map_nil] at hm
      simp [groupLoop, hsl, hm, ih]
    · rw [hsl] at hm
      simp only [List.map_cons, List.map_nil] at hm
      simp [groupLoop, hsl, hm, ih, assignPage_idem]
    · rw [hsl] at hm
      have hr := hrec (p :: q :: tl)
      simp only [List.map_cons] at hm hr
      simp [groupLoop, hsl, hm, ih, hr]

theorem groupKids_map_assign (B : Nat) : ∀ (fuel : Nat) (pageTree : List PageNode),
    groupKids fuel (pageTree.map assignPage) B = groupKids fuel pageTree B := by
  intro fuel
  induction fuel with
  | zero => intro pageTree; rfl
  | succ fuel ih =>
    intro pageTree
    unfold groupKids
    simp only [List.length_map, map_assignPage_idem]
    rw [groupLoop_map _ (fun c => ih c), groupLoop_map _ (fun c => ih c)]

/-- C10: for a branch size `B ≥ 2`, running `flattenPageTree` then `groupPageTree` on a page
tree returns a tree `t`, and running the two again on `t` returns `t` itself: the same shape,
the same leaves in the same order, the same `/Count` at every node and the same properties on
every leaf. -/
theorem normalizePages_twice (props : Props) (kids : List PageNode) (B fuel : Nat)
    (hB : 2 ≤ B) (hfuel : (leavesOfKids kids).length < fuel) :
    ∃ t, normalizePages fuel B (.pages props kids) = some t ∧
      normalizePages fuel B t = some t := by
  have hlen : (pushDown (flattenKids kids) props).1.length = (leavesOfKids kids).length := by
    have h := congrArg List.length
      ((pushDown_strip (flattenKids kids) props).trans (flattenKids_strip kids))
    simpa using h
  have hleaf := pushDown_isLeaf _ props (flattenKids_isLeaf kids)
  obtain ⟨g, hg, _, hflat, _⟩ := groupKids_ok B hB fuel
    (pushDown (flattenKids kids) props).1 hleaf (by omega)
  have hfalsy : ∀ a ∈ inheritable, truthy
      (((pushDown (flattenKids kids) props).2.set "/Count"
        (Val.num (pushDown (flattenKids kids) props).1.length)).get a) = false := by
    intro a ha
    have hne : a ≠ "/Count" := by
      intro he; subst he; simp [inheritable] at ha
    rw [Props.get_set_ne _ _ _ _ hne]
    exact pushDown_snd_falsy _ _ a ha
  refine ⟨PageNode.pages ((pushDown (flattenKids kids) props).2.set "/Count"
      (Val.num (pushDown (flattenKids kids) props).1.length)) g, ?_, ?_⟩
  · simp [normalizePages, flattenPageTree, groupPageTree, hg, Props.set_set_self]
  · simp [normalizePages, flattenPageTree, groupPageTree, hflat, pushDown_of_falsy _ _ hfalsy,
      groupKids_map_assign, hg, Props.set_set_self]

/-- C10 on a root with `/Rotate 90` holding a leaf page and a `Pages` node of two leaf pages,
with branch size 2. -/
theorem normalizePages_twice_witness :
    ∃ t, normalizePages 4 2 (.pages [("/Rotate", Val.num 90)]
        [.leaf [], .pages [] [.leaf [], .leaf []]]) = some t ∧
      normalizePages 4 2 t = some t :=
  normalizePages_twice [("/Rotate", Val.num 90)] [.leaf [], .pages [] [.leaf [], .leaf []]] 2 4
    (by decide) (by decide)

/-! ## Object numbering: the walk -/

theorem children_congr (heap heap' : Heap) (id : Nat) (h : heap'[id]? = heap[id]?) :
    children heap' id = children heap id := by
  unfold children; rw [h]

theorem numOf_congr (heap heap' : Heap) (id : Nat) (h : heap'[id]? = heap[id]?) :
    numOf heap' id = numOf heap id := by
  unfold numOf; rw [h]

theorem genOf_congr (heap heap' : Heap) (id : Nat) (h : heap'[id]? = heap[id]?) :
    genOf heap' id = genOf heap id := by
  unfold genOf; rw [h]

theorem numsOf_congr (heap heap' : Heap) (ids : List Nat)
    (h : ∀ id ∈ ids, heap'[id]? = heap[id]?) : numsOf heap' ids = numsOf heap ids := by
  induction ids with
  | nil => rfl
  | cons a rest ih =>
    have ha := numOf_congr heap heap' a (h a (List.mem_cons_self _ _))
    have hr := ih (fun id hid => h id (List.mem_cons_of_mem _ hid))
    unfold numsOf at hr ⊢
    simp only [List.filterMap_cons, ha, hr]

theorem ReachIn.mono {heap heap' : Heap} {seen seen' : List Nat} {root id : Nat}
    (hheap : ∀ x ∈ seen, heap'[x]? = heap[x]?) (hseen : ∀ x ∈ seen, x ∈ seen')
    (h : ReachIn heap seen root id) : ReachIn heap' seen' root id := by
  induction h with
  | root => exact ReachIn.root
  | step parent child _ hp hc ih =>
    refine ReachIn.step parent child ih (hseen parent hp) ?_
    rw [children_congr heap heap' parent (hheap parent hp)]
    exact hc

theorem ReachIn.toReach {heap : Heap} {seen : List Nat} {root id : Nat}
    (h : ReachIn heap seen root id) : Reach heap root id := by
  induction h with
  | root => exact Reach.root
  | step parent child _ _ hc ih => exact Reach.step parent child ih hc

theorem Step.refl (st : ResetState) : Step st st :=
  ⟨⟨[], by simp⟩, fun _ _ => rfl, fun id h hn => absurd h hn⟩

theorem Step.subset {st st' : ResetState} (h : Step st st') :
    ∀ id ∈ st.objCache, id ∈ st'.objCache := by
  obtain ⟨new, hnew⟩ := h.grows
  intro id hid
  rw [hnew]
  exact List.mem_append_left _ hid

theorem Step.length_le {st st' : ResetState} (h : Step st st') :
    st.objCache.length ≤ st'.objCache.length := by
  obtain ⟨new, hnew⟩ := h.grows
  rw [hnew, List.length_append]
  omega

theorem Step.trans {s1 s2 s3 : ResetState} (h12 : Step s1 s2) (h23 : Step s2 s3) :
    Step s1 s3 := by
  refine ⟨?_, ?_, ?_⟩
  · obtain ⟨n1, h1⟩ := h12.grows
    obtain ⟨n2, h2⟩ := h23.grows
    exact ⟨n1 ++ n2, by rw [h2, h1, List.append_assoc]⟩
  · intro id hid
    rw [h23.frozen id (h12.subset id hid), h12.frozen id hid]
  · intro id hid hnot c hc
    by_cases h2 : id ∈ s2.objCache
    · rw [children_congr s2.heap s3.heap id (h23.frozen id h2)] at hc
      exact h23.subset c (h12.closure id h2 hnot c hc)
    · exact h23.closure id hid h2 c hc

theorem mem_toReset_iff (objCache : List Nat) (vs : List Val) (item : Nat) :
    item ∈ vs.filterMap (toReset objCache) ↔ item ∈ refsOf vs ∧ item ∉ objCache := by
  unfold refsOf
  simp only [List.mem_filterMap]
  constructor
  · rintro ⟨v, hv, hres⟩
    cases v <;> simp [toReset] at hres
    case ref id =>
      obtain ⟨hn, rfl⟩ := hres
      exact ⟨⟨Val.ref id, hv, rfl⟩, hn⟩
  · rintro ⟨⟨v, hv, hres⟩, hn⟩
    cases v <;> simp at hres
    case ref id =>
      subst hres
      exact ⟨Val.ref id, hv, by simp [toReset, hn]⟩

theorem cache_length_le {root : Nat} {heap0 : Heap} {st : ResetState}
    (h : Good root heap0 st) : st.objCache.length ≤ heap0.length := by
  have hsub : st.objCache ⊆ List.range heap0.length :=
    fun id hid => List.mem_range.mpr (h.bound id hid)
  have := (List.subperm_of_subset h.nodup hsub).length_le
  simpa using this

theorem resetEach_ok (root : Nat) (heap0 : Heap) (f : Nat)
    (recurse : Nat → ResetState → Option ResetState)
    (hrec : ∀ item st, Good root heap0 st → root ∈ st.objCache → item ≠ root →
      item < heap0.length → (∃ p ∈ st.objCache, item ∈ children st.heap p) →
      heap0.length < f + st.objCache.length →
      ∃ st', recurse item st = some st' ∧ Good root heap0 st' ∧ Step st st' ∧
        item ∈ st'.objCache) :
    ∀ (items : List Nat) (st : ResetState), Good root heap0 st → root ∈ st.objCache →
      (∀ item ∈ items, item ≠ root ∧ item < heap0.length ∧
        ∃ p ∈ st.objCache, item ∈ children st.heap p) →
      heap0.length < f + st.objCache.length →
      ∃ st', resetEach recurse items st = some st' ∧ Good root heap0 st' ∧ Step st st' ∧
        ∀ item ∈ items, item ∈ st'.objCache := by
  intro items
  induction items with
  | nil =>
    intro st hgood _ _ _
    exact ⟨st, rfl, hgood, Step.refl st, fun _ h => by simp at h⟩
  | cons item rest ih =>
    intro st hgood hroot hitems hfuel
    obtain ⟨hne, hlt, hparent⟩ := hitems item (List.mem_cons_self _ _)
    obtain ⟨s1, hs1, hgood1, hstep1, hmem1⟩ := hrec item st hgood hroot hne hlt hparent hfuel
    have hrest : ∀ x ∈ rest, x ≠ root ∧ x < heap0.length ∧
        ∃ p ∈ s1.objCache, x ∈ children s1.heap p := by
      intro x hx
      obtain ⟨h1, h2, p, hp, hc⟩ := hitems x (List.mem_cons_of_mem _ hx)
      refine ⟨h1, h2, p, hstep1.subset p hp, ?_⟩
      rw [children_congr st.heap s1.heap p (hstep1.frozen p hp)]
      exact hc
    obtain ⟨s2, hs2, hgood2, hstep2, hmem2⟩ := ih s1 hgood1 (hstep1.subset root hroot) hrest
      (by have := hstep1.length_le; omega)
    refine ⟨s2, by simp [resetEach, hs1, hs2], hgood2, hstep1.trans hstep2, ?_⟩
    intro x hx
    rcases List.mem_cons.mp hx with rfl | hx
    · exact hstep2.subset _ hmem1
    · exact hmem2 x hx
theorem good_push (root : Nat) (heap0 : Heap) (st s0 : ResetState) (node : Nat) (obj' : Obj)
    (hgood : Good root heap0 st) (hnot : node ∉ st.objCache) (hlt : node < heap0.length)
    (hwhy : (node = root ∧ st.objCache = []) ∨
      (root ∈ st.objCache ∧ ∃ p ∈ st.objCache, node ∈ children st.heap p))
    (hcache : s0.objCache = st.objCache ++ [node])
    (hlen : s0.heap.length = st.heap.length)
    (hnode : s0.heap[node]? = some obj')
    (hother : ∀ id, id ≠ node → s0.heap[id]? = st.heap[id]?)
    (hrefs : ∀ c ∈ refsOf obj'.vals, c < heap0.length)
    (hnum : (numOf s0.heap node = none ∧ asksNumber heap0 node = false ∧
        s0.nextNodeNum = st.nextNodeNum) ∨
      (numOf s0.heap node = some (st.nextNodeNum : Int) ∧ genOf s0.heap node = some 0 ∧
        asksNumber heap0 node = true ∧ s0.nextNodeNum = st.nextNodeNum + 1)) :
    Good root heap0 s0 := by
  have hold : ∀ id ∈ st.objCache, s0.heap[id]? = st.heap[id]? :=
    fun id hid => hother id (fun he => hnot (he ▸ hid))
  have hnext := hgood.next
  refine ⟨hlen.trans hgood.len, ?_, ?_, ?_, ?_, ?_, ?_, ?_, ?_, ?_⟩
  · intro id obj hobj
    by_cases hid : id = node
    · subst hid
      rw [hnode] at hobj
      cases hobj
      exact hrefs
    · rw [hother id hid] at hobj
      exact hgood.closed id obj hobj
  · intro id hid
    rw [hcache] at hid
    rcases List.mem_append.mp hid with h | h
    · exact hgood.bound id h
    · simp only [List.mem_singleton] at h; subst h; exact hlt
  · rw [hcache]
    exact List.nodup_append.mpr ⟨hgood.nodup, List.nodup_singleton _, by simpa using hnot⟩
  · have hsplit : numsOf s0.heap s0.objCache
        = numsOf st.heap st.objCache ++ (numOf s0.heap node).toList := by
      rw [hcache]
      unfold numsOf
      rw [List.filterMap_append]
      have := numsOf_congr st.heap s0.heap st.objCache hold
      unfold numsOf at this
      rw [this]
      cases hn : numOf s0.heap node <;> simp [List.filterMap_cons, hn]
    rw [hsplit, hgood.nums]
    rcases hnum with ⟨h1, _, h3⟩ | ⟨h1, _, _, h4⟩
    · rw [h1, h3]; simp
    · rw [h1, h4]
      have hk : st.nextNodeNum + 1 - 1 = (st.nextNodeNum - 1) + 1 := by omega
      rw [hk, List.range_succ, List.map_append]
      have hc : ((st.nextNodeNum - 1 : Nat) : Int) + 1 = (st.nextNodeNum : Int) := by omega
      simp [hc]
  · rcases hnum with ⟨_, _, h3⟩ | ⟨_, _, _, h4⟩ <;> omega
  · intro id hid hsome
    rw [hcache] at hid
    rcases List.mem_append.mp hid with h | h
    · rw [genOf_congr st.heap s0.heap id (hold id h)]
      rw [numOf_congr st.heap s0.heap id (hold id h)] at hsome
      exact hgood.gen id h hsome
    · simp only [List.mem_singleton] at h; subst h
      rcases hnum with ⟨h1, _, _⟩ | ⟨_, h2, _, _⟩
      · rw [h1] at hsome; simp at hsome
      · exact h2
  · have hsub : ∀ x ∈ st.objCache, x ∈ s0.objCache := by
      intro x hx; rw [hcache]; exact List.mem_append_left _ hx
    intro id hid
    rw [hcache] at hid
    rcases List.mem_append.mp hid with h | h
    · exact ReachIn.mono hold hsub (hgood.reach id h)
    · simp only [List.mem_singleton] at h; subst h
      rcases hwhy with ⟨hr, _⟩ | ⟨_, p, hp, hc⟩
      · rw [hr]; exact ReachIn.root
      · refine ReachIn.step p id (ReachIn.mono hold hsub (hgood.reach p hp)) (hsub p hp) ?_
        rw [children_congr st.heap s0.heap p (hold p hp)]
        exact hc
  · intro id hid
    rw [hcache] at hid
    rcases List.mem_append.mp hid with h | h
    · rw [numOf_congr st.heap s0.heap id (hold id h)]
      exact hgood.asked id h
    · simp only [List.mem_singleton] at h; subst h
      rcases hnum with ⟨h1, h2, _⟩ | ⟨h1, _, h3, _⟩
      · rw [h1, h2]; rfl
      · rw [h1, h3]; rfl
  · intro id hid
    rw [hcache] at hid
    have h1 : id ∉ st.objCache := fun h => hid (List.mem_append_left _ h)
    have h2 : id ≠ node := fun h => hid (List.mem_append_right _ (by simp [h]))
    rw [hother id h2]
    exact hgood.fresh id h1

theorem visit_finish (root : Nat) (heap0 : Heap) (f : Nat)
    (recurse : Nat → ResetState → Option ResetState)
    (hrec : ∀ item st, Good root heap0 st → root ∈ st.objCache → item ≠ root →
      item < heap0.length → (∃ p ∈ st.objCache, item ∈ children st.heap p) →
      heap0.length < f + st.objCache.length →
      ∃ st', recurse item st = some st' ∧ Good root heap0 st' ∧ Step st st' ∧
        item ∈ st'.objCache)
    (st s0 : ResetState) (node : Nat) (obj' : Obj)
    (hgood0 : Good root heap0 s0) (hnot : node ∉ st.objCache)
    (hroot : node = root ∨ root ∈ st.objCache)
    (hcache : s0.objCache = st.objCache ++ [node])
    (hnode : s0.heap[node]? = some obj')
    (hother : ∀ id, id ≠ node → s0.heap[id]? = st.heap[id]?)
    (hfuel : heap0.length < f + (st.objCache.length + 1)) :
    ∃ st', resetEach recurse (obj'.vals.filterMap (toReset s0.objCache)) s0 = some st' ∧
      Good root heap0 st' ∧ Step st st' ∧ node ∈ st'.objCache := by
  have hnode0 : node ∈ s0.objCache := by rw [hcache]; simp
  have hroot0 : root ∈ s0.objCache := by
    rcases hroot with h | h
    · rw [← h]; exact hnode0
    · rw [hcache]; exact List.mem_append_left _ h
  have hkids : children s0.heap node = refsOf obj'.vals := by
    unfold children; rw [hnode]
  have hitems : ∀ item ∈ obj'.vals.filterMap (toReset s0.objCache),
      item ≠ root ∧ item < heap0.length ∧ ∃ p ∈ s0.objCache, item ∈ children s0.heap p := by
    intro item hitem
    obtain ⟨href, hn⟩ := (mem_toReset_iff _ _ _).mp hitem
    refine ⟨fun he => hn (he ▸ hroot0), hgood0.closed node obj' hnode item href, node, hnode0, ?_⟩
    rw [hkids]; exact href
  obtain ⟨sf, hsf, hgoodf, hstepf, hmemf⟩ := resetEach_ok root heap0 f recurse hrec _ s0 hgood0
    hroot0 hitems (by rw [hcache, List.length_append]; simpa using hfuel)
  refine ⟨sf, hsf, hgoodf, ⟨?_, ?_, ?_⟩, hstepf.subset node hnode0⟩
  · obtain ⟨new, hnew⟩ := hstepf.grows
    exact ⟨node :: new, by rw [hnew, hcache]; simp⟩
  · intro id hid
    have h0 : id ∈ s0.objCache := by rw [hcache]; exact List.mem_append_left _ hid
    rw [hstepf.frozen id h0]
    exact hother id (fun he => hnot (he ▸ hid))
  · intro id hid hnid c hc
    by_cases hidn : id = node
    · subst hidn
      rw [children_congr s0.heap sf.heap id (hstepf.frozen id hnode0), hkids] at hc
      by_cases hcin : c ∈ s0.objCache
      · exact hstepf.subset c hcin
      · exact hmemf c ((mem_toReset_iff _ _ _).mpr ⟨hc, hcin⟩)
    · have h0 : id ∉ s0.objCache := by
        rw [hcache]
        intro h
        rcases List.mem_append.mp h with h | h
        · exact hnid h
        · exact hidn (by simpa using h)
      exact hstepf.closure id hid h0 c hc
theorem refsOf_cons (v : Val) (vs : List Val) :
    refsOf (v :: vs) = refsOf [v] ++ refsOf vs := by
  cases v <;> simp [refsOf, List.filterMap_cons]

theorem refsOf_set_num (props : Props) (key : String) (n : Int) :
    ∀ c ∈ refsOf ((props.set key (Val.num n)).map (fun kv => kv.2)),
      c ∈ refsOf (props.map (fun kv => kv.2)) := by
  induction props with
  | nil => intro c hc; simp [Props.set, refsOf] at hc
  | cons kv rest ih =>
    obtain ⟨k, w⟩ := kv
    intro c hc
    by_cases hk : k = key
    · simp only [Props.set, hk, if_true, List.map_cons] at hc ⊢
      rw [refsOf_cons] at hc ⊢
      rcases List.mem_append.mp hc with h | h
      · simp [refsOf] at h
      · exact List.mem_append_right _ h
    · simp only [Props.set, hk, if_false, List.map_cons] at hc ⊢
      rw [refsOf_cons] at hc ⊢
      rcases List.mem_append.mp hc with h | h
      · exact List.mem_append_left _ h
      · exact List.mem_append_right _ (ih c h)

theorem numOf_none_of_not_needs (props : Props) (h : needsNumber props = false) :
    (match props.get "num" with
      | .num n => some n
      | _ => none) = none := by
  unfold needsNumber at h
  cases hn : props.get "num" <;> simp_all

theorem visit_ok (root : Nat) (heap0 : Heap) (f : Nat)
    (recurse : Nat → ResetState → Option ResetState)
    (hrec : ∀ item st, Good root heap0 st → root ∈ st.objCache → item ≠ root →
      item < heap0.length → (∃ p ∈ st.objCache, item ∈ children st.heap p) →
      heap0.length < f + st.objCache.length →
      ∃ st', recurse item st = some st' ∧ Good root heap0 st' ∧ Step st st' ∧
        item ∈ st'.objCache)
    (st : ResetState) (node : Nat) (hgood : Good root heap0 st) (hnot : node ∉ st.objCache)
    (hlt : node < heap0.length)
    (hwhy : (node = root ∧ st.objCache = []) ∨
      (root ∈ st.objCache ∧ ∃ p ∈ st.objCache, node ∈ children st.heap p))
    (hfuel : heap0.length < f + (st.objCache.length + 1)) :
    ∃ st', visit recurse node st = some st' ∧ Good root heap0 st' ∧ Step st st' ∧
      node ∈ st'.objCache := by
  have hltst : node < st.heap.length := by rw [hgood.len]; exact hlt
  have hroot : node = root ∨ root ∈ st.objCache := by
    rcases hwhy with ⟨h, _⟩ | ⟨h, _⟩
    · exact Or.inl h
    · exact Or.inr h
  obtain ⟨obj, hobj⟩ : ∃ obj, st.heap[node]? = some obj :=
    ⟨st.heap[node], List.getElem?_eq_getElem hltst⟩
  have h0 : heap0[node]? = some obj := by rw [← hgood.fresh node hnot]; exact hobj
  have hrefs0 := hgood.closed node obj hobj
  unfold visit
  simp only [hobj]
  cases obj with
  | arr items =>
    simp only []
    have hg0 : Good root heap0 { st with objCache := st.objCache ++ [node] } :=
      good_push root heap0 st _ node (Obj.arr items) hgood hnot hlt hwhy rfl rfl hobj
        (fun _ _ => rfl) hrefs0
        (Or.inl ⟨by simp [numOf, hobj], by simp [asksNumber, h0], rfl⟩)
    exact visit_finish root heap0 f recurse hrec st _ node (Obj.arr items) hg0 hnot hroot rfl
      hobj (fun _ _ => rfl) hfuel
  | dict props =>
    by_cases hneed : needsNumber props = true
    · simp only [hneed, if_true]
      have hnode : (st.heap.set node (Obj.dict (assignNumber props st.nextNodeNum)))[node]?
          = some (Obj.dict (assignNumber props st.nextNodeNum)) :=
        List.getElem?_set_self hltst
      have hother : ∀ id, id ≠ node →
          (st.heap.set node (Obj.dict (assignNumber props st.nextNodeNum)))[id]?
            = st.heap[id]? :=
        fun id hid => List.getElem?_set_ne (fun he => hid he.symm)
      have hnumv : (assignNumber props st.nextNodeNum).get "num"
          = Val.num (st.nextNodeNum : Int) := by
        unfold assignNumber
        rw [Props.get_set_ne _ _ _ _ (by decide), Props.get_set_self]
      have hgenv : (assignNumber props st.nextNodeNum).get "gen" = Val.num 0 := by
        unfold assignNumber
        rw [Props.get_set_self]
      have hg0 : Good root heap0
          { heap := st.heap.set node (Obj.dict (assignNumber props st.nextNodeNum))
            objCache := st.objCache ++ [node]
            nextNodeNum := st.nextNodeNum + 1 } :=
        good_push root heap0 st _ node (Obj.dict (assignNumber props st.nextNodeNum)) hgood
          hnot hlt hwhy rfl (List.length_set _ _ _) hnode hother
          (fun c hc => hrefs0 c (refsOf_set_num _ _ _ c (refsOf_set_num _ _ _ c hc)))
          (Or.inr ⟨by simp [numOf, hnode, hnumv], by simp [genOf, hnode, hgenv],
            by simp [asksNumber, h0, hneed], rfl⟩)
      exact visit_finish root heap0 f recurse hrec st _ node
        (Obj.dict (assignNumber props st.nextNodeNum)) hg0 hnot hroot rfl hnode hother hfuel
    · have hneed' : needsNumber props = false := by simpa using hneed
      simp only [hneed', Bool.false_eq_true, if_false]
      have hg0 : Good root heap0 { st with objCache := st.objCache ++ [node] } :=
        good_push root heap0 st _ node (Obj.dict props) hgood hnot hlt hwhy rfl rfl hobj
          (fun _ _ => rfl) hrefs0
          (Or.inl ⟨by simp [numOf, hobj, numOf_none_of_not_needs props hneed'],
            by simp [asksNumber, h0, hneed'], rfl⟩)
      exact visit_finish root heap0 f recurse hrec st _ node (Obj.dict props) hg0 hnot hroot
        rfl hobj (fun _ _ => rfl) hfuel

theorem resetObjectIds_ok (root : Nat) (heap0 : Heap) :
    ∀ (fuel item : Nat) (st : ResetState), Good root heap0 st → root ∈ st.objCache →
      item ≠ root → item < heap0.length → (∃ p ∈ st.objCache, item ∈ children st.heap p) →
      heap0.length < fuel + st.objCache.length →
      ∃ st', resetObjectIds root fuel item st = some st' ∧ Good root heap0 st' ∧ Step st st' ∧
        item ∈ st'.objCache := by
  intro fuel
  induction fuel with
  | zero =>
    intro item st hgood _ _ _ _ hfuel
    have := cache_length_le hgood
    omega
  | succ fuel ih =>
    intro item st hgood hroot hne hlt hparent hfuel
    unfold resetObjectIds
    simp only [hne, if_false]
    by_cases hin : item ∈ st.objCache
    · refine ⟨st, ?_, hgood, Step.refl st, hin⟩
      simp [hin]
    · have hc : st.objCache.contains item = false := by simpa using hin
      simp only [hc, Bool.false_eq_true, if_false]
      exact visit_ok root heap0 fuel _ ih st item hgood hin hlt (Or.inr ⟨hroot, hparent⟩)
        (by omega)
theorem closedHeap_refs (heap : Heap) (h : closedHeap heap = true) :
    ∀ (id : Nat) (obj : Obj), heap[id]? = some obj → ∀ c ∈ refsOf obj.vals, c < heap.length := by
  intro id obj hobj c hc
  unfold closedHeap at h
  rw [List.all_eq_true] at h
  have h1 := h obj (List.getElem?_mem hobj)
  rw [List.all_eq_true] at h1
  simpa using h1 c hc

theorem good_start (root : Nat) (st : ResetState) (hclosed : closedHeap st.heap = true) :
    Good root st.heap { st with nextNodeNum := 1, objCache := [] } :=
  ⟨rfl, closedHeap_refs st.heap hclosed, fun _ h => by simp at h, List.nodup_nil, rfl,
    Nat.le_refl 1, fun _ h => by simp at h, fun _ h => by simp at h, fun _ h => by simp at h,
    fun _ _ => rfl⟩

/-- C5: on every closed heap of objects (aliases and cycles included), `resetObjectIds`
returns; the nodes it visited are exactly the nodes reachable from the root, each once; the
object numbers these nodes carry afterwards are, in visiting order, `1, 2, ..., N`, hence
pairwise distinct and exactly the set from 1 to `N`; `nextNodeNum` is `N + 1`; every node
with a number has generation 0; and the nodes with a number are those line 386 asked a
number for, so `N` is the number of nodes that were assigned one. -/
theorem resetObjectIds_numbers (root : Nat) (st : ResetState) (fuel : Nat)
    (hclosed : closedHeap st.heap = true) (hroot : root < st.heap.length)
    (hfuel : st.heap.length < fuel) :
    ∃ st', resetObjectIds root fuel root st = some st' ∧
      (∀ id, Reach st'.heap root id ↔ id ∈ st'.objCache) ∧
      st'.objCache.Nodup ∧
      numsOf st'.heap st'.objCache
        = (List.range (numsOf st'.heap st'.objCache).length).map
            (fun (i : Nat) => (i : Int) + 1) ∧
      st'.nextNodeNum = (numsOf st'.heap st'.objCache).length + 1 ∧
      (∀ id ∈ st'.objCache, (numOf st'.heap id).isSome = true → genOf st'.heap id = some 0) ∧
      (∀ id ∈ st'.objCache, (numOf st'.heap id).isSome = asksNumber st.heap id) := by
  obtain ⟨f, rfl⟩ : ∃ f, fuel = f + 1 := ⟨fuel - 1, by omega⟩
  obtain ⟨sf, hsf, hgood, hstep, hmem⟩ := visit_ok root st.heap f
    (fun item s => resetObjectIds root f item s) (resetObjectIds_ok root st.heap f)
    { st with nextNodeNum := 1, objCache := [] } root (good_start root st hclosed)
    (by simp) hroot (Or.inl ⟨rfl, rfl⟩) (by simp; omega)
  have hlen : (numsOf sf.heap sf.objCache).length = sf.nextNodeNum - 1 := by
    rw [hgood.nums]; simp
  have hnext := hgood.next
  refine ⟨sf, ?_, ?_, hgood.nodup, ?_, by omega, hgood.gen, hgood.asked⟩
  · unfold resetObjectIds
    simpa using hsf
  · intro id
    constructor
    · intro h
      induction h with
      | root => exact hmem
      | step parent child _ hc ih => exact hstep.closure parent ih (by simp) child hc
    · intro h
      exact (hgood.reach id h).toReach
  · rw [hlen]; exact hgood.nums

/-- C5 on `sampleHeap` with the catalog as root. -/
theorem resetObjectIds_numbers_witness :
    ∃ st', resetObjectIds 0 7 0 ⟨sampleHeap, [], 1⟩ = some st' ∧
      (∀ id, Reach st'.heap 0 id ↔ id ∈ st'.objCache) ∧
      st'.objCache.Nodup ∧
      numsOf st'.heap st'.objCache
        = (List.range (numsOf st'.heap st'.objCache).length).map
            (fun (i : Nat) => (i : Int) + 1) ∧
      st'.nextNodeNum = (numsOf st'.heap st'.objCache).length + 1 ∧
      (∀ id ∈ st'.objCache, (numOf st'.heap id).isSome = true → genOf st'.heap id = some 0) ∧
      (∀ id ∈ st'.objCache, (numOf st'.heap id).isSome = asksNumber sampleHeap id) :=
  resetObjectIds_numbers 0 ⟨sampleHeap, [], 1⟩ 7 (by decide) (by decide) (by decide)

/-! ## Inheritance on trees without falsy attribute values -/

theorem get_of_lookup (o : Props) (key : String) :
    o.get key = (o.lookup key).getD Val.undefined := rfl

theorem lookup_setProp_ne (page : PageNode) (key other : String) (v : Val) (h : other ≠ key) :
    (page.setProp key v).props.lookup other = page.props.lookup other := by
  cases page <;> exact Props.lookup_set_ne _ _ _ _ h

theorem lookup_setProp_self (page : PageNode) (key : String) (v : Val) :
    (page.setProp key v).props.lookup key = some v := by
  cases page <;> exact Props.lookup_set_self _ _ _

theorem inheritStep_lookup_self (st : List PageNode × Props) (a : String) :
    (inheritStep st a).1.map (fun p => p.props.lookup a) = st.1.map (offered st.2 a) := by
  simp only [inheritStep, List.map_map]
  apply List.map_congr_left
  intro p _
  simp only [Function.comp, offered]
  split
  · rfl
  · exact lookup_setProp_self p a _

theorem inheritStep_lookup_ne (st : List PageNode × Props) (a b : String) (h : a ≠ b) :
    (inheritStep st b).1.map (fun p => p.props.lookup a)
      = st.1.map (fun p => p.props.lookup a) := by
  simp only [inheritStep, List.map_map]
  apply List.map_congr_left
  intro p _
  simp only [Function.comp]
  split
  · rfl
  · exact lookup_setProp_ne p b a _ h

theorem foldl_inheritStep_lookup_not_mem (attrs : List String) (a : String) (h : a ∉ attrs)
    (st : List PageNode × Props) :
    (attrs.foldl inheritStep st).1.map (fun p => p.props.lookup a)
      = st.1.map (fun p => p.props.lookup a) := by
  induction attrs generalizing st with
  | nil => rfl
  | cons b rest ih =>
    rw [List.foldl_cons, ih (fun hm => h (List.mem_cons_of_mem _ hm)),
      inheritStep_lookup_ne st a b (fun he => h (he ▸ List.mem_cons_self _ _))]

theorem offered_congr (parent parent' : Props) (a : String) (l l' : List PageNode)
    (hp : parent'.get a = parent.get a)
    (hl : l'.map (fun p => p.props.lookup a) = l.map (fun p => p.props.lookup a)) :
    l'.map (offered parent' a) = l.map (offered parent a) := by
  induction l generalizing l' with
  | nil =>
    cases l' with
    | nil => rfl
    | cons _ _ => simp at hl
  | cons x xs ih =>
    cases l' with
    | nil => simp at hl
    | cons y ys =>
      simp only [List.map_cons, List.cons.injEq] at hl ⊢
      refine ⟨?_, ih ys hl.2⟩
      have hg : y.props.get a = x.props.get a := by unfold Props.get; rw [hl.1]
      simp only [offered, hg, hl.1, hp]

theorem foldl_inheritStep_lookup_mem (attrs : List String) (a : String) (hnd : attrs.Nodup)
    (h : a ∈ attrs) (st : List PageNode × Props) :
    (attrs.foldl inheritStep st).1.map (fun p => p.props.lookup a)
      = st.1.map (offered st.2 a) := by
  induction attrs generalizing st with
  | nil => simp at h
  | cons b rest ih =>
    rw [List.foldl_cons]
    have hnd' := List.nodup_cons.mp hnd
    by_cases hab : a = b
    · subst hab
      rw [foldl_inheritStep_lookup_not_mem rest a hnd'.1, inheritStep_lookup_self]
    · have hr : a ∈ rest := by
        rcases List.mem_cons.mp h with h | h
        · exact absurd h hab
        · exact h
      rw [ih hnd'.2 hr]
      apply offered_congr
      · simp only [inheritStep]
        rw [Props.get_delete, if_neg hab]
      · exact inheritStep_lookup_ne st a b hab

theorem inheritable_nodup : inheritable.Nodup := by decide

theorem pushDown_lookup (flat : List PageNode) (parent : Props) (a : String)
    (ha : a ∈ inheritable) :
    (pushDown flat parent).1.map (fun p => p.props.lookup a)
      = if truthy (parent.get a) then flat.map (offered parent a)
        else flat.map (fun p => p.props.lookup a) := by
  unfold pushDown
  by_cases ht : truthy (parent.get a) = true
  · rw [if_pos ht]
    exact foldl_inheritStep_lookup_mem _ a (inheritable_nodup.filter _)
      (List.mem_filter.mpr ⟨ha, ht⟩) (flat, parent)
  · rw [if_neg ht]
    exact foldl_inheritStep_lookup_not_mem _ a
      (fun hm => ht (List.mem_filter.mp hm).2) (flat, parent)

theorem truthy_of_truthyAttrs (props : Props) (h : truthyAttrs props = true) (a : String)
    (ha : a ∈ inheritable) (v : Val) (hv : props.lookup a = some v) : truthy v = true := by
  unfold truthyAttrs at h
  rw [List.all_eq_true] at h
  have := h a ha
  rw [hv] at this
  exact this

theorem truthy_get_iff (props : Props) (h : truthyAttrs props = true) (a : String)
    (ha : a ∈ inheritable) : truthy (props.get a) = (props.lookup a).isSome := by
  rw [get_of_lookup]
  cases hv : props.lookup a with
  | none => rfl
  | some v => simpa using truthy_of_truthyAttrs props h a ha v hv

/-- Under `truthyAttrs`, pushing the attributes of `parent` down gives each page its own
entry when it has one and the entry of `parent` otherwise. -/
theorem pushDown_lookup_orElse (flat : List PageNode) (parent : Props) (a : String)
    (ha : a ∈ inheritable) (hparent : truthyAttrs parent = true)
    (hflat : ∀ p ∈ flat, ∀ v, p.props.lookup a = some v → truthy v = true) :
    (pushDown flat parent).1.map (fun p => p.props.lookup a)
      = flat.map (fun p => (p.props.lookup a).orElse (fun _ => parent.lookup a)) := by
  rw [pushDown_lookup flat parent a ha, truthy_get_iff parent hparent a ha]
  cases hpa : parent.lookup a with
  | none =>
    simp only [Option.isSome_none, Bool.false_eq_true, if_false]
    apply List.map_congr_left
    intro p _
    cases p.props.lookup a <;> rfl
  | some w =>
    simp only [Option.isSome_some, if_true]
    apply List.map_congr_left
    intro p hp
    simp only [offered, get_of_lookup, hpa]
    cases hv : p.props.lookup a with
    | none => simp [truthy]
    | some v => simp [hflat p hp v hv]

theorem inheritedSpec_snoc (ancestors : List Props) (leaf parent : Props) (a : String) :
    inheritedSpec (ancestors ++ [parent]) leaf a
      = (inheritedSpec ancestors leaf a).orElse (fun _ => parent.lookup a) := by
  unfold inheritedSpec
  cases leaf.lookup a with
  | some v => rfl
  | none =>
    simp only [List.findSome?_append]
    cases ancestors.findSome? (fun parent => parent.lookup a) with
    | some v => rfl
    | none => simp [List.findSome?]; cases parent.lookup a <;> rfl

theorem pushDown_truthy (flat : List PageNode) (parent : Props) (a : String)
    (ha : a ∈ inheritable) (hparent : truthyAttrs parent = true)
    (hflat : ∀ p ∈ flat, ∀ v, p.props.lookup a = some v → truthy v = true) :
    ∀ p ∈ (pushDown flat parent).1, ∀ v, p.props.lookup a = some v → truthy v = true := by
  intro p hp v hv
  have hmem : some v ∈ (pushDown flat parent).1.map (fun p => p.props.lookup a) :=
    List.mem_map.mpr ⟨p, hp, hv⟩
  rw [pushDown_lookup_orElse flat parent a ha hparent hflat] at hmem
  obtain ⟨q, hq, hqv⟩ := List.mem_map.mp hmem
  cases hql : q.props.lookup a with
  | some w =>
    rw [hql] at hqv
    simp only [Option.orElse] at hqv
    cases hqv
    exact hflat q hq _ hql
  | none =>
    rw [hql] at hqv
    simp only [Option.orElse] at hqv
    exact truthy_of_truthyAttrs parent hparent a ha v hqv

mutual
theorem flattenNode_inherits (a : String) (ha : a ∈ inheritable) : ∀ page : PageNode,
    allTruthy page = true →
    (flattenNode page).map (fun p => p.props.lookup a)
        = (leafPaths page).map (fun la => inheritedSpec la.2 la.1 a) ∧
      ∀ p ∈ flattenNode page, ∀ v, p.props.lookup a = some v → truthy v = true
  | .leaf props, h => by
    refine ⟨?_, ?_⟩
    · simp only [flattenNode, leafPaths, List.map_cons, List.map_nil, PageNode.props,
        inheritedSpec]
      cases props.lookup a <;> rfl
    · intro p hp v hv
      simp only [flattenNode, List.mem_singleton] at hp
      subst hp
      exact truthy_of_truthyAttrs props (by simpa [allTruthy] using h) a ha v hv
  | .pages props kids, h => by
    simp only [allTruthy, Bool.and_eq_true] at h
    obtain ⟨ih1, ih2⟩ := flattenKids_inherits a ha kids h.2
    refine ⟨?_, pushDown_truthy _ props a ha h.1 ih2⟩
    simp only [flattenNode, leafPaths]
    rw [pushDown_lookup_orElse _ props a ha h.1 ih2, List.map_map]
    have hsplit : (flattenKids kids).map
          (fun p => (p.props.lookup a).orElse (fun _ => props.lookup a))
        = ((flattenKids kids).map (fun p => p.props.lookup a)).map
            (fun o => o.orElse (fun _ => props.lookup a)) := by
      rw [List.map_map]; rfl
    rw [hsplit, ih1, List.map_map]
    apply List.map_congr_left
    intro la _
    simp only [Function.comp]
    exact (inheritedSpec_snoc la.2 la.1 props a).symm
theorem flattenKids_inherits (a : String) (ha : a ∈ inheritable) : ∀ kids : List PageNode,
    allTruthyKids kids = true →
    (flattenKids kids).map (fun p => p.props.lookup a)
        = (leafPathsKids kids).map (fun la => inheritedSpec la.2 la.1 a) ∧
      ∀ p ∈ flattenKids kids, ∀ v, p.props.lookup a = some v → truthy v = true
  | [], _ => by simp [flattenKids, leafPathsKids]
  | page :: rest, h => by
    simp only [allTruthyKids, Bool.and_eq_true] at h
    obtain ⟨h1, h2⟩ := flattenNode_inherits a ha page h.1
    obtain ⟨r1, r2⟩ := flattenKids_inherits a ha rest h.2
    refine ⟨?_, ?_⟩
    · simp only [flattenKids, leafPathsKids, List.map_append, h1, r1]
    · intro p hp
      simp only [flattenKids, List.mem_append] at hp
      rcases hp with hp | hp
      · exact h2 p hp
      · exact r2 p hp
end

/-- On a page tree in which every inheritable attribute that is present has a truthy value,
flattening gives every leaf page, for each inheritable attribute, its own value when it has
one and else the value of the nearest ancestor that has one (none when no ancestor has). -/
theorem flattenPageTree_inherits_of_truthy (props : Props) (kids : List PageNode) (a : String)
    (ha : a ∈ inheritable) (h : allTruthy (.pages props kids) = true) :
    (flattenPageTree (.pages props kids)).map
        (fun root => root.kids.map (fun page => page.props.lookup a))
      = some ((leafPaths (.pages props kids)).map (fun la => inheritedSpec la.2 la.1 a)) := by
  have hf := (flattenNode_inherits a ha (.pages props kids) h).1
  simp only [flattenNode] at hf
  simp only [flattenPageTree, Option.map_some', PageNode.kids, hf]

/-! ## Root entries -/

theorem Props.delete_filter (o : Props) (key : String) (keep : String → Bool) :
    Props.delete (o.filter (fun kv => keep kv.1)) key
      = o.filter (fun kv => keep kv.1 && (kv.1 != key)) := by
  unfold Props.delete
  rw [List.filter_filter]
  apply List.filter_congr
  intro kv _
  rw [Bool.and_comm]

theorem foldl_delete_filter (keys : List String) (o : Props) (keep : String → Bool) :
    keys.foldl Props.delete (o.filter (fun kv => keep kv.1))
      = o.filter (fun kv => keep kv.1 && !keys.contains kv.1) := by
  induction keys generalizing keep with
  | nil => simp
  | cons k rest ih =>
    rw [List.foldl_cons, Props.delete_filter, ih (fun s => keep s && (s != k))]
    apply List.filter_congr
    intro kv _
    by_cases h : kv.1 = k
    · simp [h]
    · have hne : (kv.1 != k) = true := by simpa using h
      simp [h, hne, List.contains_cons]

theorem foldl_delete_eq (keys : List String) (o : Props) :
    keys.foldl Props.delete o = o.filter (fun kv => !keys.contains kv.1) := by
  have h := foldl_delete_filter keys o (fun _ => true)
  simpa using h

theorem removeRootEntries_eq_filter (entries : Option (List String)) (root : Props) :
    removeRootEntries entries root = root.filter (fun kv => !rootKeyToRemove entries kv.1) := by
  unfold removeRootEntries
  rw [foldl_delete_eq]
  apply List.filter_congr
  intro kv hkv
  by_cases hr : rootKeyToRemove entries kv.1 = true
  · have hmem : kv.1 ∈ (root.map (fun kv => kv.1)).filter (rootKeyToRemove entries) :=
      List.mem_filter.mpr ⟨List.mem_map.mpr ⟨kv, hkv, rfl⟩, hr⟩
    simp [hr, hmem]
  · have hnot : kv.1 ∉ (root.map (fun kv => kv.1)).filter (rootKeyToRemove entries) :=
      fun hm => hr (List.mem_filter.mp hm).2
    simp [hr, hnot]

/-- C18: with a non-empty list of entries `removeRootEntries` leaves the catalog without
exactly the entries whose key is in the list, every other entry unchanged and in place; with
no list or an empty one it leaves exactly the entries keyed `/Type`, `/Pages`, `num` and
`gen`, unchanged and in place. -/
theorem removeRootEntries_frame (entries : Option (List String)) (root : Props) :
    (∀ es, entries = some es → es ≠ [] →
      removeRootEntries entries root = root.filter (fun kv => !es.contains kv.1)) ∧
    (entries = none ∨ entries = some [] →
      removeRootEntries entries root
        = root.filter (fun kv => requiredRootKeys.contains kv.1)) := by
  rw [removeRootEntries_eq_filter]
  refine ⟨?_, ?_⟩
  · intro es he hne
    subst he
    have hlen : es.length ≠ 0 := by simpa using hne
    apply List.filter_congr
    intro kv _
    simp [rootKeyToRemove, hlen]
  · intro h
    apply List.filter_congr
    intro kv _
    rcases h with h | h <;> subst h <;> simp [rootKeyToRemove]

/-- C18 on a catalog with `/Type`, `/Pages`, `/Outlines`, `/Names` and `num`: naming
`/Outlines` removes that entry alone, naming nothing leaves the required entries. -/
theorem removeRootEntries_frame_witness :
    removeRootEntries (some ["/Outlines"])
        [("/Type", Val.str (jsStr "/Catalog")), ("/Pages", Val.ref 1), ("/Outlines", Val.ref 2),
          ("/Names", Val.ref 3), ("num", Val.num 1)]
      = [("/Type", Val.str (jsStr "/Catalog")), ("/Pages", Val.ref 1), ("/Names", Val.ref 3),
          ("num", Val.num 1)] ∧
    removeRootEntries none
        [("/Type", Val.str (jsStr "/Catalog")), ("/Pages", Val.ref 1), ("/Outlines", Val.ref 2),
          ("/Names", Val.ref 3), ("num", Val.num 1)]
      = [("/Type", Val.str (jsStr "/Catalog")), ("/Pages", Val.ref 1), ("num", Val.num 1)] :=
  ⟨((removeRootEntries_frame (some ["/Outlines"]) _).1 ["/Outlines"] rfl (by decide)).trans
      (by decide),
   ((removeRootEntries_frame none _).2 (Or.inl rfl)).trans (by decide)⟩

/-! ## Grouping an already grouped tree -/

theorem assignPage_pagesObject (count : Nat) (kids : List PageNode) :
    assignPage (PageNode.pages (pagesObjectProps count) kids)
      = PageNode.pages (pagesObjectProps count) kids := by
  simp [assignPage, PageNode.setProp, pagesObjectProps, Props.set]

theorem groupLoop_assigned (recurse : List PageNode → Option (List PageNode))
    (pageTree : List PageNode) (branchSize : Nat) :
    ∀ (indices : List Nat) (g : List PageNode),
      groupLoop recurse pageTree branchSize indices = some g → g.map assignPage = g := by
  intro indices
  induction indices with
  | nil =>
    intro g h
    simp only [groupLoop, Option.some.injEq] at h
    subst h; rfl
  | cons i rest ih =>
    intro g h
    rcases hsl : branchSlice pageTree branchSize i with _ | ⟨p, _ | ⟨q, tl⟩⟩
    · simp only [groupLoop, hsl] at h
      exact ih g h
    · simp only [groupLoop, hsl] at h
      cases hr : groupLoop recurse pageTree branchSize rest with
      | none => rw [hr] at h; simp at h
      | some g' =>
        rw [hr] at h
        simp only [Option.map_some', Option.some.injEq] at h
        subst h
        simp [assignPage_idem, ih g' hr]
    · simp only [groupLoop, hsl] at h
      cases hk : recurse (p :: q :: tl) with
      | none => rw [hk] at h; simp at h
      | some kids =>
        rw [hk] at h
        cases hr : groupLoop recurse pageTree branchSize rest with
        | none => rw [hr] at h; simp at h
        | some g' =>
          rw [hr] at h
          simp only [Option.map_some', Option.some.injEq] at h
          subst h
          simp [assignPage_pagesObject, ih g' hr]

theorem groupKids_assigned (fuel : Nat) (pageTree : List PageNode) (B : Nat)
    (g : List PageNode) (h : groupKids fuel pageTree B = some g) : g.map assignPage = g := by
  cases fuel with
  | zero => simp [groupKids] at h
  | succ fuel =>
    unfold groupKids at h
    by_cases hflat : pageTree.length ≤ B
    · rw [if_pos hflat] at h
      simp only [Option.some.injEq] at h
      subst h
      exact map_assignPage_idem pageTree
    · rw [if_neg hflat] at h
      by_cases hB : B = 0
      · rw [if_pos hB] at h
        simp only [Option.some.injEq] at h
        subst h; rfl
      · rw [if_neg hB] at h
        simp only [] at h
        split at h
        · exact groupLoop_assigned _ _ _ _ g h
        · exact groupLoop_assigned _ _ _ _ g h

/-- C20 as stated fails: three leaf pages grouped with branch size 2 give a root with `/Count`
3 over two kids; `groupPageTree` invoked again on that tree with the same branch size takes
the two kids for the pages and sets the root's `/Count` to 2. -/
theorem groupPageTree_again_count :
    (groupPageTree 4 2 (.pages [] [.leaf [], .leaf [], .leaf []])).map
        (fun t => (t.props.get "/Count", t.kids.length)) = some (Val.num 3, 2) ∧
    ((groupPageTree 4 2 (.pages [] [.leaf [], .leaf [], .leaf []])).bind
        (groupPageTree 4 2)).map
        (fun t => (t.props.get "/Count", t.kids.length)) = some (Val.num 2, 2) := by
  decide

/-- C20 amended: for a branch size `B ≥ 2` and a flat sequence of `n` leaf pages,
`groupPageTree` returns a tree with kids `g`, and invoked again on that tree with the same `B`
it returns the same kids `g` at every level, with the root's `/Count` set to the number of
kids of the root; that is `n` again, and the tree the same, when `n ≤ B`. -/
theorem groupPageTree_again (props : Props) (kids : List PageNode) (B fuel : Nat)
    (hB : 2 ≤ B) (hleaf : ∀ p ∈ kids, p.isLeaf = true) (hfuel : kids.length < fuel) :
    ∃ props1 g, groupPageTree fuel B (.pages props kids) = some (.pages props1 g) ∧
      groupPageTree fuel B (.pages props1 g)
        = some (.pages (props1.set "/Count" (Val.num g.length)) g) ∧
      (kids.length ≤ B →
        groupPageTree fuel B (.pages props1 g) = some (.pages props1 g)) := by
  obtain ⟨g, hg, _, _, _, hlen, _⟩ := groupKids_ok B hB fuel kids hleaf hfuel
  obtain ⟨f, rfl⟩ : ∃ f, fuel = f + 1 := ⟨fuel - 1, by omega⟩
  have hsecond : groupKids (f + 1) g B = some g := by
    rw [groupKids_flat f g B hlen, groupKids_assigned (f + 1) kids B g hg]
  refine ⟨props.set "/Count" (Val.num kids.length), g, by simp [groupPageTree, hg],
    by simp [groupPageTree, hsecond], ?_⟩
  intro hflat
  have hgl : g.length = kids.length := by
    rw [groupKids_flat f kids B hflat] at hg
    simp only [Option.some.injEq] at hg
    rw [← hg, List.length_map]
  simp [groupPageTree, hsecond, hgl, Props.set_set_self]

/-- C20 amended, at three leaf pages and branch size 2. -/
theorem groupPageTree_again_witness :
    ∃ props1 g, groupPageTree 4 2 (.pages [] [.leaf [], .leaf [], .leaf []])
        = some (.pages props1 g) ∧
      groupPageTree 4 2 (.pages props1 g)
        = some (.pages (props1.set "/Count" (Val.num g.length)) g) ∧
      ([PageNode.leaf [], PageNode.leaf [], PageNode.leaf []].length ≤ 2 →
        groupPageTree 4 2 (.pages props1 g) = some (.pages props1 g)) :=
  groupPageTree_again [] [.leaf [], .leaf [], .leaf []] 2 4 (by decide)
    (fun p hp => by simp at hp; subst hp; rfl) (by decide)

/-! ## The `groupPages` option -/

/-- C17 as stated fails: with `groupPages` off, three leaf pages and `pageGroupSize` 2, the
page-tree root after lines 427-428 holds a `Pages` branch, not the flat sequence of the three
leaves. -/
theorem assembleNormalize_groups_when_off :
    (assembleNormalize { defaultOptions with groupPages := false, pageGroupSize := 2 } 4
        (.pages [] [.leaf [], .leaf [], .leaf []])).map
        (fun t => (t.kids.length, t.kids.all PageNode.isLeaf, leafDepth t))
      = some (2, false, 2) := by
  decide

/-- C17 amended: `assemblePdf` regroups the page tree whatever `groupPages` is: for a
`pageGroupSize` `B ≥ 2` the page-tree root after lines 427-428 is the grouping of the flat
leaf sequence (the result of `groupPageTree` on the flattened tree), the same for both values
of `groupPages`, and it holds `Pages` branches as soon as there are more than `B` leaves. -/
theorem assembleNormalize_ignores_groupPages (opts : Options) (flag : Bool) (props : Props)
    (kids : List PageNode) (fuel : Nat) (hB : 2 ≤ opts.pageGroupSize)
    (hfuel : (leavesOfKids kids).length < fuel) :
    ∃ flat t, flattenPageTree (.pages props kids) = some flat ∧
      groupPageTree fuel opts.pageGroupSize flat = some t ∧
      assembleNormalize { opts with groupPages := flag } fuel (.pages props kids) = some t ∧
      (opts.pageGroupSize < (leavesOfKids kids).length → 1 < leafDepth t) := by
  have hlen : (pushDown (flattenKids kids) props).1.length = (leavesOfKids kids).length := by
    have h := congrArg List.length
      ((pushDown_strip (flattenKids kids) props).trans (flattenKids_strip kids))
    simpa using h
  have hleaf := pushDown_isLeaf _ props (flattenKids_isLeaf kids)
  obtain ⟨g, hg, _, _, _, _, _, _, hdeep⟩ := groupKids_ok opts.pageGroupSize hB fuel
    (pushDown (flattenKids kids) props).1 hleaf (by omega)
  refine ⟨_, _, rfl, by simp only [groupPageTree, hg]; rfl, ?_, ?_⟩
  · simp only [assembleNormalize, flattenPageTree, Option.bind, groupPageTree, hg]
    rfl
  · intro h
    have := hdeep (by omega)
    simpa [leafDepth] using this

/-- C17 amended, with `groupPages` off, three leaf pages and `pageGroupSize` 2. -/
theorem assembleNormalize_ignores_groupPages_witness :
    ∃ flat t, flattenPageTree (.pages [] [.leaf [], .leaf [], .leaf []]) = some flat ∧
      groupPageTree 4 2 flat = some t ∧
      assembleNormalize { defaultOptions with groupPages := false, pageGroupSize := 2 } 4
        (.pages [] [.leaf [], .leaf [], .leaf []]) = some t ∧
      (2 < (leavesOfKids [PageNode.leaf [], PageNode.leaf [], PageNode.leaf []]).length →
        1 < leafDepth t) :=
  assembleNormalize_ignores_groupPages { defaultOptions with pageGroupSize := 2 } false []
    [.leaf [], .leaf [], .leaf []] 4 (by decide) (by decide)

/-! ## Which nodes receive a number -/

theorem resetObjectIds_root_ok (root : Nat) (st : ResetState) (fuel : Nat)
    (hclosed : closedHeap st.heap = true) (hroot : root < st.heap.length)
    (hfuel : st.heap.length < fuel) :
    ∃ st', resetObjectIds root fuel root st = some st' ∧ Good root st.heap st' ∧
      Step { st with nextNodeNum := 1, objCache := [] } st' ∧ root ∈ st'.objCache := by
  obtain ⟨f, rfl⟩ : ∃ f, fuel = f + 1 := ⟨fuel - 1, by omega⟩
  obtain ⟨sf, hsf, hgood, hstep, hmem⟩ := visit_ok root st.heap f
    (fun item s => resetObjectIds root f item s) (resetObjectIds_ok root st.heap f)
    { st with nextNodeNum := 1, objCache := [] } root (good_start root st hclosed)
    (by simp) hroot (Or.inl ⟨rfl, rfl⟩) (by simp; omega)
  refine ⟨sf, ?_, hgood, hstep, hmem⟩
  unfold resetObjectIds
  simpa using hsf

theorem reach_visited (root : Nat) (st st' : ResetState) (hempty : st.objCache = [])
    (hstep : Step st st') (hroot : root ∈ st'.objCache) (id : Nat)
    (h : Reach st'.heap root id) : id ∈ st'.objCache := by
  induction h with
  | root => exact hroot
  | step parent child _ hc ih =>
    exact hstep.closure parent ih (by rw [hempty]; simp) child hc

/-- C14 as stated fails: in `placeholderHeap` the page with the `num` placeholder, no stream
and `/Type` `/Page` receives the number 2, and the object whose stream payload is the empty
string receives none. -/
theorem resetObjectIds_placeholder_numbered :
    (resetObjectIds 0 4 0 ⟨placeholderHeap, [], 1⟩).map
        (fun st => (numOf st.heap 1, numOf st.heap 2)) = some (some 2, none) ∧
    statedNeedsNumber [("num", Val.num 0), ("/Type", Val.str (jsStr "/Page"))] = false ∧
    statedNeedsNumber [("stream", Val.str [])] = true := by
  decide

/-- C14 amended: `resetObjectIds` returns, and a node reachable from the root carries an
object number afterwards if and only if, before the call, its `num` was a number (a
placeholder or an earlier number), or its `stream` was truthy, or its `/Type` was listed in
`makeIndirect`; an array never carries one, a node that is not reachable is left as it
was, and `newPdfObject` renders a node left without a number in place, as `<<`, its entries
and `>>`, storing no block for it. -/
theorem resetObjectIds_numbers_iff (root : Nat) (st : ResetState) (fuel : Nat)
    (hclosed : closedHeap st.heap = true) (hroot : root < st.heap.length)
    (hfuel : st.heap.length < fuel) :
    ∃ st', resetObjectIds root fuel root st = some st' ∧
      (∀ id props, Reach st'.heap root id → st.heap[id]? = some (Obj.dict props) →
        (numOf st'.heap id).isSome
          = (isNumber (props.get "num") || truthy (props.get "stream") ||
              (match props.get "/Type" with
                | .str s => makeIndirect.contains s
                | _ => false))) ∧
      (∀ id items, st.heap[id]? = some (Obj.arr items) → numOf st'.heap id = none) ∧
      (∀ id, ¬ Reach st'.heap root id → st'.heap[id]? = st.heap[id]?) ∧
      (∀ id props', st'.heap[id]? = some (Obj.dict props') → numOf st'.heap id = none →
        ∀ (opts : Options) (deflate : List Nat → List Nat) (f depth : Nat)
          (nextIndent : NextIndent) (slots : SlotTable),
          newPdfObject opts deflate (f + 1) (Val.ref id) depth nextIndent ⟨st'.heap, slots⟩
            = (renderEntries opts depth
                (fun item ni s => newPdfObject opts deflate f item (depth + 1) ni s)
                (nameEntries props') ⟨st'.heap, slots⟩).map
              (fun r =>
                (lead opts depth nextIndent (jsStr "<<" ++ r.1 ++ newline opts ++
                    repeatStr (space opts) depth ++ jsStr ">>") ++
                  (jsStr "<<" ++ r.1 ++ newline opts ++ repeatStr (space opts) depth ++
                    jsStr ">>"), r.2))) := by
  obtain ⟨sf, hsf, hgood, hstep, hmem⟩ := resetObjectIds_root_ok root st fuel hclosed hroot hfuel
  refine ⟨sf, hsf, ?_, ?_, ?_, ?_⟩
  · intro id props hreach hobj
    have hin := reach_visited root _ sf rfl hstep hmem id hreach
    rw [hgood.asked id hin]
    simp only [asksNumber, hobj, needsNumber, isNumber]
  · intro id items hobj
    by_cases hin : id ∈ sf.objCache
    · have h := hgood.asked id hin
      simp only [asksNumber, hobj] at h
      cases hn : numOf sf.heap id with
      | none => rfl
      | some n => rw [hn] at h; simp at h
    · rw [numOf_congr st.heap sf.heap id (hgood.fresh id hin)]
      simp [numOf, hobj]
  · intro id hnot
    have hin : id ∉ sf.objCache := fun h => hnot (hgood.reach id h).toReach
    exact hgood.fresh id hin
  · intro id props' hobj hnone opts deflate f depth nextIndent slots
    rw [newPdfObject]
    simp only [hobj]
    cases hn : props'.get "num" with
    | num n => simp [numOf, hobj, hn] at hnone
    | undefined | null | bool b | str s | ref r =>
      simp only []
      cases renderEntries opts depth
        (fun item ni s => newPdfObject opts deflate f item (depth + 1) ni s)
        (nameEntries props') ⟨sf.heap, slots⟩ <;> rfl

/-- C14 amended, on `placeholderHeap` with the catalog as root. -/
theorem resetObjectIds_numbers_iff_witness :
    ∃ st', resetObjectIds 0 4 0 ⟨placeholderHeap, [], 1⟩ = some st' ∧
      (∀ id props, Reach st'.heap 0 id → placeholderHeap[id]? = some (Obj.dict props) →
        (numOf st'.heap id).isSome
          = (isNumber (props.get "num") || truthy (props.get "stream") ||
              (match props.get "/Type" with
                | .str s => makeIndirect.contains s
                | _ => false))) ∧
      (∀ id items, placeholderHeap[id]? = some (Obj.arr items) → numOf st'.heap id = none) ∧
      (∀ id, ¬ Reach st'.heap 0 id → st'.heap[id]? = placeholderHeap[id]?) ∧
      (∀ id props', st'.heap[id]? = some (Obj.dict props') → numOf st'.heap id = none →
        ∀ (opts : Options) (deflate : List Nat → List Nat) (f depth : Nat)
          (nextIndent : NextIndent) (slots : SlotTable),
          newPdfObject opts deflate (f + 1) (Val.ref id) depth nextIndent ⟨st'.heap, slots⟩
            = (renderEntries opts depth
                (fun item ni s => newPdfObject opts deflate f item (depth + 1) ni s)
                (nameEntries props') ⟨st'.heap, slots⟩).map
              (fun r =>
                (lead opts depth nextIndent (jsStr "<<" ++ r.1 ++ newline opts ++
                    repeatStr (space opts) depth ++ jsStr ">>") ++
                  (jsStr "<<" ++ r.1 ++ newline opts ++ repeatStr (space opts) depth ++
                    jsStr ">>"), r.2))) :=
  resetObjectIds_numbers_iff 0 ⟨placeholderHeap, [], 1⟩ 4 (by decide) (by decide) (by decide)

/-! ## The block of a stream object -/

theorem repeatStr_zero (s : List Nat) : repeatStr s 0 = [] := rfl

/-- C15 as stated fails: with the default options (indent off) the stream object of
`helloDocument` is written `2 0 obj<</Length 5>>stream`, newline, `Hello`, `endstream`,
newline, `endobj`, newline: there is no newline before `stream` and none between the payload
and `endstream`. -/
theorem assemblePdf_stream_block_compact :
    (assemblePdf defaultOptions (fun bytes => bytes) 5 helloDocument).map
        (fun a => a.indirectObjects.get 2)
      = some (some (Slot.done (jsStr "2 0 obj<</Length 5>>stream\nHelloendstream\nendobj\n"))) ∧
    statedStreamBlock (Val.num 2) (Val.num 0) (jsStr "<</Length 5>>") (jsStr "Hello")
      = jsStr "2 0 obj<</Length 5>>\nstream\nHello\nendstream\nendobj\n" := by
  decide

/-- Lines 517-522 after lines 483 and 514: the block of an indirect object with a non-empty
payload, for indent on and indent off. -/
theorem finishObject_stream (opts : Options) (num gen : Val) (dictItems payload : List Nat)
    (hne : payload ≠ []) :
    finishObject opts (objectBody opts num gen dictItems) (some payload)
      = if truthy opts.indent = true then
          stringToBytes (jsToString num ++ [32] ++ jsToString gen ++ jsStr " obj\n" ++
            (jsStr "<<" ++ dictItems ++ jsStr "\n>>") ++ jsStr "\nstream\n") ++ payload ++
            stringToBytes (jsStr "\nendstream\nendobj\n")
        else
          stringToBytes (jsToString num ++ [32] ++ jsToString gen ++ jsStr " obj" ++
            (jsStr "<<" ++ dictItems ++ jsStr ">>") ++ jsStr "stream\n") ++ payload ++
            stringToBytes (jsStr "endstream\nendobj\n") := by
  have hlen : payload.length ≠ 0 := by simpa using hne
  by_cases hi : truthy opts.indent = true
  · simp [finishObject, objectBody, newline, repeatStr_zero, hi, hlen, jsStr,
      List.append_assoc]
  · have hi' : truthy opts.indent = false := by simpa using hi
    simp [finishObject, objectBody, newline, repeatStr_zero, hi', hlen, jsStr,
      List.append_assoc]

theorem slotTable_get_set_self (t : SlotTable) (n : Int) (slot : Slot) :
    (t.set n slot).get n = some slot := by
  simp [SlotTable.get, SlotTable.set, List.lookup]

/-- C15 amended: when `newPdfObject` renders a node that carries a number, has no slot yet and
has a defined `stream`, the slot of that number afterwards holds, for the payload written
(the original bytes or their deflated form) when it is not empty: with indent on,
`num gen obj`, a newline, `<<` the entries, a newline, `>>`, a newline, `stream`, a newline,
the payload, a newline, `endstream`, a newline, `endobj`, a newline; with indent off (the
default), `num gen obj<<` the entries `>>stream`, a newline, the payload, `endstream`, a
newline, `endobj`, a newline. -/
theorem stream_block_format (opts : Options) (deflate : List Nat → List Nat) (fuel id depth : Nat)
    (nextIndent : NextIndent) (st st' : RenderState) (text : List Nat) (props : Props) (n : Int)
    (hobj : st.heap[id]? = some (Obj.dict props)) (hnum : props.get "num" = Val.num n)
    (hslot : st.indirectObjects.get n = none) (hstream : props.get "stream" ≠ Val.undefined)
    (hrun : newPdfObject opts deflate (fuel + 1) (Val.ref id) depth nextIndent st
      = some (text, st')) :
    ∃ payload dictItems written,
      payloadOf st.heap (props.get "stream") = some payload ∧
      (written = payload ∨ written = deflate payload) ∧
      (written ≠ [] →
        st'.indirectObjects.get n = some (Slot.done (
          if truthy opts.indent = true then
            stringToBytes (jsToString (Val.num n) ++ [32] ++ jsToString (props.get "gen") ++
              jsStr " obj\n" ++ (jsStr "<<" ++ dictItems ++ jsStr "\n>>") ++
              jsStr "\nstream\n") ++ written ++ stringToBytes (jsStr "\nendstream\nendobj\n")
          else
            stringToBytes (jsToString (Val.num n) ++ [32] ++ jsToString (props.get "gen") ++
              jsStr " obj" ++ (jsStr "<<" ++ dictItems ++ jsStr ">>") ++ jsStr "stream\n") ++
              written ++ stringToBytes (jsStr "endstream\nendobj\n")))) := by
  rw [newPdfObject] at hrun
  simp only [hobj, hnum, hslot, if_neg hstream] at hrun
  cases hp : payloadOf st.heap (props.get "stream") with
  | none => rw [hp] at hrun; simp at hrun
  | some payload =>
    rw [hp] at hrun
    simp only [Option.map_some'] at hrun
    split at hrun
    · simp at hrun
    · rename_i dictItems st1 hentries
      simp only [Option.some.injEq, Prod.mk.injEq] at hrun
      obtain ⟨-, hst⟩ := hrun
      have hw : ∃ written,
          (openObject opts deflate st id props n (some payload)).2.1 = some written ∧
          (written = payload ∨ written = deflate payload) := by
        by_cases hc : payload.length ≠ 0 ∧
            (opts.compress && !truthy (props.get "/Filter")) = true ∧
            (deflate payload).length + 19 < payload.length
        · exact ⟨deflate payload, by simp only [openObject, compressNode, if_pos hc],
            Or.inr rfl⟩
        · exact ⟨payload, by simp only [openObject, compressNode, if_neg hc], Or.inl rfl⟩
      obtain ⟨written, hw1, hw2⟩ := hw
      refine ⟨payload, dictItems, written, rfl, hw2, fun hne => ?_⟩
      rw [← hst]
      simp only [slotTable_get_set_self, hw1]
      rw [finishObject_stream opts _ _ _ _ hne]

/-- C15 amended, on a heap whose only node is the stream object `2 0` with the payload
`Hello`: the slot 2 holds `2 0 obj<</Length 5>>stream`, newline, `Hello`, `endstream`,
newline, `endobj`, newline. -/
theorem stream_block_format_witness :
    ∃ payload dictItems written,
      payloadOf [Obj.dict [("num", Val.num 2), ("gen", Val.num 0), ("stream", Val.str (jsStr "Hello"))]]
        (Val.str (jsStr "Hello")) = some payload ∧
      (written = payload ∨ written = (fun bytes => bytes) payload) ∧
      (written ≠ [] →
        SlotTable.get [((2 : Int), Slot.done (jsStr "2 0 obj<</Length 5>>stream\nHelloendstream\nendobj\n"))] 2
          = some (Slot.done (
            stringToBytes (jsStr "2 0 obj" ++ (jsStr "<<" ++ dictItems ++ jsStr ">>") ++
              jsStr "stream\n") ++ written ++ stringToBytes (jsStr "endstream\nendobj\n")))) :=
  stream_block_format defaultOptions (fun bytes => bytes) 1 0 0 NextIndent.no
    { heap := [Obj.dict [("num", Val.num 2), ("gen", Val.num 0),
        ("stream", Val.str (jsStr "Hello"))]], indirectObjects := [] }
    { heap := [Obj.dict [("num", Val.num 2), ("gen", Val.num 0),
        ("stream", Val.str (jsStr "Hello")), ("/Length", Val.num 5)]],
      indirectObjects := [((2 : Int), Slot.done
        (jsStr "2 0 obj<</Length 5>>stream\nHelloendstream\nendobj\n"))] }
    (jsStr "2 0 R")
    [("num", Val.num 2), ("gen", Val.num 0), ("stream", Val.str (jsStr "Hello"))] 2
    (by decide) (by decide) (by decide) (by decide) (by decide)

/-! ## The `/Info` entry of the trailer -/

theorem Props.set_ne_nil (o : Props) (key : String) (v : Val) : o.set key v ≠ [] := by
  cases o with
  | nil => simp [Props.set]
  | cons kv rest =>
    obtain ⟨k, w⟩ := kv
    simp only [Props.set]
    split <;> simp

/-- Whenever `assemblePdf` returns, it has rendered the info dictionary: line 548 tests the
number of keys after lines 546-547 have set `gen` and `num`. -/
theorem assemblePdf_info_rendered (opts : Options) (deflate : List Nat → List Nat)
    (fuel : Nat) (doc : Document) (a : Assembled)
    (h : assemblePdf opts deflate fuel doc = some a) : a.infoRef.isSome = true := by
  unfold assemblePdf at h
  split at h
  · simp at h
  · split at h
    · dsimp only at h
      split at h
      · simp at h
      · split at h
        · rw [if_pos (by simpa using Props.set_ne_nil _ _ _)] at h
          split at h
          · simp at h
          · rename_i infoRef st3 hinfo
            simp only [Option.some.injEq] at h
            subst h
            simp only []
            cases hr : newPdfObject opts deflate fuel (Val.ref doc.info) 0 NextIndent.no _ with
            | none => rw [hr] at hinfo; simp at hinfo
            | some r =>
              rw [hr] at hinfo
              simp only [Option.map_some', Option.some.injEq, Prod.mk.injEq] at hinfo
              rw [← hinfo.1]; rfl
        · simp at h
    · simp at h

/-- C16: on `helloDocument`, whose info dictionary is empty, `assemblePdf` writes the info
object `3 0 obj<<>>endobj` and the trailer entry `/Info 3 0 R`, where the claim has no
`/Info` entry and no info object. -/
theorem assemblePdf_empty_info_written :
    (assemblePdf defaultOptions (fun bytes => bytes) 5 helloDocument).map
        (fun a => (a.infoRef, a.indirectObjects.get 3, a.trailer))
      = some (some (jsStr "3 0 R"), some (Slot.done (jsStr "3 0 obj<<>>endobj\n")),
          jsStr "trailer\n<</Root 1 0 R/Info 3 0 R/Size 4>>\nstartxref\n136\n%%EOF\n") := by
  decide

/-! ## What the numbering and the rendering preserve -/

theorem resetEach_preserves (P : Heap → Prop)
    (recurse : Nat → ResetState → Option ResetState)
    (hrec : ∀ item st st', P st.heap → recurse item st = some st' → P st'.heap) :
    ∀ (items : List Nat) (st st' : ResetState), P st.heap →
      resetEach recurse items st = some st' → P st'.heap := by
  intro items
  induction items with
  | nil =>
    intro st st' h hrun
    simp only [resetEach, Option.some.injEq] at hrun
    subst hrun
    exact h
  | cons item rest ih =>
    intro st st' h hrun
    simp only [resetEach] at hrun
    cases hr : recurse item st with
    | none => rw [hr] at hrun; simp at hrun
    | some st1 =>
      rw [hr] at hrun
      exact ih st1 st' (hrec item st st1 h hr) hrun

theorem visit_preserves (P : Heap → Prop)
    (hP : ∀ (heap : Heap) (id : Nat) (props : Props) (k : Nat), P heap →
      heap[id]? = some (Obj.dict props) → needsNumber props = true →
      P (heap.set id (Obj.dict (assignNumber props k))))
    (recurse : Nat → ResetState → Option ResetState)
    (hrec : ∀ item st st', P st.heap → recurse item st = some st' → P st'.heap)
    (node : Nat) (st st' : ResetState) (h : P st.heap)
    (hrun : visit recurse node st = some st') : P st'.heap := by
  unfold visit at hrun
  simp only [] at hrun
  cases hobj : st.heap[node]? with
  | none =>
    rw [hobj] at hrun
    simp only [Option.some.injEq] at hrun
    subst hrun
    exact h
  | some obj =>
    rw [hobj] at hrun
    cases obj with
    | arr items =>
      simp only [] at hrun
      refine resetEach_preserves P recurse hrec _ _ st' ?_ hrun
      exact h
    | dict props =>
      simp only [] at hrun
      by_cases hneed : needsNumber props = true
      · rw [if_pos hneed] at hrun
        refine resetEach_preserves P recurse hrec _ _ st' ?_ hrun
        exact hP st.heap node props st.nextNodeNum h hobj hneed
      · rw [if_neg hneed] at hrun
        refine resetEach_preserves P recurse hrec _ _ st' ?_ hrun
        exact h

/-- A property of the heap that every numbering step keeps is kept by `resetObjectIds`. -/
theorem resetObjectIds_preserves (P : Heap → Prop)
    (hP : ∀ (heap : Heap) (id : Nat) (props : Props) (k : Nat), P heap →
      heap[id]? = some (Obj.dict props) → needsNumber props = true →
      P (heap.set id (Obj.dict (assignNumber props k))))
    (root : Nat) :
    ∀ (fuel node : Nat) (st st' : ResetState), P st.heap →
      resetObjectIds root fuel node st = some st' → P st'.heap := by
  intro fuel
  induction fuel with
  | zero => intro node st st' _ hrun; simp [resetObjectIds] at hrun
  | succ fuel ih =>
    intro node st st' h hrun
    rw [resetObjectIds] at hrun
    generalize hst0 : (if node = root then
      ({ st with nextNodeNum := 1, objCache := [] } : ResetState) else st) = st0 at hrun
    have h0 : P st0.heap := by
      rw [← hst0]
      split <;> exact h
    split at hrun
    · simp only [Option.some.injEq] at hrun
      subst hrun
      exact h0
    · exact visit_preserves P hP _ (fun item s s' hs hr => ih item s s' hs hr) node st0 st'
        h0 hrun

theorem renderItems_preserves (P : RenderState → Prop)
    (recurse : Val → NextIndent → RenderState → Option (List Nat × RenderState))
    (hrec : ∀ item ni st text st', P st → recurse item ni st = some (text, st') → P st')
    (spaced : Bool) :
    ∀ (items : List Val) (index : Nat) (st : RenderState) (texts : List Nat)
      (st' : RenderState), P st →
      renderItems recurse spaced items index st = some (texts, st') → P st' := by
  intro items
  induction items with
  | nil =>
    intro index st texts st' h hrun
    simp only [renderItems, Option.some.injEq, Prod.mk.injEq] at hrun
    rw [← hrun.2]; exact h
  | cons item rest ih =>
    intro index st texts st' h hrun
    simp only [renderItems] at hrun
    split at hrun
    · simp at hrun
    · rename_i text st1 hr
      split at hrun
      · simp at hrun
      · rename_i texts1 st2 hrest
        simp only [Option.some.injEq, Prod.mk.injEq] at hrun
        rw [← hrun.2]
        exact ih _ st1 texts1 st2 (hrec _ _ st text st1 h hr) hrest

theorem renderEntries_preserves (P : RenderState → Prop) (opts : Options) (depth : Nat)
    (recurse : Val → NextIndent → RenderState → Option (List Nat × RenderState))
    (hrec : ∀ item ni st text st', P st → recurse item ni st = some (text, st') → P st') :
    ∀ (entries : List (String × Val)) (st : RenderState) (texts : List Nat)
      (st' : RenderState), P st →
      renderEntries opts depth recurse entries st = some (texts, st') → P st' := by
  intro entries
  induction entries with
  | nil =>
    intro st texts st' h hrun
    simp only [renderEntries, Option.some.injEq, Prod.mk.injEq] at hrun
    rw [← hrun.2]; exact h
  | cons entry rest ih =>
    intro st texts st' h hrun
    obtain ⟨key, value⟩ := entry
    simp only [renderEntries] at hrun
    split at hrun
    · simp at hrun
    · rename_i text st1 hr
      split at hrun
      · simp at hrun
      · rename_i texts1 st2 hrest
        simp only [Option.some.injEq, Prod.mk.injEq] at hrun
        rw [← hrun.2]
        exact ih st1 texts1 st2 (hrec _ _ st text st1 h hr) hrest

/-- A property of the rendering state that is kept when an indirect object is opened (lines
482-503) and when its finished block is stored (line 530) is kept by `newPdfObject`. -/
theorem newPdfObject_preserves (opts : Options) (deflate : List Nat → List Nat)
    (P : RenderState → Prop)
    (hopen : ∀ (st : RenderState) (id : Nat) (props : Props) (n : Int)
      (stream : Option (List Nat)), P st → st.heap[id]? = some (Obj.dict props) →
      props.get "num" = Val.num n → st.indirectObjects.get n = none →
      (stream ≠ none → props.get "stream" ≠ Val.undefined) →
      P (openObject opts deflate st id props n stream).2.2)
    (hclose : ∀ (st st1 : RenderState) (id : Nat) (props : Props) (n : Int)
      (dictItems : List Nat) (written : Option (List Nat)), P st → P st1 →
      st.heap[id]? = some (Obj.dict props) → props.get "num" = Val.num n →
      P { st1 with indirectObjects := st1.indirectObjects.set n (Slot.done
        (finishObject opts (objectBody opts (Val.num n) (props.get "gen") dictItems)
          written)) }) :
    ∀ (fuel : Nat) (jsObject : Val) (depth : Nat) (nextIndent : NextIndent)
      (st : RenderState) (text : List Nat) (st' : RenderState), P st →
      newPdfObject opts deflate fuel jsObject depth nextIndent st = some (text, st') →
      P st' := by
  intro fuel
  induction fuel with
  | zero => intro jsObject depth nextIndent st text st' _ hrun; simp [newPdfObject] at hrun
  | succ fuel ih =>
    intro jsObject depth nextIndent st text st' h hrun
    cases jsObject with
    | undefined | null | bool b | num k | str s =>
      simp only [newPdfObject, Option.some.injEq, Prod.mk.injEq] at hrun
      rw [← hrun.2]; exact h
    | ref id =>
      rw [newPdfObject] at hrun
      simp only [] at hrun
      cases hobj : st.heap[id]? with
      | none => rw [hobj] at hrun; simp at hrun
      | some obj =>
        rw [hobj] at hrun
        cases obj with
        | arr items =>
          simp only [] at hrun
          split at hrun
          · simp at hrun
          · rename_i arrayItems st1 hitems
            simp only [Option.some.injEq, Prod.mk.injEq] at hrun
            rw [← hrun.2]
            exact renderItems_preserves P _
              (fun item ni s t s' hs hr => ih item _ ni s t s' hs hr) _ items 0 st
              arrayItems st1 h hitems
        | dict props =>
          simp only [] at hrun
          have hinline : ∀ (texts : List Nat) (st1 : RenderState),
              renderEntries opts depth
                (fun item ni s => newPdfObject opts deflate fuel item (depth + 1) ni s)
                (nameEntries props) st = some (texts, st1) → P st1 :=
            fun texts st1 hr => renderEntries_preserves P opts depth _
              (fun item ni s t s' hs hr => ih item _ ni s t s' hs hr) _ st texts st1 h hr
          cases hnum : props.get "num" with
          | num n =>
            rw [hnum] at hrun
            simp only [] at hrun
            cases hslot : st.indirectObjects.get n with
            | some slot =>
              rw [hslot] at hrun
              simp only [Option.some.injEq, Prod.mk.injEq] at hrun
              rw [← hrun.2]; exact h
            | none =>
              rw [hslot] at hrun
              simp only [] at hrun
              split at hrun
              · simp at hrun
              · rename_i stream hstream
                split at hrun
                · simp at hrun
                · rename_i dictItems st1 hentries
                  simp only [Option.some.injEq, Prod.mk.injEq] at hrun
                  rw [← hrun.2]
                  have hdef : stream ≠ none → props.get "stream" ≠ Val.undefined := by
                    intro hs hu
                    rw [if_pos hu] at hstream
                    simp only [Option.some.injEq] at hstream
                    exact hs hstream.symm
                  have hopened := hopen st id props n stream h hobj hnum hslot hdef
                  have h1 : P st1 := renderEntries_preserves P opts 0 _
                    (fun item ni s t s' hs hr => ih item _ ni s t s' hs hr) _ _ dictItems st1
                    hopened hentries
                  exact hclose st st1 id props n dictItems _ h h1 hobj hnum
          | undefined | null | bool b | str s | ref r =>
            rw [hnum] at hrun
            simp only [] at hrun
            split at hrun
            · simp at hrun
            · rename_i dictItems st1 hentries
              simp only [Option.some.injEq, Prod.mk.injEq] at hrun
              rw [← hrun.2]
              exact hinline dictItems st1 hentries

/-! ## What `assemblePdf` leaves of the tree -/

/-- C19 as stated fails: on `longStreamDocument` the stream node has no entry under a name and
forty bytes `a` as payload before the call; after it the node has the entries `/Filter` and
`/Length` and the twelve compressed bytes as payload, and the catalog has the new entry
`/Version`. -/
theorem assemblePdf_changes_content :
    entriesAt longStreamDocument.heap 1 = some [] ∧
    payloadAt longStreamDocument.heap 1 = some (List.replicate 40 97) ∧
    entriesAt longStreamDocument.heap 0
      = some [("/Type", Val.str (jsStr "/Catalog")), ("/Data", Val.ref 1)] ∧
    (assemblePdf defaultOptions deflateSample 5 longStreamDocument).map
        (fun a => (entriesAt a.doc.heap 1, payloadAt a.doc.heap 1, entriesAt a.doc.heap 0))
      = some (some [("/Filter", Val.str (jsStr "/FlateDecode")), ("/Length", Val.num 12)],
          some [120, 156, 75, 76, 36, 14, 0, 0, 54, 235, 15, 41],
          some [("/Type", Val.str (jsStr "/Catalog")), ("/Data", Val.ref 1),
            ("/Version", Val.str (jsStr "/1.7"))]) := by
  decide

theorem needsNumber_congr (p q : Props) (hnum : q.lookup "num" = p.lookup "num")
    (hstream : q.lookup "stream" = p.lookup "stream")
    (htype : q.lookup "/Type" = p.lookup "/Type") : needsNumber q = needsNumber p := by
  simp only [needsNumber, Props.get, hnum, hstream, htype]

theorem mayWrite_of_not (doc : Document) (id : Nat) (props : Props)
    (hobj : doc.heap[id]? = some (Obj.dict props))
    (hno : (needsNumber props || id == doc.info) = false) (key : String)
    (hkey : key ≠ "/Version") : mayWrite doc id key = false := by
  have hk : (key == "/Version") = false := by simpa using hkey
  simp [mayWrite, hobj, hk]
  intro h
  simp only [Bool.or_eq_false_iff] at hno
  rcases h with h | h
  · simp [h] at hno
  · simp [h] at hno

/-- Replacing the properties of the node `id` keeps `Unchanged` when the entries outside the
keys of `mayWrite` stay. -/
theorem unchanged_replace (doc : Document) (heap : Heap) (id : Nat) (props q : Props)
    (h : Unchanged doc heap) (hobj : heap[id]? = some (Obj.dict props))
    (hq : id < doc.heap.length →
      ∀ key, mayWrite doc id key = false → q.lookup key = props.lookup key) :
    Unchanged doc (heap.set id (Obj.dict q)) := by
  intro id0 obj0 h0
  have hcur := h id0 obj0 h0
  by_cases hid : id0 = id
  · subst hid
    have hlt : id0 < heap.length := by
      by_contra hge
      rw [List.getElem?_eq_none (by omega)] at hobj
      simp at hobj
    have hlt0 : id0 < doc.heap.length := by
      by_contra hge
      rw [List.getElem?_eq_none (by omega)] at h0
      simp at h0
    cases obj0 with
    | arr items => simp only [] at hcur; rw [hcur] at hobj; simp at hobj
    | dict props0 =>
      simp only [] at hcur ⊢
      obtain ⟨props', hp, hsame⟩ := hcur
      rw [hp] at hobj
      simp only [Option.some.injEq, Obj.dict.injEq] at hobj
      subst hobj
      refine ⟨_, List.getElem?_set_self hlt, fun other hother => ?_⟩
      rw [hq hlt0 other hother]
      exact hsame other hother
  · have hsame : (heap.set id (Obj.dict q))[id0]? = heap[id0]? :=
      List.getElem?_set_ne (fun he => hid he.symm)
    cases obj0 with
    | arr items => simp only [] at hcur ⊢; rw [hsame]; exact hcur
    | dict props0 => simp only [] at hcur ⊢; rw [hsame]; exact hcur

theorem unchanged_append (doc : Document) (heap : Heap) (obj : Obj) (h : Unchanged doc heap) :
    Unchanged doc (heap ++ [obj]) := by
  intro id0 obj0 h0
  have hcur := h id0 obj0 h0
  have hlt : id0 < heap.length := by
    by_contra hge
    have hnone : heap[id0]? = none := List.getElem?_eq_none (by omega)
    cases obj0 with
    | arr items => simp only [] at hcur; rw [hnone] at hcur; simp at hcur
    | dict props0 =>
      simp only [] at hcur
      obtain ⟨_, hp, _⟩ := hcur
      rw [hnone] at hp; simp at hp
  have hsame : (heap ++ [obj])[id0]? = heap[id0]? := List.getElem?_append_left hlt
  cases obj0 with
  | arr items => simp only [] at hcur ⊢; rw [hsame]; exact hcur
  | dict props0 => simp only [] at hcur ⊢; rw [hsame]; exact hcur

theorem unchanged_refl (doc : Document) : Unchanged doc doc.heap := by
  intro id0 obj0 h0
  cases obj0 with
  | arr items => exact h0
  | dict props0 => exact ⟨props0, h0, fun _ _ => rfl⟩

/-- A node that is now an object was one in `doc`, when it was there at all. -/
theorem unchanged_origin (doc : Document) (heap : Heap) (id : Nat) (props : Props)
    (h : Unchanged doc heap) (hobj : heap[id]? = some (Obj.dict props))
    (hlt : id < doc.heap.length) :
    ∃ props0, doc.heap[id]? = some (Obj.dict props0) ∧
      ∀ key, mayWrite doc id key = false → props.lookup key = props0.lookup key := by
  have h0 : doc.heap[id]? = some doc.heap[id] := List.getElem?_eq_getElem hlt
  have hcur := h id _ h0
  cases hd : doc.heap[id] with
  | arr items => rw [hd] at hcur; simp only [] at hcur; rw [hcur] at hobj; simp at hobj
  | dict props0 =>
    rw [hd] at hcur h0
    simp only [] at hcur
    obtain ⟨props', hp, hsame⟩ := hcur
    rw [hp] at hobj
    simp only [Option.some.injEq, Obj.dict.injEq] at hobj
    subst hobj
    exact ⟨props0, h0, hsame⟩

/-- A node of `doc` that line 386 asks a number for now, or that is the info dictionary, is
one `mayWrite` allows `num` and `gen` for. -/
theorem unchanged_numbered (doc : Document) (heap : Heap) (id : Nat) (props : Props)
    (h : Unchanged doc heap) (hobj : heap[id]? = some (Obj.dict props))
    (hlt : id < doc.heap.length) (hwhy : needsNumber props = true ∨ id = doc.info) :
    ∃ props0, doc.heap[id]? = some (Obj.dict props0) ∧
      (needsNumber props0 || id == doc.info) = true ∧
      (∀ key, mayWrite doc id key = false → props.lookup key = props0.lookup key) := by
  obtain ⟨props0, h0, hsame⟩ := unchanged_origin doc heap id props h hobj hlt
  refine ⟨props0, h0, ?_, hsame⟩
  by_contra hno
  have hno' : (needsNumber props0 || id == doc.info) = false := by simpa using hno
  have hcongr : needsNumber props = needsNumber props0 :=
    needsNumber_congr props0 props
      (hsame _ (mayWrite_of_not doc id props0 h0 hno' "num" (by decide)))
      (hsame _ (mayWrite_of_not doc id props0 h0 hno' "stream" (by decide)))
      (hsame _ (mayWrite_of_not doc id props0 h0 hno' "/Type" (by decide)))
  simp only [Bool.or_eq_false_iff, beq_eq_false_iff_ne, ne_eq] at hno'
  rcases hwhy with hw | hw
  · rw [hcongr, hno'.1] at hw; simp at hw
  · exact hno'.2 hw

theorem needsNumber_of_num (props : Props) (n : Int) (h : props.get "num" = Val.num n) :
    needsNumber props = true := by
  simp [needsNumber, h]

/-- The numbering step of line 387 keeps `Unchanged`. -/
theorem unchanged_assign (doc : Document) (heap : Heap) (id : Nat) (props : Props) (k : Nat)
    (h : Unchanged doc heap) (hobj : heap[id]? = some (Obj.dict props))
    (hneed : needsNumber props = true) :
    Unchanged doc (heap.set id (Obj.dict (assignNumber props k))) := by
  refine unchanged_replace doc heap id props _ h hobj (fun hlt key hkey => ?_)
  obtain ⟨props0, h0, hflag, -⟩ :=
    unchanged_numbered doc heap id props h hobj hlt (Or.inl hneed)
  have hnum : key ≠ "num" := by
    intro he; subst he; simp [mayWrite, h0, hflag] at hkey
  have hgen : key ≠ "gen" := by
    intro he; subst he; simp [mayWrite, h0, hflag] at hkey
  unfold assignNumber
  rw [Props.lookup_set_ne _ _ _ _ hgen, Props.lookup_set_ne _ _ _ _ hnum]

/-- Opening an indirect object (lines 482-503) keeps `Unchanged`. -/
theorem unchanged_opened (doc : Document) (opts : Options) (deflate : List Nat → List Nat)
    (st : RenderState) (id : Nat) (props : Props) (n : Int) (stream : Option (List Nat))
    (h : Unchanged doc st.heap) (hobj : st.heap[id]? = some (Obj.dict props))
    (hnum : props.get "num" = Val.num n)
    (hdef : stream ≠ none → props.get "stream" ≠ Val.undefined) :
    Unchanged doc (openObject opts deflate st id props n stream).2.2.heap := by
  cases stream with
  | none => exact h
  | some payload =>
    have hstream : props.get "stream" ≠ Val.undefined := hdef (by simp)
    have hkeys : id < doc.heap.length → ∀ key, mayWrite doc id key = false →
        key ≠ "stream" ∧ key ≠ "/Filter" ∧ key ≠ "/Length" := by
      intro hlt key hkey
      obtain ⟨props0, h0, hflag, hsame⟩ := unchanged_numbered doc st.heap id props h hobj hlt
        (Or.inl (needsNumber_of_num props n hnum))
      have hs0 : (props0.get "stream" != Val.undefined) = true := by
        by_contra hno
        have hno' : props0.get "stream" = Val.undefined := by simpa using hno
        have hk : mayWrite doc id "stream" = false := by
          simp [mayWrite, h0, hno']
        have := hsame "stream" hk
        apply hstream
        simp only [Props.get, this]
        exact hno'
      refine ⟨?_, ?_, ?_⟩ <;>
      · intro he; subst he; simp [mayWrite, h0, hflag, hs0] at hkey
    by_cases hc : payload.length ≠ 0 ∧
        (opts.compress && !truthy (props.get "/Filter")) = true ∧
        (deflate payload).length + 19 < payload.length
    · simp only [openObject, compressNode, if_pos hc]
      refine unchanged_append doc _ _ (unchanged_replace doc st.heap id props _ h hobj
        (fun hlt key hkey => ?_))
      obtain ⟨h1, h2, h3⟩ := hkeys hlt key hkey
      rw [Props.lookup_set_ne _ _ _ _ h1, Props.lookup_set_ne _ _ _ _ h3,
        Props.lookup_set_ne _ _ _ _ h2]
    · simp only [openObject, compressNode, if_neg hc]
      refine unchanged_replace doc st.heap id props _ h hobj (fun hlt key hkey => ?_)
      obtain ⟨h1, h2, h3⟩ := hkeys hlt key hkey
      rw [Props.lookup_set_ne _ _ _ _ h3]

/-- C19 amended: when `assemblePdf` returns, every array of the tree has the same elements as
before and every node has the same entry, or none, under each key as before, apart from
`/Version` on the root, `num` and `gen` on the info dictionary and on the nodes that line 386
asks a number for, and `stream`, `/Filter` and `/Length` on those of them whose `stream` is
defined (the page-tree normalisation of lines 427-428 comes before). -/
theorem assemblePdf_frame (opts : Options) (deflate : List Nat → List Nat) (fuel : Nat)
    (doc : Document) (a : Assembled) (h : assemblePdf opts deflate fuel doc = some a) :
    Unchanged doc a.doc.heap := by
  have hrender : ∀ (jsObject : Val) (depth : Nat) (ni : NextIndent) (st : RenderState)
      (text : List Nat) (st' : RenderState), Unchanged doc st.heap →
      newPdfObject opts deflate fuel jsObject depth ni st = some (text, st') →
      Unchanged doc st'.heap :=
    newPdfObject_preserves opts deflate (fun st => Unchanged doc st.heap)
      (fun st id props n stream hst hobj hnum _ hdef =>
        unchanged_opened doc opts deflate st id props n stream hst hobj hnum hdef)
      (fun _ _ _ _ _ _ _ _ hst1 _ _ => hst1) fuel
  unfold assemblePdf at h
  split at h
  · simp at h
  · rename_i rs hreset
    have hrs : Unchanged doc rs.heap :=
      resetObjectIds_preserves (Unchanged doc)
        (fun heap id props k hh hobj hneed => unchanged_assign doc heap id props k hh hobj hneed)
        doc.root fuel doc.root _ rs (unchanged_refl doc) hreset
    split at h
    · rename_i rootProps hroot
      dsimp only at h
      have hversion : Unchanged doc (rs.heap.set doc.root
          (Obj.dict (rootProps.set "/Version" (Val.str (47 :: opts.pdfVersion))))) := by
        refine unchanged_replace doc rs.heap doc.root rootProps _ hrs hroot
          (fun _ key hkey => ?_)
        have hne : key ≠ "/Version" := by
          intro he; subst he; simp [mayWrite] at hkey
        rw [Props.lookup_set_ne _ _ _ _ hne]
      split at h
      · simp at h
      · rename_i rootRef st1 hrootRun
        have hst1 : Unchanged doc st1.heap := hrender _ _ _ _ _ st1 hversion hrootRun
        split at h
        · rename_i infoProps hinfo
          rw [if_pos (by simpa using Props.set_ne_nil _ _ _)] at h
          have hst2 : Unchanged doc (st1.heap.set doc.info (Obj.dict
              ((infoProps.set "gen" (Val.num 0)).set "num" (Val.num rs.nextNodeNum)))) := by
            refine unchanged_replace doc st1.heap doc.info infoProps _ hst1 hinfo
              (fun hlt key hkey => ?_)
            obtain ⟨props0, h0, hflag, -⟩ :=
              unchanged_numbered doc st1.heap doc.info infoProps hst1 hinfo hlt (Or.inr rfl)
            have hnum : key ≠ "num" := by
              intro he; subst he; simp [mayWrite, h0, hflag] at hkey
            have hgen : key ≠ "gen" := by
              intro he; subst he; simp [mayWrite, h0, hflag] at hkey
            rw [Props.lookup_set_ne _ _ _ _ hnum, Props.lookup_set_ne _ _ _ _ hgen]
          split at h
          · simp at h
          · rename_i infoRef st3 hinfoRun
            simp only [Option.some.injEq] at h
            subst h
            simp only []
            cases hr : newPdfObject opts deflate fuel (Val.ref doc.info) 0 NextIndent.no
                { st1 with heap := st1.heap.set doc.info (Obj.dict
                  ((infoProps.set "gen" (Val.num 0)).set "num" (Val.num rs.nextNodeNum))) } with
            | none => rw [hr] at hinfoRun; simp at hinfoRun
            | some r =>
              rw [hr] at hinfoRun
              simp only [Option.map_some', Option.some.injEq, Prod.mk.injEq] at hinfoRun
              rw [← hinfoRun.2]
              exact hrender _ _ _ _ r.1 r.2 hst2 hr
        · simp at h
    · simp at h

/-- C19 amended, on `longStreamDocument` with the sample compressor. -/
theorem assemblePdf_frame_witness :
    ∃ a, assemblePdf defaultOptions deflateSample 5 longStreamDocument = some a ∧
      Unchanged longStreamDocument a.doc.heap :=
  ⟨(assemblePdf defaultOptions deflateSample 5 longStreamDocument).get (by decide),
    (Option.some_get _).symm,
    assemblePdf_frame defaultOptions deflateSample 5 longStreamDocument _
      (Option.some_get _).symm⟩

/-! ## The cross-reference section -/

set_option maxRecDepth 100000 in
/-- C11 as stated fails: on `staleNumberDocument` the blocks written are those of the objects
1, 2 and 7, `/Size` is 8, and the cross-reference section has three in-use entries, not
seven; the third, which a reader takes for object 3, holds the offset of `7 0 obj`. -/
theorem assemblePdf_xref_holes :
    (assemblePdf defaultOptions (fun bytes => bytes) 5 staleNumberDocument).map
        (fun a => (a.indirectObjects.length, a.xref, a.data.drop 88))
      = some (8,
          jsStr ("xref\n0 8\n0000000000 65535 f \n0000000015 00000 n \n" ++
            "0000000058 00000 n \n0000000088 00000 n \n"),
          jsStr ("7 0 obj<</A 1>>endobj\nxref\n0 8\n0000000000 65535 f \n" ++
            "0000000015 00000 n \n0000000058 00000 n \n0000000088 00000 n \n" ++
            "trailer\n<</Root 1 0 R/Info 2 0 R/Size 8>>\nstartxref\n110\n%%EOF\n")) := by
  decide

theorem decimal_length_le (n : Nat) (h : n < 10 ^ 10) : (decimal n).length ≤ 10 := by
  unfold decimal Nat.toDigits
  rw [List.length_map]
  exact Nat.toDigitsCore_length 10 (by decide) (n + 1) n 10 h (by decide)

/-- Line 560 for an offset of at most ten digits: the offset padded to ten digits, then
`' 00000 n \n'`. -/
theorem xrefEntry_eq (offset : Nat) (h : offset < 10 ^ 10) :
    xrefEntry offset = zeroPad10 offset ++ jsStr " 00000 n \n" := by
  have hlen := decimal_length_le offset h
  have hzero : jsStr "0000000000" = List.replicate 10 48 := by decide
  have hsuffix : (jsStr " 00000 n \n").length = 10 := by decide
  unfold xrefEntry sliceLast zeroPad10
  rw [hzero]
  have hdrop : (List.replicate 10 48 ++ decimal offset ++ jsStr " 00000 n \n").length - 20
      = (decimal offset).length := by
    simp only [List.length_append, List.length_replicate, hsuffix]
    omega
  rw [hdrop, List.append_assoc, List.drop_append_of_le_length (by simpa using hlen),
    List.drop_replicate, List.append_assoc]

/-- Line 560 over the header and the blocks: all offsets but the last are the offsets of the
blocks, and the last is the length of the header and all blocks. -/
theorem runningOffsets_eq (blocks : List (List Nat)) :
    ∀ (offset : Nat),
      (offset :: runningOffsets offset blocks).dropLast
        = (List.range blocks.length).map
            (fun k => offset + ((blocks.take k).map List.length).sum) ∧
      (offset :: runningOffsets offset blocks).getLastD 0
        = offset + (blocks.map List.length).sum := by
  induction blocks with
  | nil => intro offset; simp [runningOffsets]
  | cons b rest ih =>
    intro offset
    obtain ⟨h1, h2⟩ := ih (offset + b.length)
    constructor
    · rw [runningOffsets, List.dropLast_cons₂, h1, List.length_cons, List.range_succ_eq_map]
      simp [Nat.add_assoc, Function.comp_def]
    · rw [runningOffsets]
      have : (offset :: (offset + b.length) :: runningOffsets (offset + b.length) rest).getLastD 0
          = ((offset + b.length) :: runningOffsets (offset + b.length) rest).getLastD 0 := by
        simp [List.getLastD]
      rw [this, h2]
      simp [Nat.add_assoc]

theorem toDigitsCore_last (f : Nat) :
    ∀ (n : Nat) (ds : List Char),
      ∃ front, Nat.toDigitsCore 10 (f + 1) n ds = front ++ Nat.digitChar (n % 10) :: ds := by
  induction f with
  | zero =>
    intro n ds
    refine ⟨[], ?_⟩
    simp [Nat.toDigitsCore]
  | succ f ih =>
    intro n ds
    rw [Nat.toDigitsCore]
    split
    · exact ⟨[], rfl⟩
    · obtain ⟨front, hfront⟩ := ih (n / 10) (Nat.digitChar (n % 10) :: ds)
      exact ⟨front ++ [Nat.digitChar (n / 10 % 10)], by rw [hfront]; simp⟩

theorem toString_ne_num (i : Nat) : toString i ≠ "num" := by
  intro h
  have hdata : (toString i).data = "num".data := by rw [h]
  obtain ⟨front, hfront⟩ := toDigitsCore_last i i []
  have hrepr : (toString i).data = Nat.toDigits 10 i := rfl
  rw [hrepr, Nat.toDigits, hfront] at hdata
  have hlast := congrArg List.getLast? hdata
  rw [List.getLast?_append_of_ne_nil _ (by simp)] at hlast
  simp only [List.getLast?_singleton] at hlast
  have hlt : i % 10 < 10 := Nat.mod_lt _ (by decide)
  have hall : ∀ d < 10, some (Nat.digitChar d) ≠ "num".data.getLast? := by decide
  exact hall _ hlt hlast

/-- A `Uint8Array` has no property `num`. -/
theorem bytesObject_num (pairs : List (Nat × Nat)) :
    Props.get (pairs.map (fun ib => (toString ib.1, Val.num ib.2))) "num" = Val.undefined := by
  induction pairs with
  | nil => rfl
  | cons p rest ih =>
    have hne : ("num" == toString p.1) = false := by
      simpa using fun e => toString_ne_num p.1 e.symm
    simp only [Props.get, List.map_cons, List.lookup, hne] at ih ⊢
    exact ih

theorem slotTable_get_set_ne (t : SlotTable) (n m : Int) (slot : Slot) (h : m ≠ n) :
    (t.set n slot).get m = t.get m := by
  have hne : (m == n) = false := by simpa using h
  simp only [SlotTable.get, SlotTable.set, List.lookup, hne]
  induction t with
  | nil => rfl
  | cons kv rest ih =>
    obtain ⟨k, s⟩ := kv
    by_cases hk : k = n
    · subst hk
      simp [List.filter, List.lookup, hne, ih]
    · have hk' : (k != n) = true := by simpa using hk
      simp only [List.filter, hk', List.lookup]
      cases hmk : m == k <;> simp [ih]

theorem openObject_slots (opts : Options) (deflate : List Nat → List Nat) (st : RenderState)
    (id : Nat) (props : Props) (n : Int) (stream : Option (List Nat)) :
    (openObject opts deflate st id props n stream).2.2.indirectObjects
      = st.indirectObjects.set n Slot.pending := by
  cases stream with
  | none => rfl
  | some payload =>
    simp only [openObject]
    split <;> rfl

theorem slotsOk_pending (opts : Options) (t : SlotTable) (n : Int) (h : SlotsOk opts t) :
    SlotsOk opts (t.set n Slot.pending) := by
  intro m block hm
  by_cases hmn : m = n
  · subst hmn
    rw [slotTable_get_set_self] at hm
    simp at hm
  · rw [slotTable_get_set_ne _ _ _ _ hmn] at hm
    exact h m block hm

theorem slotsOk_done (opts : Options) (t : SlotTable) (n : Int) (dictItems : List Nat)
    (written : Option (List Nat)) (h : SlotsOk opts t) :
    SlotsOk opts (t.set n (Slot.done
      (finishObject opts (objectBody opts (Val.num n) (Val.num 0) dictItems) written))) := by
  intro m block hm
  by_cases hmn : m = n
  · subst hmn
    rw [slotTable_get_set_self] at hm
    simp only [Option.some.injEq, Slot.done.injEq] at hm
    exact ⟨dictItems, written, hm.symm⟩
  · rw [slotTable_get_set_ne _ _ _ _ hmn] at hm
    exact h m block hm

theorem slotsOk_empty (opts : Options) : SlotsOk opts [] := by
  intro n block h
  simp [SlotTable.get, List.lookup] at h

/-- The parts of what `assemblePdf` returns, from the slots it has filled. -/
theorem assemblePdf_parts (opts : Options) (deflate : List Nat → List Nat) (fuel : Nat)
    (doc : Document) (a : Assembled) (h : assemblePdf opts deflate fuel doc = some a) :
    a.xref = (xrefTable (pdfHeader opts) a.indirectObjects).1 ∧
    a.trailer = pdfTrailer opts a.rootRef a.infoRef a.indirectObjects.length
      (xrefTable (pdfHeader opts) a.indirectObjects).2 ∧
    a.data = pdfData (pdfHeader opts) a.indirectObjects a.xref a.trailer := by
  unfold assemblePdf at h
  split at h
  · simp at h
  · split at h
    · dsimp only at h
      split at h
      · simp at h
      · split at h
        · split at h
          · simp at h
          · simp only [Option.some.injEq] at h
            subst h
            exact ⟨rfl, rfl, rfl⟩
        · simp at h
    · simp at h

theorem stringToBytes_length (s : List Nat) : (stringToBytes s).length = s.length := by
  simp [stringToBytes]

theorem stringToBytes_append (s t : List Nat) :
    stringToBytes (s ++ t) = stringToBytes s ++ stringToBytes t := by
  simp [stringToBytes]

theorem stringToBytes_idem (s : List Nat) : stringToBytes (stringToBytes s) = stringToBytes s := by
  simp [stringToBytes]

/-- Every block of lines 483-530 for the object `n 0` begins, as bytes, with `n 0 obj`. -/
theorem finishObject_starts (opts : Options) (n : Nat) (dictItems : List Nat)
    (written : Option (List Nat)) :
    ∃ rest, stringToBytes (finishObject opts
        (objectBody opts (Val.num (n : Int)) (Val.num 0) dictItems) written)
      = stringToBytes (decimal n ++ jsStr " 0 obj") ++ rest := by
  have hnum : jsToString (Val.num (n : Int)) = decimal n := by
    simp [jsToString, numberToString]
  have hbody : ∃ tail, objectBody opts (Val.num (n : Int)) (Val.num 0) dictItems
      = (decimal n ++ jsStr " 0 obj") ++ tail := by
    refine ⟨newline opts ++ (jsStr "<<" ++ dictItems ++ newline opts ++
      repeatStr (space opts) 0 ++ jsStr ">>"), ?_⟩
    unfold objectBody
    rw [hnum]
    have hzero : jsToString (Val.num 0) = jsStr "0" := by decide
    rw [hzero]
    simp [jsStr, List.append_assoc]
  obtain ⟨tail, htail⟩ := hbody
  rw [htail]
  cases written with
  | none =>
    exact ⟨stringToBytes (tail ++ newline opts ++ jsStr "endobj\n"), by
      simp only [finishObject, stringToBytes_append, List.append_assoc]⟩
  | some payload =>
    by_cases hp : payload.length ≠ 0
    · refine ⟨stringToBytes (tail ++ newline opts ++ jsStr "stream\n") ++
        stringToBytes payload ++
        stringToBytes (newline opts ++ jsStr "endstream\nendobj\n"), ?_⟩
      simp only [finishObject, if_pos hp, stringToBytes_append, stringToBytes_idem,
        List.append_assoc]
    · exact ⟨stringToBytes (tail ++ newline opts ++ jsStr "stream\nendstream\nendobj\n"), by
        simp only [finishObject, if_neg hp, stringToBytes_append, List.append_assoc]⟩

theorem finishObject_ne_nil (opts : Options) (n : Nat) (dictItems : List Nat)
    (written : Option (List Nat)) :
    finishObject opts (objectBody opts (Val.num (n : Int)) (Val.num 0) dictItems) written
      ≠ [] := by
  intro h
  obtain ⟨rest, hrest⟩ := finishObject_starts opts n dictItems written
  rw [h] at hrest
  have hlen := congrArg List.length hrest
  simp [stringToBytes, jsStr] at hlen
  omega

theorem flatMap_bytes_length (blocks : List (List Nat)) :
    (blocks.flatMap stringToBytes).length = (blocks.map List.length).sum := by
  induction blocks with
  | nil => rfl
  | cons b rest ih => simp [List.flatMap_cons, stringToBytes_length, ih]

/-- In a file made of `front`, the blocks and `back`, block `k` begins at the offset of the
bytes of `front` and of the blocks before it. -/
theorem drop_to_block (blocks : List (List Nat)) :
    ∀ (k : Nat) (hk : k < blocks.length) (front back : List Nat),
      ∃ rest, (front ++ blocks.flatMap stringToBytes ++ back).drop
          (front.length + ((blocks.take k).map List.length).sum)
        = stringToBytes (blocks.get ⟨k, hk⟩) ++ rest := by
  induction blocks with
  | nil => intro k hk; simp at hk
  | cons b rest ih =>
    intro k hk front back
    cases k with
    | zero =>
      refine ⟨rest.flatMap stringToBytes ++ back, ?_⟩
      simp [List.flatMap_cons, List.append_assoc]
    | succ k =>
      have hk' : k < rest.length := by simpa using hk
      obtain ⟨tail, htail⟩ := ih k hk' (front ++ stringToBytes b) back
      refine ⟨tail, ?_⟩
      have hlen : front.length + (((b :: rest).take (k + 1)).map List.length).sum
          = (front ++ stringToBytes b).length + ((rest.take k).map List.length).sum := by
        simp [stringToBytes_length, Nat.add_assoc]
      rw [hlen]
      simp only [List.flatMap_cons, List.get_eq_getElem, List.getElem_cons_succ] at htail ⊢
      rw [← htail]
      simp [List.append_assoc]

theorem drop_past_blocks (blocks : List (List Nat)) (front back : List Nat) :
    (front ++ blocks.flatMap stringToBytes ++ back).drop
        (front.length + (blocks.map List.length).sum) = back := by
  have hlen : (front ++ blocks.flatMap stringToBytes).length
      = front.length + (blocks.map List.length).sum := by
    rw [List.length_append, flatMap_bytes_length]
  rw [← hlen]
  exact List.drop_left _ _

theorem filterMap_done (blocks : List (List Nat)) (hne : ∀ b ∈ blocks, b ≠ []) :
    (blocks.map (fun b => some (Slot.done b))).filterMap (fun slot =>
      match slot with
      | some (Slot.done block) => if block ≠ [] then some block else none
      | _ => none) = blocks := by
  induction blocks with
  | nil => rfl
  | cons b rest ih =>
    have hb : b ≠ [] := hne b (by simp)
    simp only [List.map_cons, List.filterMap_cons, if_pos hb]
    rw [ih (fun x hx => hne x (by simp [hx]))]

/-- When `assemblePdf` returns with slot 0 empty and every slot from 1 to the last filled
(`blocks`, in slot order), each with the block of an object `n 0`, and the output is shorter
than `10 ^ 10` bytes, then `blocks` are the blocks written and `/Size` is one more than their
number; the cross-reference section is `xref`, the line `0 Size`, the free entry and one
in-use entry per object number 1 .. Size-1, in order, each the 10-digit zero-padded offset of
its block; at that offset the output reads `k 0 obj`; the number after `startxref` is the
offset after the last block, and there the output reads the cross-reference section and then
the trailer. -/
theorem xref_of_slots (opts : Options) (deflate : List Nat → List Nat) (fuel : Nat)
    (doc : Document) (a : Assembled) (blocks : List (List Nat))
    (hrun : assemblePdf opts deflate fuel doc = some a)
    (hslots : SlotsOk opts a.indirectObjects)
    (hshape : a.indirectObjects.spread = none :: blocks.map (fun b => some (Slot.done b)))
    (hsize : a.data.length < 10 ^ 10) :
    filledBlocks a.indirectObjects = blocks ∧
    a.indirectObjects.length = blocks.length + 1 ∧
    a.xref = jsStr "xref\n" ++ (jsStr "0 " ++ decimal (blocks.length + 1) ++ [10]) ++
      jsStr "0000000000 65535 f \n" ++
      (List.range blocks.length).flatMap (fun k =>
        zeroPad10 (blockOffset (pdfHeader opts) blocks k) ++ jsStr " 00000 n \n") ∧
    (∀ k, k < blocks.length → ∃ rest,
      a.data.drop (blockOffset (pdfHeader opts) blocks k)
        = stringToBytes (decimal (k + 1) ++ jsStr " 0 obj") ++ rest) ∧
    (∃ front, a.trailer = front ++ jsStr "startxref\n" ++
      decimal (blockOffset (pdfHeader opts) blocks blocks.length) ++ jsStr "\n%%EOF\n") ∧
    a.data.drop (blockOffset (pdfHeader opts) blocks blocks.length)
      = stringToBytes a.xref ++ stringToBytes a.trailer := by
  obtain ⟨hx, ht, hd⟩ := assemblePdf_parts opts deflate fuel doc a hrun
  have hlen : a.indirectObjects.length = blocks.length + 1 := by
    have := congrArg List.length hshape
    simpa [SlotTable.spread] using this
  have hget : ∀ k (hk : k < blocks.length),
      a.indirectObjects.get ((k + 1 : Nat) : Int) = some (Slot.done (blocks.get ⟨k, hk⟩)) := by
    intro k hk
    have := congrArg (fun l => l[k + 1]?) hshape
    simp only [SlotTable.spread, List.getElem?_map, List.getElem?_cons_succ] at this
    rw [List.getElem?_range (by omega), List.getElem?_eq_getElem hk] at this
    simpa using this
  have hform : ∀ k (hk : k < blocks.length), ∃ dictItems written,
      blocks.get ⟨k, hk⟩ = finishObject opts
        (objectBody opts (Val.num ((k + 1 : Nat) : Int)) (Val.num 0) dictItems) written :=
    fun k hk => hslots _ _ (hget k hk)
  have hne : ∀ b ∈ blocks, b ≠ [] := by
    intro b hb
    obtain ⟨k, hk, rfl⟩ := List.mem_iff_getElem.mp hb
    obtain ⟨dictItems, written, hbk⟩ := hform k hk
    simp only [List.get_eq_getElem] at hbk
    rw [hbk]
    exact finishObject_ne_nil opts (k + 1) dictItems written
  have hfilled : filledBlocks a.indirectObjects = blocks := by
    unfold filledBlocks
    rw [hshape]
    simp only [List.filterMap_cons]
    exact filterMap_done blocks hne
  obtain ⟨hdrop, hlast⟩ := runningOffsets_eq blocks (pdfHeader opts).length
  have hoffsets : runningOffsets 0 (pdfHeader opts :: blocks)
      = (pdfHeader opts).length :: runningOffsets (pdfHeader opts).length blocks := by
    simp [runningOffsets]
  have hdata : a.data = stringToBytes (pdfHeader opts) ++ blocks.flatMap stringToBytes ++
      (stringToBytes a.xref ++ stringToBytes a.trailer) := by
    rw [hd, pdfData, hfilled, List.append_assoc]
  have htotal : blockOffset (pdfHeader opts) blocks blocks.length
      = (pdfHeader opts).length + (blocks.map List.length).sum := by
    simp [blockOffset]
  have hbound : ∀ k, blockOffset (pdfHeader opts) blocks k < 10 ^ 10 := by
    intro k
    have h1 : blockOffset (pdfHeader opts) blocks k
        ≤ (pdfHeader opts).length + (blocks.map List.length).sum := by
      unfold blockOffset
      have := List.sum_take_add_sum_drop (blocks.map List.length) k
      rw [← List.map_take] at this
      omega
    have h2 : (pdfHeader opts).length + (blocks.map List.length).sum ≤ a.data.length := by
      rw [hdata]
      simp only [List.length_append, stringToBytes_length, flatMap_bytes_length]
      omega
    omega
  have hlastv : (xrefTable (pdfHeader opts) a.indirectObjects).2
      = blockOffset (pdfHeader opts) blocks blocks.length := by
    simp only [xrefTable, hfilled, hoffsets, hlast, htotal]
  refine ⟨hfilled, hlen, ?_, ?_, ?_, ?_⟩
  · rw [hx]
    simp only [xrefTable, hfilled, hoffsets, hdrop, hlen]
    congr 1
    rw [List.flatMap_map]
    exact List.flatMap_congr (fun k _ => xrefEntry_eq _ (hbound k))
  · intro k hk
    obtain ⟨dictItems, written, hbk⟩ := hform k hk
    obtain ⟨rest, hrest⟩ := drop_to_block blocks k hk (stringToBytes (pdfHeader opts))
      (stringToBytes a.xref ++ stringToBytes a.trailer)
    obtain ⟨tail, htail⟩ := finishObject_starts opts (k + 1) dictItems written
    rw [stringToBytes_length] at hrest
    rw [hdata]
    unfold blockOffset
    rw [hrest, hbk, htail]
    exact ⟨tail ++ rest, by simp [List.append_assoc]⟩
  · rw [ht, hlastv]
    refine ⟨jsStr "trailer\n" ++ (jsStr "<<" ++ newline opts) ++
      (space opts ++ jsStr "/Root " ++ a.rootRef ++ newline opts) ++
      (match a.infoRef with
        | some ref =>
          if ref ≠ [] then space opts ++ jsStr "/Info " ++ ref ++ newline opts else []
        | none => []) ++
      (space opts ++ jsStr "/Size " ++ decimal a.indirectObjects.length ++ newline opts) ++
      jsStr ">>\n", ?_⟩
    simp [pdfTrailer, jsStr, List.append_assoc]
  · rw [hdata, htotal]
    have := drop_past_blocks blocks (stringToBytes (pdfHeader opts))
      (stringToBytes a.xref ++ stringToBytes a.trailer)
    rw [stringToBytes_length] at this
    exact this

/-! ## The resolver -/

/-- C12: on `selfCatalogGraph`, whose catalog refers to itself under `/Self`, the resolver
returns the root as object 0 and stores under its `/Self` the object 1, a second object built
from the same dictionary (whose own `/Self` is object 1), where the claim has the root
itself; on `selfDictGraph`, where the dictionary that refers to itself is not the catalog,
the entry is the dictionary itself. -/
theorem resolveNodeRefs_catalog_self_copy :
    (resolveRoot selfCatalogGraph 5).map
        (fun r => (r.1, entryOf r.2.heap r.1 "/Self", entryOf r.2.heap (Val.ref 1) "/Self"))
      = some (Val.ref 0, some (Val.ref 1), some (Val.ref 1)) ∧
    (resolveRoot selfDictGraph 5).map
        (fun r => (r.1, entryOf r.2.heap r.1 "/A", entryOf r.2.heap (Val.ref 1) "/Self"))
      = some (Val.ref 0, some (Val.ref 1), some (Val.ref 1)) := by
  decide

/-- C13: on `nullTwiceGraph`, whose catalog refers twice to the object `5 0` that is `null`,
the first entry `/A` holds `null` and the second entry `/B` holds an unresolved reference,
the `Ref` object `5 0` itself; its position stays in the queue, which nothing flushes. -/
theorem resolveNodeRefs_second_null_unresolved :
    (resolveRoot nullTwiceGraph 5).map
        (fun r => (entryOf r.2.heap r.1 "/A", entryOf r.2.heap r.1 "/B"))
      = some (some Val.null, some (Val.ref 1)) ∧
    (resolveRoot nullTwiceGraph 5).map
        (fun r => (isUnresolved r.2 (Val.ref 1), entryOf r.2.heap (Val.ref 1) "num"))
      = some (true, some (Val.num 5)) ∧
    (resolveRoot nullTwiceGraph 5).map (fun r => r.2.objCacheQueue)
      = some [((5, 0), [(FixName.key "/B", 0)])] := by
  decide

/-! ## The escape table -/

theorem readLiteralFrom_append (s : List Nat) :
    ∀ (mode : ReadMode) (depth : Nat) (out : List Nat) (mode' : ReadMode) (depth' : Nat)
      (tail : List Nat), readSteps mode depth s = some (out, mode', depth') →
      readLiteralFrom mode depth (s ++ tail)
        = (readLiteralFrom mode' depth' tail).map (fun r => (out ++ r.1, r.2)) := by
  induction s with
  | nil =>
    intro mode depth out mode' depth' tail h
    simp only [readSteps, Option.some.injEq, Prod.mk.injEq] at h
    obtain ⟨rfl, rfl, rfl⟩ := h
    simp only [List.nil_append]
    cases readLiteralFrom mode depth tail <;> simp
  | cons c rest ih =>
    intro mode depth out mode' depth' tail h
    simp only [readSteps] at h
    simp only [List.cons_append, readLiteralFrom]
    cases hstep : readStep mode depth c with
    | mk out1 next =>
      rw [hstep] at h
      cases next with
      | none => simp at h
      | some md =>
        obtain ⟨m1, d1⟩ := md
        simp only [] at h ⊢
        cases hrest : readSteps m1 d1 rest with
        | none => rw [hrest] at h; simp at h
        | some r =>
          obtain ⟨out2, m2, d2⟩ := r
          rw [hrest] at h
          simp only [Option.map_some', Option.some.injEq, Prod.mk.injEq] at h
          obtain ⟨rfl, rfl, rfl⟩ := h
          have hih := ih m1 d1 out2 m2 d2 tail hrest
          simp only [List.append_eq]
          rw [hih]
          cases readLiteralFrom m2 d2 tail <;> simp

set_option maxRecDepth 100000 in
theorem stringByteMap_reads : ∀ b < 256,
    readSteps ReadMode.plain 0 (stringToBytes (stringByteMap.getD b []))
      = some ([b], ReadMode.plain, 0) := by
  decide

theorem stringEncode_cons (b : Nat) (bytes : List Nat) :
    stringEncode (b :: bytes) = stringByteMap.getD b [] ++ stringEncode bytes := by
  simp [stringEncode]

theorem readLiteralFrom_encoded (rest : List Nat) :
    ∀ (bytes : List Nat), (∀ b ∈ bytes, b < 256) →
      readLiteralFrom ReadMode.plain 0 (stringToBytes (stringEncode bytes) ++ 41 :: rest)
        = some (bytes, rest) := by
  intro bytes
  induction bytes with
  | nil => intro _; rfl
  | cons b bytes ih =>
    intro h
    have hb : b < 256 := h b (by simp)
    have hrest := ih (fun x hx => h x (by simp [hx]))
    rw [stringEncode_cons]
    have happ : stringToBytes (stringByteMap.getD b [] ++ stringEncode bytes)
        = stringToBytes (stringByteMap.getD b []) ++ stringToBytes (stringEncode bytes) := by
      simp [stringToBytes]
    rw [happ, List.append_assoc,
      readLiteralFrom_append _ _ _ _ _ _ _ (stringByteMap_reads b hb), hrest]
    rfl

set_option maxRecDepth 100000 in
/-- C21: every entry of `stringByteMap` is one of the escapes the claim allows for its index,
and the literal `(`, the entries of the bytes, `)` is read back by the rules of the PDF
literal string as exactly those bytes, ending at its closing parenthesis. -/
theorem stringByteMap_valid_roundtrip :
    (∀ b, b < 256 → validEscape b (stringByteMap.getD b []) = true) ∧
    (∀ (bytes rest : List Nat), (∀ b ∈ bytes, b < 256) →
      readLiteral (40 :: stringToBytes (stringEncode bytes) ++ 41 :: rest)
        = some (bytes, rest)) := by
  refine ⟨by decide, fun bytes rest h => ?_⟩
  exact readLiteralFrom_encoded rest bytes h

/-- C21 at the bytes NUL, `(`, line feed, `H`, backslash, 200 and 255, followed by `/X`. -/
theorem stringByteMap_valid_roundtrip_witness :
    validEscape 10 (stringByteMap.getD 10 []) = true ∧
    readLiteral (40 :: stringToBytes (stringEncode [0, 40, 10, 72, 92, 200, 255]) ++
        41 :: jsStr "/X") = some ([0, 40, 10, 72, 92, 200, 255], jsStr "/X") :=
  ⟨stringByteMap_valid_roundtrip.1 10 (by decide),
   stringByteMap_valid_roundtrip.2 [0, 40, 10, 72, 92, 200, 255] (jsStr "/X") (by decide)⟩

/-! ## Grouping keeps the sequence of leaves -/

/-- C22: for a branch size `B ≥ 2` and a flat sequence of leaf pages, `groupPageTree` returns
a tree whose leaves, left to right, are the pages of the sequence in their order, each with
the tags of lines 333 and 340; `flattenPageTree` applied to it returns that sequence again,
up to the inheritable attributes the root hands down, and exactly when the root has none. -/
theorem groupPageTree_partition (props : Props) (kids : List PageNode) (B fuel : Nat)
    (hB : 2 ≤ B) (hleaf : ∀ p ∈ kids, p.isLeaf = true) (hfuel : kids.length < fuel) :
    ∃ props1 g, groupPageTree fuel B (.pages props kids) = some (.pages props1 g) ∧
      leavesOfKids g = kids.map assignPage ∧
      ∃ props2 flat, flattenPageTree (.pages props1 g) = some (.pages props2 flat) ∧
        flat.map stripInherited = (kids.map assignPage).map stripInherited ∧
        flat.length = kids.length ∧
        ((∀ a ∈ inheritable, truthy (props.get a) = false) → flat = kids.map assignPage) := by
  obtain ⟨g, hg, hleaves, hflat, -⟩ := groupKids_ok B hB fuel kids hleaf hfuel
  refine ⟨props.set "/Count" (Val.num kids.length), g, by simp [groupPageTree, hg], hleaves,
    _, _, rfl, ?_, ?_, ?_⟩
  · rw [pushDown_strip, hflat]
  · have h := congrArg List.length
      (pushDown_strip (flattenKids g) (props.set "/Count" (Val.num kids.length)))
    simp only [List.length_map] at h
    rw [h, hflat, List.length_map]
  · intro hnone
    have hnone' : ∀ a ∈ inheritable,
        truthy ((props.set "/Count" (Val.num kids.length)).get a) = false := by
      intro a ha
      have hne : a ≠ "/Count" := by
        intro he; subst he; simp [inheritable] at ha
      rw [Props.get_set_ne _ _ _ _ hne]
      exact hnone a ha
    rw [pushDown_of_falsy _ _ hnone', hflat]

/-- C22 at five leaf pages and branch size 2. -/
theorem groupPageTree_partition_witness :
    ∃ props1 g, groupPageTree 6 2
        (.pages [] [.leaf [("/A", Val.num 1)], .leaf [("/A", Val.num 2)],
          .leaf [("/A", Val.num 3)], .leaf [("/A", Val.num 4)], .leaf [("/A", Val.num 5)]])
        = some (.pages props1 g) ∧
      leavesOfKids g = [PageNode.leaf [("/A", Val.num 1)], .leaf [("/A", Val.num 2)],
          .leaf [("/A", Val.num 3)], .leaf [("/A", Val.num 4)],
          .leaf [("/A", Val.num 5)]].map assignPage ∧
      ∃ props2 flat, flattenPageTree (.pages props1 g) = some (.pages props2 flat) ∧
        flat.map stripInherited = ([PageNode.leaf [("/A", Val.num 1)],
          .leaf [("/A", Val.num 2)], .leaf [("/A", Val.num 3)], .leaf [("/A", Val.num 4)],
          .leaf [("/A", Val.num 5)]].map assignPage).map stripInherited ∧
        flat.length = [PageNode.leaf [("/A", Val.num 1)], .leaf [("/A", Val.num 2)],
          .leaf [("/A", Val.num 3)], .leaf [("/A", Val.num 4)],
          .leaf [("/A", Val.num 5)]].length ∧
        ((∀ a ∈ inheritable, truthy (Props.get [] a) = false) →
          flat = [PageNode.leaf [("/A", Val.num 1)], .leaf [("/A", Val.num 2)],
            .leaf [("/A", Val.num 3)], .leaf [("/A", Val.num 4)],
            .leaf [("/A", Val.num 5)]].map assignPage) :=
  groupPageTree_partition [] _ 2 6 (by decide)
    (fun p hp => by simp at hp; rcases hp with h | h | h | h | h <;> subst h <;> rfl)
    (by decide)

/-! ## Grouping ends -/

/-- C23 as stated fails: with branch size 1 and two leaf pages, line 336 swaps the branch
size to 2 and the number of branches to 1, the only chunk is the whole sequence, and the
recursive call of line 345 is made on it again: `groupPageTree` returns for no depth of
recursion. -/
theorem groupPageTree_one_same_chunk :
    branchSlice [PageNode.leaf [], PageNode.leaf []] ((2 + 1 - 1) / 1) 0
      = [PageNode.leaf [], PageNode.leaf []] ∧
    ∀ fuel, groupPageTree fuel 1 (.pages [] [.leaf [], .leaf []]) = none := by
  refine ⟨rfl, fun fuel => ?_⟩
  simp [groupPageTree, groupKids_one_none]

/-- C23 amended: for a flat sequence of `n` leaf pages and a branch size `B` with `B ≥ 2` or
`n ≤ B`, `groupPageTree` returns as soon as the recursion may go deeper than `n`, and the
leaves of the result are the pages of the sequence; when `n > B`, the call runs the loop of
lines 337-348 with the branch size of lines 335-336, and every chunk it cuts is strictly
shorter than the sequence. -/
theorem groupPageTree_terminates (props : Props) (kids : List PageNode) (B fuel : Nat)
    (hB : 2 ≤ B ∨ kids.length ≤ B) (hleaf : ∀ p ∈ kids, p.isLeaf = true)
    (hfuel : kids.length < fuel) :
    (∃ props1 g, groupPageTree fuel B (.pages props kids) = some (.pages props1 g) ∧
      leavesOfKids g = kids.map assignPage) ∧
    (B < kids.length →
      (∀ f, groupKids (f + 1) kids B
        = groupLoop (fun branchPages => groupKids f branchPages B) kids
            (if kids.length > B * B then (kids.length + B - 1) / B else B)
            (List.range (if kids.length > B * B then B else (kids.length + B - 1) / B))) ∧
      ∀ i, (branchSlice kids
          (if kids.length > B * B then (kids.length + B - 1) / B else B) i).length
        < kids.length) := by
  have hres : ∃ g, groupKids fuel kids B = some g ∧ leavesOfKids g = kids.map assignPage := by
    by_cases hflat : kids.length ≤ B
    · obtain ⟨f, rfl⟩ : ∃ f, fuel = f + 1 := ⟨fuel - 1, by omega⟩
      exact ⟨_, groupKids_flat f kids B hflat,
        leavesOfKids_of_leaves _ (assigned_isLeaf kids hleaf)⟩
    · obtain ⟨g, hg, h1, -⟩ := groupKids_ok B (by omega) fuel kids hleaf hfuel
      exact ⟨g, hg, h1⟩
  obtain ⟨g, hg, hleaves⟩ := hres
  refine ⟨⟨props.set "/Count" (Val.num kids.length), g, by simp [groupPageTree, hg],
    hleaves⟩, fun hlt => ⟨fun f => ?_, fun i => ?_⟩⟩
  · have h1 : ¬ kids.length ≤ B := by omega
    have h2 : B ≠ 0 := by omega
    simp only [groupKids, h1, h2, if_false]
    split <;> rfl
  · have hle := branchSlice_length_le kids
      (if kids.length > B * B then (kids.length + B - 1) / B else B) i
    have hbs : (if kids.length > B * B then (kids.length + B - 1) / B else B)
        < kids.length := by
      split
      · exact ceilDiv_lt kids.length B (by omega) hlt
      · exact hlt
    omega

/-- C23 amended, at five leaf pages and branch size 2. -/
theorem groupPageTree_terminates_witness :
    (∃ props1 g, groupPageTree 6 2
        (.pages [] [.leaf [], .leaf [], .leaf [], .leaf [], .leaf []])
        = some (.pages props1 g) ∧
      leavesOfKids g
        = [PageNode.leaf [], .leaf [], .leaf [], .leaf [], .leaf []].map assignPage) ∧
    (2 < [PageNode.leaf [], .leaf [], .leaf [], .leaf [], .leaf []].length →
      (∀ f, groupKids (f + 1) [PageNode.leaf [], .leaf [], .leaf [], .leaf [], .leaf []] 2
        = groupLoop (fun branchPages => groupKids f branchPages 2)
            [PageNode.leaf [], .leaf [], .leaf [], .leaf [], .leaf []]
            (if [PageNode.leaf [], .leaf [], .leaf [], .leaf [], .leaf []].length > 2 * 2
              then ([PageNode.leaf [], .leaf [], .leaf [], .leaf [], .leaf []].length + 2 - 1) / 2
              else 2)
            (List.range
              (if [PageNode.leaf [], .leaf [], .leaf [], .leaf [], .leaf []].length > 2 * 2
                then 2
                else ([PageNode.leaf [], .leaf [], .leaf [], .leaf [],
                  .leaf []].length + 2 - 1) / 2))) ∧
      ∀ i, (branchSlice [PageNode.leaf [], .leaf [], .leaf [], .leaf [], .leaf []]
          (if [PageNode.leaf [], .leaf [], .leaf [], .leaf [], .leaf []].length > 2 * 2
            then ([PageNode.leaf [], .leaf [], .leaf [], .leaf [], .leaf []].length + 2 - 1) / 2
            else 2) i).length
        < [PageNode.leaf [], .leaf [], .leaf [], .leaf [], .leaf []].length) :=
  groupPageTree_terminates [] _ 2 6 (Or.inl (by decide))
    (fun p hp => by simp at hp; subst hp; rfl) (by decide)

/-! ## The order of the blocks -/

set_option maxRecDepth 100000 in
/-- C26 as stated fails: on `helloDocument` the rendering of the stream object 2 completes
inside the rendering of the catalog 1, which refers to it, so the blocks complete in the
order 2, 1, 3; the output holds them in the order 1, 2, 3 of their numbers, the parent before
the object rendered inside it. -/
theorem assemblePdf_blocks_not_by_completion :
    (assemblePdf defaultOptions (fun bytes => bytes) 5 helloDocument).map
        (fun a => completedBlocks a.indirectObjects)
      = some [jsStr "2 0 obj<</Length 5>>stream\nHelloendstream\nendobj\n",
          jsStr "1 0 obj<</Type/Catalog/Data 2 0 R/Version/1.7>>endobj\n",
          jsStr "3 0 obj<<>>endobj\n"] ∧
    (assemblePdf defaultOptions (fun bytes => bytes) 5 helloDocument).map
        (fun a => a.data.take 118)
      = some (stringToBytes (pdfHeader defaultOptions ++
          jsStr "1 0 obj<</Type/Catalog/Data 2 0 R/Version/1.7>>endobj\n" ++
          jsStr "2 0 obj<</Length 5>>stream\nHelloendstream\nendobj\n")) := by
  decide

theorem slotTable_foldl_mono (t : SlotTable) :
    ∀ (m : Nat), m ≤ t.foldl (fun m kv => if 0 ≤ kv.1 then max m (kv.1.toNat + 1) else m) m := by
  induction t with
  | nil => intro m; exact Nat.le_refl m
  | cons kv rest ih =>
    intro m
    simp only [List.foldl_cons]
    split
    · exact Nat.le_trans (Nat.le_max_left _ _) (ih _)
    · exact ih m

theorem slotTable_lt_length (t : SlotTable) (n : Nat) (slot : Slot)
    (h : t.get (n : Int) = some slot) : n < t.length := by
  unfold SlotTable.length
  unfold SlotTable.get at h
  suffices hs : ∀ (m : Nat),
      n < t.foldl (fun m kv => if 0 ≤ kv.1 then max m (kv.1.toNat + 1) else m) m from hs 0
  induction t with
  | nil => simp [List.lookup] at h
  | cons kv rest ih =>
    intro m
    obtain ⟨k, s⟩ := kv
    simp only [List.foldl_cons]
    by_cases hk : (n : Int) = k
    · subst hk
      have hpos : (0 : Int) ≤ (n : Int) := Int.ofNat_nonneg n
      rw [if_pos hpos]
      have hle := slotTable_foldl_mono rest (max m ((n : Int).toNat + 1))
      have hmax : n + 1 ≤ max m ((n : Int).toNat + 1) := by
        simp
      omega
    · have hne : ((n : Int) == k) = false := by simpa using hk
      simp only [List.lookup, hne] at h
      exact ih h _

theorem filledBlocks_eq (t : SlotTable) :
    filledBlocks t = (List.range t.length).filterMap (blockAt t) := by
  unfold filledBlocks SlotTable.spread
  rw [List.filterMap_map]
  rfl

theorem flatMap_filterMap_blocks (f : Nat → Option (List Nat)) (l : List Nat) :
    (l.filterMap f).flatMap stringToBytes
      = (l.filter (fun n => (f n).isSome)).flatMap
          (fun n => stringToBytes ((f n).getD [])) := by
  induction l with
  | nil => rfl
  | cons n rest ih =>
    cases hf : f n with
    | none => simp [List.filterMap_cons, List.filter_cons, hf, ih]
    | some b => simp [List.filterMap_cons, List.filter_cons, hf, ih]

/-- C26 amended: when `assemblePdf` returns, the output is the header, the finished blocks in
the increasing order of their slots, that is of their object numbers, each once, then the
cross-reference section and the trailer. -/
theorem assemblePdf_blocks_by_number (opts : Options) (deflate : List Nat → List Nat)
    (fuel : Nat) (doc : Document) (a : Assembled)
    (h : assemblePdf opts deflate fuel doc = some a) :
    ∃ nums : List Nat, nums.Pairwise (fun n m => n < m) ∧
      (∀ n, n ∈ nums ↔ (blockAt a.indirectObjects n).isSome = true) ∧
      a.data = stringToBytes (pdfHeader opts) ++
        nums.flatMap (fun n => stringToBytes ((blockAt a.indirectObjects n).getD [])) ++
        stringToBytes a.xref ++ stringToBytes a.trailer := by
  obtain ⟨-, -, hd⟩ := assemblePdf_parts opts deflate fuel doc a h
  refine ⟨(List.range a.indirectObjects.length).filter
    (fun n => (blockAt a.indirectObjects n).isSome), ?_, ?_, ?_⟩
  · exact List.Pairwise.filter _ (List.pairwise_lt_range _)
  · intro n
    simp only [List.mem_filter, List.mem_range, and_iff_right_iff_imp]
    intro hn
    unfold blockAt at hn
    cases hg : a.indirectObjects.get (n : Int) with
    | none => rw [hg] at hn; simp at hn
    | some slot => exact slotTable_lt_length _ n slot hg
  · rw [hd, pdfData, filledBlocks_eq, flatMap_filterMap_blocks]

/-- C26 amended, on `helloDocument` with the default options. -/
theorem assemblePdf_blocks_by_number_witness :
    ∃ a, assemblePdf defaultOptions (fun bytes => bytes) 5 helloDocument = some a ∧
      ∃ nums : List Nat, nums.Pairwise (fun n m => n < m) ∧
        (∀ n, n ∈ nums ↔ (blockAt a.indirectObjects n).isSome = true) ∧
        a.data = stringToBytes (pdfHeader defaultOptions) ++
          nums.flatMap (fun n => stringToBytes ((blockAt a.indirectObjects n).getD [])) ++
          stringToBytes a.xref ++ stringToBytes a.trailer :=
  ⟨(assemblePdf defaultOptions (fun bytes => bytes) 5 helloDocument).get (by decide),
    (Option.some_get _).symm,
    assemblePdf_blocks_by_number defaultOptions (fun bytes => bytes) 5 helloDocument _
      (Option.some_get _).symm⟩

/-! ## Numbered nodes and their slots -/

/-- A property of the rendering state is kept by `newPdfObject` when it is kept where an
indirect object is opened (lines 482-503) and where its finished block is stored (line 530)
in the slot that was empty when it was opened. -/
theorem newPdfObject_preserves_slot (opts : Options) (deflate : List Nat → List Nat)
    (P : RenderState → Prop)
    (hopen : ∀ (st : RenderState) (id : Nat) (props : Props) (n : Int)
      (stream : Option (List Nat)), P st → st.heap[id]? = some (Obj.dict props) →
      props.get "num" = Val.num n → st.indirectObjects.get n = none →
      (stream ≠ none → props.get "stream" ≠ Val.undefined) →
      P (openObject opts deflate st id props n stream).2.2)
    (hclose : ∀ (st st1 : RenderState) (id : Nat) (props : Props) (n : Int)
      (dictItems : List Nat) (written : Option (List Nat)), P st → P st1 →
      st.heap[id]? = some (Obj.dict props) → props.get "num" = Val.num n →
      st.indirectObjects.get n = none →
      P { st1 with indirectObjects := st1.indirectObjects.set n (Slot.done
        (finishObject opts (objectBody opts (Val.num n) (props.get "gen") dictItems)
          written)) }) :
    ∀ (fuel : Nat) (jsObject : Val) (depth : Nat) (nextIndent : NextIndent)
      (st : RenderState) (text : List Nat) (st' : RenderState), P st →
      newPdfObject opts deflate fuel jsObject depth nextIndent st = some (text, st') →
      P st' := by
  intro fuel
  induction fuel with
  | zero => intro jsObject depth nextIndent st text st' _ hrun; simp [newPdfObject] at hrun
  | succ fuel ih =>
    intro jsObject depth nextIndent st text st' h hrun
    cases jsObject with
    | undefined | null | bool b | num k | str s =>
      simp only [newPdfObject, Option.some.injEq, Prod.mk.injEq] at hrun
      rw [← hrun.2]; exact h
    | ref id =>
      rw [newPdfObject] at hrun
      simp only [] at hrun
      cases hobj : st.heap[id]? with
      | none => rw [hobj] at hrun; simp at hrun
      | some obj =>
        rw [hobj] at hrun
        cases obj with
        | arr items =>
          simp only [] at hrun
          split at hrun
          · simp at hrun
          · rename_i arrayItems st1 hitems
            simp only [Option.some.injEq, Prod.mk.injEq] at hrun
            rw [← hrun.2]
            exact renderItems_preserves P _
              (fun item ni s t s' hs hr => ih item _ ni s t s' hs hr) _ items 0 st
              arrayItems st1 h hitems
        | dict props =>
          simp only [] at hrun
          have hinline : ∀ (texts : List Nat) (st1 : RenderState),
              renderEntries opts depth
                (fun item ni s => newPdfObject opts deflate fuel item (depth + 1) ni s)
                (nameEntries props) st = some (texts, st1) → P st1 :=
            fun texts st1 hr => renderEntries_preserves P opts depth _
              (fun item ni s t s' hs hr => ih item _ ni s t s' hs hr) _ st texts st1 h hr
          cases hnum : props.get "num" with
          | num n =>
            rw [hnum] at hrun
            simp only [] at hrun
            cases hslot : st.indirectObjects.get n with
            | some slot =>
              rw [hslot] at hrun
              simp only [Option.some.injEq, Prod.mk.injEq] at hrun
              rw [← hrun.2]; exact h
            | none =>
              rw [hslot] at hrun
              simp only [] at hrun
              split at hrun
              · simp at hrun
              · rename_i stream hstream
                split at hrun
                · simp at hrun
                · rename_i dictItems st1 hentries
                  simp only [Option.some.injEq, Prod.mk.injEq] at hrun
                  rw [← hrun.2]
                  have hdef : stream ≠ none → props.get "stream" ≠ Val.undefined := by
                    intro hs hu
                    rw [if_pos hu] at hstream
                    simp only [Option.some.injEq] at hstream
                    exact hs hstream.symm
                  have hopened := hopen st id props n stream h hobj hnum hslot hdef
                  have h1 : P st1 := renderEntries_preserves P opts 0 _
                    (fun item ni s t s' hs hr => ih item _ ni s t s' hs hr) _ _ dictItems st1
                    hopened hentries
                  exact hclose st st1 id props n dictItems _ h h1 hobj hnum hslot
          | undefined | null | bool b | str s | ref r =>
            rw [hnum] at hrun
            simp only [] at hrun
            split at hrun
            · simp at hrun
            · rename_i dictItems st1 hentries
              simp only [Option.some.injEq, Prod.mk.injEq] at hrun
              rw [← hrun.2]
              exact hinline dictItems st1 hentries

/-- A slot that holds something keeps it through every rendering: a block is stored only in
a slot that was empty when its object was opened. -/
theorem newPdfObject_keeps_slot (opts : Options) (deflate : List Nat → List Nat) (fuel : Nat)
    (jsObject : Val) (depth : Nat) (nextIndent : NextIndent) (st : RenderState)
    (text : List Nat) (st' : RenderState) (m : Int) (slot : Slot)
    (h : st.indirectObjects.get m = some slot)
    (hrun : newPdfObject opts deflate fuel jsObject depth nextIndent st = some (text, st')) :
    st'.indirectObjects.get m = some slot :=
  newPdfObject_preserves_slot opts deflate (fun s => s.indirectObjects.get m = some slot)
    (fun s id props n stream hs _ _ hnone _ => by
      have hs' : s.indirectObjects.get m = some slot := hs
      show (openObject opts deflate s id props n stream).2.2.indirectObjects.get m = some slot
      rw [openObject_slots]
      have hne : m ≠ n := by
        intro he; subst he; rw [hnone] at hs'; simp at hs'
      rw [slotTable_get_set_ne _ _ _ _ hne]
      exact hs')
    (fun s s1 id props n dictItems written hs hs1 _ _ hnone => by
      have hs' : s.indirectObjects.get m = some slot := hs
      have hs1' : s1.indirectObjects.get m = some slot := hs1
      have hne : m ≠ n := by
        intro he; subst he; rw [hnone] at hs'; simp at hs'
      show (s1.indirectObjects.set n _).get m = some slot
      rw [slotTable_get_set_ne _ _ _ _ hne]
      exact hs1')
    fuel jsObject depth nextIndent st text st' h hrun

theorem renderEntries_keeps_slot (opts : Options) (deflate : List Nat → List Nat)
    (fuel depth : Nat) (entries : List (String × Val)) (st : RenderState) (texts : List Nat)
    (st' : RenderState) (m : Int) (slot : Slot) (h : st.indirectObjects.get m = some slot)
    (hrun : renderEntries opts depth
      (fun item ni s => newPdfObject opts deflate fuel item (depth + 1) ni s) entries st
        = some (texts, st')) :
    st'.indirectObjects.get m = some slot :=
  renderEntries_preserves (fun s => s.indirectObjects.get m = some slot) opts depth _
    (fun item ni s t s' hs hr =>
      newPdfObject_keeps_slot opts deflate fuel item (depth + 1) ni s t s' m slot hs hr)
    entries st texts st' h hrun

/-- What `newPdfObject` does on a node that carries the number `n`. When the slot `n` holds
something, a finished block or the placeholder of a rendering in progress, the call returns
the reference token `n gen R` and changes nothing. When the slot is empty and the call
returns, it has put the placeholder in the slot, rendered the entries of the node with the
placeholder in place before and after, stored the block of the node in the slot and returned
the reference token. A slot that holds something keeps it through every rendering, so the
block is stored once. -/
theorem newPdfObject_numbered_once (opts : Options) (deflate : List Nat → List Nat)
    (fuel id depth : Nat) (nextIndent : NextIndent) (st : RenderState) (props : Props)
    (n : Int) (hobj : st.heap[id]? = some (Obj.dict props))
    (hnum : props.get "num" = Val.num n) :
    (∀ slot, st.indirectObjects.get n = some slot →
      newPdfObject opts deflate (fuel + 1) (Val.ref id) depth nextIndent st
        = some (lead opts depth nextIndent (refToken (Val.num n) (props.get "gen")) ++
            refToken (Val.num n) (props.get "gen"), st)) ∧
    (st.indirectObjects.get n = none → ∀ text st',
      newPdfObject opts deflate (fuel + 1) (Val.ref id) depth nextIndent st
        = some (text, st') →
      text = lead opts depth nextIndent (refToken (Val.num n) (props.get "gen")) ++
        refToken (Val.num n) (props.get "gen") ∧
      ∃ stream dictItems st1,
        (openObject opts deflate st id props n stream).2.2.indirectObjects.get n
          = some Slot.pending ∧
        renderEntries opts 0 (fun item ni s => newPdfObject opts deflate fuel item 1 ni s)
            (nameEntries (openObject opts deflate st id props n stream).1)
            (openObject opts deflate st id props n stream).2.2 = some (dictItems, st1) ∧
        st1.indirectObjects.get n = some Slot.pending ∧
        st'.heap = st1.heap ∧
        st'.indirectObjects = st1.indirectObjects.set n (Slot.done
          (finishObject opts (objectBody opts (Val.num n) (props.get "gen") dictItems)
            (openObject opts deflate st id props n stream).2.1)) ∧
        st'.indirectObjects.get n = some (Slot.done
          (finishObject opts (objectBody opts (Val.num n) (props.get "gen") dictItems)
            (openObject opts deflate st id props n stream).2.1))) ∧
    (∀ (f : Nat) (jsObject : Val) (d : Nat) (ni : NextIndent) (s : RenderState)
      (text : List Nat) (s' : RenderState) (m : Int) (slot : Slot),
      s.indirectObjects.get m = some slot →
      newPdfObject opts deflate f jsObject d ni s = some (text, s') →
      s'.indirectObjects.get m = some slot) := by
  refine ⟨fun slot hslot => ?_, fun hslot text st' hrun => ?_,
    fun f jsObject d ni s text s' m slot hs hr =>
      newPdfObject_keeps_slot opts deflate f jsObject d ni s text s' m slot hs hr⟩
  · rw [newPdfObject]
    simp only [hobj, hnum, hslot]
  · rw [newPdfObject] at hrun
    simp only [hobj, hnum, hslot] at hrun
    split at hrun
    · simp at hrun
    · rename_i stream hstream
      split at hrun
      · simp at hrun
      · rename_i dictItems st1 hentries
        simp only [Option.some.injEq, Prod.mk.injEq] at hrun
        obtain ⟨htext, hst⟩ := hrun
        have hpending : (openObject opts deflate st id props n stream).2.2.indirectObjects.get n
            = some Slot.pending := by
          rw [openObject_slots, slotTable_get_set_self]
        have hstill : st1.indirectObjects.get n = some Slot.pending :=
          renderEntries_keeps_slot opts deflate fuel 0 _ _ dictItems st1 n Slot.pending
            hpending hentries
        refine ⟨htext.symm, stream, dictItems, st1, hpending, hentries, hstill, ?_, ?_, ?_⟩
        · rw [← hst]
        · rw [← hst]
        · rw [← hst]
          exact slotTable_get_set_self _ _ _

/-- On `sharedHeap`, rendered from the catalog, the object 2 is written `2 0 R` at both
entries of the catalog and inside its own body, and its body is in the slot 2 alone. -/
theorem newPdfObject_shared_rendering :
    newPdfObject defaultOptions (fun bytes => bytes) 3 (Val.ref 0) 0 NextIndent.no
        ⟨sharedHeap, []⟩
      = some (jsStr "1 0 R", ⟨sharedHeap,
          [((1 : Int), Slot.done (jsStr "1 0 obj<</Type/Catalog/A 2 0 R/B 2 0 R>>endobj\n")),
           ((2 : Int), Slot.done (jsStr "2 0 obj<</Up 1 0 R/Me 2 0 R>>endobj\n"))]⟩) := by
  decide

/-- The object 2 of `sharedHeap`, met with the placeholder in its slot, and met with
its slot empty while the catalog is being rendered. -/
theorem newPdfObject_numbered_once_witness :
    newPdfObject defaultOptions (fun bytes => bytes) 3 (Val.ref 1) 1 (NextIndent.text [])
        ⟨sharedHeap, [((2 : Int), Slot.pending)]⟩
      = some (jsStr " 2 0 R", ⟨sharedHeap, [((2 : Int), Slot.pending)]⟩) ∧
    ∃ text st',
      newPdfObject defaultOptions (fun bytes => bytes) 3 (Val.ref 1) 1 (NextIndent.text [])
          ⟨sharedHeap, [((1 : Int), Slot.pending)]⟩ = some (text, st') ∧
      text = jsStr " 2 0 R" :=
  ⟨((newPdfObject_numbered_once defaultOptions (fun bytes => bytes) 2 1 1 (NextIndent.text [])
      ⟨sharedHeap, [((2 : Int), Slot.pending)]⟩
      [("num", .num 2), ("gen", .num 0), ("/Up", .ref 0), ("/Me", .ref 1)] 2
      (by decide) (by decide)).1 Slot.pending (by decide)).trans (by decide),
   _, _, (Option.some_get (by decide)).symm,
    ((newPdfObject_numbered_once defaultOptions (fun bytes => bytes) 2 1 1 (NextIndent.text [])
      ⟨sharedHeap, [((1 : Int), Slot.pending)]⟩
      [("num", .num 2), ("gen", .num 0), ("/Up", .ref 0), ("/Me", .ref 1)] 2
      (by decide) (by decide)).2.1 (by decide) _ _ (Option.some_get (by decide)).symm).1.trans
      (by decide)⟩

/-! ## Arrays that hold themselves -/

theorem openObject_keeps_array (opts : Options) (deflate : List Nat → List Nat)
    (st : RenderState) (id : Nat) (props : Props) (n : Int) (stream : Option (List Nat))
    (a : Nat) (items : List Val) (h : st.heap[a]? = some (Obj.arr items))
    (hobj : st.heap[id]? = some (Obj.dict props)) :
    (openObject opts deflate st id props n stream).2.2.heap[a]? = some (Obj.arr items) := by
  have hne : id ≠ a := by
    intro he; subst he; rw [hobj] at h; simp at h
  have hlt : a < st.heap.length := by
    by_contra hge
    rw [List.getElem?_eq_none (by omega)] at h
    simp at h
  cases stream with
  | none => exact h
  | some payload =>
    simp only [openObject]
    split
    · simp only []
      rw [List.getElem?_append_left (by rw [List.length_set]; exact hlt),
        List.getElem?_set_ne hne]
      exact h
    · simp only []
      rw [List.getElem?_set_ne hne]
      exact h

/-- The rendering leaves every array of the tree as it is. -/
theorem newPdfObject_keeps_array (opts : Options) (deflate : List Nat → List Nat) (fuel : Nat)
    (jsObject : Val) (depth : Nat) (nextIndent : NextIndent) (st : RenderState)
    (text : List Nat) (st' : RenderState) (a : Nat) (items : List Val)
    (h : st.heap[a]? = some (Obj.arr items))
    (hrun : newPdfObject opts deflate fuel jsObject depth nextIndent st = some (text, st')) :
    st'.heap[a]? = some (Obj.arr items) :=
  newPdfObject_preserves opts deflate (fun s => s.heap[a]? = some (Obj.arr items))
    (fun s id props n stream hs hobj _ _ _ =>
      openObject_keeps_array opts deflate s id props n stream a items hs hobj)
    (fun _ _ _ _ _ _ _ _ hs1 _ _ => hs1)
    fuel jsObject depth nextIndent st text st' h hrun

theorem renderItems_never
    (recurse : Val → NextIndent → RenderState → Option (List Nat × RenderState))
    (P : RenderState → Prop) (target : Val)
    (hkeep : ∀ item ni st text st', P st → recurse item ni st = some (text, st') → P st')
    (hnever : ∀ ni st, P st → recurse target ni st = none) (spaced : Bool) :
    ∀ (items : List Val) (index : Nat) (st : RenderState), P st → target ∈ items →
      renderItems recurse spaced items index st = none := by
  intro items
  induction items with
  | nil => intro index st _ hmem; simp at hmem
  | cons item rest ih =>
    intro index st h hmem
    simp only [renderItems]
    cases hr : recurse item (if (spaced || index != 0) = true then NextIndent.yes
        else NextIndent.no) st with
    | none => rfl
    | some r =>
      obtain ⟨text, st1⟩ := r
      simp only []
      have hne : item ≠ target := by
        intro he; subst he; rw [hnever _ st h] at hr; simp at hr
      have hmem' : target ∈ rest := by
        rcases List.mem_cons.mp hmem with he | hm
        · exact absurd he.symm hne
        · exact hm
      rw [ih (index + 1) st1 (hkeep _ _ st text st1 h hr) hmem']

theorem renderEntries_never (opts : Options) (depth : Nat)
    (recurse : Val → NextIndent → RenderState → Option (List Nat × RenderState))
    (P : RenderState → Prop) (target : Val)
    (hkeep : ∀ item ni st text st', P st → recurse item ni st = some (text, st') → P st')
    (hnever : ∀ ni st, P st → recurse target ni st = none) :
    ∀ (entries : List (String × Val)) (st : RenderState), P st →
      (∃ key, (key, target) ∈ entries) →
      renderEntries opts depth recurse entries st = none := by
  intro entries
  induction entries with
  | nil => intro st _ hmem; obtain ⟨key, hk⟩ := hmem; simp at hk
  | cons entry rest ih =>
    intro st h hmem
    obtain ⟨k, value⟩ := entry
    simp only [renderEntries]
    cases hr : recurse value (NextIndent.text (if space opts ≠ [] then [32] else [])) st with
    | none => rfl
    | some r =>
      obtain ⟨text, st1⟩ := r
      simp only []
      have hne : value ≠ target := by
        intro he; subst he; rw [hnever _ st h] at hr; simp at hr
      have hmem' : ∃ key, (key, target) ∈ rest := by
        obtain ⟨key, hk⟩ := hmem
        rcases List.mem_cons.mp hk with he | hm
        · simp only [Prod.mk.injEq] at he
          exact absurd he.2.symm hne
        · exact ⟨key, hm⟩
      rw [ih st1 (hkeep _ _ st text st1 h hr) hmem']

/-- An array that holds itself is rendered by no depth of recursion: line 469 descends into
every element, and an array has no slot that would stop the descent. -/
theorem newPdfObject_array_cycle (opts : Options) (deflate : List Nat → List Nat) (a : Nat)
    (items : List Val) (hmem : Val.ref a ∈ items) :
    ∀ (fuel depth : Nat) (nextIndent : NextIndent) (st : RenderState),
      st.heap[a]? = some (Obj.arr items) →
      newPdfObject opts deflate fuel (Val.ref a) depth nextIndent st = none := by
  intro fuel
  induction fuel with
  | zero => intro depth nextIndent st _; rfl
  | succ fuel ih =>
    intro depth nextIndent st h
    rw [newPdfObject]
    simp only [h]
    rw [renderItems_never _ (fun s => s.heap[a]? = some (Obj.arr items)) (Val.ref a)
      (fun item ni s t s' hs hr =>
        newPdfObject_keeps_array opts deflate fuel item (depth + 1) ni s t s' a items hs hr)
      (fun ni s hs => ih (depth + 1) ni s hs) _ items 0 st h hmem]

theorem renderEntries_array_cycle (opts : Options) (deflate : List Nat → List Nat)
    (fuel depth : Nat) (a : Nat) (items : List Val) (hmem : Val.ref a ∈ items)
    (entries : List (String × Val)) (st : RenderState)
    (h : st.heap[a]? = some (Obj.arr items)) (hkey : ∃ key, (key, Val.ref a) ∈ entries) :
    renderEntries opts depth
      (fun item ni s => newPdfObject opts deflate fuel item (depth + 1) ni s) entries st
        = none :=
  renderEntries_never opts depth _ (fun s => s.heap[a]? = some (Obj.arr items)) (Val.ref a)
    (fun item ni s t s' hs hr =>
      newPdfObject_keeps_array opts deflate fuel item (depth + 1) ni s t s' a items hs hr)
    (fun ni s hs => newPdfObject_array_cycle opts deflate a items hmem fuel (depth + 1) ni s hs)
    entries st h hkey

/-- A node without a stream whose slot is empty and that holds, under a name, an array that
holds itself is rendered by no depth of recursion. -/
theorem newPdfObject_holder_never (opts : Options) (deflate : List Nat → List Nat) (a : Nat)
    (items : List Val) (hmem : Val.ref a ∈ items) (fuel depth : Nat)
    (nextIndent : NextIndent) (st : RenderState) (id : Nat) (props : Props)
    (h : st.heap[a]? = some (Obj.arr items)) (hobj : st.heap[id]? = some (Obj.dict props))
    (hstream : props.get "stream" = Val.undefined)
    (hkey : ∃ key, (key, Val.ref a) ∈ nameEntries props)
    (hslot : ∀ n, props.get "num" = Val.num n → st.indirectObjects.get n = none) :
    newPdfObject opts deflate fuel (Val.ref id) depth nextIndent st = none := by
  cases fuel with
  | zero => rfl
  | succ fuel =>
    rw [newPdfObject]
    simp only [hobj]
    cases hn : props.get "num" with
    | num n =>
      simp only [hslot n hn, hstream, if_true, openObject]
      have hnone := renderEntries_array_cycle opts deflate fuel 0 a items hmem
        (nameEntries props)
        { heap := st.heap, indirectObjects := st.indirectObjects.set n Slot.pending } h hkey
      simp only [Nat.zero_add] at hnone
      rw [hnone]
    | undefined | null | bool b | str s | ref r =>
      simp only []
      rw [renderEntries_array_cycle opts deflate fuel depth a items hmem (nameEntries props)
        st h hkey]

theorem nameEntries_set_plain (props : Props) (key : String) (v : Val)
    (hkey : (jsStr key).head? ≠ some 47) :
    nameEntries (props.set key v) = nameEntries props := by
  have hk : ((jsStr key).head? == some 47) = false := by simpa using hkey
  induction props with
  | nil => simp [nameEntries, Props.set, hk]
  | cons kv rest ih =>
    obtain ⟨k, w⟩ := kv
    by_cases he : k = key
    · subst he
      simp [nameEntries, Props.set, List.filter_cons, hk]
    · simp only [nameEntries, Props.set, he, if_false, List.filter_cons] at ih ⊢
      rw [ih]

theorem mem_set_ne (props : Props) (key other : String) (v x : Val)
    (h : (other, x) ∈ props) (hne : other ≠ key) : (other, x) ∈ props.set key v := by
  induction props with
  | nil => simp at h
  | cons kv rest ih =>
    obtain ⟨k, w⟩ := kv
    by_cases he : k = key
    · subst he
      simp only [Props.set, if_true]
      rcases List.mem_cons.mp h with hh | hh
      · simp only [Prod.mk.injEq] at hh
        exact absurd hh.1 hne
      · exact List.mem_cons_of_mem _ hh
    · simp only [Props.set, he, if_false]
      rcases List.mem_cons.mp h with hh | hh
      · rw [hh]; exact List.mem_cons_self _ _
      · exact List.mem_cons_of_mem _ (ih hh)

theorem mem_nameEntries_set_ne (props : Props) (key other : String) (v x : Val)
    (h : (other, x) ∈ nameEntries props) (hne : other ≠ key) :
    (other, x) ∈ nameEntries (props.set key v) := by
  simp only [nameEntries, List.mem_filter] at h ⊢
  exact ⟨mem_set_ne props key other v x h.1 hne, h.2⟩

theorem holdsCycle_replace (root a : Nat) (items : List Val) (key : String) (heap : Heap)
    (id : Nat) (props q : Props) (h : HoldsCycle root a items key heap)
    (hobj : heap[id]? = some (Obj.dict props))
    (hstream : q.get "stream" = props.get "stream")
    (hentries : (key, Val.ref a) ∈ nameEntries props → (key, Val.ref a) ∈ nameEntries q) :
    HoldsCycle root a items key (heap.set id (Obj.dict q)) := by
  obtain ⟨harr, rootProps, hroot, hs, hk⟩ := h
  have hne : id ≠ a := by
    intro he; subst he; rw [hobj] at harr; simp at harr
  refine ⟨by rw [List.getElem?_set_ne hne]; exact harr, ?_⟩
  by_cases hid : id = root
  · subst hid
    have hlt : id < heap.length := by
      by_contra hge
      rw [List.getElem?_eq_none (by omega)] at hobj
      simp at hobj
    rw [hroot] at hobj
    simp only [Option.some.injEq, Obj.dict.injEq] at hobj
    subst hobj
    exact ⟨q, List.getElem?_set_self hlt, by rw [hstream]; exact hs, hentries hk⟩
  · exact ⟨rootProps, by rw [List.getElem?_set_ne hid]; exact hroot, hs, hk⟩

/-- On a tree whose root holds, under a name other than `/Version`, an array that holds
itself, `assemblePdf` returns for no depth of recursion. -/
theorem assemblePdf_array_cycle (opts : Options) (deflate : List Nat → List Nat) (fuel : Nat)
    (doc : Document) (a : Nat) (items : List Val) (key : String)
    (hmem : Val.ref a ∈ items) (hkey : key ≠ "/Version")
    (h : HoldsCycle doc.root a items key doc.heap) :
    assemblePdf opts deflate fuel doc = none := by
  unfold assemblePdf
  split
  · rfl
  · rename_i rs hreset
    have hrs : HoldsCycle doc.root a items key rs.heap :=
      resetObjectIds_preserves (HoldsCycle doc.root a items key)
        (fun heap id props k hh hobj _ =>
          holdsCycle_replace doc.root a items key heap id props _ hh hobj
            (by unfold assignNumber
                rw [Props.get_set_ne _ _ _ _ (by decide), Props.get_set_ne _ _ _ _ (by decide)])
            (fun hk => by
              unfold assignNumber
              rw [nameEntries_set_plain _ _ _ (by decide),
                nameEntries_set_plain _ _ _ (by decide)]
              exact hk))
        doc.root fuel doc.root _ rs h hreset
    split
    · rename_i rootProps hroot
      dsimp only
      have hversion := holdsCycle_replace doc.root a items key rs.heap doc.root rootProps
        (rootProps.set "/Version" (Val.str (47 :: opts.pdfVersion))) hrs hroot
        (Props.get_set_ne _ _ _ _ (by decide))
        (fun hk => mem_nameEntries_set_ne _ _ _ _ _ hk hkey)
      obtain ⟨harr, props1, hroot1, hs1, hk1⟩ := hversion
      rw [newPdfObject_holder_never opts deflate a items hmem fuel 0 NextIndent.no _ doc.root
        props1 harr hroot1 hs1 ⟨key, hk1⟩
        (fun n _ => by simp [SlotTable.get, List.lookup])]
    · rfl

/-- C25: on `selfArrayGraph` the resolver returns the catalog as object 0, whose `/A` is the
array 3, and the array 3 holds itself; on that tree, with any info dictionary, any options
and any compressor, `assemblePdf` returns for no depth of recursion: the rendering descends
into the array again and again. -/
theorem assemblePdf_self_array_never_returns :
    ∃ r, resolveRoot selfArrayGraph 6 = some r ∧ r.1 = Val.ref 0 ∧
      entryOf r.2.heap r.1 "/A" = some (Val.ref 3) ∧
      r.2.heap[3]? = some (Obj.arr [Val.ref 3]) ∧
      ∀ (opts : Options) (deflate : List Nat → List Nat) (fuel : Nat) (info : Props)
        (objCache : List Nat) (nextNodeNum : Nat),
        assemblePdf opts deflate fuel
          { heap := r.2.heap ++ [Obj.dict info], root := 0, info := r.2.heap.length,
            objCache := objCache, nextNodeNum := nextNodeNum } = none := by
  refine ⟨(resolveRoot selfArrayGraph 6).get (by decide), (Option.some_get _).symm,
    by decide, by decide, by decide, ?_⟩
  intro opts deflate fuel info objCache nextNodeNum
  refine assemblePdf_array_cycle opts deflate fuel _ 3 [Val.ref 3] "/A" (by simp)
    (by decide) ⟨?_, ?_⟩
  · show (((resolveRoot selfArrayGraph 6).get (by decide)).2.heap ++ [Obj.dict info])[3]?
      = some (Obj.arr [Val.ref 3])
    rw [List.getElem?_append_left (by decide)]
    decide
  · refine ⟨[("/Type", Val.str (jsStr "/Catalog")), ("/Pages", Val.ref 1), ("/A", Val.ref 3),
      ("num", Val.num 1), ("gen", Val.num 0)], ?_, by decide, by decide⟩
    show (((resolveRoot selfArrayGraph 6).get (by decide)).2.heap ++ [Obj.dict info])[0]?
      = some _
    rw [List.getElem?_append_left (by decide)]
    decide

/-! ## A shared node that is never rendered -/

/-- C24 as stated fails on `sharedCycleHeap`, where the object 2 carries a number and is held
twice by the catalog: with any options, any compressor and any depth of recursion, neither
the rendering of the object 2 nor the rendering of the catalog returns, whatever the slots
other than the slot 2 hold, so no block of the object 2 is stored and no reference token is
written: the rendering of its entry `/Loop` descends into the array again and again. -/
theorem newPdfObject_shared_never_rendered (opts : Options) (deflate : List Nat → List Nat)
    (fuel depth : Nat) (nextIndent : NextIndent) :
    newPdfObject opts deflate fuel (Val.ref 1) depth nextIndent ⟨sharedCycleHeap, []⟩ = none ∧
    newPdfObject opts deflate fuel (Val.ref 1) depth nextIndent
      ⟨sharedCycleHeap, [((1 : Int), Slot.pending)]⟩ = none ∧
    newPdfObject opts deflate fuel (Val.ref 0) depth nextIndent ⟨sharedCycleHeap, []⟩
      = none := by
  have hnode : ∀ (f d : Nat) (ni : NextIndent) (slots : SlotTable), slots.get 2 = none →
      newPdfObject opts deflate f (Val.ref 1) d ni ⟨sharedCycleHeap, slots⟩ = none :=
    fun f d ni slots hslots =>
      newPdfObject_holder_never opts deflate 2 [Val.ref 2] (by simp) f d ni
        ⟨sharedCycleHeap, slots⟩ 1
        [("num", .num 2), ("gen", .num 0), ("/Loop", .ref 2)] rfl rfl rfl
        ⟨"/Loop", by decide⟩
        (fun n hn => by
          have h2 : n = 2 := by
            have h : Val.num 2 = Val.num n := hn
            simp only [Val.num.injEq] at h
            exact h.symm
          subst h2
          exact hslots)
  refine ⟨hnode fuel depth nextIndent [] rfl, hnode fuel depth nextIndent _ rfl, ?_⟩
  cases fuel with
  | zero => rfl
  | succ f =>
    cases f with
    | zero => rfl
    | succ g =>
      have h := hnode (g + 1) 1 (NextIndent.text (if space opts ≠ [] then [32] else []))
        [((1 : Int), Slot.pending)] rfl
      have hobj : sharedCycleHeap[0]? = some (Obj.dict
        [("num", .num 1), ("gen", .num 0), ("/Type", .str (jsStr "/Catalog")),
          ("/A", .ref 1), ("/B", .ref 1)]) := rfl
      rw [newPdfObject]
      simp only [hobj]
      have hnum : Props.get [("num", Val.num 1), ("gen", Val.num 0),
          ("/Type", Val.str (jsStr "/Catalog")), ("/A", Val.ref 1), ("/B", Val.ref 1)] "num"
          = Val.num 1 := rfl
      have hstream : Props.get [("num", Val.num 1), ("gen", Val.num 0),
          ("/Type", Val.str (jsStr "/Catalog")), ("/A", Val.ref 1), ("/B", Val.ref 1)] "stream"
          = Val.undefined := rfl
      have hslot : SlotTable.get [] 1 = none := rfl
      simp only [hnum, hslot, hstream, if_true, openObject]
      have hentries : nameEntries [("num", Val.num 1), ("gen", Val.num 0),
          ("/Type", Val.str (jsStr "/Catalog")), ("/A", Val.ref 1), ("/B", Val.ref 1)]
          = [("/Type", Val.str (jsStr "/Catalog")), ("/A", Val.ref 1), ("/B", Val.ref 1)] := by
        decide
      have hset : SlotTable.set [] 1 Slot.pending = [((1 : Int), Slot.pending)] := rfl
      rw [hentries, hset]
      simp only [renderEntries]
      rw [newPdfObject]
      simp only []
      rw [h]

/-! ## The state effect of a rendering -/

theorem renders_append (opts : Options) (deflate : List Nat → List Nat) (xs ys : List Val)
    (a b c : RenderState) (h1 : Renders opts deflate xs a b) (h2 : Renders opts deflate ys b c) :
    Renders opts deflate (xs ++ ys) a c := by
  induction h1 with
  | nil st => exact h2
  | prim v vs st st' hv _ ih => exact Renders.prim v _ st c hv (ih h2)
  | arr id items vs st s1 st' hobj hitems _ _ ih2 =>
    exact Renders.arr id items _ st s1 c hobj hitems (ih2 h2)
  | token id props n slot vs st st' hobj hnum hslot _ ih =>
    exact Renders.token id props n slot _ st c hobj hnum hslot (ih h2)
  | indirect id props n stream dictItems vs st s1 st' hobj hnum hslot hstream hkids _ _ ih2 =>
    exact Renders.indirect id props n stream dictItems _ st s1 c hobj hnum hslot hstream hkids
      (ih2 h2)
  | inline id props vs st s1 st' hobj hnum hkids _ _ ih2 =>
    exact Renders.inline id props _ st s1 c hobj hnum hkids (ih2 h2)

theorem renderItems_renders (opts : Options) (deflate : List Nat → List Nat)
    (recurse : Val → NextIndent → RenderState → Option (List Nat × RenderState))
    (hrec : ∀ item ni s t s', recurse item ni s = some (t, s') →
      Renders opts deflate [item] s s') (spaced : Bool) :
    ∀ (items : List Val) (index : Nat) (st : RenderState) (texts : List Nat)
      (st' : RenderState), renderItems recurse spaced items index st = some (texts, st') →
      Renders opts deflate items st st' := by
  intro items
  induction items with
  | nil =>
    intro index st texts st' h
    simp only [renderItems, Option.some.injEq, Prod.mk.injEq] at h
    rw [← h.2]
    exact Renders.nil st
  | cons item rest ih =>
    intro index st texts st' h
    simp only [renderItems] at h
    split at h
    · simp at h
    · rename_i text s1 hitem
      split at h
      · simp at h
      · rename_i texts2 s2 hrest
        simp only [Option.some.injEq, Prod.mk.injEq] at h
        rw [← h.2]
        exact renders_append opts deflate [item] rest st s1 s2 (hrec _ _ _ _ _ hitem)
          (ih _ _ _ _ hrest)

theorem renderEntries_renders (opts : Options) (deflate : List Nat → List Nat) (depth : Nat)
    (recurse : Val → NextIndent → RenderState → Option (List Nat × RenderState))
    (hrec : ∀ item ni s t s', recurse item ni s = some (t, s') →
      Renders opts deflate [item] s s') :
    ∀ (entries : List (String × Val)) (st : RenderState) (texts : List Nat)
      (st' : RenderState), renderEntries opts depth recurse entries st = some (texts, st') →
      Renders opts deflate (entries.map (fun kv => kv.2)) st st' := by
  intro entries
  induction entries with
  | nil =>
    intro st texts st' h
    simp only [renderEntries, Option.some.injEq, Prod.mk.injEq] at h
    rw [← h.2]
    exact Renders.nil st
  | cons kv rest ih =>
    obtain ⟨key, value⟩ := kv
    intro st texts st' h
    simp only [renderEntries] at h
    split at h
    · simp at h
    · rename_i text s1 hitem
      split at h
      · simp at h
      · rename_i texts2 s2 hrest
        simp only [Option.some.injEq, Prod.mk.injEq] at h
        rw [← h.2]
        exact renders_append opts deflate [value] _ st s1 s2 (hrec _ _ _ _ _ hitem)
          (ih _ _ _ hrest)

/-- Whatever `newPdfObject` returns, its effect on the state is the one `Renders` gives. -/
theorem newPdfObject_renders (opts : Options) (deflate : List Nat → List Nat) :
    ∀ (fuel : Nat) (jsObject : Val) (depth : Nat) (nextIndent : NextIndent)
      (st : RenderState) (text : List Nat) (st' : RenderState),
      newPdfObject opts deflate fuel jsObject depth nextIndent st = some (text, st') →
      Renders opts deflate [jsObject] st st' := by
  intro fuel
  induction fuel with
  | zero =>
    intro jsObject depth nextIndent st text st' h
    simp [newPdfObject] at h
  | succ fuel ih =>
    intro jsObject depth nextIndent st text st' h
    cases jsObject with
    | undefined | null | bool b | num k | str s =>
      simp only [newPdfObject, Option.some.injEq, Prod.mk.injEq] at h
      rw [← h.2]
      exact Renders.prim _ [] st st (fun id => by simp) (Renders.nil st)
    | ref id =>
      rw [newPdfObject] at h
      simp only [] at h
      split at h
      · simp at h
      · rename_i items hobj
        split at h
        · simp at h
        · rename_i arrayItems s1 hitems
          simp only [Option.some.injEq, Prod.mk.injEq] at h
          rw [← h.2]
          exact Renders.arr id items [] st s1 s1 hobj
            (renderItems_renders opts deflate _ (fun item ni s t s' hr => ih _ _ _ _ _ _ hr)
              _ items 0 st arrayItems s1 hitems)
            (Renders.nil s1)
      · rename_i props hobj
        cases hnum : props.get "num" with
        | num n =>
          rw [hnum] at h
          simp only [] at h
          cases hslot : st.indirectObjects.get n with
          | some slot =>
            rw [hslot] at h
            simp only [Option.some.injEq, Prod.mk.injEq] at h
            rw [← h.2]
            exact Renders.token id props n slot [] st st hobj hnum hslot (Renders.nil st)
          | none =>
            rw [hslot] at h
            simp only [] at h
            split at h
            · simp at h
            · rename_i stream hstream
              split at h
              · simp at h
              · rename_i dictItems s1 hentries
                simp only [Option.some.injEq, Prod.mk.injEq] at h
                rw [← h.2]
                have hdef : stream ≠ none → props.get "stream" ≠ Val.undefined := by
                  intro hs hu
                  rw [if_pos hu] at hstream
                  simp only [Option.some.injEq] at hstream
                  exact hs hstream.symm
                exact Renders.indirect id props n stream dictItems [] st s1 _ hobj hnum hslot
                  hdef
                  (renderEntries_renders opts deflate 0 _
                    (fun item ni s t s' hr => ih _ _ _ _ _ _ hr) _ _ dictItems s1 hentries)
                  (Renders.nil _)
        | undefined | null | bool b | str s | ref r =>
          rw [hnum] at h
          simp only [] at h
          split at h
          · simp at h
          · rename_i dictItems s1 hentries
            simp only [Option.some.injEq, Prod.mk.injEq] at h
            rw [← h.2]
            exact Renders.inline id props [] st s1 s1 hobj (fun n => by rw [hnum]; simp)
              (renderEntries_renders opts deflate depth _
                (fun item ni s t s' hr => ih _ _ _ _ _ _ hr) _ _ dictItems s1 hentries)
              (Renders.nil s1)

/-! ## What opening an object does to the heap -/

theorem toString_ne_gen (i : Nat) : toString i ≠ "gen" := by
  intro h
  have hdata : (toString i).data = "gen".data := by rw [h]
  obtain ⟨front, hfront⟩ := toDigitsCore_last i i []
  have hrepr : (toString i).data = Nat.toDigits 10 i := rfl
  rw [hrepr, Nat.toDigits, hfront] at hdata
  have hlast := congrArg List.getLast? hdata
  rw [List.getLast?_append_of_ne_nil _ (by simp)] at hlast
  simp only [List.getLast?_singleton] at hlast
  have hlt : i % 10 < 10 := Nat.mod_lt _ (by decide)
  have hall : ∀ d < 10, some (Nat.digitChar d) ≠ "gen".data.getLast? := by decide
  exact hall _ hlt hlast

/-- A `Uint8Array` has no property `gen`. -/
theorem bytesObject_gen (pairs : List (Nat × Nat)) :
    Props.get (pairs.map (fun ib => (toString ib.1, Val.num ib.2))) "gen" = Val.undefined := by
  induction pairs with
  | nil => rfl
  | cons p rest ih =>
    have hne : ("gen" == toString p.1) = false := by
      simpa using fun e => toString_ne_gen p.1 e.symm
    simp only [Props.get, List.map_cons, List.lookup, hne] at ih ⊢
    exact ih

theorem numOf_bytesObject (heap : Heap) (id : Nat) (data : List Nat)
    (h : heap[id]? = some (bytesObject data)) : numOf heap id = none ∧ genOf heap id = none := by
  simp only [numOf, genOf, h, bytesObject, bytesObject_num, bytesObject_gen, and_self]

/-- A `Uint8Array` holds no object. -/
theorem renderKids_bytesObject (heap : Heap) (id : Nat) (data : List Nat)
    (h : heap[id]? = some (bytesObject data)) (c : Nat) :
    Val.ref c ∉ renderKids heap id := by
  intro hc
  simp only [renderKids, h, bytesObject, nameEntries, List.mem_map, List.mem_filter] at hc
  obtain ⟨kv, ⟨⟨ib, _, hib⟩, _⟩, hv⟩ := hc
  rw [← hib] at hv
  simp at hv

/-- The heap after `openObject`, object by object: the node opened holds the properties
returned, a new last object is a `Uint8Array`, and every other object is as it was. -/
theorem openObject_heap (opts : Options) (deflate : List Nat → List Nat) (st : RenderState)
    (id : Nat) (props : Props) (n : Int) (stream : Option (List Nat))
    (hobj : st.heap[id]? = some (Obj.dict props)) (j : Nat) :
    (j ≠ id ∧ (openObject opts deflate st id props n stream).2.2.heap[j]? = st.heap[j]?) ∨
    (j = id ∧ (openObject opts deflate st id props n stream).2.2.heap[j]?
      = some (Obj.dict (openObject opts deflate st id props n stream).1)) ∨
    (st.heap[j]? = none ∧ ∃ data,
      (openObject opts deflate st id props n stream).2.2.heap[j]? = some (bytesObject data)) := by
  have hlt : id < st.heap.length := by
    by_contra hge
    rw [List.getElem?_eq_none (by omega)] at hobj
    simp at hobj
  by_cases hj : j = id
  · subst hj
    refine Or.inr (Or.inl ⟨rfl, ?_⟩)
    cases stream with
    | none => exact hobj
    | some payload =>
      simp only [openObject]
      split
      · simp only []
        rw [List.getElem?_append_left (by simpa using hlt), List.getElem?_set_self hlt]
      · simp only []
        rw [List.getElem?_set_self hlt]
  · cases stream with
    | none => exact Or.inl ⟨hj, rfl⟩
    | some payload =>
      simp only [openObject]
      split
      · rename_i data _
        simp only []
        by_cases hjl : j < st.heap.length
        · refine Or.inl ⟨hj, ?_⟩
          rw [List.getElem?_append_left (by simpa using hjl),
            List.getElem?_set_ne (fun he => hj he.symm)]
        · by_cases hje : j = st.heap.length
          · refine Or.inr (Or.inr ⟨List.getElem?_eq_none (by omega), data, ?_⟩)
            subst hje
            rw [List.getElem?_append_right (by simp)]
            simp
          · refine Or.inl ⟨hj, ?_⟩
            rw [List.getElem?_eq_none (by simp; omega), List.getElem?_eq_none (by omega)]
      · simp only []
        exact Or.inl ⟨hj, List.getElem?_set_ne (fun he => hj he.symm)⟩

/-- The properties `openObject` returns differ from those of the node in `stream`, `/Filter`
and `/Length` at most. -/
theorem openObject_get (opts : Options) (deflate : List Nat → List Nat) (st : RenderState)
    (id : Nat) (props : Props) (n : Int) (stream : Option (List Nat)) (key : String)
    (h1 : key ≠ "stream") (h2 : key ≠ "/Filter") (h3 : key ≠ "/Length") :
    (openObject opts deflate st id props n stream).1.get key = props.get key := by
  cases stream with
  | none => rfl
  | some payload =>
    simp only [openObject]
    split
    · simp only []
      rw [Props.get_set_ne _ _ _ _ h1]
      unfold compressNode
      split
      · simp only []
        rw [Props.get_set_ne _ _ _ _ h3, Props.get_set_ne _ _ _ _ h2]
      · simp only []
        rw [Props.get_set_ne _ _ _ _ h3]
    · simp only []
      unfold compressNode
      split
      · simp only []
        rw [Props.get_set_ne _ _ _ _ h3, Props.get_set_ne _ _ _ _ h2]
      · simp only []
        rw [Props.get_set_ne _ _ _ _ h3]

theorem mem_set_cases (props : Props) (key other : String) (v x : Val)
    (h : (other, x) ∈ props.set key v) : (other = key ∧ x = v) ∨ (other, x) ∈ props := by
  induction props with
  | nil =>
    simp only [Props.set, List.mem_singleton, Prod.mk.injEq] at h
    exact Or.inl h
  | cons kv rest ih =>
    obtain ⟨k, w⟩ := kv
    by_cases he : k = key
    · subst he
      simp only [Props.set, if_true] at h
      rcases List.mem_cons.mp h with hh | hh
      · simp only [Prod.mk.injEq] at hh
        exact Or.inl hh
      · exact Or.inr (List.mem_cons_of_mem _ hh)
    · simp only [Props.set, he, if_false] at h
      rcases List.mem_cons.mp h with hh | hh
      · rw [hh]; exact Or.inr (List.mem_cons_self _ _)
      · rcases ih hh with h1 | h1
        · exact Or.inl h1
        · exact Or.inr (List.mem_cons_of_mem _ h1)

/-- An object among the values under the names of what `openObject` returns is among the
values under the names of the node. -/
theorem openObject_kids (opts : Options) (deflate : List Nat → List Nat) (st : RenderState)
    (id : Nat) (props : Props) (n : Int) (stream : Option (List Nat)) (c : Nat)
    (h : Val.ref c ∈ (nameEntries (openObject opts deflate st id props n stream).1).map
      (fun kv => kv.2)) :
    Val.ref c ∈ (nameEntries props).map (fun kv => kv.2) := by
  have hset : ∀ (p : Props) (key : String) (v : Val), (∀ r, v ≠ Val.ref r) →
      Val.ref c ∈ (nameEntries (p.set key v)).map (fun kv => kv.2) →
      Val.ref c ∈ (nameEntries p).map (fun kv => kv.2) := by
    intro p key v hv hm
    simp only [nameEntries, List.mem_map, List.mem_filter, Prod.exists] at hm ⊢
    obtain ⟨k, x, ⟨hkx, hname⟩, hx⟩ := hm
    subst hx
    rcases mem_set_cases p key k v _ hkx with h1 | h1
    · exact absurd h1.2.symm (hv c)
    · exact ⟨k, _, ⟨h1, hname⟩, rfl⟩
  have hcompress : ∀ payload,
      Val.ref c ∈ (nameEntries (compressNode opts deflate props payload).1).map
        (fun kv => kv.2) →
      Val.ref c ∈ (nameEntries props).map (fun kv => kv.2) := by
    intro payload hm
    unfold compressNode at hm
    split at hm
    · simp only [] at hm
      exact hset _ _ _ (by simp) (hset _ _ _ (by simp) hm)
    · simp only [] at hm
      exact hset _ _ _ (by simp) hm
  cases stream with
  | none => exact h
  | some payload =>
    simp only [openObject] at h
    split at h
    · simp only [] at h
      rw [nameEntries_set_plain _ _ _ (by decide)] at h
      exact hcompress payload h
    · simp only [] at h
      exact hcompress payload h

/-! ## Invariants of a rendering -/

theorem renderKids_congr (heap heap' : Heap) (id : Nat) (h : heap'[id]? = heap[id]?) :
    renderKids heap' id = renderKids heap id := by
  simp only [renderKids, h]

theorem renderKids_opened (opts : Options) (deflate : List Nat → List Nat) (st : RenderState)
    (id : Nat) (props : Props) (n : Int) (stream : Option (List Nat))
    (hobj : st.heap[id]? = some (Obj.dict props)) :
    renderKids (openObject opts deflate st id props n stream).2.2.heap id
      = (nameEntries (openObject opts deflate st id props n stream).1).map (fun kv => kv.2) := by
  rcases openObject_heap opts deflate st id props n stream hobj id with h | h | h
  · exact absurd rfl h.1
  · simp only [renderKids, h.2]
  · rw [hobj] at h
    simp at h

theorem sameNums_opened (base : Heap) (opts : Options) (deflate : List Nat → List Nat)
    (st : RenderState) (id : Nat) (props : Props) (n : Int) (stream : Option (List Nat))
    (h : SameNums base st.heap) (hobj : st.heap[id]? = some (Obj.dict props)) :
    SameNums base (openObject opts deflate st id props n stream).2.2.heap := by
  intro j
  rcases openObject_heap opts deflate st id props n stream hobj j with hj | hj | hj
  · rw [numOf_congr _ _ j hj.2, genOf_congr _ _ j hj.2]
    exact h j
  · obtain ⟨rfl, hj⟩ := hj
    have hb := h j
    simp only [numOf, genOf, hobj] at hb
    simp only [numOf, genOf, hj,
      openObject_get opts deflate st j props n stream "num" (by decide) (by decide) (by decide),
      openObject_get opts deflate st j props n stream "gen" (by decide) (by decide) (by decide)]
    exact hb
  · obtain ⟨hnone, data, hj⟩ := hj
    obtain ⟨h1, h2⟩ := numOf_bytesObject _ j data hj
    have hb := h j
    simp only [numOf, genOf, hnone] at hb
    rw [h1, h2]
    exact hb

theorem kidsIn_opened (base : Heap) (opts : Options) (deflate : List Nat → List Nat)
    (st : RenderState) (id : Nat) (props : Props) (n : Int) (stream : Option (List Nat))
    (h : KidsIn base st.heap) (hobj : st.heap[id]? = some (Obj.dict props)) :
    KidsIn base (openObject opts deflate st id props n stream).2.2.heap := by
  intro j c hc
  rcases openObject_heap opts deflate st id props n stream hobj j with hj | hj | hj
  · rw [renderKids_congr _ _ j hj.2] at hc
    exact h j c hc
  · obtain ⟨rfl, _⟩ := hj
    rw [renderKids_opened opts deflate st j props n stream hobj] at hc
    refine h j c ?_
    simp only [renderKids, hobj]
    exact openObject_kids opts deflate st j props n stream c hc
  · obtain ⟨_, data, hj⟩ := hj
    exact absurd hc (renderKids_bytesObject _ j data hj c)

/-- An invariant of the state is kept by a sequence of renderings that starts from objects
of a set `R` closed under what the rendering goes on to, when opening a node of `R` and
storing its block keep it. -/
theorem renders_tracked (opts : Options) (deflate : List Nat → List Nat) (R : Nat → Prop)
    (P : RenderState → Prop)
    (hkids : ∀ st id c, P st → R id → Val.ref c ∈ renderKids st.heap id → R c)
    (hopen : ∀ st id props n stream, P st → R id → st.heap[id]? = some (Obj.dict props) →
      props.get "num" = Val.num n → st.indirectObjects.get n = none →
      (stream ≠ none → props.get "stream" ≠ Val.undefined) →
      P (openObject opts deflate st id props n stream).2.2)
    (hclose : ∀ st s1 id props n dictItems written, P st → R id →
      st.heap[id]? = some (Obj.dict props) → props.get "num" = Val.num n →
      st.indirectObjects.get n = none → P s1 →
      P { s1 with indirectObjects := s1.indirectObjects.set n (Slot.done (finishObject opts
        (objectBody opts (Val.num n) (props.get "gen") dictItems) written)) })
    (vs : List Val) (st st' : RenderState) (hrun : Renders opts deflate vs st st') :
    (∀ c, Val.ref c ∈ vs → R c) → P st → P st' := by
  induction hrun with
  | nil st => exact fun _ h => h
  | prim v vs st st' _ _ ih =>
    exact fun hlive h => ih (fun c hc => hlive c (List.mem_cons_of_mem _ hc)) h
  | arr id items vs st s1 st' hobj _ _ ih1 ih2 =>
    intro hlive h
    have hid : R id := hlive id (List.mem_cons_self _ _)
    have h1 := ih1 (fun c hc => hkids st id c h hid (by simpa [renderKids, hobj] using hc)) h
    exact ih2 (fun c hc => hlive c (List.mem_cons_of_mem _ hc)) h1
  | token id props n slot vs st st' _ _ _ _ ih =>
    exact fun hlive h => ih (fun c hc => hlive c (List.mem_cons_of_mem _ hc)) h
  | indirect id props n stream dictItems vs st s1 st' hobj hnum hslot hdef _ _ ih1 ih2 =>
    intro hlive h
    have hid : R id := hlive id (List.mem_cons_self _ _)
    have ho := hopen st id props n stream h hid hobj hnum hslot hdef
    have h1 := ih1 (fun c hc => hkids _ id c ho hid (by
      rw [renderKids_opened opts deflate st id props n stream hobj]; exact hc)) ho
    exact ih2 (fun c hc => hlive c (List.mem_cons_of_mem _ hc))
      (hclose st s1 id props n dictItems _ h hid hobj hnum hslot h1)
  | inline id props vs st s1 st' hobj _ _ _ ih1 ih2 =>
    intro hlive h
    have hid : R id := hlive id (List.mem_cons_self _ _)
    have h1 := ih1 (fun c hc => hkids st id c h hid (by simpa [renderKids, hobj] using hc)) h
    exact ih2 (fun c hc => hlive c (List.mem_cons_of_mem _ hc)) h1

/-- A slot that holds something keeps it through every rendering. -/
theorem renders_keeps (opts : Options) (deflate : List Nat → List Nat) (vs : List Val)
    (st st' : RenderState) (hrun : Renders opts deflate vs st st') (m : Int) (slot : Slot) :
    st.indirectObjects.get m = some slot → st'.indirectObjects.get m = some slot := by
  induction hrun with
  | nil st => exact fun h => h
  | prim v vs st st' _ _ ih => exact ih
  | arr id items vs st s1 st' _ _ _ ih1 ih2 => exact fun h => ih2 (ih1 h)
  | token id props n slot vs st st' _ _ _ _ ih => exact ih
  | indirect id props n stream dictItems vs st s1 st' _ _ hslot _ _ _ ih1 ih2 =>
    intro h
    have hne : m ≠ n := by
      intro he; subst he; rw [hslot] at h; simp at h
    refine ih2 ?_
    show (s1.indirectObjects.set n _).get m = some slot
    rw [slotTable_get_set_ne _ _ _ _ hne]
    refine ih1 ?_
    rw [openObject_slots, slotTable_get_set_ne _ _ _ _ hne]
    exact h
  | inline id props vs st s1 st' _ _ _ _ ih1 ih2 => exact fun h => ih2 (ih1 h)

/-- A placeholder left by a rendering was there before it: every placeholder a rendering
puts is replaced by a block before the rendering returns. -/
theorem renders_pending (opts : Options) (deflate : List Nat → List Nat) (vs : List Val)
    (st st' : RenderState) (hrun : Renders opts deflate vs st st') (m : Int) :
    st'.indirectObjects.get m = some Slot.pending →
      st.indirectObjects.get m = some Slot.pending := by
  induction hrun with
  | nil st => exact fun h => h
  | prim v vs st st' _ _ ih => exact ih
  | arr id items vs st s1 st' _ _ _ ih1 ih2 => exact fun h => ih1 (ih2 h)
  | token id props n slot vs st st' _ _ _ _ ih => exact ih
  | indirect id props n stream dictItems vs st s1 st' _ _ hslot _ hkids _ ih1 ih2 =>
    intro h
    have h2 := ih2 h
    have hne : m ≠ n := by
      intro he; subst he
      have h2' : (s1.indirectObjects.set m _).get m = some Slot.pending := h2
      rw [slotTable_get_set_self] at h2'
      simp at h2'
    have h2' : (s1.indirectObjects.set n _).get m = some Slot.pending := h2
    rw [slotTable_get_set_ne _ _ _ _ hne] at h2'
    have h1 := ih1 h2'
    rw [openObject_slots, slotTable_get_set_ne _ _ _ _ hne] at h1
    exact h1
  | inline id props vs st s1 st' _ _ _ _ ih1 ih2 => exact fun h => ih1 (ih2 h)

/-! ## The entries the rendering relies on -/

theorem entriesKept_refl (doc : Document) : EntriesKept doc doc.heap :=
  fun _ props0 _ _ h0 hmem _ => ⟨props0, h0, hmem⟩

theorem entriesKept_replace (doc : Document) (heap : Heap) (id : Nat) (props q : Props)
    (h : EntriesKept doc heap) (hobj : heap[id]? = some (Obj.dict props))
    (hq : id < doc.heap.length → ∀ key v, mayWrite doc id key = false →
      (key, v) ∈ nameEntries props → (key, v) ∈ nameEntries q) :
    EntriesKept doc (heap.set id (Obj.dict q)) := by
  intro id0 props0 key v h0 hmem hkey
  obtain ⟨p, hp, hin⟩ := h id0 props0 key v h0 hmem hkey
  by_cases hid : id0 = id
  · subst hid
    have hlt : id0 < heap.length := by
      by_contra hge
      rw [List.getElem?_eq_none (by omega)] at hobj
      simp at hobj
    have hlt0 : id0 < doc.heap.length := by
      by_contra hge
      rw [List.getElem?_eq_none (by omega)] at h0
      simp at h0
    rw [hp] at hobj
    simp only [Option.some.injEq, Obj.dict.injEq] at hobj
    subst hobj
    exact ⟨q, List.getElem?_set_self hlt, hq hlt0 key v hkey hin⟩
  · exact ⟨p, by rw [List.getElem?_set_ne (fun he => hid he.symm)]; exact hp, hin⟩

theorem entriesKept_append (doc : Document) (heap : Heap) (obj : Obj)
    (h : EntriesKept doc heap) : EntriesKept doc (heap ++ [obj]) := by
  intro id0 props0 key v h0 hmem hkey
  obtain ⟨p, hp, hin⟩ := h id0 props0 key v h0 hmem hkey
  have hlt : id0 < heap.length := by
    by_contra hge
    rw [List.getElem?_eq_none (by omega)] at hp
    simp at hp
  exact ⟨p, by rw [List.getElem?_append_left hlt]; exact hp, hin⟩

/-- The numbering step of line 387 keeps the entries under the names. -/
theorem entriesKept_assign (doc : Document) (heap : Heap) (id : Nat) (props : Props) (k : Nat)
    (h : EntriesKept doc heap) (hobj : heap[id]? = some (Obj.dict props)) :
    EntriesKept doc (heap.set id (Obj.dict (assignNumber props k))) := by
  refine entriesKept_replace doc heap id props _ h hobj (fun _ key v _ hin => ?_)
  unfold assignNumber
  rw [nameEntries_set_plain _ _ _ (by decide), nameEntries_set_plain _ _ _ (by decide)]
  exact hin

/-- On a node that carries a number and whose `stream` is defined, `assemblePdf` may write
`stream`, `/Filter` and `/Length`. -/
theorem opened_keys (doc : Document) (heap : Heap) (id : Nat) (props : Props) (n : Int)
    (h : Unchanged doc heap) (hobj : heap[id]? = some (Obj.dict props))
    (hnum : props.get "num" = Val.num n) (hstream : props.get "stream" ≠ Val.undefined)
    (hlt : id < doc.heap.length) (key : String) (hkey : mayWrite doc id key = false) :
    key ≠ "stream" ∧ key ≠ "/Filter" ∧ key ≠ "/Length" := by
  obtain ⟨props0, h0, hflag, hsame⟩ := unchanged_numbered doc heap id props h hobj hlt
    (Or.inl (needsNumber_of_num props n hnum))
  have hs0 : (props0.get "stream" != Val.undefined) = true := by
    by_contra hno
    have hno' : props0.get "stream" = Val.undefined := by simpa using hno
    have hk : mayWrite doc id "stream" = false := by
      simp [mayWrite, h0, hno']
    have := hsame "stream" hk
    apply hstream
    simp only [Props.get, this]
    exact hno'
  refine ⟨?_, ?_, ?_⟩ <;>
  · intro he; subst he; simp [mayWrite, h0, hflag, hs0] at hkey

/-- Opening an indirect object (lines 482-503) keeps the entries under the names that
`assemblePdf` does not write. -/
theorem entriesKept_opened (doc : Document) (opts : Options) (deflate : List Nat → List Nat)
    (st : RenderState) (id : Nat) (props : Props) (n : Int) (stream : Option (List Nat))
    (hu : Unchanged doc st.heap) (h : EntriesKept doc st.heap)
    (hobj : st.heap[id]? = some (Obj.dict props)) (hnum : props.get "num" = Val.num n)
    (hdef : stream ≠ none → props.get "stream" ≠ Val.undefined) :
    EntriesKept doc (openObject opts deflate st id props n stream).2.2.heap := by
  cases stream with
  | none => exact h
  | some payload =>
    have hstream : props.get "stream" ≠ Val.undefined := hdef (by simp)
    have hkeys := opened_keys doc st.heap id props n hu hobj hnum hstream
    by_cases hc : payload.length ≠ 0 ∧
        (opts.compress && !truthy (props.get "/Filter")) = true ∧
        (deflate payload).length + 19 < payload.length
    · simp only [openObject, compressNode, if_pos hc]
      refine entriesKept_append doc _ _ (entriesKept_replace doc st.heap id props _ h hobj
        (fun hlt key v hkey hin => ?_))
      obtain ⟨h1, h2, h3⟩ := hkeys hlt key hkey
      exact mem_nameEntries_set_ne _ _ _ _ _
        (mem_nameEntries_set_ne _ _ _ _ _ (mem_nameEntries_set_ne _ _ _ _ _ hin h2) h3) h1
    · simp only [openObject, compressNode, if_neg hc]
      refine entriesKept_replace doc st.heap id props _ h hobj (fun hlt key v hkey hin => ?_)
      obtain ⟨h1, h2, h3⟩ := hkeys hlt key hkey
      exact mem_nameEntries_set_ne _ _ _ _ _ hin h3

/-- What the rendering relies on is what it goes on to in a heap that has kept the arrays and
the entries. -/
theorem renderedFrom_kept (doc : Document) (heap : Heap) (hu : Unchanged doc heap)
    (h : EntriesKept doc heap) (id : Nat) (v : Val) (hv : v ∈ renderedFrom doc id) :
    v ∈ renderKids heap id := by
  unfold renderedFrom at hv
  cases h0 : doc.heap[id]? with
  | none => rw [h0] at hv; simp at hv
  | some obj =>
    rw [h0] at hv
    cases obj with
    | arr items =>
      have := hu id _ h0
      simp only [] at this hv
      simp only [renderKids, this]
      exact hv
    | dict props0 =>
      simp only [List.mem_map, List.mem_filter] at hv
      obtain ⟨kv, ⟨hin, hkey⟩, hval⟩ := hv
      obtain ⟨p, hp, hmem⟩ := h id props0 kv.1 kv.2 h0 hin (by simpa using hkey)
      simp only [renderKids, hp, List.mem_map]
      exact ⟨(kv.1, kv.2), hmem, hval⟩

/-! ## Every numbered node the rendering meets is rendered -/

theorem renders_inv (opts : Options) (deflate : List Nat → List Nat) (doc : Document)
    (nums : Heap) (vs : List Val) (st st' : RenderState)
    (hrun : Renders opts deflate vs st st') (h : RenderInv doc nums st.heap) :
    RenderInv doc nums st'.heap :=
  renders_tracked opts deflate (fun _ => True) (fun s => RenderInv doc nums s.heap)
    (fun _ _ _ _ _ _ => trivial)
    (fun s id props n stream hs _ hobj hnum _ hdef =>
      ⟨unchanged_opened doc opts deflate s id props n stream hs.1 hobj hnum hdef,
        entriesKept_opened doc opts deflate s id props n stream hs.1 hs.2.1 hobj hnum hdef,
        sameNums_opened nums opts deflate s id props n stream hs.2.2.1 hobj,
        kidsIn_opened nums opts deflate s id props n stream hs.2.2.2 hobj⟩)
    (fun _ _ _ _ _ _ _ _ _ _ _ _ hs1 => hs1)
    vs st st' hrun (fun _ _ => trivial) h

theorem held_mono (nums : Heap) (t t' : SlotTable) (y : Nat)
    (hkeep : ∀ m slot, t.get m = some slot → (t'.get m).isSome = true)
    (h : Held nums t y) : Held nums t' y := by
  obtain ⟨n, hn, hs⟩ := h
  cases hg : t.get n with
  | none => rw [hg] at hs; simp at hs
  | some slot => exact ⟨n, hn, hkeep n slot hg⟩

theorem front_not_prim (doc : Document) (nums : Heap) (v : Val) (y : Nat)
    (hv : ∀ id, v ≠ Val.ref id) (h : Front doc nums v y) : False := by
  cases h with
  | here y _ => exact hv _ rfl
  | through u c y _ _ _ => exact hv _ rfl

theorem numOf_of_get (heap : Heap) (id : Nat) (props : Props) (n : Int)
    (hobj : heap[id]? = some (Obj.dict props)) (hnum : props.get "num" = Val.num n) :
    numOf heap id = some n := by
  simp only [numOf, hobj, hnum]

theorem numOf_of_not (heap : Heap) (id : Nat) (props : Props)
    (hobj : heap[id]? = some (Obj.dict props)) (hnum : ∀ n, props.get "num" ≠ Val.num n) :
    numOf heap id = none := by
  cases h : props.get "num" with
  | num n => exact absurd h (hnum n)
  | undefined | null | bool b | str s | ref r => simp only [numOf, hobj, h]

theorem numOf_arr (heap : Heap) (id : Nat) (items : List Val)
    (hobj : heap[id]? = some (Obj.arr items)) : numOf heap id = none := by
  simp only [numOf, hobj]

/-- The rendering keeps `Closed`, and when it returns every numbered node met from the values
it was called on has its slot filled or under way. -/
theorem renders_closed (opts : Options) (deflate : List Nat → List Nat) (doc : Document)
    (nums : Heap) (R : Nat → Prop)
    (hinj : ∀ x y n, R x → R y → numOf nums x = some n → numOf nums y = some n → x = y)
    (hR : ∀ id c, R id → c ∈ children nums id → R c)
    (vs : List Val) (st st' : RenderState) (hrun : Renders opts deflate vs st st') :
    (∀ c, Val.ref c ∈ vs → R c) → RenderInv doc nums st.heap →
    Closed doc nums R st.indirectObjects →
    Closed doc nums R st'.indirectObjects ∧
      ∀ v ∈ vs, ∀ y, Front doc nums v y → Held nums st'.indirectObjects y := by
  induction hrun with
  | nil st => exact fun _ _ hc => ⟨hc, fun v hv => by simp at hv⟩
  | prim v vs st st' hv _ ih =>
    intro hlive hinv hc
    obtain ⟨h1, h2⟩ := ih (fun c hc => hlive c (List.mem_cons_of_mem _ hc)) hinv hc
    refine ⟨h1, fun w hw y hf => ?_⟩
    rcases List.mem_cons.mp hw with he | hm
    · subst he
      exact absurd hf (fun hf => front_not_prim doc nums w y hv hf)
    · exact h2 w hm y hf
  | arr id items vs st s1 st' hobj hitems hrest ih1 ih2 =>
    intro hlive hinv hc
    have hid : R id := hlive id (List.mem_cons_self _ _)
    have hkids : ∀ c, Val.ref c ∈ items → R c := fun c hc =>
      hR id c hid (hinv.2.2.2 id c (by simpa [renderKids, hobj] using hc))
    obtain ⟨hc1, hf1⟩ := ih1 hkids hinv hc
    have hinv1 := renders_inv opts deflate doc nums _ _ _ hitems hinv
    obtain ⟨hc2, hf2⟩ := ih2 (fun c hc => hlive c (List.mem_cons_of_mem _ hc)) hinv1 hc1
    refine ⟨hc2, fun w hw y hf => ?_⟩
    rcases List.mem_cons.mp hw with he | hm
    · subst he
      cases hf with
      | here y hy =>
        rw [← (hinv.2.2.1 id).1, numOf_arr _ _ _ hobj] at hy
        simp at hy
      | through u c y _ hcu hfc =>
        have hmem : c ∈ items := by
          have := renderedFrom_kept doc st.heap hinv.1 hinv.2.1 id c hcu
          simpa [renderKids, hobj] using this
        exact held_mono nums _ _ y
          (fun m slot hm => by
            rw [renders_keeps opts deflate _ _ _ hrest m slot hm]; rfl)
          (hf1 c hmem y hfc)
    · exact hf2 w hm y hf
  | token id props n slot vs st st' hobj hnum hslot hrest ih =>
    intro hlive hinv hc
    obtain ⟨hc2, hf2⟩ := ih (fun c hc => hlive c (List.mem_cons_of_mem _ hc)) hinv hc
    refine ⟨hc2, fun w hw y hf => ?_⟩
    rcases List.mem_cons.mp hw with he | hm
    · subst he
      have hn : numOf nums id = some n := by
        rw [← (hinv.2.2.1 id).1]; exact numOf_of_get _ _ _ _ hobj hnum
      cases hf with
      | here y _ =>
        exact ⟨n, hn, by rw [renders_keeps opts deflate _ _ _ hrest n slot hslot]; rfl⟩
      | through u c y hu _ _ => rw [hn] at hu; simp at hu
    · exact hf2 w hm y hf
  | indirect id props n stream dictItems vs st s1 st' hobj hnum hslot hdef hkids hrest ih1 ih2 =>
    intro hlive hinv hc
    have hid : R id := hlive id (List.mem_cons_self _ _)
    have hn : numOf nums id = some n := by
      rw [← (hinv.2.2.1 id).1]; exact numOf_of_get _ _ _ _ hobj hnum
    have hinv0 : RenderInv doc nums (openObject opts deflate st id props n stream).2.2.heap :=
      ⟨unchanged_opened doc opts deflate st id props n stream hinv.1 hobj hnum hdef,
        entriesKept_opened doc opts deflate st id props n stream hinv.1 hinv.2.1 hobj hnum hdef,
        sameNums_opened nums opts deflate st id props n stream hinv.2.2.1 hobj,
        kidsIn_opened nums opts deflate st id props n stream hinv.2.2.2 hobj⟩
    have hc0 : Closed doc nums R
        (openObject opts deflate st id props n stream).2.2.indirectObjects := by
      rw [openObject_slots]
      intro x m block hx hxm hdone c hcx y hf
      have hne : m ≠ n := by
        intro he; subst he; rw [slotTable_get_set_self] at hdone; simp at hdone
      rw [slotTable_get_set_ne _ _ _ _ hne] at hdone
      refine held_mono nums _ _ y (fun k slot hk => ?_) (hc x m block hx hxm hdone c hcx y hf)
      by_cases hkn : k = n
      · subst hkn; rw [slotTable_get_set_self]; rfl
      · rw [slotTable_get_set_ne _ _ _ _ hkn, hk]; rfl
    have hlive0 : ∀ c, Val.ref c ∈ (nameEntries
        (openObject opts deflate st id props n stream).1).map (fun kv => kv.2) → R c :=
      fun c hc => hR id c hid (hinv0.2.2.2 id c (by
        rw [renderKids_opened opts deflate st id props n stream hobj]; exact hc))
    obtain ⟨hc1, hf1⟩ := ih1 hlive0 hinv0 hc0
    have hinv1 : RenderInv doc nums s1.heap := renders_inv opts deflate doc nums _ _ _ hkids hinv0
    have hkeep1 : ∀ k slot, s1.indirectObjects.get k = some slot →
        ((s1.indirectObjects.set n (Slot.done (finishObject opts
          (objectBody opts (Val.num n) (props.get "gen") dictItems)
          (openObject opts deflate st id props n stream).2.1))).get k).isSome = true := by
      intro k slot hk
      by_cases hkn : k = n
      · subst hkn; rw [slotTable_get_set_self]; rfl
      · rw [slotTable_get_set_ne _ _ _ _ hkn, hk]; rfl
    have hcc : Closed doc nums R (s1.indirectObjects.set n (Slot.done (finishObject opts
        (objectBody opts (Val.num n) (props.get "gen") dictItems)
        (openObject opts deflate st id props n stream).2.1))) := by
      intro x m block hx hxm hdone c hcx y hf
      by_cases hmn : m = n
      · subst hmn
        have hxid : x = id := hinj x id m hx hid hxm hn
        subst hxid
        have hmem : c ∈ (nameEntries (openObject opts deflate st x props m stream).1).map
            (fun kv => kv.2) := by
          rw [← renderKids_opened opts deflate st x props m stream hobj]
          exact renderedFrom_kept doc _ hinv0.1 hinv0.2.1 x c hcx
        exact held_mono nums _ _ y hkeep1 (hf1 c hmem y hf)
      · rw [slotTable_get_set_ne _ _ _ _ hmn] at hdone
        exact held_mono nums _ _ y hkeep1 (hc1 x m block hx hxm hdone c hcx y hf)
    obtain ⟨hc2, hf2⟩ := ih2 (fun c hc => hlive c (List.mem_cons_of_mem _ hc)) hinv1 hcc
    refine ⟨hc2, fun w hw y hf => ?_⟩
    rcases List.mem_cons.mp hw with he | hm
    · subst he
      cases hf with
      | here y _ =>
        refine ⟨n, hn, ?_⟩
        rw [renders_keeps opts deflate _ _ _ hrest n _ (slotTable_get_set_self _ _ _)]
        rfl
      | through u c y hu _ _ => rw [hn] at hu; simp at hu
    · exact hf2 w hm y hf
  | inline id props vs st s1 st' hobj hnum hkids hrest ih1 ih2 =>
    intro hlive hinv hc
    have hid : R id := hlive id (List.mem_cons_self _ _)
    have hlive0 : ∀ c, Val.ref c ∈ (nameEntries props).map (fun kv => kv.2) → R c :=
      fun c hc => hR id c hid (hinv.2.2.2 id c (by simpa [renderKids, hobj] using hc))
    obtain ⟨hc1, hf1⟩ := ih1 hlive0 hinv hc
    have hinv1 := renders_inv opts deflate doc nums _ _ _ hkids hinv
    obtain ⟨hc2, hf2⟩ := ih2 (fun c hc => hlive c (List.mem_cons_of_mem _ hc)) hinv1 hc1
    refine ⟨hc2, fun w hw y hf => ?_⟩
    rcases List.mem_cons.mp hw with he | hm
    · subst he
      cases hf with
      | here y hy =>
        rw [← (hinv.2.2.1 id).1, numOf_of_not _ _ _ hobj hnum] at hy
        simp at hy
      | through u c y _ hcu hfc =>
        have hmem : c ∈ (nameEntries props).map (fun kv => kv.2) := by
          have := renderedFrom_kept doc st.heap hinv.1 hinv.2.1 id c hcu
          simpa [renderKids, hobj] using this
        exact held_mono nums _ _ y
          (fun m slot hm => by
            rw [renders_keeps opts deflate _ _ _ hrest m slot hm]; rfl)
          (hf1 c hmem y hfc)
    · exact hf2 w hm y hf

/-! ## The slots a rendering fills -/

theorem slotsIn_set (m : Nat) (t : SlotTable) (n : Int) (slot : Slot) (h : SlotsIn m t)
    (hn : 1 ≤ n ∧ n ≤ (m : Int)) : SlotsIn m (t.set n slot) := by
  intro k s hk
  by_cases hkn : k = n
  · subst hkn; exact hn
  · rw [slotTable_get_set_ne _ _ _ _ hkn] at hk
    exact h k s hk

theorem gen_of_genOf (heap : Heap) (id : Nat) (props : Props) (g : Int)
    (hobj : heap[id]? = some (Obj.dict props)) (h : genOf heap id = some g) :
    props.get "gen" = Val.num g := by
  simp only [genOf, hobj] at h
  cases hg : props.get "gen" with
  | num k => rw [hg] at h; simp only [Option.some.injEq] at h; rw [h]
  | undefined | null | bool b | str s | ref r => rw [hg] at h; simp at h

/-- A sequence of renderings that starts from objects of a set `R`, closed under what its
nodes refer to and whose numbered nodes carry a number from 1 to `m` and the generation 0,
fills slots from 1 to `m` only, each with the block of an object `n 0`. -/
theorem renders_slots (opts : Options) (deflate : List Nat → List Nat) (base nums : Heap)
    (R : Nat → Prop) (m : Nat)
    (hR : ∀ id c, R id → c ∈ children base id → R c)
    (hgood : ∀ id n, R id → numOf nums id = some n →
      (1 ≤ n ∧ n ≤ (m : Int)) ∧ genOf nums id = some 0)
    (vs : List Val) (st st' : RenderState) (hrun : Renders opts deflate vs st st')
    (hlive : ∀ c, Val.ref c ∈ vs → R c)
    (h : (SameNums nums st.heap ∧ KidsIn base st.heap) ∧ SlotsIn m st.indirectObjects ∧
      SlotsOk opts st.indirectObjects) :
    (SameNums nums st'.heap ∧ KidsIn base st'.heap) ∧ SlotsIn m st'.indirectObjects ∧
      SlotsOk opts st'.indirectObjects :=
  renders_tracked opts deflate R
    (fun s => (SameNums nums s.heap ∧ KidsIn base s.heap) ∧ SlotsIn m s.indirectObjects ∧
      SlotsOk opts s.indirectObjects)
    (fun s id c hs hid hc => hR id c hid (hs.1.2 id c hc))
    (fun s id props n stream hs hid hobj hnum _ _ => by
      have hn : numOf nums id = some n := by
        rw [← (hs.1.1 id).1]; exact numOf_of_get _ _ _ _ hobj hnum
      refine ⟨⟨sameNums_opened nums opts deflate s id props n stream hs.1.1 hobj,
        kidsIn_opened base opts deflate s id props n stream hs.1.2 hobj⟩, ?_, ?_⟩
      · rw [openObject_slots]
        exact slotsIn_set m _ n _ hs.2.1 (hgood id n hid hn).1
      · rw [openObject_slots]
        exact slotsOk_pending opts _ n hs.2.2)
    (fun s s1 id props n dictItems written hs hid hobj hnum _ hs1 => by
      have hn : numOf nums id = some n := by
        rw [← (hs.1.1 id).1]; exact numOf_of_get _ _ _ _ hobj hnum
      have hg : props.get "gen" = Val.num 0 :=
        gen_of_genOf _ _ _ _ hobj (by rw [(hs.1.1 id).2]; exact (hgood id n hid hn).2)
      refine ⟨hs1.1, slotsIn_set m _ n _ hs1.2.1 (hgood id n hid hn).1, ?_⟩
      rw [hg]
      exact slotsOk_done opts _ n dictItems written hs1.2.2)
    vs st st' hrun hlive h

/-! ## What the numbering leaves of the tree -/

theorem resetEach_mono (recurse recurse' : Nat → ResetState → Option ResetState)
    (hrec : ∀ item st st', recurse item st = some st' → recurse' item st = some st') :
    ∀ (items : List Nat) (st st' : ResetState), resetEach recurse items st = some st' →
      resetEach recurse' items st = some st' := by
  intro items
  induction items with
  | nil => intro st st' h; exact h
  | cons item rest ih =>
    intro st st' h
    simp only [resetEach] at h ⊢
    cases hr : recurse item st with
    | none => rw [hr] at h; simp at h
    | some s1 =>
      rw [hr] at h
      rw [hrec item st s1 hr]
      exact ih s1 st' h

theorem visit_mono (recurse recurse' : Nat → ResetState → Option ResetState)
    (hrec : ∀ item st st', recurse item st = some st' → recurse' item st = some st')
    (node : Nat) (st st' : ResetState) (h : visit recurse node st = some st') :
    visit recurse' node st = some st' := by
  unfold visit at h ⊢
  simp only [] at h ⊢
  cases hobj : st.heap[node]? with
  | none => rw [hobj] at h; exact h
  | some obj =>
    rw [hobj] at h
    cases obj with
    | arr items => exact resetEach_mono recurse recurse' hrec _ _ _ h
    | dict props =>
      simp only [] at h ⊢
      split
      · rename_i hneed
        rw [if_pos hneed] at h
        exact resetEach_mono recurse recurse' hrec _ _ _ h
      · rename_i hneed
        rw [if_neg hneed] at h
        exact resetEach_mono recurse recurse' hrec _ _ _ h

/-- A walk that ends within a depth of recursion ends with the same result within any greater
one. -/
theorem resetObjectIds_mono (root : Nat) :
    ∀ (fuel node : Nat) (st st' : ResetState), resetObjectIds root fuel node st = some st' →
      ∀ k, resetObjectIds root (fuel + k) node st = some st' := by
  intro fuel
  induction fuel with
  | zero => intro node st st' h; simp [resetObjectIds] at h
  | succ fuel ih =>
    intro node st st' h k
    rw [Nat.add_right_comm]
    rw [resetObjectIds] at h ⊢
    generalize (if node = root then
      ({ st with nextNodeNum := 1, objCache := [] } : ResetState) else st) = st0 at h ⊢
    by_cases hc : st0.objCache.contains node = true
    · rw [if_pos hc] at h ⊢
      exact h
    · rw [if_neg hc] at h ⊢
      exact visit_mono _ _ (fun item s s' hr => ih item s s' hr k) _ _ _ h

theorem refsOf_cons_congr (v : Val) (xs ys : List Val) (h : refsOf xs = refsOf ys) :
    refsOf (v :: xs) = refsOf (v :: ys) := by
  rw [refsOf_cons v xs, refsOf_cons v ys, h]

theorem refsOf_cons_num (a b : Int) (xs ys : List Val) (h : refsOf xs = refsOf ys) :
    refsOf (Val.num a :: xs) = refsOf (Val.num b :: ys) := by
  rw [refsOf_cons (Val.num a) xs, refsOf_cons (Val.num b) ys, h]
  rfl

theorem refsOf_set_same (props : Props) (key : String) (a b : Int) :
    refsOf ((props.set key (Val.num a)).map (fun kv => kv.2))
      = refsOf ((props.set key (Val.num b)).map (fun kv => kv.2)) := by
  induction props with
  | nil => exact refsOf_cons_num a b [] [] rfl
  | cons kv rest ih =>
    obtain ⟨k, w⟩ := kv
    by_cases hk : k = key
    · simp only [Props.set, hk, if_true, List.map_cons]
      exact refsOf_cons_num a b _ _ rfl
    · simp only [Props.set, hk, if_false, List.map_cons]
      exact refsOf_cons_congr w _ _ ih

theorem refsOf_assign_same (props : Props) (a b : Nat) :
    refsOf ((assignNumber props a).map (fun kv => kv.2))
      = refsOf ((assignNumber props b).map (fun kv => kv.2)) := by
  unfold assignNumber
  generalize ((a : Nat) : Int) = x
  generalize ((b : Nat) : Int) = y
  induction props with
  | nil =>
    have hg : ¬ "num" = "gen" := by decide
    simp only [Props.set, hg, if_false, List.map_cons]
    exact refsOf_cons_num x y _ _ rfl
  | cons kv rest ih =>
    obtain ⟨k, w⟩ := kv
    by_cases hk : k = "num"
    · have hg : ¬ "num" = "gen" := by decide
      simp only [Props.set, hk, if_true, hg, if_false, List.map_cons]
      exact refsOf_cons_num x y _ _ rfl
    · simp only [Props.set, hk, if_false]
      by_cases hg : k = "gen"
      · simp only [Props.set, hg, if_true, List.map_cons]
        exact refsOf_cons_congr _ _ _ (refsOf_set_same rest "num" x y)
      · simp only [Props.set, hg, if_false, List.map_cons]
        exact refsOf_cons_congr w _ _ ih

theorem refsOf_set_held (props : Props) (key : String) (a b : Int)
    (h : props.lookup key = some (Val.num a)) :
    refsOf ((props.set key (Val.num b)).map (fun kv => kv.2))
      = refsOf (props.map (fun kv => kv.2)) := by
  induction props with
  | nil => simp at h
  | cons kv rest ih =>
    obtain ⟨k, w⟩ := kv
    by_cases hk : k = key
    · subst hk
      simp only [List.lookup, beq_self_eq_true, Option.some.injEq] at h
      subst h
      simp only [Props.set, if_true, List.map_cons]
      exact refsOf_cons_num b a _ _ rfl
    · have hne : (key == k) = false := by simpa using fun e => hk e.symm
      simp only [List.lookup, hne] at h
      simp only [Props.set, hk, if_false, List.map_cons]
      exact refsOf_cons_congr w _ _ (ih h)

theorem refsOf_assign_held (props : Props) (k : Nat) (a b : Int)
    (hnum : props.lookup "num" = some (Val.num a))
    (hgen : props.lookup "gen" = some (Val.num b)) :
    refsOf ((assignNumber props k).map (fun kv => kv.2))
      = refsOf (props.map (fun kv => kv.2)) := by
  unfold assignNumber
  rw [refsOf_set_held _ "gen" b 0 (by rw [Props.lookup_set_ne _ _ _ _ (by decide)]; exact hgen),
    refsOf_set_held _ "num" a k hnum]

theorem refsOf_assign_sub (props : Props) (k : Nat) :
    ∀ c ∈ refsOf ((assignNumber props k).map (fun kv => kv.2)),
      c ∈ refsOf (props.map (fun kv => kv.2)) := by
  intro c hc
  unfold assignNumber at hc
  exact refsOf_set_num _ _ _ c (refsOf_set_num _ _ _ c hc)

theorem resetShape_refl (doc : Document) : ResetShape doc doc.heap := fun _ => Or.inl rfl

/-- The numbering step of line 387 keeps `ResetShape`. -/
theorem resetShape_assign (doc : Document) (heap : Heap) (id : Nat) (props : Props) (k : Nat)
    (h : ResetShape doc heap) (hobj : heap[id]? = some (Obj.dict props))
    (hneed : needsNumber props = true) :
    ResetShape doc (heap.set id (Obj.dict (assignNumber props k))) := by
  have hlt : id < heap.length := by
    by_contra hge
    rw [List.getElem?_eq_none (by omega)] at hobj
    simp at hobj
  intro j
  by_cases hj : j = id
  · subst hj
    refine Or.inr ?_
    have hnum : ∃ a, (assignNumber props k).lookup "num" = some (Val.num a) :=
      ⟨k, by unfold assignNumber
             rw [Props.lookup_set_ne _ _ _ _ (by decide), Props.lookup_set_self]⟩
    have hgen : ∃ b, (assignNumber props k).lookup "gen" = some (Val.num b) :=
      ⟨0, by unfold assignNumber; rw [Props.lookup_set_self]⟩
    rcases h j with h1 | ⟨props0, p, h0, hneed0, hp, hrefs, ⟨a, ha⟩, ⟨b, hb⟩⟩
    · rw [hobj] at h1
      exact ⟨props, _, h1.symm, hneed, List.getElem?_set_self hlt,
        refsOf_assign_same props k 0, hnum, hgen⟩
    · rw [hobj] at hp
      simp only [Option.some.injEq, Obj.dict.injEq] at hp
      subst hp
      exact ⟨props0, _, h0, hneed0, List.getElem?_set_self hlt,
        by rw [refsOf_assign_held props k a b ha hb]; exact hrefs, hnum, hgen⟩
  · rw [List.getElem?_set_ne (fun he => hj he.symm)]
    exact h j

theorem filterMap_inj {α β : Type} (f : α → Option β) :
    ∀ (l : List α), (l.filterMap f).Nodup → l.Nodup →
      ∀ x ∈ l, ∀ y ∈ l, ∀ n, f x = some n → f y = some n → x = y := by
  intro l
  induction l with
  | nil => intro _ _ x hx; simp at hx
  | cons a rest ih =>
    intro hnd hl x hx y hy n hfx hfy
    have hrest : (rest.filterMap f).Nodup := by
      cases ha : f a with
      | none => simpa [List.filterMap_cons, ha] using hnd
      | some b =>
        rw [List.filterMap_cons, ha] at hnd
        exact (List.nodup_cons.mp hnd).2
    have hnot : ∀ z ∈ rest, f a = some n → f z = some n → False := by
      intro z hz ha hfz
      rw [List.filterMap_cons, ha] at hnd
      exact (List.nodup_cons.mp hnd).1 (List.mem_filterMap.mpr ⟨z, hz, hfz⟩)
    rcases List.mem_cons.mp hx with hxa | hxr
    · rcases List.mem_cons.mp hy with hya | hyr
      · rw [hxa, hya]
      · subst hxa
        exact absurd hfy (fun h => hnot y hyr hfx h)
    · rcases List.mem_cons.mp hy with hya | hyr
      · subst hya
        exact absurd hfx (fun h => hnot x hxr hfy h)
      · exact ih hrest (List.nodup_cons.mp hl).2 x hxr y hyr n hfx hfy

/-! ## The nodes the numbering visits -/

theorem lookup_of_get_num (props : Props) (key : String) (a : Int)
    (h : props.get key = Val.num a) : props.lookup key = some (Val.num a) := by
  unfold Props.get at h
  cases hl : props.lookup key with
  | none => rw [hl] at h; simp at h
  | some v => rw [hl] at h; simp only [Option.getD_some] at h; rw [h]

/-- What `resetObjectIds` returns, whatever the depth of recursion it was given: the
invariant of the walk, from a cache that was empty. -/
theorem reset_good (doc : Document) (fuel : Nat) (rs : ResetState)
    (hclosed : closedHeap doc.heap = true) (hroot : doc.root < doc.heap.length)
    (hreset : resetObjectIds doc.root fuel doc.root
      { heap := doc.heap, objCache := doc.objCache, nextNodeNum := doc.nextNodeNum }
        = some rs) :
    Good doc.root doc.heap rs ∧
    Step { heap := doc.heap, objCache := [], nextNodeNum := 1 } rs ∧
    doc.root ∈ rs.objCache := by
  obtain ⟨st', hst', hgood, hstep, hmem⟩ := resetObjectIds_root_ok doc.root
    { heap := doc.heap, objCache := doc.objCache, nextNodeNum := doc.nextNodeNum }
    (fuel + (doc.heap.length + 1)) hclosed hroot (by simp; omega)
  rw [resetObjectIds_mono doc.root fuel doc.root _ rs hreset (doc.heap.length + 1)] at hst'
  simp only [Option.some.injEq] at hst'
  subst hst'
  exact ⟨hgood, hstep, hmem⟩

theorem reset_closure (heap0 : Heap) (rs : ResetState)
    (hstep : Step { heap := heap0, objCache := [], nextNodeNum := 1 } rs) (id : Nat)
    (hid : id ∈ rs.objCache) (c : Nat) (hc : c ∈ children rs.heap id) : c ∈ rs.objCache :=
  hstep.closure id hid (by simp) c hc

theorem reset_range (root : Nat) (heap0 : Heap) (rs : ResetState) (hgood : Good root heap0 rs)
    (id : Nat) (n : Int) (hid : id ∈ rs.objCache) (hn : numOf rs.heap id = some n) :
    (1 ≤ n ∧ n ≤ ((rs.nextNodeNum - 1 : Nat) : Int)) ∧ genOf rs.heap id = some 0 := by
  refine ⟨?_, hgood.gen id hid (by rw [hn]; rfl)⟩
  have hmem : n ∈ numsOf rs.heap rs.objCache :=
    List.mem_filterMap.mpr ⟨id, hid, hn⟩
  rw [hgood.nums] at hmem
  obtain ⟨i, hi, rfl⟩ := List.mem_map.mp hmem
  have := List.mem_range.mp hi
  omega

theorem reset_onto (root : Nat) (heap0 : Heap) (rs : ResetState) (hgood : Good root heap0 rs)
    (k : Nat) (h1 : 1 ≤ k) (h2 : k ≤ rs.nextNodeNum - 1) :
    ∃ id ∈ rs.objCache, numOf rs.heap id = some (k : Int) := by
  have hmem : (k : Int) ∈ numsOf rs.heap rs.objCache := by
    rw [hgood.nums]
    refine List.mem_map.mpr ⟨k - 1, List.mem_range.mpr (by omega), ?_⟩
    omega
  obtain ⟨id, hid, hn⟩ := List.mem_filterMap.mp hmem
  exact ⟨id, hid, hn⟩

theorem reset_inj (root : Nat) (heap0 : Heap) (rs : ResetState) (hgood : Good root heap0 rs)
    (x y : Nat) (n : Int) (hx : x ∈ rs.objCache) (hy : y ∈ rs.objCache)
    (hnx : numOf rs.heap x = some n) (hny : numOf rs.heap y = some n) : x = y := by
  have hnd : (numsOf rs.heap rs.objCache).Nodup := by
    rw [hgood.nums]
    exact List.Nodup.map (fun a b hab => by simpa using hab) (List.nodup_range _)
  exact filterMap_inj (numOf rs.heap) rs.objCache hnd hgood.nodup x hx y hy n hnx hny

/-- From a visited node, `resetObjectIds` leaves references to the objects of `walkedFrom`
and to no other. -/
theorem reset_kids (doc : Document) (rs : ResetState) (hgood : Good doc.root doc.heap rs)
    (hshape : ResetShape doc rs.heap) (p : Nat) (hp : p ∈ rs.objCache) (c : Nat) :
    c ∈ children rs.heap p ↔ c ∈ walkedFrom doc.heap p := by
  rcases hshape p with h | ⟨props0, props, h0, hneed, hcur, hrefs, -, -⟩
  · unfold children walkedFrom
    rw [h]
    cases h0 : doc.heap[p]? with
    | none => simp
    | some obj =>
      cases obj with
      | arr items => simp [Obj.vals]
      | dict props0 =>
        simp only [Obj.vals]
        by_cases hneed : needsNumber props0 = true
        · rw [if_pos hneed]
          have hasked := hgood.asked p hp
          have hcur : rs.heap[p]? = some (Obj.dict props0) := by rw [h, h0]
          simp only [asksNumber, h0, hneed] at hasked
          cases hn : props0.get "num" with
          | num a =>
            have hgen := hgood.gen p hp hasked
            have hg := gen_of_genOf _ _ _ _ hcur hgen
            rw [refsOf_assign_held props0 0 a 0 (lookup_of_get_num _ _ _ hn)
              (lookup_of_get_num _ _ _ hg)]
          | undefined | null | bool b | str s | ref r =>
            simp [numOf, hcur, hn] at hasked
        · rw [if_neg hneed]
  · unfold children walkedFrom
    rw [hcur, h0]
    simp only [Obj.vals, if_pos hneed]
    rw [hrefs]

/-- The nodes in `objCache` after `resetObjectIds` are the nodes of `Walked`. -/
theorem reset_walked (doc : Document) (rs : ResetState) (hgood : Good doc.root doc.heap rs)
    (hstep : Step { heap := doc.heap, objCache := [], nextNodeNum := 1 } rs)
    (hroot : doc.root ∈ rs.objCache) (hshape : ResetShape doc rs.heap) (id : Nat) :
    id ∈ rs.objCache ↔ Walked doc id := by
  constructor
  · intro hid
    have hreach := hgood.reach id hid
    clear hid
    induction hreach with
    | root => exact Walked.root
    | step parent child _ hp hc ih =>
      exact Walked.step parent child ih ((reset_kids doc rs hgood hshape parent hp child).mp hc)
  · intro hw
    induction hw with
    | root => exact hroot
    | step parent child _ hc ih =>
      exact reset_closure doc.heap rs hstep parent ih child
        ((reset_kids doc rs hgood hshape parent ih child).mpr hc)

/-- An object refers after `resetObjectIds` to nothing it did not refer to before. -/
theorem reset_children_sub (doc : Document) (heap : Heap) (hshape : ResetShape doc heap)
    (id c : Nat) (hc : c ∈ children heap id) : c ∈ children doc.heap id := by
  rcases hshape id with h | ⟨props0, props, h0, _, hcur, hrefs, -, -⟩
  · rw [← children_congr doc.heap heap id h]
    exact hc
  · unfold children at hc ⊢
    rw [hcur] at hc
    rw [h0]
    simp only [Obj.vals] at hc ⊢
    rw [hrefs] at hc
    exact refsOf_assign_sub props0 0 c hc

/-- What `resetObjectIds` keeps of the heap of `doc`. -/
theorem reset_kept (doc : Document) (fuel : Nat) (rs : ResetState)
    (hreset : resetObjectIds doc.root fuel doc.root
      { heap := doc.heap, objCache := doc.objCache, nextNodeNum := doc.nextNodeNum }
        = some rs) :
    Unchanged doc rs.heap ∧ EntriesKept doc rs.heap ∧ ResetShape doc rs.heap ∧
      rs.heap.length = doc.heap.length :=
  resetObjectIds_preserves
    (fun heap => Unchanged doc heap ∧ EntriesKept doc heap ∧ ResetShape doc heap ∧
      heap.length = doc.heap.length)
    (fun heap id props k hh hobj hneed =>
      ⟨unchanged_assign doc heap id props k hh.1 hobj hneed,
        entriesKept_assign doc heap id props k hh.2.1 hobj,
        resetShape_assign doc heap id props k hh.2.2.1 hobj hneed,
        by rw [List.length_set]; exact hh.2.2.2⟩)
    doc.root fuel doc.root _ rs
    ⟨unchanged_refl doc, entriesKept_refl doc, resetShape_refl doc, rfl⟩ hreset

/-! ## The rendering of the root -/

theorem sameNums_replace (base heap : Heap) (id : Nat) (props q : Props)
    (h : SameNums base heap) (hobj : heap[id]? = some (Obj.dict props))
    (hnum : q.get "num" = props.get "num") (hgen : q.get "gen" = props.get "gen") :
    SameNums base (heap.set id (Obj.dict q)) := by
  have hlt : id < heap.length := by
    by_contra hge
    rw [List.getElem?_eq_none (by omega)] at hobj
    simp at hobj
  intro j
  by_cases hj : j = id
  · subst hj
    have hb := h j
    simp only [numOf, genOf, hobj] at hb
    simp only [numOf, genOf, List.getElem?_set_self hlt, hnum, hgen]
    exact hb
  · have hsame : (heap.set id (Obj.dict q))[j]? = heap[j]? :=
      List.getElem?_set_ne (fun he => hj he.symm)
    rw [numOf_congr _ _ j hsame, genOf_congr _ _ j hsame]
    exact h j

theorem kidsIn_replace (base heap : Heap) (id : Nat) (props q : Props)
    (h : KidsIn base heap) (hobj : heap[id]? = some (Obj.dict props))
    (hsub : ∀ c, Val.ref c ∈ (nameEntries q).map (fun kv => kv.2) →
      Val.ref c ∈ (nameEntries props).map (fun kv => kv.2)) :
    KidsIn base (heap.set id (Obj.dict q)) := by
  have hlt : id < heap.length := by
    by_contra hge
    rw [List.getElem?_eq_none (by omega)] at hobj
    simp at hobj
  intro j c hc
  by_cases hj : j = id
  · subst hj
    simp only [renderKids, List.getElem?_set_self hlt] at hc
    refine h j c ?_
    simp only [renderKids, hobj]
    exact hsub c hc
  · rw [renderKids_congr _ _ j (List.getElem?_set_ne (fun he => hj he.symm))] at hc
    exact h j c hc

theorem mem_refsOf (vs : List Val) (c : Nat) : c ∈ refsOf vs ↔ Val.ref c ∈ vs := by
  unfold refsOf
  rw [List.mem_filterMap]
  constructor
  · rintro ⟨v, hv, hc⟩
    cases v with
    | ref r => simp only [Option.some.injEq] at hc; subst hc; exact hv
    | undefined | null | bool b | num n | str s => simp at hc
  · intro h
    exact ⟨Val.ref c, h, rfl⟩

theorem kidsIn_refl (heap : Heap) : KidsIn heap heap := by
  intro id c hc
  unfold renderKids at hc
  unfold children
  cases h : heap[id]? with
  | none => rw [h] at hc; simp at hc
  | some obj =>
    rw [h] at hc
    cases obj with
    | arr items => exact (mem_refsOf _ c).mpr hc
    | dict props =>
      simp only [Obj.vals]
      refine (mem_refsOf _ c).mpr ?_
      simp only [nameEntries, List.mem_map, List.mem_filter] at hc ⊢
      obtain ⟨kv, ⟨hin, _⟩, hval⟩ := hc
      exact ⟨kv, hin, hval⟩

theorem nameEntries_set_refs (p : Props) (key : String) (v : Val) (c : Nat)
    (hv : ∀ r, v ≠ Val.ref r)
    (hm : Val.ref c ∈ (nameEntries (p.set key v)).map (fun kv => kv.2)) :
    Val.ref c ∈ (nameEntries p).map (fun kv => kv.2) := by
  simp only [nameEntries, List.mem_map, List.mem_filter, Prod.exists] at hm ⊢
  obtain ⟨k, x, ⟨hkx, hname⟩, hx⟩ := hm
  subst hx
  rcases mem_set_cases p key k v _ hkx with h1 | h1
  · exact absurd h1.2.symm (hv c)
  · exact ⟨k, _, ⟨h1, hname⟩, rfl⟩

/-- The heap from which the root is rendered, with `/Version` on the root, keeps what the
rendering relies on. -/
theorem renderInv_start (doc : Document) (opts : Options) (rs : ResetState)
    (rootProps : Props) (hu : Unchanged doc rs.heap) (he : EntriesKept doc rs.heap)
    (hroot : rs.heap[doc.root]? = some (Obj.dict rootProps)) :
    RenderInv doc rs.heap (rs.heap.set doc.root
      (Obj.dict (rootProps.set "/Version" (Val.str (47 :: opts.pdfVersion))))) := by
  refine ⟨?_, ?_, ?_, ?_⟩
  · refine unchanged_replace doc rs.heap doc.root rootProps _ hu hroot (fun _ key hkey => ?_)
    have hne : key ≠ "/Version" := by
      intro he; subst he; simp [mayWrite] at hkey
    rw [Props.lookup_set_ne _ _ _ _ hne]
  · refine entriesKept_replace doc rs.heap doc.root rootProps _ he hroot
      (fun _ key v hkey hin => ?_)
    have hne : key ≠ "/Version" := by
      intro he; subst he; simp [mayWrite] at hkey
    exact mem_nameEntries_set_ne _ _ _ _ _ hin hne
  · exact sameNums_replace rs.heap rs.heap doc.root rootProps _ (fun _ => ⟨rfl, rfl⟩) hroot
      (Props.get_set_ne _ _ _ _ (by decide)) (Props.get_set_ne _ _ _ _ (by decide))
  · exact kidsIn_replace rs.heap rs.heap doc.root rootProps _ (kidsIn_refl rs.heap) hroot
      (fun c hc => nameEntries_set_refs _ _ _ c (by simp) hc)

theorem renderedFrom_walked (doc : Document) (parent child : Nat)
    (h : Val.ref child ∈ renderedFrom doc parent) : child ∈ walkedFrom doc.heap parent := by
  unfold renderedFrom at h
  unfold walkedFrom
  cases h0 : doc.heap[parent]? with
  | none => rw [h0] at h; simp at h
  | some obj =>
    rw [h0] at h
    cases obj with
    | arr items => exact (mem_refsOf _ child).mpr h
    | dict props0 =>
      simp only [List.mem_map, List.mem_filter, nameEntries] at h
      obtain ⟨kv, ⟨⟨hin, hname⟩, _⟩, hval⟩ := h
      obtain ⟨key, v⟩ := kv
      simp only at hval
      subst hval
      have hnum : key ≠ "num" := by
        intro he; subst he; simp [jsStr] at hname
      have hgen : key ≠ "gen" := by
        intro he; subst he; simp [jsStr] at hname
      simp only []
      split
      · refine (mem_refsOf _ child).mpr (List.mem_map.mpr ⟨(key, Val.ref child), ?_, rfl⟩)
        unfold assignNumber
        exact mem_set_ne _ _ _ _ _ (mem_set_ne _ _ _ _ _ hin hnum) hgen
      · exact (mem_refsOf _ child).mpr (List.mem_map.mpr ⟨(key, Val.ref child), hin, rfl⟩)

/-- A node the rendering of the root descends into is one `resetObjectIds` visits. -/
theorem rendered_walked (doc : Document) (id : Nat) (h : Rendered doc id) : Walked doc id := by
  induction h with
  | root => exact Walked.root
  | step parent child _ hc ih =>
    exact Walked.step parent child ih (renderedFrom_walked doc parent child hc)

/-- When the rendering of the root has returned with `Closed` and without a placeholder, every
numbered node it descends into has its block stored. -/
theorem rendered_done (doc : Document) (nums : Heap) (R : Nat → Prop) (t : SlotTable)
    (hclosed : Closed doc nums R t)
    (hfront : ∀ y, Front doc nums (Val.ref doc.root) y → Held nums t y)
    (hpending : ∀ m, t.get m ≠ some Slot.pending)
    (hR : ∀ id, Rendered doc id → R id) (id : Nat) (h : Rendered doc id) :
    (∀ n, numOf nums id = some n → ∃ block, t.get n = some (Slot.done block)) ∧
    (numOf nums id = none → ∀ y, Front doc nums (Val.ref id) y → Held nums t y) := by
  have hdone : ∀ y n, Held nums t y → numOf nums y = some n →
      ∃ block, t.get n = some (Slot.done block) := by
    intro y n ⟨m, hm, hs⟩ hn
    rw [hn] at hm
    simp only [Option.some.injEq] at hm
    subst hm
    cases hg : t.get n with
    | none => rw [hg] at hs; simp at hs
    | some slot =>
      cases slot with
      | pending => exact absurd hg (hpending n)
      | done block => exact ⟨block, rfl⟩
  have hall : ∀ z, (∀ y, Front doc nums (Val.ref z) y → Held nums t y) →
      (∀ n, numOf nums z = some n → ∃ block, t.get n = some (Slot.done block)) ∧
      (numOf nums z = none → ∀ y, Front doc nums (Val.ref z) y → Held nums t y) :=
    fun z hz => ⟨fun n hn => hdone z n (hz z (Front.here z (by rw [hn]; rfl))) hn,
      fun _ => hz⟩
  induction h with
  | root => exact hall doc.root hfront
  | step parent child hp hc ih =>
    refine hall child (fun y hf => ?_)
    cases hn : numOf nums parent with
    | none => exact ih.2 hn y (Front.through parent _ y hn hc hf)
    | some n =>
      obtain ⟨block, hb⟩ := ih.1 n hn
      exact hclosed parent n block (hR parent hp) hn hb _ hc y hf

/-- The rendering of a node that carries a number and whose slot is empty stores a block in
the slot. -/
theorem renders_stores (opts : Options) (deflate : List Nat → List Nat) (id : Nat)
    (props : Props) (n : Int) (vs : List Val) (st st' : RenderState)
    (hrun : Renders opts deflate (Val.ref id :: vs) st st')
    (hobj : st.heap[id]? = some (Obj.dict props)) (hnum : props.get "num" = Val.num n)
    (hslot : st.indirectObjects.get n = none) :
    ∃ block, st'.indirectObjects.get n = some (Slot.done block) := by
  cases hrun with
  | prim _ _ _ _ hv _ => exact absurd rfl (hv id)
  | arr _ items _ _ s1 _ ho _ _ => rw [hobj] at ho; simp at ho
  | token _ p m slot _ _ _ ho hn hs _ =>
    rw [hobj] at ho
    simp only [Option.some.injEq, Obj.dict.injEq] at ho
    subst ho
    rw [hnum] at hn
    simp only [Val.num.injEq] at hn
    subst hn
    rw [hslot] at hs
    simp at hs
  | indirect _ p m stream dictItems _ _ s1 _ ho hn hs hd hk hrest =>
    rw [hobj] at ho
    simp only [Option.some.injEq, Obj.dict.injEq] at ho
    subst ho
    rw [hnum] at hn
    simp only [Val.num.injEq] at hn
    subst hn
    exact ⟨_, renders_keeps opts deflate _ _ _ hrest n _ (slotTable_get_set_self _ _ _)⟩
  | inline _ p _ _ s1 _ ho hn _ _ =>
    rw [hobj] at ho
    simp only [Option.some.injEq, Obj.dict.injEq] at ho
    subst ho
    exact absurd hnum (hn n)

/-- The rendering of the root: when every node `resetObjectIds` numbers is one the rendering
descends into, the slots from 1 to `nextNodeNum - 1` hold a block each when the rendering
returns, and no other slot holds anything. -/
theorem root_rendered (opts : Options) (deflate : List Nat → List Nat) (doc : Document)
    (rs : ResetState) (rootProps : Props) (st1 : RenderState)
    (hgood : Good doc.root doc.heap rs)
    (hstep : Step { heap := doc.heap, objCache := [], nextNodeNum := 1 } rs)
    (hrootIn : doc.root ∈ rs.objCache)
    (hu : Unchanged doc rs.heap) (he : EntriesKept doc rs.heap)
    (hshape : ResetShape doc rs.heap)
    (hroot : rs.heap[doc.root]? = some (Obj.dict rootProps))
    (hrun : Renders opts deflate [Val.ref doc.root]
      { heap := rs.heap.set doc.root
          (Obj.dict (rootProps.set "/Version" (Val.str (47 :: opts.pdfVersion)))),
        indirectObjects := [] } st1)
    (hrendered : ∀ id, Walked doc id → asksNumber doc.heap id = true → Rendered doc id) :
    RenderInv doc rs.heap st1.heap ∧ SlotsIn (rs.nextNodeNum - 1) st1.indirectObjects ∧
    SlotsOk opts st1.indirectObjects ∧
    (∀ m, st1.indirectObjects.get m ≠ some Slot.pending) ∧
    (∀ k : Nat, 1 ≤ k → k ≤ rs.nextNodeNum - 1 →
      ∃ block, st1.indirectObjects.get (k : Int) = some (Slot.done block)) := by
  have hinv0 := renderInv_start doc opts rs rootProps hu he hroot
  have hlive : ∀ c, Val.ref c ∈ [Val.ref doc.root] → c ∈ rs.objCache := by
    intro c hc
    simp only [List.mem_singleton, Val.ref.injEq] at hc
    rw [hc]; exact hrootIn
  have hempty : SlotsIn (rs.nextNodeNum - 1) ([] : SlotTable) := by
    intro n slot h; simp [SlotTable.get, List.lookup] at h
  have hslots := renders_slots opts deflate rs.heap rs.heap (fun id => id ∈ rs.objCache)
    (rs.nextNodeNum - 1) (fun id c hid hc => reset_closure doc.heap rs hstep id hid c hc)
    (fun id n hid hn => reset_range doc.root doc.heap rs hgood id n hid hn)
    _ _ st1 hrun hlive ⟨⟨hinv0.2.2.1, hinv0.2.2.2⟩, hempty, slotsOk_empty opts⟩
  have hinv1 := renders_inv opts deflate doc rs.heap _ _ st1 hrun hinv0
  have hpending : ∀ m, st1.indirectObjects.get m ≠ some Slot.pending := by
    intro m hm
    have := renders_pending opts deflate _ _ st1 hrun m hm
    simp [SlotTable.get, List.lookup] at this
  obtain ⟨hclosed, hfront⟩ := renders_closed opts deflate doc rs.heap
    (fun id => id ∈ rs.objCache)
    (fun x y n hx hy hnx hny => reset_inj doc.root doc.heap rs hgood x y n hx hy hnx hny)
    (fun id c hid hc => reset_closure doc.heap rs hstep id hid c hc)
    _ _ st1 hrun hlive hinv0
    (fun x n block _ _ hdone => by simp [SlotTable.get, List.lookup] at hdone)
  refine ⟨hinv1, hslots.2.1, hslots.2.2, hpending, fun k h1 h2 => ?_⟩
  obtain ⟨id, hid, hn⟩ := reset_onto doc.root doc.heap rs hgood k h1 h2
  have hw := (reset_walked doc rs hgood hstep hrootIn hshape id).mp hid
  have hasks : asksNumber doc.heap id = true := by
    rw [← hgood.asked id hid, hn]; rfl
  have hr := hrendered id hw hasks
  exact (rendered_done doc rs.heap (fun id => id ∈ rs.objCache) st1.indirectObjects hclosed
    (fun y hf => hfront _ (List.mem_singleton.mpr rfl) y hf) hpending
    (fun z hz => (reset_walked doc rs hgood hstep hrootIn hshape z).mpr
      (rendered_walked doc z hz)) id hr).1 _ hn

/-! ## The rendering of the info dictionary -/

/-- The rendering of the info dictionary, numbered `nextNodeNum`: when no node under it other
than nodes `resetObjectIds` has visited carries a number, it stores the block of the info
dictionary in the slot `nextNodeNum` and fills no slot beyond. -/
theorem info_rendered (opts : Options) (deflate : List Nat → List Nat) (doc : Document)
    (rs : ResetState) (infoProps : Props) (st1 st3 : RenderState)
    (hgood : Good doc.root doc.heap rs)
    (hstep : Step { heap := doc.heap, objCache := [], nextNodeNum := 1 } rs)
    (hrootIn : doc.root ∈ rs.objCache) (hshape : ResetShape doc rs.heap)
    (hsame : SameNums rs.heap st1.heap) (hkids : KidsIn rs.heap st1.heap)
    (hin : SlotsIn (rs.nextNodeNum - 1) st1.indirectObjects)
    (hok : SlotsOk opts st1.indirectObjects)
    (hobj : st1.heap[doc.info]? = some (Obj.dict infoProps))
    (hrun : Renders opts deflate [Val.ref doc.info]
      { st1 with heap := st1.heap.set doc.info (Obj.dict
        ((infoProps.set "gen" (Val.num 0)).set "num" (Val.num rs.nextNodeNum))) } st3)
    (hinfo : ∀ id, id ≠ doc.info → Reach doc.heap doc.info id →
      (numOf doc.heap id).isSome = true → Walked doc id) :
    SlotsIn rs.nextNodeNum st3.indirectObjects ∧ SlotsOk opts st3.indirectObjects ∧
    ∃ block, st3.indirectObjects.get (rs.nextNodeNum : Int) = some (Slot.done block) := by
  have hnext := hgood.next
  have hlt : doc.info < st1.heap.length := by
    by_contra hge
    rw [List.getElem?_eq_none (by omega)] at hobj
    simp at hobj
  have hobj2 : (st1.heap.set doc.info (Obj.dict
      ((infoProps.set "gen" (Val.num 0)).set "num" (Val.num rs.nextNodeNum))))[doc.info]?
      = some (Obj.dict ((infoProps.set "gen" (Val.num 0)).set "num"
          (Val.num rs.nextNodeNum))) := List.getElem?_set_self hlt
  have hnum2 : ((infoProps.set "gen" (Val.num 0)).set "num" (Val.num rs.nextNodeNum)).get "num"
      = Val.num rs.nextNodeNum := Props.get_set_self _ _ _
  have hgen2 : ((infoProps.set "gen" (Val.num 0)).set "num" (Val.num rs.nextNodeNum)).get "gen"
      = Val.num 0 := by
    rw [Props.get_set_ne _ _ _ _ (by decide), Props.get_set_self]
  have hother : ∀ j, j ≠ doc.info → (st1.heap.set doc.info (Obj.dict
      ((infoProps.set "gen" (Val.num 0)).set "num" (Val.num rs.nextNodeNum))))[j]?
      = st1.heap[j]? := fun j hj => List.getElem?_set_ne (fun he => hj he.symm)
  have hkids2 : KidsIn rs.heap (st1.heap.set doc.info (Obj.dict
      ((infoProps.set "gen" (Val.num 0)).set "num" (Val.num rs.nextNodeNum)))) :=
    kidsIn_replace rs.heap st1.heap doc.info infoProps _ hkids hobj (fun c hc => by
      rw [nameEntries_set_plain _ _ _ (by decide), nameEntries_set_plain _ _ _ (by decide)]
        at hc
      exact hc)
  have hslot : st1.indirectObjects.get (rs.nextNodeNum : Int) = none := by
    cases hg : st1.indirectObjects.get (rs.nextNodeNum : Int) with
    | none => rfl
    | some slot =>
      have := (hin _ slot hg).2
      omega
  have hslots := renders_slots opts deflate rs.heap
    (st1.heap.set doc.info (Obj.dict
      ((infoProps.set "gen" (Val.num 0)).set "num" (Val.num rs.nextNodeNum))))
    (fun id => id ∈ rs.objCache ∨ Reach doc.heap doc.info id) rs.nextNodeNum
    (fun id c hid hc => by
      rcases hid with hid | hid
      · exact Or.inl (reset_closure doc.heap rs hstep id hid c hc)
      · exact Or.inr (Reach.step id c hid (reset_children_sub doc rs.heap hshape id c hc)))
    (fun id n hid hn => by
      by_cases hi : id = doc.info
      · subst hi
        simp only [numOf, hobj2, hnum2, Option.some.injEq] at hn
        subst hn
        refine ⟨⟨by omega, Int.le_refl _⟩, ?_⟩
        simp only [genOf, hobj2, hgen2]
      · rw [numOf_congr _ _ id (hother id hi), (hsame id).1] at hn
        rw [genOf_congr _ _ id (hother id hi), (hsame id).2]
        by_cases hc : id ∈ rs.objCache
        · obtain ⟨⟨h1, h2⟩, h3⟩ := reset_range doc.root doc.heap rs hgood id n hc hn
          exact ⟨⟨h1, by omega⟩, h3⟩
        · exfalso
          rcases hid with hid | hid
          · exact hc hid
          · rw [numOf_congr _ _ id (hgood.fresh id hc)] at hn
            exact hc ((reset_walked doc rs hgood hstep hrootIn hshape id).mpr
              (hinfo id hi hid (by rw [hn]; rfl))))
    _ _ st3 hrun
    (fun c hc => by
      simp only [List.mem_singleton, Val.ref.injEq] at hc
      rw [hc]; exact Or.inr Reach.root)
    ⟨⟨fun _ => ⟨rfl, rfl⟩, hkids2⟩,
      fun n slot hn => ⟨(hin n slot hn).1, by have := (hin n slot hn).2; omega⟩, hok⟩
  exact ⟨hslots.2.1, hslots.2.2,
    renders_stores opts deflate doc.info _ _ [] _ st3 hrun hobj2 hnum2 hslot⟩

/-! ## Slots without a hole -/

theorem slotTable_get_of_mem (t : SlotTable) (k : Int) (s : Slot) (h : (k, s) ∈ t) :
    ∃ slot, t.get k = some slot := by
  unfold SlotTable.get
  induction t with
  | nil => simp at h
  | cons kv rest ih =>
    obtain ⟨k0, s0⟩ := kv
    by_cases hk : k = k0
    · subst hk
      exact ⟨s0, by simp [List.lookup]⟩
    · have hne : (k == k0) = false := by simpa using hk
      simp only [List.lookup, hne]
      rcases List.mem_cons.mp h with he | hm
      · simp only [Prod.mk.injEq] at he
        exact absurd he.1 hk
      · exact ih hm

theorem slotTable_length_le (t : SlotTable) (m : Nat)
    (h : ∀ (n : Int) (slot : Slot), t.get n = some slot → n ≤ (m : Int)) :
    t.length ≤ m + 1 := by
  have hmem : ∀ kv ∈ t, kv.1 ≤ (m : Int) := by
    intro kv hkv
    obtain ⟨slot, hs⟩ := slotTable_get_of_mem t kv.1 kv.2 hkv
    exact h kv.1 slot hs
  unfold SlotTable.length
  suffices hs : ∀ (l : SlotTable), (∀ kv ∈ l, kv.1 ≤ (m : Int)) → ∀ acc, acc ≤ m + 1 →
      l.foldl (fun m kv => if 0 ≤ kv.1 then max m (kv.1.toNat + 1) else m) acc ≤ m + 1 from
    hs t hmem 0 (by omega)
  intro l
  induction l with
  | nil => intro _ acc hacc; exact hacc
  | cons kv rest ih =>
    intro hl acc hacc
    simp only [List.foldl_cons]
    refine ih (fun x hx => hl x (List.mem_cons_of_mem _ hx)) _ ?_
    have hkv := hl kv (List.mem_cons_self _ _)
    split
    · have : kv.1.toNat ≤ m := by omega
      exact Nat.max_le.mpr ⟨hacc, by omega⟩
    · exact hacc

/-- A table whose slots from 1 to `m` hold a block each and whose other slots are empty is,
spread out, a hole followed by `m` blocks. -/
theorem slots_dense (t : SlotTable) (m : Nat) (hm : 1 ≤ m) (hin : SlotsIn m t)
    (hall : ∀ k : Nat, 1 ≤ k → k ≤ m → ∃ block, t.get (k : Int) = some (Slot.done block)) :
    ∃ blocks : List (List Nat), blocks.length = m ∧
      t.spread = none :: blocks.map (fun b => some (Slot.done b)) := by
  have hlen : t.length = m + 1 := by
    obtain ⟨block, hb⟩ := hall m hm (Nat.le_refl m)
    have h1 := slotTable_lt_length t m _ hb
    have h2 := slotTable_length_le t m (fun n slot hn => (hin n slot hn).2)
    omega
  have hzero : t.get ((0 : Nat) : Int) = none := by
    cases hg : t.get ((0 : Nat) : Int) with
    | none => rfl
    | some slot =>
      have := (hin _ slot hg).1
      simp at this
  refine ⟨(List.range m).map (fun i =>
    match t.get ((i + 1 : Nat) : Int) with
    | some (Slot.done b) => b
    | _ => []), by simp, ?_⟩
  unfold SlotTable.spread
  rw [hlen, List.range_succ_eq_map, List.map_cons, hzero, List.map_map, List.map_map]
  congr 1
  refine List.map_congr_left (fun i hi => ?_)
  obtain ⟨block, hb⟩ := hall (i + 1) (by omega) (by have := List.mem_range.mp hi; omega)
  simp only [Function.comp, hb]

/-! ## The cross-reference section of a tree whose numbered nodes are rendered -/

/-- C11 amended: take a tree whose references stay inside it, on which `assemblePdf` returns
fewer than `10 ^ 10` bytes, in which every node `resetObjectIds` visits and numbers is one the
rendering of the root descends into (through array elements and through names that
`assemblePdf` does not write), and in which every node under the info dictionary that
carries a number is one `resetObjectIds` visits. Then slot 0 of the object table is empty and
every slot from 1 to Size-1 holds a block, `/Size` is one more than the number of blocks and
equals `nextNodeNum`; the cross-reference section is `xref`, the line `0 Size`, the free entry
and one in-use entry per object number 1 .. Size-1, in order, each the 10-digit zero-padded
offset of its block; at that offset the output reads `k 0 obj`; the number after `startxref`
is the offset after the last block, and there the output reads the cross-reference section
and then the trailer. -/
theorem assemblePdf_xref (opts : Options) (deflate : List Nat → List Nat) (fuel : Nat)
    (doc : Document) (a : Assembled) (hclosed : closedHeap doc.heap = true)
    (hrun : assemblePdf opts deflate fuel doc = some a)
    (hrendered : ∀ id, Walked doc id → asksNumber doc.heap id = true → Rendered doc id)
    (hinfo : ∀ id, id ≠ doc.info → Reach doc.heap doc.info id →
      (numOf doc.heap id).isSome = true → Walked doc id)
    (hsize : a.data.length < 10 ^ 10) :
    a.indirectObjects.spread = none :: a.blocks.map (fun b => some (Slot.done b)) ∧
    a.indirectObjects.length = a.blocks.length + 1 ∧
    a.indirectObjects.length = a.doc.nextNodeNum ∧
    a.xref = jsStr "xref\n" ++ (jsStr "0 " ++ decimal (a.blocks.length + 1) ++ [10]) ++
      jsStr "0000000000 65535 f \n" ++
      (List.range a.blocks.length).flatMap (fun k =>
        zeroPad10 (blockOffset (pdfHeader opts) a.blocks k) ++ jsStr " 00000 n \n") ∧
    (∀ k, k < a.blocks.length → ∃ rest,
      a.data.drop (blockOffset (pdfHeader opts) a.blocks k)
        = stringToBytes (decimal (k + 1) ++ jsStr " 0 obj") ++ rest) ∧
    (∃ front, a.trailer = front ++ jsStr "startxref\n" ++
      decimal (blockOffset (pdfHeader opts) a.blocks a.blocks.length) ++ jsStr "\n%%EOF\n") ∧
    a.data.drop (blockOffset (pdfHeader opts) a.blocks a.blocks.length)
      = stringToBytes a.xref ++ stringToBytes a.trailer := by
  have hdense : ∃ blocks : List (List Nat), blocks.length + 1 = a.doc.nextNodeNum ∧
      SlotsOk opts a.indirectObjects ∧
      a.indirectObjects.spread = none :: blocks.map (fun b => some (Slot.done b)) := by
    have h := hrun
    unfold assemblePdf at h
    split at h
    · simp at h
    · rename_i rs hreset
      obtain ⟨hu, he, hshape, hlen⟩ := reset_kept doc fuel rs hreset
      split at h
      · rename_i rootProps hroot
        dsimp only at h
        have hrootLt : doc.root < doc.heap.length := by
          by_contra hge
          rw [List.getElem?_eq_none (by omega)] at hroot
          simp at hroot
        obtain ⟨hgood, hstep, hrootIn⟩ := reset_good doc fuel rs hclosed hrootLt hreset
        split at h
        · simp at h
        · rename_i rootRef st1 hrootRun
          obtain ⟨hinv1, hin1, hok1, -, hall1⟩ := root_rendered opts deflate doc rs rootProps
            st1 hgood hstep hrootIn hu he hshape hroot
            (newPdfObject_renders opts deflate fuel _ _ _ _ rootRef st1 hrootRun) hrendered
          split at h
          · rename_i infoProps hinfoObj
            rw [if_pos (by simpa using Props.set_ne_nil _ _ _)] at h
            split at h
            · simp at h
            · rename_i infoRef st3 hinfoRun
              simp only [Option.some.injEq] at h
              subst h
              simp only []
              cases hr : newPdfObject opts deflate fuel (Val.ref doc.info) 0 NextIndent.no
                  { st1 with heap := st1.heap.set doc.info (Obj.dict
                    ((infoProps.set "gen" (Val.num 0)).set "num"
                      (Val.num rs.nextNodeNum))) } with
              | none => rw [hr] at hinfoRun; simp at hinfoRun
              | some r =>
                rw [hr] at hinfoRun
                simp only [Option.map_some', Option.some.injEq, Prod.mk.injEq] at hinfoRun
                rw [← hinfoRun.2]
                have hrenders := newPdfObject_renders opts deflate fuel _ _ _ _ r.1 r.2 hr
                obtain ⟨hin3, hok3, hlast⟩ := info_rendered opts deflate doc rs infoProps st1
                  r.2 hgood hstep hrootIn hshape hinv1.2.2.1 hinv1.2.2.2 hin1 hok1 hinfoObj
                  hrenders hinfo
                have hnext := hgood.next
                obtain ⟨blocks, hbl, hspread⟩ := slots_dense r.2.indirectObjects
                  rs.nextNodeNum hnext hin3 (fun k h1 h2 => by
                    by_cases hk : k = rs.nextNodeNum
                    · rw [hk]; exact hlast
                    · obtain ⟨block, hb⟩ := hall1 k h1 (by omega)
                      exact ⟨block, renders_keeps opts deflate _ _ _ hrenders _ _ hb⟩)
                exact ⟨blocks, by rw [hbl], hok3, hspread⟩
          · simp at h
      · simp at h
  obtain ⟨blocks, hnext, hslots, hshape⟩ := hdense
  obtain ⟨hfilled, hlen, hx, hat, ht, hd⟩ :=
    xref_of_slots opts deflate fuel doc a blocks hrun hslots hshape hsize
  have hb : a.blocks = blocks := hfilled
  rw [hb]
  exact ⟨hshape, hlen, by rw [hlen, hnext], hx, hat, ht, hd⟩

/-! ## The cross-reference section of a normalised document -/

theorem pagesDocument_walked (id : Nat) (h : Walked pagesDocument id) : id < 5 := by
  induction h with
  | root => decide
  | step parent child _ hc ih =>
    have hcases : ∀ p < 5, ∀ c ∈ walkedFrom pagesDocument.heap p, c < 5 := by decide
    exact hcases parent ih child hc

theorem pagesDocument_rendered (id : Nat) (hw : Walked pagesDocument id)
    (_ : asksNumber pagesDocument.heap id = true) : Rendered pagesDocument id := by
  have h0 : Rendered pagesDocument 0 := Rendered.root
  have h1 : Rendered pagesDocument 1 := Rendered.step 0 1 h0 (by decide)
  have h2 : Rendered pagesDocument 2 := Rendered.step 1 2 h1 (by decide)
  have h3 : Rendered pagesDocument 3 := Rendered.step 2 3 h2 (by decide)
  have h4 : Rendered pagesDocument 4 := Rendered.step 3 4 h3 (by decide)
  have hlt := pagesDocument_walked id hw
  match id, hlt with
  | 0, _ => exact h0
  | 1, _ => exact h1
  | 2, _ => exact h2
  | 3, _ => exact h3
  | 4, _ => exact h4

theorem pagesDocument_info (id : Nat) (hne : id ≠ pagesDocument.info)
    (h : Reach pagesDocument.heap pagesDocument.info id)
    (_ : (numOf pagesDocument.heap id).isSome = true) : Walked pagesDocument id := by
  have hall : ∀ x, Reach pagesDocument.heap pagesDocument.info x → x = 5 := by
    intro x hx
    induction hx with
    | root => rfl
    | step parent child _ hc ih =>
      subst ih
      have : children pagesDocument.heap 5 = [] := by decide
      rw [this] at hc
      simp at hc
  exact absurd (hall id h) hne

set_option maxRecDepth 100000 in
/-- C11 amended, on `pagesDocument` with the default options: the nodes `resetObjectIds`
numbers are the catalog, the page-tree root, the page and the stream, all rendered from the
root; the info dictionary holds no node; five blocks are written, `/Size` is 6, and the
entries and `startxref` are as stated. -/
theorem assemblePdf_xref_witness :
    ∃ a, assemblePdf defaultOptions (fun bytes => bytes) 8 pagesDocument = some a ∧
      a.blocks.length = 5 ∧
      a.indirectObjects.spread = none :: a.blocks.map (fun b => some (Slot.done b)) ∧
      a.indirectObjects.length = a.blocks.length + 1 ∧
      a.indirectObjects.length = a.doc.nextNodeNum ∧
      a.xref = jsStr "xref\n" ++ (jsStr "0 " ++ decimal (a.blocks.length + 1) ++ [10]) ++
        jsStr "0000000000 65535 f \n" ++
        (List.range a.blocks.length).flatMap (fun k =>
          zeroPad10 (blockOffset (pdfHeader defaultOptions) a.blocks k) ++
            jsStr " 00000 n \n") ∧
      (∀ k, k < a.blocks.length → ∃ rest,
        a.data.drop (blockOffset (pdfHeader defaultOptions) a.blocks k)
          = stringToBytes (decimal (k + 1) ++ jsStr " 0 obj") ++ rest) ∧
      (∃ front, a.trailer = front ++ jsStr "startxref\n" ++
        decimal (blockOffset (pdfHeader defaultOptions) a.blocks a.blocks.length) ++
        jsStr "\n%%EOF\n") ∧
      a.data.drop (blockOffset (pdfHeader defaultOptions) a.blocks a.blocks.length)
        = stringToBytes a.xref ++ stringToBytes a.trailer :=
  ⟨(assemblePdf defaultOptions (fun bytes => bytes) 8 pagesDocument).get (by decide),
    (Option.some_get _).symm, by decide,
    assemblePdf_xref defaultOptions (fun bytes => bytes) 8 pagesDocument _ (by decide)
      (Option.some_get _).symm pagesDocument_rendered pagesDocument_info (by decide)⟩

/-! ## Why the amended claim needs its conditions -/

set_option maxRecDepth 100000 in
/-- On `plainKeyDocument` the object under `extra` receives the number 2 and is never
rendered: the blocks written are those of the objects 1, 3 and 4, `/Size` is 5, and the
cross-reference section has three in-use entries, the second, which a reader takes for
object 2, holding the offset of `3 0 obj`. -/
theorem assemblePdf_xref_plain_key_hole :
    (assemblePdf defaultOptions (fun bytes => bytes) 5 plainKeyDocument).map
        (fun a => (a.indirectObjects.length, a.xref, a.data.drop 69))
      = some (5,
          jsStr ("xref\n0 5\n0000000000 65535 f \n0000000015 00000 n \n" ++
            "0000000069 00000 n \n0000000118 00000 n \n"),
          jsStr ("3 0 obj<</Length 5>>stream\nHelloendstream\nendobj\n4 0 obj<<>>endobj\n" ++
            "xref\n0 5\n0000000000 65535 f \n0000000015 00000 n \n" ++
            "0000000069 00000 n \n0000000118 00000 n \ntrailer\n" ++
            "<</Root 1 0 R/Info 4 0 R/Size 5>>\nstartxref\n136\n%%EOF\n")) := by
  decide

/-- The object numbered through `extra` is one `resetObjectIds` visits and numbers, and not
one the rendering of the root descends into. -/
theorem plainKeyDocument_not_rendered :
    Walked plainKeyDocument 1 ∧ asksNumber plainKeyDocument.heap 1 = true ∧
      ¬ Rendered plainKeyDocument 1 := by
  refine ⟨Walked.step 0 1 Walked.root (by decide), by decide, ?_⟩
  have hall : ∀ id, Rendered plainKeyDocument id → id = 0 ∨ id = 2 := by
    intro id h
    induction h with
    | root => exact Or.inl rfl
    | step parent child _ hc ih =>
      have hcases : ∀ p, (p = 0 ∨ p = 2) → ∀ c, Val.ref c ∈ renderedFrom plainKeyDocument p →
          c = 0 ∨ c = 2 := by
        intro p hp c hcp
        rcases hp with rfl | rfl
        · have hm : renderedFrom plainKeyDocument 0
              = [Val.str (jsStr "/Catalog"), Val.ref 2] := by decide
          rw [hm] at hcp
          simp at hcp
          exact Or.inr hcp
        · have hm : renderedFrom plainKeyDocument 2 = [] := by decide
          rw [hm] at hcp
          simp at hcp
      exact hcases parent ih child hc
  intro h
  rcases hall 1 h with h | h <;> simp at h

/-- An offset of eleven digits loses its first digit in the entry of line 560, which keeps
the last twenty characters. -/
theorem xrefEntry_eleven_digits : xrefEntry (10 ^ 10) = jsStr "0000000000 00000 n \n" := by
  decide

/-- The node of `staleNumberDocument` that carries the number 7 is below the info dictionary
and is not one `resetObjectIds` visits. -/
theorem staleNumberDocument_not_walked :
    Reach staleNumberDocument.heap staleNumberDocument.info 2 ∧
      (numOf staleNumberDocument.heap 2).isSome = true ∧ ¬ Walked staleNumberDocument 2 := by
  refine ⟨Reach.step 1 2 Reach.root (by decide), by decide, ?_⟩
  have hall : ∀ id, Walked staleNumberDocument id → id = 0 := by
    intro id h
    induction h with
    | root => rfl
    | step parent child _ hc ih =>
      subst ih
      have hm : walkedFrom staleNumberDocument.heap 0 = [] := by decide
      rw [hm] at hc
      simp at hc
  intro h
  have := hall 2 h
  simp at this

end PdfAssembler
